import Mathlib

/-!
# Physics3D: bounds tree and world serialization

A shallow embedding of `physics/datastructures/boundsTreeOld.cpp` (the bounding-volume
tree: insertion, removal and search through a cursor, structural optimisation), of the world
encoder and decoder of `physics/misc/serialization.cpp`, of the world operations of
`physics/world.cpp`, of the inertia transformations of `physics/inertia.cpp`, of the
attachment frames of `physics/softlinks/softLink.cpp` and of the frustum tests of
`physics/misc/filters/visibilityFilter.cpp`, followed by the properties proved about them.

Conventions of the embedding

* Coordinates are the raw values of the fixed-point type `Fix<32>`, integers. The sums and
  differences the cost functions compute on them are `long long`: their results are reduced
  modulo `2^64` into the 64-bit range (`wrapInt64`).
* An object handle (`void* object`) is a natural number.
* The child array `subTrees` with its `nodeCount` is a list; `nodeCount` is its length.
* A C++ function that mutates `*this` (and possibly a second node) returns the new value(s).
* A node that has been moved from (`std::move`) still shows its bounds, as `addOutside` and
  `addInside` rely on when they read `newNode.bounds` after handing `newNode` over.
* Code of the repository that is absent from the sources at hand (`boundsTree.h`,
  `math/bounds.h`, the stream primitives and registries of the serializer, `world.h`) is
  modelled from the specification where a definition says so.
-/

namespace P3D

/-! ## Bounds -/

/-- A position: three raw fixed-point coordinates. -/
structure Position where
  x : Int
  y : Int
  z : Int
  deriving DecidableEq, Repr

/-- An axis-aligned box `{min, max}`. -/
structure Bounds where
  min : Position
  max : Position
  deriving DecidableEq, Repr

/-- The value a 64-bit two's-complement integer (`long long`, the `value` of a `Fix<32>`)
holds when the exact result of a sum or difference is `n`: `n` reduced modulo `2^64` into the
range from `-2^63` to `2^63 - 1`. -/
def wrapInt64 (n : Int) : Int :=
  (n + 9223372036854775808) % 18446744073709551616 - 9223372036854775808

/-- The sum of two 64-bit integers. -/
def addInt64 (a b : Int) : Int :=
  wrapInt64 (a + b)

/-- The difference of two 64-bit integers. -/
def subInt64 (a b : Int) : Int :=
  wrapInt64 (a - b)

/-- The diagonal `max - min` of a box (`Bounds::getDiagonal`), each difference taken in 64
bits. -/
def Bounds.getDiagonal (b : Bounds) : Position :=
  ⟨subInt64 b.max.x b.min.x, subInt64 b.max.y b.min.y, subInt64 b.max.z b.min.z⟩

/-- Modelled from the spec: `unionOfBounds` (declared in the absent `math/bounds.h`) is
"the tightest box containing both": the componentwise minimum of the two `min` corners and
the componentwise maximum of the two `max` corners. -/
def unionOfBounds (a b : Bounds) : Bounds :=
  ⟨⟨Min.min a.min.x b.min.x, Min.min a.min.y b.min.y, Min.min a.min.z b.min.z⟩,
   ⟨Max.max a.max.x b.max.x, Max.max a.max.y b.max.y, Max.max a.max.z b.max.z⟩⟩

/-- Modelled from the spec: `intersects` (declared in the absent `math/bounds.h`) is the
intersection test of two boxes: they overlap on each of the three axes. -/
def intersects (a b : Bounds) : Bool :=
  decide (a.min.x ≤ b.max.x ∧ b.min.x ≤ a.max.x ∧
          a.min.y ≤ b.max.y ∧ b.min.y ≤ a.max.y ∧
          a.min.z ≤ b.max.z ∧ b.min.z ≤ a.max.z)

/-- Containment order on boxes: `Bounds.le a b` says that `b` contains `a`. -/
def Bounds.le (a b : Bounds) : Prop :=
  b.min.x ≤ a.min.x ∧ b.min.y ≤ a.min.y ∧ b.min.z ≤ a.min.z ∧
  a.max.x ≤ b.max.x ∧ a.max.y ≤ b.max.y ∧ a.max.z ≤ b.max.z

/-- The cost metric `computeCost(const Bounds&)`: the sum of the three extents, a
`long long`; the two additions are taken in 64 bits. -/
def computeCost (bounds : Bounds) : Int :=
  let d := bounds.getDiagonal
  addInt64 (addInt64 d.x d.y) d.z

/-- The sum of the three extents `max - min` of a box, in exact arithmetic. -/
def Bounds.extentSum (b : Bounds) : Int :=
  (b.max.x - b.min.x) + (b.max.y - b.min.y) + (b.max.z - b.min.z)

/-- The cost `computeCombinationCost` of the union of two boxes. -/
def computeCombinationCost (newBox expandingBox : Bounds) : Int :=
  computeCost (unionOfBounds newBox expandingBox)

/-- The cube `[lo, hi]³` given in world units; one unit is `2^32` raw steps of `Fix<32>`. -/
def cube (lo hi : Int) : Bounds :=
  ⟨⟨lo * 4294967296, lo * 4294967296, lo * 4294967296⟩,
   ⟨hi * 4294967296, hi * 4294967296, hi * 4294967296⟩⟩

/-! ## Tree nodes -/

/-- Modelled from the spec: the branching factor `MAX_BRANCHES` (a constant of the absent
`boundsTree.h`) is 4, "an empty tree with branching factor 4". -/
def MAX_BRANCHES : Nat := 4

/-- A `TreeNode`: a leaf wrapping one object handle, or an internal node owning its
children. Both carry the cached `bounds` and the `isGroupHead` flag. -/
inductive TreeNode where
  | leaf (object : Nat) (bounds : Bounds) (isGroupHead : Bool) : TreeNode
  | node (subTrees : List TreeNode) (bounds : Bounds) (isGroupHead : Bool) : TreeNode
  deriving Repr

namespace TreeNode

/-- The cached bounds of a node. -/
def bounds : TreeNode → Bounds
  | leaf _ b _ => b
  | node _ b _ => b

/-- The group-head flag of a node. -/
def isGroupHead : TreeNode → Bool
  | leaf _ _ g => g
  | node _ _ g => g

/-- Whether the node is a leaf (`nodeCount == LEAF_NODE_SIGNIFIER`). -/
def isLeafNode : TreeNode → Bool
  | leaf _ _ _ => true
  | node _ _ _ => false

/-- The children of a node; a leaf has none. -/
def children : TreeNode → List TreeNode
  | leaf _ _ _ => []
  | node cs _ _ => cs

/-- Overwrite the cached bounds (`this->bounds = b`). -/
def setBounds : TreeNode → Bounds → TreeNode
  | leaf o _ g, b => leaf o b g
  | node cs _ g, b => node cs b g

/-- Overwrite the group-head flag (`this->isGroupHead = g`). -/
def setGroupHead : TreeNode → Bool → TreeNode
  | leaf o b _, g => leaf o b g
  | node cs b _, g => node cs b g

end TreeNode

/-- The loop of `computeBoundsOfList(list, count)` for `count ≥ 1`: start from
`list[0].bounds` and union in `list[1..count)`. The C++ reads `list[0]` unconditionally, so
the first element is an argument of its own. -/
def computeBoundsOfList (first : TreeNode) (rest : List TreeNode) : Bounds :=
  rest.foldl (fun bounds t => unionOfBounds bounds t.bounds) first.bounds

namespace TreeNode

/-- The constructor `TreeNode(TreeNode* subTrees, int nodeCount)` for `nodeCount ≥ 1`: not a
group head, bounds computed from the children. -/
def ofSubTrees (first : TreeNode) (rest : List TreeNode) : TreeNode :=
  node (first :: rest) (computeBoundsOfList first rest) false

/-- The empty root `TreeNode::withEmptySubNodes()`, that is `TreeNode(subNodes, 0)`. With a
count of 0 `computeBoundsOfList` returns `subNodes[0].bounds`, the bounds of a
default-constructed node of the fresh array; that value is fixed by the absent header and
is the parameter `slot0`. -/
def withEmptySubNodes (slot0 : Bounds) : TreeNode :=
  node [] slot0 false

/-- The method `recalculateBoundsFromSubBounds`. It reads `subTrees[0]` unconditionally; on a
node without children that slot holds no live node and the result is `none`. On a leaf there
is no child array at all (`none`). -/
def recalculateBoundsFromSubBounds : TreeNode → Option TreeNode
  | node (c :: cs) _ g => some (node (c :: cs) (computeBoundsOfList c cs) g)
  | _ => none

/-- The index chosen by the `else` branch of `addToSubTrees`: scanning the children from
index 1, keep the first index whose combination cost is strictly below the best so far. The
arguments are the best cost and index so far and the index of the head of the list. -/
def bestIndexFrom (newBounds : Bounds) (bestCost : Int) (bestIndex : Nat) (i : Nat) :
    List TreeNode → Nat
  | [] => bestIndex
  | c :: cs =>
    let newCost := computeCombinationCost newBounds c.bounds
    if newCost < bestCost then bestIndexFrom newBounds newCost i (i + 1) cs
    else bestIndexFrom newBounds bestCost bestIndex (i + 1) cs

/-- The child index into which `addToSubTrees` descends when the node is full. -/
def bestIndex (newBounds : Bounds) : List TreeNode → Nat
  | [] => 0
  | c :: cs => bestIndexFrom newBounds (computeCombinationCost newBounds c.bounds) 0 1 cs

/-- The group-head branch of `addOutside`: the whole node is pushed down, the new parent
holds it and the new node, and the new node's bounds are united in once more. -/
def pushDown (t newNode : TreeNode) : TreeNode :=
  (ofSubTrees t [newNode]).setBounds
    (unionOfBounds (computeBoundsOfList t [newNode]) newNode.bounds)

mutual
/-- The method `TreeNode::addInside(TreeNode&& newNode)`. A leaf is split into a two-child
node that inherits the leaf's group-head flag while both children lose theirs; an internal
node hands the new node to `addToSubTrees`, which appends it when there is room and otherwise
applies `addOutside` to the child at `bestIndex`. In both cases the new node's bounds are then
united into the cached bounds. -/
def addInside : TreeNode → TreeNode → TreeNode
  | leaf o b g, newNode =>
    node [leaf o b false, newNode.setGroupHead false]
      (unionOfBounds (computeBoundsOfList (leaf o b g) [newNode]) newNode.bounds) g
  | node cs b g, newNode =>
    node (if cs.length ≠ MAX_BRANCHES then cs ++ [newNode]
          else addOutsideAt cs (bestIndex newNode.bounds cs) newNode)
      (unionOfBounds b newNode.bounds) g
/-- The call `node.subTrees[index].addOutside(newNode)` of `addToSubTrees`: the list of
children with `addOutside` applied to the one at `index`. -/
def addOutsideAt : List TreeNode → Nat → TreeNode → List TreeNode
  | [], _, _ => []
  | c :: cs, 0, newNode =>
    (if c.isGroupHead then pushDown c newNode
     else (addInside c newNode).setBounds
       (unionOfBounds (addInside c newNode).bounds newNode.bounds)) :: cs
  | c :: cs, i + 1, newNode => c :: addOutsideAt cs i newNode
end

/-- The method `TreeNode::addOutside(TreeNode&& newNode)`: a node that is not a group head
delegates to `addInside`; a group head is pushed down next to the new node. Afterwards the
new node's bounds are united into the cached bounds. -/
def addOutside (t newNode : TreeNode) : TreeNode :=
  if t.isGroupHead then pushDown t newNode
  else (addInside t newNode).setBounds
    (unionOfBounds (addInside t newNode).bounds newNode.bounds)

/-- The function `addToSubTrees(node, newNode)` on the children of `node`. -/
def addToSubTrees (cs : List TreeNode) (newNode : TreeNode) : List TreeNode :=
  if cs.length ≠ MAX_BRANCHES then cs ++ [newNode]
  else addOutsideAt cs (bestIndex newNode.bounds cs) newNode

mutual
/-- The handles of the leaves below a node, left to right. -/
def leafObjects : TreeNode → List Nat
  | leaf o _ _ => [o]
  | node cs _ _ => leafObjectsList cs
/-- The handles of the leaves below a list of nodes. -/
def leafObjectsList : List TreeNode → List Nat
  | [] => []
  | c :: cs => leafObjects c ++ leafObjectsList cs
end

mutual
/-- The leaves below a node as (handle, bounds) pairs, left to right. -/
def leafBounds : TreeNode → List (Nat × Bounds)
  | leaf o b _ => [(o, b)]
  | node cs _ _ => leafBoundsList cs
/-- The leaves below a list of nodes. -/
def leafBoundsList : List TreeNode → List (Nat × Bounds)
  | [] => []
  | c :: cs => leafBounds c ++ leafBoundsList cs
end

mutual
/-- The bounds-cache invariant: every internal node has at least one child and its cached
bounds equal the union of its children's cached bounds, recursively down to the leaves. -/
def boundsValid : TreeNode → Bool
  | leaf _ _ _ => true
  | node [] _ _ => false
  | node (c :: cs) b _ => decide (b = computeBoundsOfList c cs) && boundsValidList (c :: cs)
/-- The bounds-cache invariant for every node of a list. -/
def boundsValidList : List TreeNode → Bool
  | [] => true
  | c :: cs => boundsValid c && boundsValidList cs
end

mutual
/-- All nodes of a tree (the node itself and all its descendants), in pre-order. -/
def subNodes : TreeNode → List TreeNode
  | leaf o b g => [leaf o b g]
  | node cs b g => node cs b g :: subNodesList cs
/-- All nodes of the trees of a list. -/
def subNodesList : List TreeNode → List TreeNode
  | [] => []
  | c :: cs => subNodes c ++ subNodesList cs
end

end TreeNode

/-- The running union of `computeBoundsOfList`, started from an arbitrary box. -/
def foldBounds (b0 : Bounds) (l : List TreeNode) : Bounds :=
  l.foldl (fun bounds t => unionOfBounds bounds t.bounds) b0

namespace TreeNode

/-! ## Removal through a cursor -/

/-- The first steps of `TreeNode::remove(index)` on the child array: `--nodeCount`, and if
`index != nodeCount` the last child is moved into position `index`. -/
def swapOut (cs : List TreeNode) (index : Nat) (last : TreeNode) : List TreeNode :=
  if index ≠ cs.length - 1 then (cs.set index last).dropLast else cs.dropLast

/-- The method `TreeNode::remove(int index)`: the child at `index` is taken out, the last
child is moved into its place, and a node left with exactly one child is replaced by that
child (a group head if either of the two was one); otherwise the bounds are recomputed from
the children. The result is the pair (removed child, new value of `*this`). The two
assertions (`!isLeafNode()`, `index < nodeCount`) and the read of `subTrees[0]` by
`recalculateBoundsFromSubBounds` on a node left without children give `none`. -/
def remove : TreeNode → Nat → Option (TreeNode × TreeNode)
  | leaf _ _ _, _ => none
  | node cs b g, index =>
    match cs[index]?, cs.getLast? with
    | some result, some last =>
      match swapOut cs index last with
      | [only] => some (result, only.setGroupHead (g || only.isGroupHead))
      | cs' => (recalculateBoundsFromSubBounds (node cs' b g)).map (fun t => (result, t))
    | _, _ => none

/-- The node reached from `t` by following a list of child indices. -/
def nodeAt : TreeNode → List Nat → Option TreeNode
  | t, [] => some t
  | leaf _ _ _, _ :: _ => none
  | node cs _ _, i :: is =>
    match cs[i]? with
    | some c => nodeAt c is
    | none => none

/-- Replace the node reached by a list of child indices by its image under `f`. -/
def modifyAt (f : TreeNode → Option TreeNode) : TreeNode → List Nat → Option TreeNode
  | t, [] => f t
  | leaf _ _ _, _ :: _ => none
  | node cs b g, i :: is =>
    match cs[i]? with
    | some c => (modifyAt f c is).map (fun c' => node (cs.set i c') b g)
    | none => none

/-- The loop of `NodeStack::updateBoundsAllTheWayToTop` over the stack elements
`stack[0..newTop]`, given as the child indices leading from the root to `newTop->node`:
`recalculateBoundsFromSubBounds` runs on the deepest node first and then on each ancestor up
to the root. -/
def recalculateAlong : TreeNode → List Nat → Option TreeNode
  | t, [] => t.recalculateBoundsFromSubBounds
  | leaf _ _ _, _ :: _ => none
  | node cs b g, i :: is =>
    match cs[i]? with
    | some c =>
      (recalculateAlong c is).bind
        (fun c' => (node (cs.set i c') b g).recalculateBoundsFromSubBounds)
    | none => none

end TreeNode

/-- A cursor `NodeStack`: the root of the tree and, for every stack element below `top`, its
`index` (the child taken at that level). The node of the top element is the node reached by
following `indices` from the root. -/
structure NodeStack where
  root : TreeNode
  indices : List Nat
  deriving Repr

namespace NodeStack

/-- The node `top->node` the cursor points to. -/
def topNode (s : NodeStack) : Option TreeNode :=
  s.root.nodeAt s.indices

/-- A cursor is a valid root-to-leaf path when following its indices ends at a leaf. -/
def pointsToLeaf (s : NodeStack) : Bool :=
  match s.topNode with
  | some t => t.isLeafNode
  | none => false

/-- The method `NodeStack::updateBoundsAllTheWayToTop` for a cursor whose `top` is at the
given indices: it starts one level higher when `top->node` is a leaf. When `top` is the
root and a leaf, no node is recalculated. -/
def updateBoundsAllTheWayToTop (root : TreeNode) (indices : List Nat) : Option TreeNode :=
  match root.nodeAt indices with
  | none => none
  | some t =>
    if t.isLeafNode then
      (if indices = [] then some root else root.recalculateAlong indices.dropLast)
    else root.recalculateAlong indices

/-- The method `NodeStack::remove()`, as the tree it leaves behind: `top` steps back to the
parent, the parent's `remove(top->index)` runs, and `updateBoundsAllTheWayToTop` follows.
(The final `riseUntilAvailableWhile` only moves the cursor.) The assertion `top != stack`
fails on a cursor without indices (`none`). -/
def remove (s : NodeStack) : Option TreeNode :=
  match s.indices.getLast? with
  | none => none
  | some index =>
    (s.root.modifyAt (fun parent => (parent.remove index).map Prod.snd)
        s.indices.dropLast).bind
      (fun root' => updateBoundsAllTheWayToTop root' s.indices.dropLast)

end NodeStack

/-! ## Structural optimisation -/

/-- The candidate arrangement `NodePermutation`: the nodes assigned to each of the two
groups; `countA` and `countB` are the lengths. -/
structure NodePermutation where
  permutationA : List TreeNode
  permutationB : List TreeNode
  deriving Repr

namespace NodePermutation

/-- The number of nodes in group A. -/
def countA (p : NodePermutation) : Nat := p.permutationA.length

/-- The number of nodes in group B. -/
def countB (p : NodePermutation) : Nat := p.permutationB.length

/-- The method `NodePermutation::swap`. -/
def swap (p : NodePermutation) : NodePermutation := ⟨p.permutationB, p.permutationA⟩

/-- The cost `computeCost(const NodePermutation&)`:
`computeCost(getBoundsA()) + computeCost(getBoundsB())`, a sum of two `long long` values.
Both `getBounds` calls read element 0 of their group, so the cost exists only when both
groups are non-empty. -/
def cost : NodePermutation → Option Int
  | ⟨a :: as, b :: bs⟩ =>
    some (addInt64 (computeCost (computeBoundsOfList a as))
      (computeCost (computeBoundsOfList b bs)))
  | _ => none

end NodePermutation

/-- The pair (`bestCost`, `bestPermutation`) threaded by reference through the search. -/
structure BestSoFar where
  bestCost : Int
  bestPermutation : NodePermutation
  deriving Repr

/-- The function `nodesToList(first, second)`: a leaf contributes itself, an internal node
its children. -/
def nodesToList (first second : TreeNode) : List TreeNode :=
  (if first.isLeafNode then [first] else first.children) ++
  (if second.isLeafNode then [second] else second.children)

/-- The function `updateBestPermutationIfNeeded`: the current arrangement replaces the best
one when its cost is strictly lower. -/
def updateBestPermutationIfNeeded (best : BestSoFar) (current : NodePermutation) : BestSoFar :=
  match current.cost with
  | some cost => if cost < best.bestCost then ⟨cost, current⟩ else best
  | none => best

/-- The function `recursiveFindBestCombination`: every remaining candidate is tried in group A
and then in group B; a group that reaches `MAX_BRANCHES` forces all remaining candidates into
the other group. The C++ restores `currentPermutation` after each trial, so it is passed by
value here. -/
def recursiveFindBestCombination (best : BestSoFar) (current : NodePermutation) :
    List TreeNode → BestSoFar
  | [] => updateBestPermutationIfNeeded best current
  | c :: candidates =>
    let inA : NodePermutation := ⟨current.permutationA ++ [c], current.permutationB⟩
    let best1 :=
      if inA.countA = MAX_BRANCHES then
        updateBestPermutationIfNeeded best ⟨inA.permutationA, inA.permutationB ++ candidates⟩
      else recursiveFindBestCombination best inA candidates
    let inB : NodePermutation := ⟨current.permutationA, current.permutationB ++ [c]⟩
    if inB.countB = MAX_BRANCHES then
      updateBestPermutationIfNeeded best1 ⟨inB.permutationA ++ candidates, inB.permutationB⟩
    else recursiveFindBestCombination best1 inB candidates

/-- The `for` loop of `findBestPermutation` from index `i` on, with `fuel` iterations left:
at index `i` group A is `allNodes[0..i]` and group B is `[allNodes[i+1]]`. -/
def findBestLoop (allNodes : List TreeNode) : Nat → Nat → BestSoFar → BestSoFar
  | 0, _, best => best
  | fuel + 1, i, best =>
    match allNodes.drop (i + 1) with
    | [] => best
    | b :: candidates =>
      let current : NodePermutation := ⟨allNodes.take (i + 1), [b]⟩
      if current.countA = MAX_BRANCHES then
        updateBestPermutationIfNeeded best
          ⟨current.permutationA, current.permutationB ++ allNodes.drop (MAX_BRANCHES + 1)⟩
      else
        findBestLoop allNodes fuel (i + 1)
          (recursiveFindBestCombination best current candidates)

/-- The function `findBestPermutation(allNodes, initialBestCost)`. The loop runs for
`i < allNodes.size - 1`; a `bestPermutation` with `countA = 0` means that no arrangement
beat the initial cost. -/
def findBestPermutation (allNodes : List TreeNode) (initialBestCost : Int) : NodePermutation :=
  (findBestLoop allNodes (allNodes.length - 1) 0 ⟨initialBestCost, ⟨[], []⟩⟩).bestPermutation

/-- The statement `if (!second.isLeafNode()) second.recalculateBoundsFromSubBounds();` that
ends `fillNodePairWithPermutation`: the cached bounds of an internal node are recomputed from
its children, a leaf is left as it is. On an internal node without children the C++ reads
child slot 0, which holds no node; no operation builds such a node below the root, and it is
left as it is here. -/
def TreeNode.recalculateUnlessLeaf : TreeNode → TreeNode
  | TreeNode.node (c :: cs) _ g => TreeNode.node (c :: cs) (computeBoundsOfList c cs) g
  | t => t

/-- The body of `fillNodePairWithPermutation` after its initial swap, for the groups
`permutationA` and `permutationB`: `first` is rebuilt over group A; `second` is rebuilt over
group B when `countB != 1` and otherwise becomes the single node of B. The bounds of the
rebuilt nodes are recomputed from their children, and so are the bounds of the single node of
B when it is an internal node. -/
def fillGroups (first second : TreeNode) : List TreeNode → List TreeNode → TreeNode × TreeNode
  | a :: as, [b] =>
    (TreeNode.node (a :: as) (computeBoundsOfList a as) first.isGroupHead,
     b.recalculateUnlessLeaf)
  | a :: as, b :: bs =>
    (TreeNode.node (a :: as) (computeBoundsOfList a as) first.isGroupHead,
     TreeNode.node (b :: bs) (computeBoundsOfList b bs) second.isGroupHead)
  | _, _ => (first, second)

/-- The function `fillNodePairWithPermutation`: after the swap that keeps a one-element group
in B, `first` becomes an internal node over group A and `second` an internal node over group
B, or the single node of B itself; the bounds of `first`, and of `second` unless it is a
leaf, are recomputed from their children. `first` keeps its own group-head flag, and so does
`second` when it stays a node over a group. -/
def fillNodePairWithPermutation (first second : TreeNode) (bestPermutation : NodePermutation) :
    TreeNode × TreeNode :=
  let perm := if bestPermutation.countA = 1 then bestPermutation.swap else bestPermutation
  fillGroups first second perm.permutationA perm.permutationB

/-- The function `optimizeNodePairHorizontal(first, second)`. -/
def optimizeNodePairHorizontal (first second : TreeNode) : TreeNode × TreeNode :=
  if first.isLeafNode && second.isLeafNode then (first, second)
  else
    let bestCost := addInt64 (computeCost first.bounds) (computeCost second.bounds)
    let bestPermutation := findBestPermutation (nodesToList first second) bestCost
    if bestPermutation.countA ≠ 0 then fillNodePairWithPermutation first second bestPermutation
    else (first, second)

/-- The scan of `optimizeNodePairVertical` over the indices `i, i+1, …` of the group: the
cost of the group with child `i` replaced by `node`, kept when strictly below the best. -/
def bestExchangeFrom (node : TreeNode) (group : List TreeNode) :
    Nat → Nat → Int → Option Nat → Option Nat
  | 0, _, _, bestIndex => bestIndex
  | fuel + 1, i, bestCost, bestIndex =>
    let cost := computeCost (foldBounds node.bounds (group.eraseIdx i))
    if cost < bestCost then bestExchangeFrom node group fuel (i + 1) cost (some i)
    else bestExchangeFrom node group fuel (i + 1) bestCost bestIndex

/-- The function `optimizeNodePairVertical(node, group)`: `node` is exchanged with the child
of `group` whose replacement lowers the cost of the group's bounds most, if any does. The
result is the pair (new `node`, new `group`). -/
def optimizeNodePairVertical (node group : TreeNode) : TreeNode × TreeNode :=
  match group with
  | TreeNode.leaf _ _ _ => (node, group)
  | TreeNode.node gcs gb gg =>
    match bestExchangeFrom node gcs gcs.length 0 (computeCost gb) none with
    | none => (node, group)
    | some bestIndex =>
      match gcs[bestIndex]?, gcs.set bestIndex node with
      | some out, c :: cs => (out, TreeNode.node (c :: cs) (computeBoundsOfList c cs) gg)
      | _, _ => (node, group)

/-- The inner loop of the horizontal pass, `for (j = …; j < nodeCount; j++)`, on the children
list, with `fuel` iterations left. -/
def horizontalInner (i : Nat) : Nat → Nat → List TreeNode → List TreeNode
  | 0, _, cs => cs
  | fuel + 1, j, cs =>
    horizontalInner i fuel (j + 1)
      (match cs[i]?, cs[j]? with
       | some A, some B =>
         if B.isGroupHead then cs
         else if intersects A.bounds B.bounds then
           ((cs.set i (optimizeNodePairHorizontal A B).1).set j
             (optimizeNodePairHorizontal A B).2)
         else cs
       | _, _ => cs)

/-- The outer loop of the horizontal pass, `for (i = …; i < nodeCount - 1; i++)`. -/
def horizontalOuter : Nat → Nat → List TreeNode → List TreeNode
  | 0, _, cs => cs
  | fuel + 1, i, cs =>
    horizontalOuter fuel (i + 1)
      (match cs[i]? with
       | some A =>
         if A.isGroupHead then cs
         else horizontalInner i (cs.length - (i + 1)) (i + 1) cs
       | none => cs)

/-- The inner loop of the vertical pass, `for (j = …; j < nodeCount; j++)` with `i == j`
skipped. -/
def verticalInner (i : Nat) : Nat → Nat → List TreeNode → List TreeNode
  | 0, _, cs => cs
  | fuel + 1, j, cs =>
    verticalInner i fuel (j + 1)
      (if i = j then cs
       else match cs[i]?, cs[j]? with
         | some A, some B =>
           if intersects A.bounds B.bounds then
             ((cs.set j (optimizeNodePairVertical B A).1).set i
               (optimizeNodePairVertical B A).2)
           else cs
         | _, _ => cs)

/-- The outer loop of the vertical pass, `for (i = …; i < nodeCount; i++)`. -/
def verticalOuter : Nat → Nat → List TreeNode → List TreeNode
  | 0, _, cs => cs
  | fuel + 1, i, cs =>
    verticalOuter fuel (i + 1)
      (match cs[i]? with
       | some A =>
         if A.isLeafNode then cs
         else if A.isGroupHead then cs
         else verticalInner i cs.length 0 cs
       | none => cs)

namespace TreeNode

mutual
/-- The method `TreeNode::improveStructure()`: the children are improved first, then the
horizontal and the vertical pass run over the children. The node's own bounds and flag are
not touched. -/
def improveStructure : TreeNode → TreeNode
  | leaf o b g => leaf o b g
  | node cs b g =>
    node (verticalOuter cs.length 0
            (horizontalOuter (cs.length - 1) 0 (improveStructureList cs))) b g
/-- The loop `for (i …) subTrees[i].improveStructure()`. -/
def improveStructureList : List TreeNode → List TreeNode
  | [] => []
  | c :: cs => improveStructure c :: improveStructureList cs
end

/-- The total cost of a tree: the sum of `computeCost(bounds)` over its internal nodes. -/
def totalCost (t : TreeNode) : Int :=
  ((subNodes t).filter (fun n => !n.isLeafNode)).foldr (fun n acc => computeCost n.bounds + acc) 0

/-- The group heads of a tree: its nodes flagged `isGroupHead`, in pre-order. -/
def groupHeads (t : TreeNode) : List TreeNode :=
  (subNodes t).filter isGroupHead

/-- For every group head of the tree, the multiset of the leaf objects below it. -/
def groupLeafSets (t : TreeNode) : List (Multiset Nat) :=
  (groupHeads t).map (fun g => (Multiset.ofList (leafObjects g)))

end TreeNode

/-- Insert the leaves of a list one at a time with `addInside`, starting from `root`. -/
def insertAll (root : TreeNode) (leaves : List TreeNode) : TreeNode :=
  leaves.foldl TreeNode.addInside root

/-- The leaf holding object `o` with the cube `[lo, hi]³` as bounds. -/
def cubeLeaf (o : Nat) (lo hi : Int) : TreeNode :=
  TreeNode.leaf o (cube lo hi) false

/-- The five leaves of the insertion scenario: `[0,1]³, [2,3]³, [4,5]³, [6,7]³, [8,9]³`. -/
def scenarioLeaves : List TreeNode :=
  [cubeLeaf 1 0 1, cubeLeaf 2 2 3, cubeLeaf 3 4 5, cubeLeaf 4 6 7, cubeLeaf 5 8 9]

/-! ## World serialization: the decoder

The embedding of `DeSerializationSessionPrototype::deserializeWorld` and of the decoders it
calls (`physics/misc/serialization.cpp`). A stream is a list of bytes. Values whose content is
floating-point data (`double`, `Vec3`, `CFrame`, `GlobalCFrame`, `Motion`, `PartProperties`,
polyhedron vertices) are kept as the bytes read; frames the decoder computes from them are
kept as unevaluated expressions. A pointer to a decoded physical is the path of the physical
in the decoded ownership trees. -/

/-- A byte stream (`std::istream`): the bytes not yet read. -/
abbrev Stream := List Nat

/-- How a decoder ends when it does not return. -/
inductive DecodeFailure where
  /-- A `SerializationException` was thrown. -/
  | serializationException : DecodeFailure
  /-- A read went past the end of the stream; what the C++ does then is not modelled. -/
  | endOfStream : DecodeFailure
  /-- An unchecked lookup (`vector::operator[]`) was out of range. -/
  | badIndex : DecodeFailure
  /-- The nesting of the decoded physicals exceeded the depth bound of the embedding. -/
  | tooDeep : DecodeFailure
  deriving DecidableEq, Repr

/-- The plain-data types read by `::deserialize<T>` whose layout is declared in absent
headers. -/
inductive PodType where
  | double | vec3 | vec3f | triangle | cframe | globalCFrame | motion | partProperties
  deriving DecidableEq, Repr

/-- Modelled from the spec: the byte sizes (`sizeof`) of the plain-data types, fixed by the
absent headers and the platform; a parameter of every decoder. -/
structure Layout where
  sizeOf : PodType → Nat

/-- The sizes on a 64-bit platform with 8-byte `double`, 4-byte `float` and `int`. -/
def Layout.standard : Layout where
  sizeOf
    | .double => 8
    | .vec3 => 24
    | .vec3f => 12
    | .triangle => 12
    | .cframe => 96
    | .globalCFrame => 96
    | .motion => 96
    | .partProperties => 48

/-- A global frame of a decoded part: read from the stream, or computed by the decoder from a
base frame with floating-point arithmetic that is not evaluated here. -/
inductive FrameValue where
  /-- `::deserialize<GlobalCFrame>(istream)`. -/
  | read (bytes : List Nat) : FrameValue
  /-- `base.localToGlobal(attach)` for an attachment read from the stream. -/
  | localToGlobal (base : FrameValue) (attach : List Nat) : FrameValue
  /-- `base.localToGlobal(connection.getRelativeCFrameToParent())`, the connection given by
  its two attach frames and the discriminant and payload of its constraint. -/
  | relativeToParent (base : FrameValue) (attachOnChild attachOnParent : List Nat)
      (constraintId : Nat) (constraintPayload : List Nat) : FrameValue
  deriving DecidableEq, Repr

/-- A shape class: one of the built-in classes or a decoded polyhedron. -/
inductive ShapeClass where
  | builtin (index : Nat) : ShapeClass
  | polyhedron (vertices : List (List Nat)) (triangles : List (List Nat)) : ShapeClass
  deriving DecidableEq, Repr

/-- A `Shape`: its class and the three scale factors. -/
structure Shape where
  baseShape : ShapeClass
  width : List Nat
  height : List Nat
  depth : List Nat
  deriving DecidableEq, Repr

/-- A decoded `Part`: frame, shape, properties and the layer it was assigned. -/
structure Part where
  cframe : FrameValue
  hitbox : Shape
  properties : List Nat
  layer : Option Nat
  deriving DecidableEq, Repr

/-- An `AttachedPart`: the attachment frame and the part. -/
structure AttachedPart where
  attachment : List Nat
  part : Part
  deriving DecidableEq, Repr

/-- A `RigidBody`: the main part and the attached parts. -/
structure RigidBody where
  mainPart : Part
  parts : List AttachedPart
  deriving DecidableEq, Repr

/-- A polymorphic object decoded through a `DynamicSerializerRegistry`: its discriminant and
the bytes of its payload. -/
structure DynamicObject where
  classId : Nat
  payload : List Nat
  deriving DecidableEq, Repr

/-- A `HardPhysicalConnection`: the two attach frames and the hard constraint. -/
structure HardPhysicalConnection where
  attachOnChild : List Nat
  attachOnParent : List Nat
  constraintWithParent : DynamicObject
  deriving DecidableEq, Repr

/-- A `ConnectedPhysical`: its connection to the parent, its rigid body and its children. -/
inductive ConnectedPhysical where
  | mk (connectionToParent : HardPhysicalConnection) (rigidBody : RigidBody)
      (childPhysicals : List ConnectedPhysical) : ConnectedPhysical
  deriving Repr

/-- A `MotorizedPhysical`: the motion of the centre of mass, the rigid body, the children. -/
structure MotorizedPhysical where
  motionOfCenterOfMass : List Nat
  rigidBody : RigidBody
  childPhysicals : List ConnectedPhysical
  deriving Repr

/-- A pointer to a decoded physical: the number of the motorized physical within the session
followed by the child indices leading to the physical. -/
abbrev PhysicalRef := List Nat

/-- A `PhysicalConstraint`: the two physicals and the soft constraint. -/
structure PhysicalConstraint where
  physA : PhysicalRef
  physB : PhysicalRef
  constraint : DynamicObject
  deriving DecidableEq, Repr

/-- A `ConstraintGroup`. -/
structure ConstraintGroup where
  constraints : List PhysicalConstraint
  deriving DecidableEq, Repr

/-- A `ColissionLayer` as far as the decoder touches it: the parts added to the tree of its
terrain sub-layer. -/
structure ColissionLayer where
  terrainParts : List Part
  deriving DecidableEq, Repr

/-- The `WorldPrototype` as far as `deserializeWorld` touches it. `collisions` holds the
collide flags set so far, as triples `(i, j, flag)` with the latest first. -/
structure WorldPrototype where
  age : Nat
  layers : List ColissionLayer
  collisions : List (Nat × Nat × Bool)
  physicals : List MotorizedPhysical
  constraints : List ConstraintGroup
  externalForces : List DynamicObject
  deriving Repr

/-- The state of a `DeSerializationSessionPrototype` together with the stream: the shape
classes known by id, the table `indexToPhysicalMap`, and the number of motorized physicals
decoded so far. -/
structure DecodeState where
  istream : Stream
  shapeClasses : List ShapeClass
  indexToPhysicalMap : List PhysicalRef
  decodedRoots : Nat
  deriving Repr

/-- A decoder: a function of the session state that returns a value and the new state, or
fails. -/
abbrev Decoder (α : Type) := StateT DecodeState (Except DecodeFailure) α

/-- End the decoder with a failure. -/
def Decoder.fail {α : Type} (f : DecodeFailure) : Decoder α :=
  fun _ => Except.error f

/-- The constant `CURRENT_VERSION_ID`. -/
def CURRENT_VERSION_ID : Nat := 2

/-- The value of a little-endian byte sequence. -/
def fromLittleEndian : List Nat → Nat
  | [] => 0
  | b :: bs => b + 256 * fromLittleEndian bs

/-- Modelled from the spec: `::deserialize<T>` (absent `serializeBasicTypes.h`) takes the next
`sizeof(T)` bytes off the stream. -/
def readBytes (n : Nat) : Decoder (List Nat) :=
  fun st =>
    if n ≤ st.istream.length then
      Except.ok (st.istream.take n, { st with istream := st.istream.drop n })
    else Except.error DecodeFailure.endOfStream

/-- The read `::deserialize<uint32_t>`: four bytes, little-endian. -/
def readUInt32 : Decoder Nat := do
  let bytes ← readBytes 4
  pure (fromLittleEndian bytes)

/-- The read `::deserialize<uint64_t>`: eight bytes, little-endian. -/
def readUInt64 : Decoder Nat := do
  let bytes ← readBytes 8
  pure (fromLittleEndian bytes)

/-- The read `::deserialize<bool>`: one byte, true when non-zero. -/
def readBool : Decoder Bool := do
  let bytes ← readBytes 1
  pure (decide (fromLittleEndian bytes ≠ 0))

/-- The read `::deserialize<T>` of a plain-data type, kept as bytes. -/
def readPod (L : Layout) (t : PodType) : Decoder (List Nat) :=
  readBytes (L.sizeOf t)

/-- A counted loop `for (i = 0; i < count; i++)` that collects what its body decodes; the
body is given the index. -/
def decodeLoop {α : Type} (body : Nat → Decoder α) : Nat → Nat → Decoder (List α)
  | 0, _ => pure []
  | count + 1, i => do
    let x ← body i
    let xs ← decodeLoop body count (i + 1)
    pure (x :: xs)

/-- The function `assertVersionCorrect`: the version tag is read as `uint32_t` and a tag
other than `CURRENT_VERSION_ID` throws a `SerializationException`. -/
def assertVersionCorrect : Decoder Unit := do
  let readVersionID ← readUInt32
  if readVersionID ≠ CURRENT_VERSION_ID then
    Decoder.fail DecodeFailure.serializationException
  else pure ()

/-- The function `deserializePolyhedron`: two counts, then the vertices and the triangles. -/
def deserializePolyhedron (L : Layout) : Decoder ShapeClass := do
  let vertexCount ← readUInt32
  let triangleCount ← readUInt32
  let vertices ← decodeLoop (fun _ => readPod L PodType.vec3f) vertexCount 0
  let triangles ← decodeLoop (fun _ => readPod L PodType.triangle) triangleCount 0
  pure (ShapeClass.polyhedron vertices triangles)

/-- Modelled from the spec: `DynamicSerializerRegistry<T>::deserialize` (absent
`dynamicSerialize.h`) reads the discriminant and dispatches on it to the decode function
registered for it; "unknown discriminant" is a serialization-format failure. The registered
decoders are given as a table from discriminant to payload decoder. -/
def dynamicDeserialize {α : Type} (table : List (Nat × Decoder α)) : Decoder (Nat × α) := do
  let classId ← readUInt32
  match table.lookup classId with
  | some decode => do
    let payload ← decode
    pure (classId, payload)
  | none => Decoder.fail DecodeFailure.serializationException

/-- The table `dynamicShapeClassSerializer`: discriminant 0 is `PolyhedronShapeClass`. -/
def dynamicShapeClassSerializer (L : Layout) : List (Nat × Decoder ShapeClass) :=
  [(0, deserializePolyhedron L)]

/-- The payload of a decoder that reads `count` values of one plain-data type. -/
def readPods (L : Layout) (t : PodType) (count : Nat) : Decoder (List Nat) := do
  let blocks ← decodeLoop (fun _ => readPod L t) count 0
  pure blocks.flatten

/-- The table `dynamicHardConstraintSerializer`: 0 `FixedConstraint` (no payload),
1 `ConstantSpeedMotorConstraint` (2 doubles), 2 `SinusoidalPistonConstraint` (4 doubles),
3 `MotorConstraintTemplate<SineWaveController>` (4 doubles). -/
def dynamicHardConstraintSerializer (L : Layout) : List (Nat × Decoder (List Nat)) :=
  [(0, pure []), (1, readPods L PodType.double 2), (2, readPods L PodType.double 4),
   (3, readPods L PodType.double 4)]

/-- The table `dynamicConstraintSerializer`: 0 `BallConstraint` (2 `Vec3`),
1 `HingeConstraint` (4 `Vec3`), 2 `BarConstraint` (2 `Vec3` and a double). -/
def dynamicConstraintSerializer (L : Layout) : List (Nat × Decoder (List Nat)) :=
  [(0, readPods L PodType.vec3 2), (1, readPods L PodType.vec3 4),
   (2, do
      let attach ← readPods L PodType.vec3 2
      let length ← readPod L PodType.double
      pure (attach ++ length))]

/-- The table `dynamicExternalForceSerializer`: 0 `DirectionalGravity` (one `Vec3`). -/
def dynamicExternalForceSerializer (L : Layout) : List (Nat × Decoder (List Nat)) :=
  [(0, readPod L PodType.vec3)]

/-- Decode one polymorphic object through a table. -/
def deserializeDynamic (table : List (Nat × Decoder (List Nat))) : Decoder DynamicObject := do
  let r ← dynamicDeserialize table
  pure ⟨r.1, r.2⟩

/-- Modelled from the spec: `SharedObjectDeserializer::deserializeRegistry` (absent
`sharedObjectSerializer.h`) reads the number of registry entries and decodes each entry
through the dynamic shape-class table, giving them the ids after those already known. -/
def deserializeRegistry (L : Layout) : Decoder Unit := do
  let count ← readUInt32
  let classes ← decodeLoop (fun _ => dynamicDeserialize (dynamicShapeClassSerializer L)) count 0
  modify (fun st => { st with shapeClasses := st.shapeClasses ++ classes.map Prod.snd })

/-- The method `deserializeAndCollectHeaderInformation`: the version check, then the
shape-class registry. -/
def deserializeAndCollectHeaderInformation (L : Layout) : Decoder Unit := do
  assertVersionCorrect
  deserializeRegistry L

/-- Modelled from the spec: `SharedObjectDeserializer::deserializeObject` (absent header)
reads an id and returns the shape class registered under it. -/
def deserializeSharedShapeClass : Decoder ShapeClass := do
  let id ← readUInt32
  let st ← get
  match st.shapeClasses[id]? with
  | some shapeClass => pure shapeClass
  | none => Decoder.fail DecodeFailure.badIndex

/-- The method `ShapeDeserializer::deserializeShape`. -/
def deserializeShape (L : Layout) : Decoder Shape := do
  let baseShape ← deserializeSharedShapeClass
  let width ← readPod L PodType.double
  let height ← readPod L PodType.double
  let depth ← readPod L PodType.double
  pure ⟨baseShape, width, height, depth⟩

/-- The method `deserializePartData(cframe, layer, istream)`. -/
def deserializePartData (L : Layout) (cframe : FrameValue) (layer : Option Nat) :
    Decoder Part := do
  let shape ← deserializeShape L
  let properties ← readPod L PodType.partProperties
  pure ⟨cframe, shape, properties, layer⟩

/-- The function `deserializeLayer`: the layer id; `getLayerByID` (absent) resolves it. -/
def deserializeLayer : Decoder (Option Nat) := do
  let id ← readUInt32
  pure (some id)

/-- The method `deserializeRigidBodyWithContext(cframeOfMain, layers, istream)`. -/
def deserializeRigidBodyWithContext (L : Layout) (cframeOfMain : FrameValue) :
    Decoder RigidBody := do
  let layer ← deserializeLayer
  let mainPart ← deserializePartData L cframeOfMain layer
  let size ← readUInt32
  let parts ← decodeLoop (fun _ => do
      let attach ← readPod L PodType.cframe
      let layer ← deserializeLayer
      let newPart ← deserializePartData L (FrameValue.localToGlobal cframeOfMain attach) layer
      pure (AttachedPart.mk attach newPart)) size 0
  pure ⟨mainPart, parts⟩

/-- The function `deserializeHardPhysicalConnection`. -/
def deserializeHardPhysicalConnection (L : Layout) : Decoder HardPhysicalConnection := do
  let attachOnChild ← readPod L PodType.cframe
  let attachOnParent ← readPod L PodType.cframe
  let constraint ← deserializeDynamic (dynamicHardConstraintSerializer L)
  pure ⟨attachOnChild, attachOnParent, constraint⟩

/-- The method `deserializeConnectionsOfPhysicalWithContext(layers, physToPopulate, istream)`,
returning the children it appends to `physToPopulate`, whose pointer is `parentRef` and whose
frame is `parentFrame`. Each child is entered into `indexToPhysicalMap` before its own
children are decoded. The first argument bounds the depth of the recursion. -/
def deserializeConnectionsOfPhysicalWithContext (L : Layout) :
    Nat → PhysicalRef → FrameValue → Decoder (List ConnectedPhysical)
  | 0, _, _ => Decoder.fail DecodeFailure.tooDeep
  | depth + 1, parentRef, parentFrame => do
    let childrenCount ← readUInt32
    decodeLoop (fun i => do
      let connection ← deserializeHardPhysicalConnection L
      let cframeOfConnectedPhys := FrameValue.relativeToParent parentFrame
        connection.attachOnChild connection.attachOnParent
        connection.constraintWithParent.classId connection.constraintWithParent.payload
      let b ← deserializeRigidBodyWithContext L cframeOfConnectedPhys
      modify (fun st =>
        { st with indexToPhysicalMap := st.indexToPhysicalMap ++ [parentRef ++ [i]] })
      let children ← deserializeConnectionsOfPhysicalWithContext L depth (parentRef ++ [i])
        cframeOfConnectedPhys
      pure (ConnectedPhysical.mk connection b children)) childrenCount 0

/-- The method `deserializeMotorizedPhysicalWithContext(layers, istream)`. The depth bound
handed to the recursion over the children is the number of bytes left in the stream: every
level of nesting reads at least its four-byte child count. -/
def deserializeMotorizedPhysicalWithContext (L : Layout) : Decoder MotorizedPhysical := do
  let motion ← readPod L PodType.motion
  let cf ← readPod L PodType.globalCFrame
  let body ← deserializeRigidBodyWithContext L (FrameValue.read cf)
  let st ← get
  let ref : PhysicalRef := [st.decodedRoots]
  set { st with indexToPhysicalMap := st.indexToPhysicalMap ++ [ref],
                decodedRoots := st.decodedRoots + 1 }
  let children ← deserializeConnectionsOfPhysicalWithContext L (st.istream.length + 1) ref
    (FrameValue.read cf)
  pure ⟨motion, body, children⟩

/-- The method `deserializeConstraintInContext`: two indices into `indexToPhysicalMap` (an
unchecked `operator[]`), then the constraint. -/
def deserializeConstraintInContext (L : Layout) : Decoder PhysicalConstraint := do
  let indexA ← readUInt32
  let indexB ← readUInt32
  let st ← get
  match st.indexToPhysicalMap[indexA]?, st.indexToPhysicalMap[indexB]? with
  | some physA, some physB => do
    let constraint ← deserializeDynamic (dynamicConstraintSerializer L)
    pure ⟨physA, physB, constraint⟩
  | _, _ => Decoder.fail DecodeFailure.badIndex

/-- How a call of `deserializeWorld` ends: it returns, or it signals a failure. -/
inductive DecodeEnd where
  | returned : DecodeEnd
  | failed (f : DecodeFailure) : DecodeEnd
  deriving DecidableEq, Repr

/-- A step of `deserializeWorld` that mutates the world: the world as the step leaves it,
and the session state to continue with or the failure. -/
abbrev WorldStep := WorldPrototype × Except DecodeFailure DecodeState

/-- Run a decoder as part of a world step; when it fails the world stays as it is at that
point. -/
def WorldStep.run {α : Type} (world : WorldPrototype) (st : DecodeState) (d : Decoder α)
    (next : α → DecodeState → WorldStep) : WorldStep :=
  match d st with
  | Except.ok (a, st') => next a st'
  | Except.error f => (world, Except.error f)

/-- A counted loop of `deserializeWorld` whose body decodes a value and stores it into the
world right away. -/
def worldLoop {α : Type} (body : Nat → Decoder α)
    (store : WorldPrototype → Nat → α → WorldPrototype) :
    Nat → Nat → WorldPrototype → DecodeState → WorldStep
  | 0, _, world, st => (world, Except.ok st)
  | count + 1, i, world, st =>
    WorldStep.run world st (body i) (fun a st' =>
      worldLoop body store count (i + 1) (store world i a) st')

/-- A counted loop of `deserializeWorld` whose body is itself a step that mutates the
world. -/
def worldFor (body : Nat → WorldPrototype → DecodeState → WorldStep) :
    Nat → Nat → WorldPrototype → DecodeState → WorldStep
  | 0, _, world, st => (world, Except.ok st)
  | count + 1, i, world, st =>
    match body i world st with
    | (world', Except.ok st') => worldFor body count (i + 1) world' st'
    | (world', Except.error f) => (world', Except.error f)

/-- The index pairs `(i, j)` with `j ≤ i < n`, row by row: the order of the two nested loops
over the collide flags. -/
def layerPairs (n : Nat) : List (Nat × Nat) :=
  (List.range n).flatMap (fun i => (List.range (i + 1)).map (fun j => (i, j)))

/-- Modelled from the spec: `WorldPrototype::setLayersCollide(i, j, flag)` (absent `world.h`)
records the flag for the pair `(i, j)` of the symmetric collide matrix. -/
def WorldPrototype.setLayersCollide (world : WorldPrototype) (i j : Nat) (flag : Bool) :
    WorldPrototype :=
  { world with collisions := (i, j, flag) :: world.collisions }

/-- Modelled from the spec: `WorldPrototype::doLayersCollide(i, j)` (absent `world.h`) looks
the pair up in the symmetric collide matrix; a pair never set does not collide. -/
def WorldPrototype.doLayersCollide (world : WorldPrototype) (i j : Nat) : Bool :=
  match world.collisions.find? (fun e => (e.1 = i ∧ e.2.1 = j) ∨ (e.1 = j ∧ e.2.1 = i)) with
  | some e => e.2.2
  | none => false

/-- Modelled from the spec: `WorldPrototype::addPhysicalWithExistingLayers` (absent
`world.h`) appends the physical to the world's list of root physicals. -/
def WorldPrototype.addPhysicalWithExistingLayers (world : WorldPrototype)
    (phys : MotorizedPhysical) : WorldPrototype :=
  { world with physicals := world.physicals ++ [phys] }

/-- The call `layer.tree.add(part)` on the terrain sub-layer of layer `i`. -/
def WorldPrototype.addTerrainPart (world : WorldPrototype) (i : Nat) (part : Part) :
    WorldPrototype :=
  { world with layers := world.layers.modify (fun l => { l with terrainParts :=
      l.terrainParts ++ [part] }) i }

/-- The method `deserializeWorldLayer(layer, istream)` for the terrain sub-layer of layer
`layerId`: the number of parts, then for each part its frame and data; each part is added to
the layer's tree as soon as it is decoded. -/
def deserializeWorldLayer (L : Layout) (layerId : Nat) (world : WorldPrototype)
    (st : DecodeState) : WorldStep :=
  WorldStep.run world st readUInt32 (fun extraPartsInLayer st =>
    worldLoop (fun _ => do
        let cf ← readPod L PodType.globalCFrame
        deserializePartData L (FrameValue.read cf) (some layerId))
      (fun w _ part => w.addTerrainPart layerId part) extraPartsInLayer 0 world st)

/-- The decoder of one constraint group: the number of constraints, then the constraints. -/
def deserializeConstraintGroup (L : Layout) : Decoder ConstraintGroup := do
  let numberOfConstraintsInGroup ← readUInt32
  let constraints ← decodeLoop (fun _ => deserializeConstraintInContext L)
    numberOfConstraintsInGroup 0
  pure (ConstraintGroup.mk constraints)

/-- The part of `deserializeWorld` after the layers have been rebuilt: the collide flags, the
terrain parts of every layer, the physicals, the constraint groups and the external forces,
each stored into the world as soon as it is decoded. -/
def deserializeWorldContents (L : Layout) (layerCount : Nat) (world : WorldPrototype)
    (st : DecodeState) : WorldStep :=
  match worldLoop (fun _ => readBool)
      (fun w k flag => w.setLayersCollide ((layerPairs layerCount).getD k (0, 0)).1
        ((layerPairs layerCount).getD k (0, 0)).2 flag)
      (layerPairs layerCount).length 0 world st with
  | (world, Except.error f) => (world, Except.error f)
  | (world, Except.ok st) =>
  match worldFor (fun i w st => deserializeWorldLayer L i w st) world.layers.length 0
      world st with
  | (world, Except.error f) => (world, Except.error f)
  | (world, Except.ok st) =>
  WorldStep.run world st readUInt32 (fun numberOfPhysicals st =>
    match worldLoop (fun _ => deserializeMotorizedPhysicalWithContext L)
        (fun w _ phys => w.addPhysicalWithExistingLayers phys)
        numberOfPhysicals 0 world st with
    | (world, Except.error f) => (world, Except.error f)
    | (world, Except.ok st) =>
    WorldStep.run world st readUInt32 (fun constraintCount st =>
      match worldLoop (fun _ => deserializeConstraintGroup L)
          (fun w _ group => { w with constraints := w.constraints ++ [group] })
          constraintCount 0 world st with
      | (world, Except.error f) => (world, Except.error f)
      | (world, Except.ok st) =>
      WorldStep.run world st readUInt32 (fun forceCount st =>
        worldLoop (fun _ => deserializeDynamic (dynamicExternalForceSerializer L))
          (fun w _ force => { w with externalForces := w.externalForces ++ [force] })
          forceCount 0 world st)))

/-- The body of `deserializeWorld` after the header, from `world.age = …` on: the age is
assigned, the layers are cleared (their collide flags with them) and `layerCount` fresh layers
are appended; the rest follows in `deserializeWorldContents`. -/
def deserializeWorldBody (L : Layout) (world : WorldPrototype) (st : DecodeState) : WorldStep :=
  WorldStep.run world st readUInt64 (fun age st =>
    let world := { world with age := age }
    let world := { world with layers := [], collisions := [] }
    WorldStep.run world st readUInt32 (fun layerCount st =>
      deserializeWorldContents L layerCount
        { world with layers := List.replicate layerCount ⟨[]⟩ } st))

/-- The method `DeSerializationSessionPrototype::deserializeWorld(world, istream)`: the header
is decoded first, then the body. The result is the world as the call leaves it and the way
the call ends. -/
def deserializeWorld (L : Layout) (world : WorldPrototype) (st : DecodeState) :
    WorldPrototype × DecodeEnd :=
  match WorldStep.run world st (deserializeAndCollectHeaderInformation L)
      (fun _ st => deserializeWorldBody L world st) with
  | (world, Except.ok _) => (world, DecodeEnd.returned)
  | (world, Except.error f) => (world, DecodeEnd.failed f)

/-- A fresh session reading `istream`: the three built-in shape classes are known, no
physical has been decoded. -/
def DecodeState.fresh (istream : Stream) : DecodeState :=
  ⟨istream, [ShapeClass.builtin 0, ShapeClass.builtin 1, ShapeClass.builtin 2], [], 0⟩

/-- The little-endian bytes of a value, `count` of them. -/
def toLittleEndian : Nat → Nat → List Nat
  | 0, _ => []
  | count + 1, n => n % 256 :: toLittleEndian count (n / 256)

/-! ## World serialization: the encoder

The embedding of `SerializationSessionPrototype::serializeWorld`, `serializeParts` and the
encoders they call (`physics/misc/serialization.cpp`). The session state and the output
stream are passed explicitly: an encoder maps the state before the call to the state after
it. A pointer to a physical of the world being written is its path: the position of its
motorized physical in `world.physicals` followed by the child indices leading to it. -/

/-- Modelled from the spec: the floating-point frame arithmetic of the absent headers
(`GlobalCFrame::localToGlobal`, `HardPhysicalConnection::getRelativeCFrameToParent`), as
functions on the bytes of the values; a parameter of every encoder that writes a frame. -/
structure FrameOps where
  localToGlobal : List Nat → List Nat → List Nat
  relativeToParent : List Nat → List Nat → List Nat → Nat → List Nat → List Nat

/-- The bytes of the `GlobalCFrame` a frame stands for (`Part::getCFrame()`). -/
def FrameValue.getCFrame (ops : FrameOps) : FrameValue → List Nat
  | FrameValue.read bytes => bytes
  | FrameValue.localToGlobal base attach => ops.localToGlobal (base.getCFrame ops) attach
  | FrameValue.relativeToParent base attachOnChild attachOnParent constraintId payload =>
    ops.relativeToParent (base.getCFrame ops) attachOnChild attachOnParent constraintId payload

/-- The state of a `SerializationSessionPrototype` together with the stream: the bytes
written so far, the shape classes with a predefined id, the shape classes included by the
collection phase, the map `physicalIndexMap` and the counter `currentPhysicalIndex`. -/
structure EncodeState where
  ostream : List Nat
  predefined : List ShapeClass
  included : List ShapeClass
  physicalIndexMap : List (PhysicalRef × Nat)
  currentPhysicalIndex : Nat
  deriving Repr

/-- A fresh session writing to an empty stream: the three built-in shape classes are
predefined, nothing has been included, no physical has been numbered. -/
def EncodeState.fresh : EncodeState :=
  ⟨[], [ShapeClass.builtin 0, ShapeClass.builtin 1, ShapeClass.builtin 2], [], [], 0⟩

/-- Append bytes to the output stream. -/
def EncodeState.write (st : EncodeState) (bytes : List Nat) : EncodeState :=
  { st with ostream := st.ostream ++ bytes }

/-- Modelled from the spec: the write `::serialize<uint32_t>` (absent
`serializeBasicTypes.h`; also `int32_t` and `int` of a non-negative value): four bytes,
little-endian. -/
def serializeUInt32 (n : Nat) (st : EncodeState) : EncodeState :=
  st.write (toLittleEndian 4 n)

/-- Modelled from the spec: the write `::serialize<uint64_t>` (absent
`serializeBasicTypes.h`): eight bytes, little-endian. -/
def serializeUInt64 (n : Nat) (st : EncodeState) : EncodeState :=
  st.write (toLittleEndian 8 n)

/-- Modelled from the spec: the write `::serialize<bool>` (absent `serializeBasicTypes.h`):
one byte, 1 for true and 0 for false. -/
def serializeBool (b : Bool) (st : EncodeState) : EncodeState :=
  st.write [if b then 1 else 0]

/-- Modelled from the spec: `::serialize<T>` of a plain-data value (absent
`serializeBasicTypes.h`) writes the bytes of the value. -/
def serializePod (bytes : List Nat) (st : EncodeState) : EncodeState :=
  st.write bytes

/-- The function `serializeVersion`. -/
def serializeVersion (st : EncodeState) : EncodeState :=
  serializeUInt32 CURRENT_VERSION_ID st

/-- The function `serializePolyhedron`: the two counts, the vertices, the triangles. -/
def serializePolyhedron (vertices triangles : List (List Nat)) (st : EncodeState) :
    EncodeState :=
  let st := serializeUInt32 vertices.length st
  let st := serializeUInt32 triangles.length st
  let st := vertices.foldl (fun st v => serializePod v st) st
  triangles.foldl (fun st t => serializePod t st) st

/-- Modelled from the spec: `DynamicSerializerRegistry<T>::serialize` (absent
`dynamicSerialize.h`) writes the discriminant registered for the dynamic type of the object
and then calls the encode function registered for it, which writes the payload. -/
def serializeDynamic (object : DynamicObject) (st : EncodeState) : EncodeState :=
  serializePod object.payload (serializeUInt32 object.classId st)

/-- The call `dynamicShapeClassSerializer.serialize(*sc, ostream)`: discriminant 0 and
`serializePolyhedronShapeClass` for a polyhedron class. No encode function is registered for
the built-in classes, which are predefined and never reach this call; nothing is written for
them. -/
def serializeShapeClass : ShapeClass → EncodeState → EncodeState
  | ShapeClass.polyhedron vertices triangles, st =>
    serializePolyhedron vertices triangles (serializeUInt32 0 st)
  | ShapeClass.builtin _, st => st

/-- Modelled from the spec: `SharedObjectSerializer::include` (absent
`sharedObjectSerializer.h`) registers an object that has no id yet, giving it the next id
after the predefined and the already included ones. -/
def includeShapeClass (shapeClass : ShapeClass) (st : EncodeState) : EncodeState :=
  if shapeClass ∈ st.predefined ++ st.included then st
  else { st with included := st.included ++ [shapeClass] }

/-- Modelled from the spec: `SharedObjectSerializer::serializeIDFor` (absent header) writes
the id of the object: its position among the predefined and included objects. -/
def serializeIDFor (shapeClass : ShapeClass) (st : EncodeState) : EncodeState :=
  serializeUInt32 ((st.predefined ++ st.included).indexOf shapeClass) st

/-- Modelled from the spec: `SharedObjectSerializer::serializeRegistry` (absent header)
writes the number of included objects and then each of them through the given function. -/
def serializeRegistry (st : EncodeState) : EncodeState :=
  st.included.foldl (fun st shapeClass => serializeShapeClass shapeClass st)
    (serializeUInt32 st.included.length st)

/-- The method `serializeCollectedHeaderInformation`: the version tag, then the shape-class
registry. -/
def serializeCollectedHeaderInformation (st : EncodeState) : EncodeState :=
  serializeRegistry (serializeVersion st)

/-- The method `ShapeSerializer::serializeShape`. -/
def serializeShape (shape : Shape) (st : EncodeState) : EncodeState :=
  let st := serializeIDFor shape.baseShape st
  let st := serializePod shape.width st
  let st := serializePod shape.height st
  serializePod shape.depth st

/-- Modelled from the spec: `Part::getLayerID()` (absent `part.h`) is the id of the layer
the part is in; 0 stands for a part without a layer. -/
def Part.getLayerID (part : Part) : Nat :=
  part.layer.getD 0

/-- The function `serializeLayer`. -/
def serializeLayer (part : Part) (st : EncodeState) : EncodeState :=
  serializeUInt32 part.getLayerID st

/-- The method `serializePartData`: the shape and the properties; `serializePartExternalData`
writes nothing. -/
def serializePartData (part : Part) (st : EncodeState) : EncodeState :=
  serializePod part.properties (serializeShape part.hitbox st)

/-- The method `serializeRigidBodyInContext`. -/
def serializeRigidBodyInContext (rigidBody : RigidBody) (st : EncodeState) : EncodeState :=
  let st := serializeLayer rigidBody.mainPart st
  let st := serializePartData rigidBody.mainPart st
  let st := serializeUInt32 rigidBody.parts.length st
  rigidBody.parts.foldl (fun st atPart =>
    serializePartData atPart.part
      (serializeLayer atPart.part (serializePod atPart.attachment st))) st

/-- The lookup `this->physicalIndexMap[phys]` of `std::map`: the index stored for the
pointer; a pointer not yet in the map is entered with index 0. -/
def physicalIndexOf (phys : PhysicalRef) (st : EncodeState) : Nat × EncodeState :=
  match st.physicalIndexMap.lookup phys with
  | some index => (index, st)
  | none => (0, { st with physicalIndexMap := st.physicalIndexMap ++ [(phys, 0)] })

/-- The method `serializeConstraintInContext`: the indices of the two physicals, then the
constraint. -/
def serializeConstraintInContext (constraint : PhysicalConstraint) (st : EncodeState) :
    EncodeState :=
  let a := physicalIndexOf constraint.physA st
  let b := physicalIndexOf constraint.physB a.2
  let st := serializeUInt32 a.1 b.2
  let st := serializeUInt32 b.1 st
  serializeDynamic constraint.constraint st

/-- The function `serializeHardPhysicalConnection`. -/
def serializeHardPhysicalConnection (connection : HardPhysicalConnection) (st : EncodeState) :
    EncodeState :=
  let st := serializePod connection.attachOnChild st
  let st := serializePod connection.attachOnParent st
  serializeDynamic connection.constraintWithParent st

/-- The statement `physicalIndexMap.emplace(&phys, currentPhysicalIndex++)`: the counter is
incremented, and the pointer is entered with the old counter unless it is already a key. -/
def emplacePhysical (phys : PhysicalRef) (st : EncodeState) : EncodeState :=
  { st with
    physicalIndexMap :=
      match st.physicalIndexMap.lookup phys with
      | some _ => st.physicalIndexMap
      | none => st.physicalIndexMap ++ [(phys, st.currentPhysicalIndex)],
    currentPhysicalIndex := st.currentPhysicalIndex + 1 }

mutual
/-- One round of the loop over the children in `serializePhysicalInContext`, for the child
`p` whose pointer is `ref`: `serializeHardPhysicalConnection(p.connectionToParent)` followed
by `serializePhysicalInContext(p)`, that is, the numbering of `p`, its rigid body, the number
of its children and its children. -/
def serializeConnectedPhysical : PhysicalRef → ConnectedPhysical → EncodeState → EncodeState
  | ref, ConnectedPhysical.mk connectionToParent rigidBody childPhysicals, st =>
    let st := serializeHardPhysicalConnection connectionToParent st
    let st := emplacePhysical ref st
    let st := serializeRigidBodyInContext rigidBody st
    let st := serializeUInt32 childPhysicals.length st
    serializeChildPhysicals ref 0 childPhysicals st
/-- The loop over the children of the physical `parentRef` in `serializePhysicalInContext`,
from child `i` on. -/
def serializeChildPhysicals :
    PhysicalRef → Nat → List ConnectedPhysical → EncodeState → EncodeState
  | _, _, [], st => st
  | parentRef, i, p :: ps, st =>
    serializeChildPhysicals parentRef (i + 1) ps
      (serializeConnectedPhysical (parentRef ++ [i]) p st)
end

/-- The method `serializePhysicalInContext` for the physical with pointer `ref`, rigid body
`rigidBody` and children `childPhysicals`. -/
def serializePhysicalInContext (ref : PhysicalRef) (rigidBody : RigidBody)
    (childPhysicals : List ConnectedPhysical) (st : EncodeState) : EncodeState :=
  let st := emplacePhysical ref st
  let st := serializeRigidBodyInContext rigidBody st
  let st := serializeUInt32 childPhysicals.length st
  serializeChildPhysicals ref 0 childPhysicals st

/-- The method `serializeMotorizedPhysicalInContext`: the motion, the frame of the main
part, then the physical. -/
def serializeMotorizedPhysicalInContext (ops : FrameOps) (ref : PhysicalRef)
    (phys : MotorizedPhysical) (st : EncodeState) : EncodeState :=
  let st := serializePod phys.motionOfCenterOfMass st
  let st := serializePod (phys.rigidBody.mainPart.cframe.getCFrame ops) st
  serializePhysicalInContext ref phys.rigidBody phys.childPhysicals st

/-- The method `collectPartInformation`. -/
def collectPartInformation (part : Part) (st : EncodeState) : EncodeState :=
  includeShapeClass part.hitbox.baseShape st

/-- The loop `for(const Part& p : phys.rigidBody)` of `collectPhysicalInformation`: the main
part, then the attached parts. -/
def collectRigidBodyInformation (rigidBody : RigidBody) (st : EncodeState) : EncodeState :=
  rigidBody.parts.foldl (fun st atPart => collectPartInformation atPart.part st)
    (collectPartInformation rigidBody.mainPart st)

mutual
/-- The method `collectConnectedPhysicalInformation`. -/
def collectConnectedPhysicalInformation : ConnectedPhysical → EncodeState → EncodeState
  | ConnectedPhysical.mk _ rigidBody childPhysicals, st =>
    collectChildPhysicalsInformation childPhysicals (collectRigidBodyInformation rigidBody st)
/-- The loop over the children in `collectPhysicalInformation`. -/
def collectChildPhysicalsInformation : List ConnectedPhysical → EncodeState → EncodeState
  | [], st => st
  | p :: ps, st =>
    collectChildPhysicalsInformation ps (collectConnectedPhysicalInformation p st)
end

/-- The method `collectMotorizedPhysicalInformation`. -/
def collectMotorizedPhysicalInformation (phys : MotorizedPhysical) (st : EncodeState) :
    EncodeState :=
  collectChildPhysicalsInformation phys.childPhysicals
    (collectRigidBodyInformation phys.rigidBody st)

/-- A part in the tree of a `WorldLayer`, with whether it belongs to a physical
(`p.parent != nullptr`). -/
structure LayerPart where
  part : Part
  hasParent : Bool
  deriving DecidableEq, Repr

/-- Modelled from the spec: a `ColissionLayer` as the encoder reads it (absent `world.h`):
the parts in the trees of its two sub-layers, the free parts first, then the terrain parts
(`subLayers[TERRAIN_PARTS_LAYER]`), each in the order of `tree.forEach`. -/
structure SourceLayer where
  freeParts : List LayerPart
  terrainParts : List LayerPart
  deriving DecidableEq, Repr

/-- The `WorldPrototype` as far as `serializeWorld` reads it. `collisions` holds the collide
matrix, as in the decoded world. -/
structure SourceWorld where
  age : Nat
  layers : List SourceLayer
  collisions : List (Nat × Nat × Bool)
  physicals : List MotorizedPhysical
  constraints : List ConstraintGroup
  externalForces : List DynamicObject
  deriving Repr

/-- Modelled from the spec: `WorldPrototype::getLayerCount()` (absent `world.h`) is the
number of collision layers. -/
def SourceWorld.getLayerCount (world : SourceWorld) : Nat :=
  world.layers.length

/-- Modelled from the spec: `WorldPrototype::doLayersCollide(i, j)` (absent `world.h`) on the
world being written, the same lookup as on the decoded world. -/
def SourceWorld.doLayersCollide (world : SourceWorld) (i j : Nat) : Bool :=
  match world.collisions.find? (fun e => (e.1 = i ∧ e.2.1 = j) ∨ (e.1 = j ∧ e.2.1 = i)) with
  | some e => e.2.2
  | none => false

/-- The loop `layer.tree.forEach` of the collection phase: every part without a parent is
collected. -/
def collectLayerInformation (layer : List LayerPart) (st : EncodeState) : EncodeState :=
  layer.foldl (fun st p => if p.hasParent then st else collectPartInformation p.part st) st

/-- The method `serializeWorldLayer`: the number of parts without a parent, then for each of
them its frame and its data. -/
def serializeWorldLayer (ops : FrameOps) (layer : List LayerPart) (st : EncodeState) :
    EncodeState :=
  let numberOfUnPhysicaledPartsInLayer :=
    layer.foldl (fun count p => if p.hasParent then count else count + 1) 0
  let st := serializeUInt32 numberOfUnPhysicaledPartsInLayer st
  layer.foldl (fun st p =>
    if p.hasParent then st
    else serializePartData p.part (serializePod (p.part.cframe.getCFrame ops) st)) st

/-- The loop over `world.physicals` in `serializeWorld`, from position `i` on. -/
def serializeMotorizedPhysicals (ops : FrameOps) :
    Nat → List MotorizedPhysical → EncodeState → EncodeState
  | _, [], st => st
  | i, p :: ps, st =>
    serializeMotorizedPhysicals ops (i + 1) ps (serializeMotorizedPhysicalInContext ops [i] p st)

/-- The method `SerializationSessionPrototype::serializeWorld(world, ostream)`. -/
def serializeWorld (ops : FrameOps) (world : SourceWorld) (st : EncodeState) : EncodeState :=
  let st := world.physicals.foldl (fun st p => collectMotorizedPhysicalInformation p st) st
  let st := world.layers.foldl (fun st clayer =>
    [clayer.freeParts, clayer.terrainParts].foldl
      (fun st layer => collectLayerInformation layer st) st) st
  let st := serializeCollectedHeaderInformation st
  let st := serializeUInt64 world.age st
  let st := serializeUInt32 world.getLayerCount st
  let st := (List.range world.getLayerCount).foldl (fun st i =>
    (List.range (i + 1)).foldl (fun st j =>
      serializeBool (world.doLayersCollide i j) st) st) st
  let st := world.layers.foldl (fun st layer =>
    serializeWorldLayer ops layer.terrainParts st) st
  let st := serializeUInt32 world.physicals.length st
  let st := serializeMotorizedPhysicals ops 0 world.physicals st
  let st := serializeUInt32 world.constraints.length st
  let st := world.constraints.foldl (fun st cg =>
    cg.constraints.foldl (fun st c => serializeConstraintInContext c st)
      (serializeUInt32 cg.constraints.length st)) st
  let st := serializeUInt32 world.externalForces.length st
  world.externalForces.foldl (fun st force => serializeDynamic force st) st

/-- The method `SerializationSessionPrototype::serializeParts(parts, partCount, ostream)`. -/
def serializeParts (ops : FrameOps) (parts : List Part) (st : EncodeState) : EncodeState :=
  let st := parts.foldl (fun st part => collectPartInformation part st) st
  let st := serializeCollectedHeaderInformation st
  let st := serializeUInt32 parts.length st
  parts.foldl (fun st part =>
    serializePartData part (serializePod (part.cframe.getCFrame ops) st)) st

/-- The method `DeSerializationSessionPrototype::deserializeParts(istream)`: the header, the
number of parts, then for each part its frame and its data; the parts get no layer. -/
def deserializeParts (L : Layout) : Decoder (List Part) := do
  deserializeAndCollectHeaderInformation L
  let numberOfParts ← readUInt32
  decodeLoop (fun _ => do
    let cframeOfPart ← readPod L PodType.globalCFrame
    deserializePartData L (FrameValue.read cframeOfPart) none) numberOfParts 0

/-! ## Notions used in the statements and proofs -/

/-- The box `u` is the union of the boxes of the list: it contains each of them and is
contained in every box that does. -/
def IsUnionOf (u : Bounds) (bs : List Bounds) : Prop :=
  (∀ b ∈ bs, b.le u) ∧ ∀ u', (∀ b ∈ bs, b.le u') → u.le u'

namespace TreeNode

/-- The leaf objects below a node, as a multiset. -/
def leafMultiset (t : TreeNode) : Multiset Nat := ↑(leafObjects t)

/-- The leaf-object multisets of the group heads of a tree, as a multiset. -/
def groupMultiset (t : TreeNode) : Multiset (Multiset Nat) := ↑(groupLeafSets t)

end TreeNode

/-- An arrangement is a split of the candidates: both groups are non-empty and together they
hold exactly the candidates. -/
def NodePermutation.IsSplitOf (p : NodePermutation) (allNodes : List TreeNode) : Prop :=
  p.permutationA ≠ [] ∧ p.permutationB ≠ [] ∧
    (p.permutationA ++ p.permutationB).Perm allNodes

/-- The state of the search is sound: the best cost never exceeds the initial cost, and a
recorded arrangement is a split of the candidates whose cost is the best cost, strictly below
the initial cost. -/
def BestSoFar.Sound (best : BestSoFar) (allNodes : List TreeNode) (initialBestCost : Int) :
    Prop :=
  best.bestCost ≤ initialBestCost ∧
    (best.bestPermutation.permutationA = [] ∨
      (best.bestPermutation.IsSplitOf allNodes ∧
        best.bestPermutation.cost = some best.bestCost ∧ best.bestCost < initialBestCost))

/-- What one application of a pair optimisation to the siblings `A`, `B` guarantees about the
resulting siblings `A'`, `B'`: same leaf objects, same groups, and, when `A` and `B` satisfy
the bounds-cache invariant, so do `A'` and `B'`, with the same union of their bounds. -/
structure PairStep (A B A' B' : TreeNode) : Prop where
  leaves : A'.leafMultiset + B'.leafMultiset = A.leafMultiset + B.leafMultiset
  groups : A'.groupMultiset + B'.groupMultiset = A.groupMultiset + B.groupMultiset
  valid : A.boundsValid = true → B.boundsValid = true →
    A'.boundsValid = true ∧ B'.boundsValid = true ∧
      unionOfBounds A'.bounds B'.bounds = unionOfBounds A.bounds B.bounds

/-- What a pass over the children `cs0` guarantees about the resulting children `cs`: same
number of children, same leaf objects, same groups, and, when the children `cs0` satisfy the
bounds-cache invariant, so do the children `cs`, with the same union of their bounds. -/
structure PassInv (cs0 cs : List TreeNode) : Prop where
  length : cs.length = cs0.length
  leaves : (cs.map TreeNode.leafMultiset).sum = (cs0.map TreeNode.leafMultiset).sum
  groups : (cs.map TreeNode.groupMultiset).sum = (cs0.map TreeNode.groupMultiset).sum
  valid : TreeNode.boundsValidList cs0 = true →
    TreeNode.boundsValidList cs = true ∧
      ∀ u, IsUnionOf u (cs0.map TreeNode.bounds) → IsUnionOf u (cs.map TreeNode.bounds)

namespace TreeNode
mutual
/-- The branching invariant: every internal node of the tree has at most `MAX_BRANCHES`
children. -/
def branchBounded : TreeNode → Bool
  | leaf _ _ _ => true
  | node cs _ _ => decide (cs.length ≤ MAX_BRANCHES) && branchBoundedList cs
/-- The branching invariant for every tree of a list. -/
def branchBoundedList : List TreeNode → Bool
  | [] => true
  | c :: cs => branchBounded c && branchBoundedList cs
end
end TreeNode

/-- Both groups of an arrangement fit into a child array of `MAX_BRANCHES` nodes. -/
def NodePermutation.Fits (p : NodePermutation) : Prop :=
  p.countA ≤ MAX_BRANCHES ∧ p.countB ≤ MAX_BRANCHES

/-- How a call of a checking function ends: it returns normally or it throws. -/
inductive CheckResult where
  | returned : CheckResult
  | thrown : CheckResult
  deriving DecidableEq, Repr

mutual
/-- The function `recursiveTreeValidCheck(node)` of `world.cpp`: a leaf returns at once; an
internal node recomputes the union of its children's cached bounds, throws when it differs
from its own cached bounds, and otherwise checks the children in order. The recomputation
reads `node[0]` unconditionally; on a node without children that slot holds no live node and
the result is `none`. -/
def recursiveTreeValidCheck : TreeNode → Option CheckResult
  | TreeNode.leaf _ _ _ => some CheckResult.returned
  | TreeNode.node [] _ _ => none
  | TreeNode.node (c :: cs) b _ =>
    if computeBoundsOfList c cs ≠ b then some CheckResult.thrown
    else recursiveTreeValidCheckList (c :: cs)
/-- The loop `for (TreeNode& n : node) recursiveTreeValidCheck(n)`: an exception thrown by one
call ends the loop. -/
def recursiveTreeValidCheckList : List TreeNode → Option CheckResult
  | [] => some CheckResult.returned
  | n :: ns =>
    match recursiveTreeValidCheck n with
    | some CheckResult.returned => recursiveTreeValidCheckList ns
    | r => r
end

/-- An internal node whose cached bounds differ from the union of its children's cached
bounds. -/
def TreeNode.boundsMismatch : TreeNode → Bool
  | TreeNode.node (c :: cs) b _ => decide (computeBoundsOfList c cs ≠ b)
  | _ => false

/-- Every internal node of the tree has at least one child. -/
def TreeNode.populated (t : TreeNode) : Bool :=
  t.subNodes.all (fun n => n.isLeafNode || !n.children.isEmpty)

/-- The two possible outcomes of `recursiveTreeValidCheck` over a collection of nodes: it
throws and some node has mismatching bounds, or it returns and no node has. -/
def CheckSpec (r : Option CheckResult) (nodes : List TreeNode) : Prop :=
  (r = some CheckResult.thrown ∧ ∃ n ∈ nodes, n.boundsMismatch = true) ∨
  (r = some CheckResult.returned ∧ ∀ n ∈ nodes, n.boundsMismatch = false)

/-! ## The world of `physics/world.cpp`

Parts and physicals are reached through pointers in the C++; here a pointer is a handle (a
natural number) and the objects it points to are looked up in a `Memory`. -/

namespace World

/-- A `Physical` as `world.cpp` reads it: its own handle, the handle of its main part, the
handles of its attached parts (`AttachedPart::part`) and its connected child physicals. -/
inductive Physical where
  | mk (handle : Nat) (mainPart : Nat) (parts : List Nat) (childPhysicals : List Physical) :
      Physical
  deriving Repr

namespace Physical

/-- The handle of the physical. -/
def handle : Physical → Nat
  | mk h _ _ _ => h

/-- The handle of the main part. -/
def mainPart : Physical → Nat
  | mk _ m _ _ => m

/-- The handles of the attached parts. -/
def parts : Physical → List Nat
  | mk _ _ ps _ => ps

/-- The connected child physicals. -/
def childPhysicals : Physical → List Physical
  | mk _ _ _ cs => cs

mutual
/-- The parts of the whole physical tree: the main part, the attached parts, and then the
parts of every connected child physical, recursively. -/
def allParts : Physical → List Nat
  | mk _ m ps cs => m :: ps ++ allPartsList cs
/-- The parts of the physical trees of a list. -/
def allPartsList : List Physical → List Nat
  | [] => []
  | c :: cs => allParts c ++ allPartsList cs
end

end Physical

/-- The leaf `TreeNode(part, part->getStrictBounds(), false)` for a part handle. -/
def partLeaf (getStrictBounds : Nat → Bounds) (part : Nat) : TreeNode :=
  TreeNode.leaf part (getStrictBounds part) false

mutual
/-- The function `addToNode(nodeToAddTo, physicalToAdd)`: the main part, then every attached
part, is added inside the node as a leaf that is not a group head; then the same is done for
every child physical. The bounds `getStrictBounds()` of a part are a parameter. -/
def addToNode (getStrictBounds : Nat → Bounds) : TreeNode → Physical → TreeNode
  | nodeToAddTo, Physical.mk _ mainPart parts childPhysicals =>
    addToNodeChildren getStrictBounds
      (parts.foldl (fun node p => node.addInside (partLeaf getStrictBounds p))
        (nodeToAddTo.addInside (partLeaf getStrictBounds mainPart)))
      childPhysicals
/-- The loop `for (conPhys : childPhysicals) addToNode(node, &conPhys)`. -/
def addToNodeChildren (getStrictBounds : Nat → Bounds) : TreeNode → List Physical → TreeNode
  | node, [] => node
  | node, conPhys :: rest =>
    addToNodeChildren getStrictBounds (addToNode getStrictBounds node conPhys) rest
end

/-- The function `createNodeFor(phys)`: a leaf for the main part, flagged as group head, into
which every attached part and then every child physical is added. -/
def createNodeFor (getStrictBounds : Nat → Bounds) : Physical → TreeNode
  | Physical.mk _ mainPart parts childPhysicals =>
    addToNodeChildren getStrictBounds
      (parts.foldl (fun newNode p => newNode.addInside (partLeaf getStrictBounds p))
        (TreeNode.leaf mainPart (getStrictBounds mainPart) true))
      childPhysicals

/-- What the pointers of a world operation point to: for a part handle its `parent` physical
(`none` for `nullptr`) and its `getStrictBounds()`; for a physical handle its `mainPhysical`;
for the handle of a motorized physical its `world` (`none` for `nullptr`) and its tree of
physicals. -/
structure Memory where
  parent : Nat → Option Nat
  strictBounds : Nat → Bounds
  mainPhysical : Nat → Nat
  world : Nat → Option Nat
  physical : Nat → Physical

/-- The `WorldPrototype` as far as `world.cpp` touches it: the root nodes of the two trees,
the pointers to the motorized physicals, the object count and the external forces. -/
structure WorldPrototype where
  objectTree : TreeNode
  terrainTree : TreeNode
  physicals : List Nat
  objectCount : Nat
  externalForces : List Nat
  deriving Repr

/-- A world together with the memory its pointers point into. -/
structure WorldState where
  world : WorldPrototype
  memory : Memory

/-- The methods `world.cpp` calls whose code is not among the sources at hand:
`Part::ensureHasParent`, `Physical::getPartCount`, `Physical::setAnchored` and
`BoundsTree::add(TreeNode&&)` on the root node of a tree. -/
structure WorldOps where
  ensureHasParent : Memory → Nat → Memory
  getPartCount : Memory → Nat → Nat
  setAnchored : Memory → Nat → Bool → Memory
  add : TreeNode → TreeNode → TreeNode

mutual
/-- The function `isPhysicalValid(phys, mainPhys)`: the physical's `mainPhysical` is
`mainPhys`, every part of the physical has the physical as `parent`, and the same holds for
the child physicals. -/
def isPhysicalValid (memory : Memory) (mainPhys : Nat) : Physical → Bool
  | Physical.mk handle mainPart parts childPhysicals =>
    if memory.mainPhysical handle ≠ mainPhys then false
    else if (mainPart :: parts).any (fun part => memory.parent part ≠ some handle) then false
    else isPhysicalValidChildren memory mainPhys childPhysicals
/-- The loop of `isPhysicalValid` over the child physicals. -/
def isPhysicalValidChildren (memory : Memory) (mainPhys : Nat) : List Physical → Bool
  | [] => true
  | subPhys :: rest =>
    if !isPhysicalValid memory mainPhys subPhys then false
    else isPhysicalValidChildren memory mainPhys rest
end

/-- The first loop of `WorldPrototype::isValid`: every physical of the world points back to
the world and is valid. -/
def physicalsValid (this : Nat) (memory : Memory) : List Nat → Bool
  | [] => true
  | phys :: rest =>
    if memory.world phys ≠ some this then false
    else if !isPhysicalValid memory phys (memory.physical phys) then false
    else physicalsValid this memory rest

/-- The method `WorldPrototype::isValid()`: `some (some b)` when it returns `b`,
`some none` when `recursiveTreeValidCheck` throws, `none` when the check reads the children
of a node without children. -/
def WorldPrototype.isValid (this : Nat) (s : WorldState) : Option (Option Bool) :=
  if !physicalsValid this s.memory s.world.physicals then some (some false)
  else
    match recursiveTreeValidCheck s.world.objectTree with
    | some CheckResult.returned =>
      match recursiveTreeValidCheck s.world.terrainTree with
      | some CheckResult.returned => some (some true)
      | some CheckResult.thrown => some none
      | none => none
    | some CheckResult.thrown => some none
    | none => none

/-- The macro `ASSERT_VALID`: in a debug build (`NDEBUG` not defined) it throws when
`isValid()` returns false, and an exception of `isValid()` passes through; in a release build
it is empty. -/
def WorldPrototype.assertValid (debug : Bool) (this : Nat) (s : WorldState) :
    Option CheckResult :=
  if debug then
    match WorldPrototype.isValid this s with
    | some (some true) => some CheckResult.returned
    | some (some false) => some CheckResult.thrown
    | some none => some CheckResult.thrown
    | none => none
  else some CheckResult.returned

/-- The method `WorldPrototype::addPart(part, anchored)` on the world `this`: the state it
leaves and how it ends (`none`: a null pointer or a node without children was read). -/
def WorldPrototype.addPart (ops : WorldOps) (debug : Bool) (this : Nat) (s : WorldState)
    (part : Nat) (anchored : Bool) : WorldState × Option CheckResult :=
  match WorldPrototype.assertValid debug this s with
  | some CheckResult.returned =>
    let memory1 := ops.ensureHasParent s.memory part
    match memory1.parent part with
    | none => (⟨s.world, memory1⟩, none)
    | some parent =>
      let mainPhysical := memory1.mainPhysical parent
      if memory1.world mainPhysical = some this then
        (⟨s.world, memory1⟩, WorldPrototype.assertValid debug this ⟨s.world, memory1⟩)
      else
        let world1 : WorldPrototype :=
          { s.world with
            objectTree := ops.add s.world.objectTree
              (createNodeFor memory1.strictBounds (memory1.physical mainPhysical))
            physicals := s.world.physicals ++ [mainPhysical]
            objectCount := s.world.objectCount + ops.getPartCount memory1 parent }
        let memory2 : Memory :=
          { memory1 with world := Function.update memory1.world mainPhysical (some this) }
        let memory3 := ops.setAnchored memory2 parent anchored
        (⟨world1, memory3⟩, WorldPrototype.assertValid debug this ⟨world1, memory3⟩)
  | r => (s, r)

end World

/-- No node of the tree is flagged as a group head. -/
def TreeNode.plain (t : TreeNode) : Prop :=
  ∀ n ∈ t.subNodes, n.isGroupHead = false

/-- The loop `for (p : parts) node.addInside(TreeNode(p, p->getStrictBounds(), false))`. -/
def World.insertParts (getStrictBounds : Nat → Bounds) (node : TreeNode) (parts : List Nat) :
    TreeNode :=
  parts.foldl (fun node p => node.addInside (World.partLeaf getStrictBounds p)) node

/-! ## Inertia (`physics/inertia.cpp`)

The arithmetic is exact: the scalars are the elements of a commutative ring `K`. A `Vec3` is a
vector and a `Mat3` or `SymmetricMat3` a matrix over `K`; a `Rotation` is given by its
rotation matrix. -/

/-- A vector `Vec3`. -/
abbrev Vec3 (K : Type) := Fin 3 → K

/-- A matrix `Mat3`; a `SymmetricMat3` is a `Mat3` that equals its transpose. -/
abbrev Mat3 (K : Type) := Matrix (Fin 3) (Fin 3) K

/-- Modelled from the spec: a `CFrame` (absent header) is an offset "position" together with
a rotation, given by its rotation matrix. -/
structure CFrame (K : Type) where
  position : Vec3 K
  rotation : Mat3 K

/-- Modelled from the spec: `CFrame::localToGlobal(Vec3)` (absent header) rotates the vector
and adds the position of the frame. -/
def CFrame.localToGlobal {K : Type} [CommRing K] (cframe : CFrame K) (v : Vec3 K) : Vec3 K :=
  cframe.rotation.mulVec v + cframe.position

/-- Modelled from the spec: `Rotation::localToGlobal(SymmetricMat3)` (absent header) is the
rotated tensor `R·I·Rᵗ`. -/
def Rotation.localToGlobal {K : Type} [CommRing K] (rotation : Mat3 K) (m : Mat3 K) : Mat3 K :=
  rotation * m * rotation.transpose

/-- The skew-symmetric matrix of a vector `v`, whose product with `w` is the cross product
`v × w`. -/
def skewSymmetric {K : Type} [CommRing K] (v : Vec3 K) : Mat3 K :=
  Matrix.of ![![0, -v 2, v 1], ![v 2, 0, -v 0], ![-v 1, v 0, 0]]

/-- Modelled from the spec: `skewSymmetricSquared(v)` (absent header) is `skew(v)²`, the
square of the skew-symmetric matrix of `v`. -/
def skewSymmetricSquared {K : Type} [CommRing K] (v : Vec3 K) : Mat3 K :=
  skewSymmetric v * skewSymmetric v

/-- The function `getRotatedInertia(originalInertia, rotation)`. -/
def getRotatedInertia {K : Type} [CommRing K] (originalInertia : Mat3 K) (rotation : Mat3 K) :
    Mat3 K :=
  Rotation.localToGlobal rotation originalInertia

/-- The function `getTranslatedInertia(originalInertia, mass, translation, centerOfMass)`. -/
def getTranslatedInertia {K : Type} [CommRing K] (originalInertia : Mat3 K) (mass : K)
    (translation centerOfMass : Vec3 K) : Mat3 K :=
  let translationFactor :=
    skewSymmetricSquared (translation + centerOfMass) - skewSymmetricSquared centerOfMass
  originalInertia - mass • translationFactor

/-- The function `getTranslatedInertiaAroundCenterOfMass(originalInertia, mass, COMOffset)`. -/
def getTranslatedInertiaAroundCenterOfMass {K : Type} [CommRing K] (originalInertia : Mat3 K)
    (mass : K) (COMOffset : Vec3 K) : Mat3 K :=
  let translationFactor := skewSymmetricSquared COMOffset
  originalInertia - mass • translationFactor

/-- The function `getTransformedInertia(originalInertia, mass, cframe, centerOfMass)`. -/
def getTransformedInertia {K : Type} [CommRing K] (originalInertia : Mat3 K) (mass : K)
    (cframe : CFrame K) (centerOfMass : Vec3 K) : Mat3 K :=
  getTranslatedInertia (Rotation.localToGlobal cframe.rotation originalInertia) mass
    cframe.position centerOfMass

/-- The overload `getTransformedInertiaAroundCenterOfMass(originalInertia, mass,
offsetCFrame)`; `translationFactor * mass` is the matrix scaled by the mass. -/
def getTransformedInertiaAroundCenterOfMass {K : Type} [CommRing K] (originalInertia : Mat3 K)
    (mass : K) (offsetCFrame : CFrame K) : Mat3 K :=
  let translationFactor := skewSymmetricSquared offsetCFrame.position
  getRotatedInertia originalInertia offsetCFrame.rotation - mass • translationFactor

/-- The overload `getTransformedInertiaAroundCenterOfMass(originalInertia, mass,
localCenterOfMass, offsetCFrame, totalCenterOfMass)`. -/
def getTransformedInertiaAroundCenterOfMassOf {K : Type} [CommRing K] (originalInertia : Mat3 K)
    (mass : K) (localCenterOfMass : Vec3 K) (offsetCFrame : CFrame K)
    (totalCenterOfMass : Vec3 K) : Mat3 K :=
  let resultingOffset := offsetCFrame.localToGlobal localCenterOfMass - totalCenterOfMass
  getTransformedInertiaAroundCenterOfMass originalInertia mass
    ⟨resultingOffset, offsetCFrame.rotation⟩

/-- An attached part as the inertia composition reads it: its inertia tensor around its own
centre of mass, its mass, its local centre of mass and its offset frame. -/
structure InertiaPart (K : Type) where
  inertia : Mat3 K
  mass : K
  localCenterOfMass : Vec3 K
  offsetCFrame : CFrame K

/-- Modelled from the spec: the composed inertia of a rigid body around the common centre of
mass (the composing loop is absent from the sources): "for each attached part, translate the
part's local inertia tensor to the common center of mass [...], then sum". -/
def composedInertia {K : Type} [CommRing K] (totalCenterOfMass : Vec3 K)
    (parts : List (InertiaPart K)) : Mat3 K :=
  (parts.map (fun p => getTransformedInertiaAroundCenterOfMassOf p.inertia p.mass
    p.localCenterOfMass p.offsetCFrame totalCenterOfMass)).sum

/-! ## Finding an object: the find constructor of `NodeStack` -/

/-- One element `TreeStackElement{node, index}` of the stack of a cursor. -/
structure TreeStackElement where
  node : TreeNode
  index : Nat
  deriving Repr

/-- Modelled from the spec: `Bounds::contains(const Bounds&)` (declared in the absent
`math/bounds.h`) tells whether the other box lies within this box, "does this subtree's
bounds contain the target's bounds". -/
def Bounds.contains (b other : Bounds) : Bool :=
  decide (b.min.x ≤ other.min.x ∧ b.min.y ≤ other.min.y ∧ b.min.z ≤ other.min.z ∧
          other.max.x ≤ b.max.x ∧ other.max.y ≤ b.max.y ∧ other.max.z ≤ b.max.z)

/-- How the find constructor ends: with the stack `stack[0..top]` of the cursor, bottom
first, or by throwing `std::logic_error("Could not find obj in Tree!")`. -/
inductive FindResult where
  | found (stack : List TreeStackElement) : FindResult
  | thrown : FindResult
  deriving Repr

/-- The loop `while(true)` of the find constructor, with `fuel` iterations left, on the stack
given by its `top` element and the elements `below` it (nearest first). When `top->index` is
not `nodeCount` the child `nextNode` at that index is looked at: a leaf that holds the object
within bounds that contain `objBounds` ends the search with the leaf pushed, an internal node
with such bounds is pushed, anything else is skipped by `top->index++`. Otherwise the stack is
popped; this ends the loop when the stack becomes empty, and else the new top's index is
incremented. Without fuel the result is `none`. -/
def findLoop (objToFind : Nat) (objBounds : Bounds) :
    Nat → TreeStackElement → List TreeStackElement → Option FindResult
  | 0, _, _ => none
  | fuel + 1, top, below =>
    if top.index ≠ top.node.children.length then
      match top.node.children[top.index]? with
      | none => none
      | some nextNode =>
        if nextNode.bounds.contains objBounds then
          match nextNode with
          | TreeNode.leaf object _ _ =>
            if object = objToFind then
              some (FindResult.found ((⟨nextNode, 0⟩ :: top :: below).reverse))
            else findLoop objToFind objBounds fuel ⟨top.node, top.index + 1⟩ below
          | TreeNode.node _ _ _ =>
            findLoop objToFind objBounds fuel ⟨nextNode, 0⟩ (top :: below)
        else findLoop objToFind objBounds fuel ⟨top.node, top.index + 1⟩ below
    else
      match below with
      | [] => some FindResult.thrown
      | parent :: rest =>
        findLoop objToFind objBounds fuel ⟨parent.node, parent.index + 1⟩ rest

/-- The find constructor `NodeStack(rootNode, objToFind, objBounds)`. On a root without
children the delegated constructor leaves the stack empty and the find throws; a leaf root is
compared with the object; otherwise the loop runs, here with two iterations per node of the
tree and one more, which is enough for it to end on every tree. -/
def NodeStack.find (rootNode : TreeNode) (objToFind : Nat) (objBounds : Bounds) :
    Option FindResult :=
  match rootNode with
  | TreeNode.node [] _ _ => some FindResult.thrown
  | TreeNode.leaf object _ _ =>
    if object = objToFind then some (FindResult.found [⟨rootNode, 0⟩])
    else some FindResult.thrown
  | TreeNode.node (c :: cs) _ _ =>
    findLoop objToFind objBounds (2 * (TreeNode.subNodesList (c :: cs)).length + 1)
      ⟨rootNode, 0⟩ []

mutual
/-- The object is held by a leaf of the subtree that is reached through nodes whose cached
bounds, the subtree's own and the leaf's included, contain `objBounds`. -/
def TreeNode.holdsWithin (objToFind : Nat) (objBounds : Bounds) : TreeNode → Bool
  | TreeNode.leaf object bounds _ => bounds.contains objBounds && decide (object = objToFind)
  | TreeNode.node cs bounds _ =>
    bounds.contains objBounds && TreeNode.holdsWithinList objToFind objBounds cs
/-- Some subtree of the list holds the object in that way. -/
def TreeNode.holdsWithinList (objToFind : Nat) (objBounds : Bounds) : List TreeNode → Bool
  | [] => false
  | c :: cs =>
    TreeNode.holdsWithin objToFind objBounds c || TreeNode.holdsWithinList objToFind objBounds cs
end

/-- The link between two consecutive elements of a stack: the node of the upper element is
the child, at the index of the lower element, of the node of the lower element. -/
def TreeStackElement.Link (lower upper : TreeStackElement) : Prop :=
  lower.node.children[lower.index]? = some upper.node

/-- The stack (bottom first) is a cursor from the root to a leaf holding the object: its
first element is the root, consecutive elements are linked, and its top element is a leaf
holding the object. -/
def IsCursorTo (rootNode : TreeNode) (objToFind : Nat) (stack : List TreeStackElement) : Prop :=
  (∃ i, stack.head? = some ⟨rootNode, i⟩) ∧
  List.Chain' TreeStackElement.Link stack ∧
  ∃ bounds flag, stack.getLast? = some ⟨TreeNode.leaf objToFind bounds flag, 0⟩

/-- What exploring the children `rem` of a node from the index `pre.length` on gives, within
`n` iterations of the loop: a cursor to a leaf holding the object, or the node left with all
its children visited and no leaf holding the object within containing bounds below them. -/
def Explored (objToFind : Nat) (objBounds : Bounds) (pre rem : List TreeNode) (b : Bounds)
    (g : Bool) (below : List TreeStackElement) (n : Nat) : Prop :=
  (TreeNode.holdsWithinList objToFind objBounds rem = true ∧
    ∃ (stk : List TreeStackElement) (j : Nat) (lb : Bounds) (lg : Bool),
      (∀ fuel, findLoop objToFind objBounds (fuel + n)
          ⟨TreeNode.node (pre ++ rem) b g, pre.length⟩ below
        = some (FindResult.found ((⟨TreeNode.leaf objToFind lb lg, 0⟩ :: stk ++
            ⟨TreeNode.node (pre ++ rem) b g, j⟩ :: below).reverse))) ∧
      List.Chain' (flip TreeStackElement.Link)
        (⟨TreeNode.leaf objToFind lb lg, 0⟩ :: stk ++ [⟨TreeNode.node (pre ++ rem) b g, j⟩])) ∨
  (TreeNode.holdsWithinList objToFind objBounds rem = false ∧
    ∀ fuel, findLoop objToFind objBounds (fuel + n)
        ⟨TreeNode.node (pre ++ rem) b g, pre.length⟩ below
      = findLoop objToFind objBounds fuel
          ⟨TreeNode.node (pre ++ rem) b g, (pre ++ rem).length⟩ below)

/-- An assignment of the candidates, in their order, to the two groups: `Splits l A B` says
that `A` and `B` are the candidates of `l` put into group A and into group B. -/
inductive Splits : List TreeNode → List TreeNode → List TreeNode → Prop where
  | nil : Splits [] [] []
  | inA (c : TreeNode) {l A B : List TreeNode} : Splits l A B → Splits (c :: l) (c :: A) B
  | inB (c : TreeNode) {l A B : List TreeNode} : Splits l A B → Splits (c :: l) A (c :: B)

/-! ## Soft links (`physics/softlinks/softLink.cpp`)

The frame types are declared in absent headers and are type parameters here: `G` stands for
`GlobalCFrame`, `C` for `CFrame` and `V` for `Vec3`; the methods
`GlobalCFrame::localToRelative(CFrame)` and `CFrame::getPosition()` are function
parameters. -/

/-- A `SoftLink::AttachedPart`: the attachment and the part, the part being given by its
frame, which is all `softLink.cpp` reads of it (`part->getCFrame()`). -/
structure SoftLink.AttachedPart (G C : Type) where
  attachment : C
  part : G

/-- A `SoftLink`: its two attached parts. -/
structure SoftLink (G C : Type) where
  attachedPart1 : SoftLink.AttachedPart G C
  attachedPart2 : SoftLink.AttachedPart G C

namespace SoftLink

/-- The method `getGlobalCFrameOfAttach1`. -/
def getGlobalCFrameOfAttach1 {G C : Type} (link : SoftLink G C) : G :=
  link.attachedPart1.part

/-- The method `getGlobalCFrameOfAttach2`. -/
def getGlobalCFrameOfAttach2 {G C : Type} (link : SoftLink G C) : G :=
  link.attachedPart2.part

/-- The method `getRelativeOfAttach1`. -/
def getRelativeOfAttach1 {G C : Type} (localToRelative : G → C → C) (link : SoftLink G C) : C :=
  localToRelative link.getGlobalCFrameOfAttach1 link.attachedPart1.attachment

/-- The method `getRelativeOfAttach2`. -/
def getRelativeOfAttach2 {G C : Type} (localToRelative : G → C → C) (link : SoftLink G C) : C :=
  localToRelative link.getGlobalCFrameOfAttach2 link.attachedPart2.attachment

/-- The method `getRelativePositionOfAttach1`. -/
def getRelativePositionOfAttach1 {G C V : Type} (localToRelative : G → C → C)
    (getPosition : C → V)
    (link : SoftLink G C) : V :=
  getPosition (link.getRelativeOfAttach1 localToRelative)

/-- The method `getRelativePositionOfAttach2`, which returns
`this->getRelativeOfAttach1().getPosition()`. -/
def getRelativePositionOfAttach2 {G C V : Type} (localToRelative : G → C → C)
    (getPosition : C → V)
    (link : SoftLink G C) : V :=
  getPosition (link.getRelativeOfAttach1 localToRelative)

end SoftLink

/-- The algorithm `std::remove(first, last, value)` of the C++ standard library on a vector
of pointers: the elements different from `value` are moved to the front, in their order, and
the iterator behind them is returned. The result is the vector after the call together with
the position of that iterator; the elements from that position on are not written by the
algorithm and are as they were. -/
def stdRemove (value : Nat) (v : List Nat) : List Nat × Nat :=
  let kept := v.filter (fun x => decide (x ≠ value))
  (kept ++ v.drop kept.length, kept.length)

/-- The call `vector::erase(position)` with a single iterator: the one element at `position`
is erased. Erasing at `end()` is undefined (`none`). -/
def vectorErase (v : List Nat) (position : Nat) : Option (List Nat) :=
  if position < v.length then some (v.eraseIdx position) else none

/-- The method `WorldPrototype::addExternalForce(force)`: `externalForces.push_back(force)`. -/
def World.WorldPrototype.addExternalForce (world : World.WorldPrototype) (force : Nat) :
    World.WorldPrototype :=
  { world with externalForces := world.externalForces ++ [force] }

/-- The method `WorldPrototype::removeExternalForce(force)`:
`externalForces.erase(std::remove(externalForces.begin(), externalForces.end(), force))`. -/
def World.WorldPrototype.removeExternalForce (world : World.WorldPrototype) (force : Nat) :
    Option World.WorldPrototype :=
  let removed := stdRemove force world.externalForces
  (vectorErase removed.1 removed.2).map
    (fun forces => { world with externalForces := forces })

namespace TreeNode
mutual
/-- The method `TreeNode::getNumberOfObjectsInNode()`: 1 for a leaf, the sum over the children
for an internal node. -/
def getNumberOfObjectsInNode : TreeNode → Nat
  | leaf _ _ _ => 1
  | node cs _ _ => getNumberOfObjectsInList cs
/-- The loop `for (subNode : *this) runningTotal += subNode.getNumberOfObjectsInNode()`. -/
def getNumberOfObjectsInList : List TreeNode → Nat
  | [] => 0
  | c :: cs => getNumberOfObjectsInNode c + getNumberOfObjectsInList cs
end
end TreeNode

/-! ## The visibility filter (`physics/misc/filters/visibilityFilter.cpp`)

The arithmetic is exact: the `double` values are the elements of a linearly ordered field
`K`. -/

/-- The dot product `v * w` of two vectors. -/
def Vec3.dot {K : Type} [LinearOrderedField K] (v w : Vec3 K) : K :=
  v 0 * w 0 + v 1 * w 1 + v 2 * w 2

/-- The difference `point - origin` of two positions as a vector of exact numbers: the
difference of the raw fixed-point values, scaled by `2^-32`. -/
def Position.minus {K : Type} [LinearOrderedField K] (point origin : Position) : Vec3 K :=
  ![((point.x - origin.x : Int) : K) / 4294967296,
    ((point.y - origin.y : Int) : K) / 4294967296,
    ((point.z - origin.z : Int) : K) / 4294967296]

/-- A `VisibilityFilter`: the origin, the five normals and the maximal depth. -/
structure VisibilityFilter (K : Type) where
  origin : Position
  up : Vec3 K
  down : Vec3 K
  left : Vec3 K
  right : Vec3 K
  forward : Vec3 K
  maxDepth : K

namespace VisibilityFilter

/-- The arrays `normals[5]` and `offsets[5]` of both tests, as pairs. -/
def planes {K : Type} [LinearOrderedField K] (filter : VisibilityFilter K) :
    List (Vec3 K × K) :=
  [(filter.up, 0), (filter.down, 0), (filter.left, 0), (filter.right, 0),
   (filter.forward, filter.maxDepth)]

/-- The test `operator()(const Position& point)`: false as soon as, for one of the five
normals, `(point - origin) * normal > offset`. -/
def onPosition {K : Type} [LinearOrderedField K] (filter : VisibilityFilter K)
    (point : Position) : Bool :=
  filter.planes.all (fun plane =>
    !decide (Vec3.dot (Position.minus point filter.origin) plane.1 > plane.2))

/-- The corner `cornerOfInterest` of a box for a normal: per axis the `min` coordinate where
the component of the normal is not negative and the `max` coordinate otherwise. -/
def cornerOfInterest {K : Type} [LinearOrderedField K] (normal : Vec3 K) (bounds : Bounds) :
    Position :=
  ⟨if normal 0 ≥ 0 then bounds.min.x else bounds.max.x,
   if normal 1 ≥ 0 then bounds.min.y else bounds.max.y,
   if normal 2 ≥ 0 then bounds.min.z else bounds.max.z⟩

/-- The test `operator()(const Bounds& bounds)`: false as soon as, for one of the five
normals, `(cornerOfInterest - origin) * normal > offset`. -/
def onBounds {K : Type} [LinearOrderedField K] (filter : VisibilityFilter K)
    (bounds : Bounds) : Bool :=
  filter.planes.all (fun plane =>
    !decide (Vec3.dot (Position.minus (cornerOfInterest plane.1 bounds) filter.origin) plane.1
      > plane.2))

end VisibilityFilter

/-- The cost `optimizeNodePairVertical` computes for index `i` of the group: the cost of the
union of the node's bounds with the bounds of all children of the group but child `i`. -/
def exchangeCost (node : TreeNode) (group : List TreeNode) (i : Nat) : Int :=
  computeCost (foldBounds node.bounds (group.eraseIdx i))

namespace TreeNode

mutual
/-- Every internal node of the tree, the node itself included, has at least 2 children. -/
def wellBranched : TreeNode → Bool
  | leaf _ _ _ => true
  | node cs _ _ => decide (2 ≤ cs.length) && wellBranchedList cs
/-- Every internal node of every tree of a list has at least 2 children. -/
def wellBranchedList : List TreeNode → Bool
  | [] => true
  | c :: cs => wellBranched c && wellBranchedList cs
end

/-- Every internal node of the tree other than the root has at least 2 children. -/
def wellBranchedBelowRoot (t : TreeNode) : Bool :=
  wellBranchedList t.children

end TreeNode

/-! ## Notions used in the statements and proofs: serialization -/

/-- The bytes `serializePolyhedron` writes. -/
def polyhedronBytes (vertices triangles : List (List Nat)) : List Nat :=
  toLittleEndian 4 vertices.length ++ toLittleEndian 4 triangles.length ++
    vertices.flatten ++ triangles.flatten

/-- The bytes of one entry of the shape-class registry. -/
def shapeClassBytes : ShapeClass → List Nat
  | ShapeClass.polyhedron vertices triangles =>
    toLittleEndian 4 0 ++ polyhedronBytes vertices triangles
  | ShapeClass.builtin _ => []

/-- The bytes of the shape-class registry: the number of entries, then the entries. -/
def registryBytes (included : List ShapeClass) : List Nat :=
  toLittleEndian 4 included.length ++ (included.map shapeClassBytes).flatten

/-- The bytes of a shape, the ids being the positions in `known`. -/
def shapeBytes (known : List ShapeClass) (shape : Shape) : List Nat :=
  toLittleEndian 4 (known.indexOf shape.baseShape) ++ shape.width ++ shape.height ++
    shape.depth

/-- The bytes of the data of a part: shape and properties. -/
def partDataBytes (known : List ShapeClass) (part : Part) : List Nat :=
  shapeBytes known part.hitbox ++ part.properties

/-- The bytes of a part of a rigid body: layer id and data. -/
def bodyPartBytes (known : List ShapeClass) (part : Part) : List Nat :=
  toLittleEndian 4 part.getLayerID ++ partDataBytes known part

/-- The bytes of a rigid body. -/
def rigidBodyBytes (known : List ShapeClass) (rigidBody : RigidBody) : List Nat :=
  bodyPartBytes known rigidBody.mainPart ++ toLittleEndian 4 rigidBody.parts.length ++
    (rigidBody.parts.map (fun atPart =>
      atPart.attachment ++ bodyPartBytes known atPart.part)).flatten

/-- The bytes of a polymorphic object: discriminant and payload. -/
def dynamicBytes (object : DynamicObject) : List Nat :=
  toLittleEndian 4 object.classId ++ object.payload

/-- The bytes of a connection to the parent. -/
def hardConnectionBytes (connection : HardPhysicalConnection) : List Nat :=
  connection.attachOnChild ++ connection.attachOnParent ++
    dynamicBytes connection.constraintWithParent

mutual
/-- The bytes of a child physical: connection, rigid body, number of children, children. -/
def connectedPhysicalBytes (known : List ShapeClass) : ConnectedPhysical → List Nat
  | ConnectedPhysical.mk connectionToParent rigidBody childPhysicals =>
    hardConnectionBytes connectionToParent ++ rigidBodyBytes known rigidBody ++
      toLittleEndian 4 childPhysicals.length ++ childPhysicalsBytes known childPhysicals
/-- The bytes of a list of child physicals. -/
def childPhysicalsBytes (known : List ShapeClass) : List ConnectedPhysical → List Nat
  | [] => []
  | p :: ps => connectedPhysicalBytes known p ++ childPhysicalsBytes known ps
end

/-- The bytes of a motorized physical: motion, frame of the main part, rigid body, number of
children, children. -/
def motorizedPhysicalBytes (ops : FrameOps) (known : List ShapeClass)
    (phys : MotorizedPhysical) : List Nat :=
  phys.motionOfCenterOfMass ++ phys.rigidBody.mainPart.cframe.getCFrame ops ++
    rigidBodyBytes known phys.rigidBody ++ toLittleEndian 4 phys.childPhysicals.length ++
    childPhysicalsBytes known phys.childPhysicals

/-- The bytes of a constraint, `index` giving the number of a physical. -/
def constraintBytes (index : PhysicalRef → Nat) (constraint : PhysicalConstraint) :
    List Nat :=
  toLittleEndian 4 (index constraint.physA) ++ toLittleEndian 4 (index constraint.physB) ++
    dynamicBytes constraint.constraint

/-- The bytes of a constraint group: the number of constraints, then the constraints. -/
def constraintGroupBytes (index : PhysicalRef → Nat) (group : ConstraintGroup) : List Nat :=
  toLittleEndian 4 group.constraints.length ++
    (group.constraints.map (constraintBytes index)).flatten

/-- The parts of a layer tree that have no parent. -/
def unPhysicaledParts (layer : List LayerPart) : List Part :=
  (layer.filter (fun p => !p.hasParent)).map LayerPart.part

/-- The bytes of a part written with its frame: frame and data. -/
def framedPartBytes (ops : FrameOps) (known : List ShapeClass) (part : Part) : List Nat :=
  part.cframe.getCFrame ops ++ partDataBytes known part

/-- The terrain-layer record of a layer tree: the number of parts without a parent, then
these parts. -/
def worldLayerBytes (ops : FrameOps) (known : List ShapeClass) (layer : List LayerPart) :
    List Nat :=
  toLittleEndian 4 (unPhysicaledParts layer).length ++
    ((unPhysicaledParts layer).map (framedPartBytes ops known)).flatten

/-- The collide flags of a world, one byte for each pair `(i, j)` with `j ≤ i`, row by
row. -/
def collideFlagBytes (world : SourceWorld) : List Nat :=
  (layerPairs world.getLayerCount).map
    (fun ij => if world.doLayersCollide ij.1 ij.2 then 1 else 0)

mutual
/-- The pointers of a child physical with pointer `ref` and of its descendants, in
depth-first pre-order. -/
def ConnectedPhysical.preorder : PhysicalRef → ConnectedPhysical → List PhysicalRef
  | ref, ConnectedPhysical.mk _ _ childPhysicals => ref :: childrenPreorder ref 0 childPhysicals
/-- The pointers of the children of `parentRef` from child `i` on, each followed by its
descendants. -/
def childrenPreorder : PhysicalRef → Nat → List ConnectedPhysical → List PhysicalRef
  | _, _, [] => []
  | parentRef, i, p :: ps =>
    ConnectedPhysical.preorder (parentRef ++ [i]) p ++ childrenPreorder parentRef (i + 1) ps
end

/-- The pointers of the physicals of a list of motorized physicals whose first element is
number `i`, in depth-first pre-order. -/
def physicalsPreorder : Nat → List MotorizedPhysical → List PhysicalRef
  | _, [] => []
  | i, p :: ps => ([i] :: childrenPreorder [i] 0 p.childPhysicals) ++ physicalsPreorder (i + 1) ps

/-- The number a map gives a physical: the index stored for its pointer, 0 when there is
none. -/
def indexIn (map : List (PhysicalRef × Nat)) (phys : PhysicalRef) : Nat :=
  (map.lookup phys).getD 0

/-- The shape classes a session has included after including the given classes one by one:
a class that is neither predefined nor included yet goes to the end. -/
def includeAll (predefined : List ShapeClass) :
    List ShapeClass → List ShapeClass → List ShapeClass
  | included, [] => included
  | included, c :: cs =>
    includeAll predefined (if c ∈ predefined ++ included then included else included ++ [c]) cs

/-- The session state after the given shape classes have been included one by one. -/
def EncodeState.collect (st : EncodeState) (classes : List ShapeClass) : EncodeState :=
  { st with included := includeAll st.predefined st.included classes }

/-- The session state with `physicalIndexMap` replaced. -/
def EncodeState.withMap (st : EncodeState) (map : List (PhysicalRef × Nat)) : EncodeState :=
  { st with physicalIndexMap := map }

/-- The numbering of a list of physicals, one `emplace` after the other. -/
def emplaceAll (refs : List PhysicalRef) (st : EncodeState) : EncodeState :=
  refs.foldl (fun st ref => emplacePhysical ref st) st

/-- The shape classes of the parts of a rigid body, main part first. -/
def RigidBody.shapeClasses (rigidBody : RigidBody) : List ShapeClass :=
  rigidBody.mainPart.hitbox.baseShape ::
    rigidBody.parts.map (fun atPart => atPart.part.hitbox.baseShape)

mutual
/-- The shape classes of the parts of a child physical and of its descendants. -/
def ConnectedPhysical.shapeClasses : ConnectedPhysical → List ShapeClass
  | ConnectedPhysical.mk _ rigidBody childPhysicals =>
    rigidBody.shapeClasses ++ childrenShapeClasses childPhysicals
/-- The shape classes of the parts of a list of child physicals. -/
def childrenShapeClasses : List ConnectedPhysical → List ShapeClass
  | [] => []
  | p :: ps => ConnectedPhysical.shapeClasses p ++ childrenShapeClasses ps
end

/-- The shape classes `serializeWorld` collects, in the order of collection. -/
def SourceWorld.shapeClasses (world : SourceWorld) : List ShapeClass :=
  (world.physicals.map (fun p =>
    p.rigidBody.shapeClasses ++ childrenShapeClasses p.childPhysicals)).flatten ++
  (world.layers.map (fun clayer =>
    (unPhysicaledParts clayer.freeParts ++ unPhysicaledParts clayer.terrainParts).map
      (fun part => part.hitbox.baseShape))).flatten

/-- The parts of a rigid body in the order in which `serializeRigidBodyInContext` calls
`serializePartData`: the main part, then the attached parts. -/
def RigidBody.allParts (rigidBody : RigidBody) : List Part :=
  rigidBody.mainPart :: rigidBody.parts.map (fun atPart => atPart.part)

mutual
/-- The parts of a child physical and of its descendants, in the order in which
`serializePhysicalInContext` reaches them. -/
def ConnectedPhysical.allParts : ConnectedPhysical → List Part
  | ConnectedPhysical.mk _ rigidBody childPhysicals =>
    rigidBody.allParts ++ childrenParts childPhysicals
/-- The parts of a list of child physicals and of their descendants. -/
def childrenParts : List ConnectedPhysical → List Part
  | [] => []
  | p :: ps => ConnectedPhysical.allParts p ++ childrenParts ps
end

/-- The parts of the whole tree of a motorized physical. -/
def MotorizedPhysical.allParts (phys : MotorizedPhysical) : List Part :=
  phys.rigidBody.allParts ++ childrenParts phys.childPhysicals

/-- The layout of the stream of a world: the version tag, the shape-class registry, the age,
the number of layers, the collide flags, one terrain-layer record for each layer, the number
of physicals and the physicals, the number of constraint groups and the groups, the number
of external forces and the forces. The registry holds `included`, shape ids are positions in
`known`, and `index` numbers the physicals. -/
def worldBytes (ops : FrameOps) (included known : List ShapeClass)
    (index : PhysicalRef → Nat) (world : SourceWorld) : List Nat :=
  toLittleEndian 4 CURRENT_VERSION_ID ++ registryBytes included ++
  toLittleEndian 8 world.age ++
  toLittleEndian 4 world.getLayerCount ++
  collideFlagBytes world ++
  (world.layers.map (fun layer => worldLayerBytes ops known layer.terrainParts)).flatten ++
  (toLittleEndian 4 world.physicals.length ++
    (world.physicals.map (motorizedPhysicalBytes ops known)).flatten) ++
  (toLittleEndian 4 world.constraints.length ++
    (world.constraints.map (constraintGroupBytes index)).flatten) ++
  (toLittleEndian 4 world.externalForces.length ++
    (world.externalForces.map dynamicBytes).flatten)

/-- The layout of the stream of a list of parts: the version tag, the shape-class registry,
the number of parts, then each part with its frame. -/
def partsBytes (ops : FrameOps) (included known : List ShapeClass) (parts : List Part) :
    List Nat :=
  toLittleEndian 4 CURRENT_VERSION_ID ++ registryBytes included ++
  toLittleEndian 4 parts.length ++ (parts.map (framedPartBytes ops known)).flatten

/-- The payload sizes of the hard constraints by discriminant: no data, 2, 4 and 4
doubles. -/
def hardConstraintPayloadSizes (L : Layout) : List (Nat × Nat) :=
  [(0, 0), (1, 2 * L.sizeOf PodType.double), (2, 4 * L.sizeOf PodType.double),
   (3, 4 * L.sizeOf PodType.double)]

/-- The payload sizes of the soft constraints by discriminant: 2 `Vec3`, 4 `Vec3`, 2 `Vec3`
and a double. -/
def constraintPayloadSizes (L : Layout) : List (Nat × Nat) :=
  [(0, 2 * L.sizeOf PodType.vec3), (1, 4 * L.sizeOf PodType.vec3),
   (2, 2 * L.sizeOf PodType.vec3 + L.sizeOf PodType.double)]

/-- The payload sizes of the external forces by discriminant: one `Vec3`. -/
def externalForcePayloadSizes (L : Layout) : List (Nat × Nat) :=
  [(0, L.sizeOf PodType.vec3)]

/-- A polymorphic object is one of the registered classes and its payload has the size of
the data of that class. -/
def DynamicObject.wellFormed (sizes : List (Nat × Nat)) (object : DynamicObject) : Bool :=
  sizes.lookup object.classId == some object.payload.length

/-- A shape class is one of the three built-in classes, or a polyhedron whose counts fit an
`int` and whose vertices and triangles have the size of a `Vec3f` and a `Triangle`. -/
def ShapeClass.wellFormed (L : Layout) : ShapeClass → Bool
  | ShapeClass.builtin index => decide (index < 3)
  | ShapeClass.polyhedron vertices triangles =>
    decide (vertices.length < 2 ^ 31) && decide (triangles.length < 2 ^ 31) &&
    vertices.all (fun v => v.length == L.sizeOf PodType.vec3f) &&
    triangles.all (fun t => t.length == L.sizeOf PodType.triangle)

/-- The data of a part is well-formed: its shape class is, the three scale factors are
doubles and the properties have the size of `PartProperties`. -/
def Part.wellFormed (L : Layout) (part : Part) : Bool :=
  part.hitbox.baseShape.wellFormed L &&
  part.hitbox.width.length == L.sizeOf PodType.double &&
  part.hitbox.height.length == L.sizeOf PodType.double &&
  part.hitbox.depth.length == L.sizeOf PodType.double &&
  part.properties.length == L.sizeOf PodType.partProperties

/-- A part written with its frame: the data is well-formed and the frame has the size of a
`GlobalCFrame`. -/
def Part.wellFramed (ops : FrameOps) (L : Layout) (part : Part) : Bool :=
  part.wellFormed L && (part.cframe.getCFrame ops).length == L.sizeOf PodType.globalCFrame

/-- A part of a rigid body: the data is well-formed and the layer id fits 32 bits. -/
def Part.wellLayered (L : Layout) (part : Part) : Bool :=
  part.wellFormed L && decide (part.getLayerID < 2 ^ 32)

/-- A rigid body is well-formed: its parts are, there are fewer than 2^32 attached parts and
every attachment has the size of a `CFrame`. -/
def RigidBody.wellFormed (L : Layout) (rigidBody : RigidBody) : Bool :=
  rigidBody.mainPart.wellLayered L && decide (rigidBody.parts.length < 2 ^ 32) &&
  rigidBody.parts.all (fun atPart =>
    atPart.attachment.length == L.sizeOf PodType.cframe && atPart.part.wellLayered L)

/-- A connection is well-formed: the attach frames have the size of a `CFrame` and the
constraint is a registered hard constraint. -/
def HardPhysicalConnection.wellFormed (L : Layout) (connection : HardPhysicalConnection) :
    Bool :=
  connection.attachOnChild.length == L.sizeOf PodType.cframe &&
  connection.attachOnParent.length == L.sizeOf PodType.cframe &&
  connection.constraintWithParent.wellFormed (hardConstraintPayloadSizes L)

mutual
/-- A child physical is well-formed: its connection, its rigid body and its children are,
and it has fewer than 2^32 children. -/
def ConnectedPhysical.wellFormed (L : Layout) : ConnectedPhysical → Bool
  | ConnectedPhysical.mk connectionToParent rigidBody childPhysicals =>
    connectionToParent.wellFormed L && rigidBody.wellFormed L &&
    decide (childPhysicals.length < 2 ^ 32) && childrenWellFormed L childPhysicals
/-- Every physical of a list of child physicals is well-formed. -/
def childrenWellFormed (L : Layout) : List ConnectedPhysical → Bool
  | [] => true
  | p :: ps => ConnectedPhysical.wellFormed L p && childrenWellFormed L ps
end

/-- A motorized physical is well-formed: the motion has the size of a `Motion`, the frame of
the main part the size of a `GlobalCFrame`, the rigid body and the children are well-formed
and there are fewer than 2^32 children. -/
def MotorizedPhysical.wellFormed (ops : FrameOps) (L : Layout) (phys : MotorizedPhysical) :
    Bool :=
  phys.motionOfCenterOfMass.length == L.sizeOf PodType.motion &&
  (phys.rigidBody.mainPart.cframe.getCFrame ops).length == L.sizeOf PodType.globalCFrame &&
  phys.rigidBody.wellFormed L && decide (phys.childPhysicals.length < 2 ^ 32) &&
  childrenWellFormed L phys.childPhysicals

/-- A constraint is well-formed among the physicals `refs`: it connects two of them and is a
registered soft constraint. -/
def PhysicalConstraint.wellFormed (L : Layout) (refs : List PhysicalRef)
    (constraint : PhysicalConstraint) : Bool :=
  decide (constraint.physA ∈ refs) && decide (constraint.physB ∈ refs) &&
  constraint.constraint.wellFormed (constraintPayloadSizes L)

/-- The values of a world are representable in the stream: the age fits 64 bits; the numbers
of layers, of parent-less terrain parts of a layer, of motorized physicals, of physicals
altogether, of constraint groups, of constraints in a group, of external forces and of shape
classes fit 32 bits; the parent-less parts of the layers, the physicals, the constraints
(which connect physicals of the world) and the external forces are well-formed. -/
def SourceWorld.wellFormed (ops : FrameOps) (L : Layout) (world : SourceWorld) : Bool :=
  decide (world.age < 2 ^ 64) && decide (world.layers.length < 2 ^ 32) &&
  world.layers.all (fun layer =>
    decide ((unPhysicaledParts layer.terrainParts).length < 2 ^ 32) &&
    (unPhysicaledParts layer.terrainParts).all (fun part => part.wellFramed ops L) &&
    (unPhysicaledParts layer.freeParts).all (fun part => part.hitbox.baseShape.wellFormed L)) &&
  decide (world.physicals.length < 2 ^ 32) &&
  world.physicals.all (fun phys => phys.wellFormed ops L) &&
  decide ((physicalsPreorder 0 world.physicals).length < 2 ^ 32) &&
  decide (world.constraints.length < 2 ^ 32) &&
  world.constraints.all (fun group =>
    decide (group.constraints.length < 2 ^ 32) &&
    group.constraints.all (fun c => c.wellFormed L (physicalsPreorder 0 world.physicals))) &&
  decide (world.externalForces.length < 2 ^ 32) &&
  world.externalForces.all (fun force => force.wellFormed (externalForcePayloadSizes L)) &&
  decide (EncodeState.fresh.predefined.length +
    (includeAll EncodeState.fresh.predefined [] world.shapeClasses).length < 2 ^ 32)

/-- The values of a list of parts are representable in the stream: the parts are well-formed
with frames of the size of a `GlobalCFrame`, and the numbers of parts and of shape classes
fit 32 bits. -/
def partsWellFormed (ops : FrameOps) (L : Layout) (parts : List Part) : Bool :=
  decide (parts.length < 2 ^ 32) && parts.all (fun part => part.wellFramed ops L) &&
  decide (EncodeState.fresh.predefined.length +
    (includeAll EncodeState.fresh.predefined []
      (parts.map (fun part => part.hitbox.baseShape))).length < 2 ^ 32)

/-- The part as the decoder rebuilds it inside a rigid body whose frame expression is
`frame`: same data, the layer resolved from the id. -/
def Part.placed (frame : FrameValue) (part : Part) : Part :=
  ⟨frame, part.hitbox, part.properties, some part.getLayerID⟩

/-- The rigid body as the decoder rebuilds it for the frame `frame` of its main part: the
frames of the attached parts are recomputed from `frame` and the attachments. -/
def RigidBody.decoded (frame : FrameValue) (rigidBody : RigidBody) : RigidBody :=
  ⟨rigidBody.mainPart.placed frame,
   rigidBody.parts.map (fun atPart =>
    ⟨atPart.attachment, atPart.part.placed (FrameValue.localToGlobal frame atPart.attachment)⟩)⟩

/-- The frame the decoder computes for a child from the frame of its parent and the
connection. -/
def HardPhysicalConnection.frameFrom (connection : HardPhysicalConnection)
    (parentFrame : FrameValue) : FrameValue :=
  FrameValue.relativeToParent parentFrame connection.attachOnChild connection.attachOnParent
    connection.constraintWithParent.classId connection.constraintWithParent.payload

mutual
/-- The child physical as the decoder rebuilds it below a parent with frame
`parentFrame`. -/
def ConnectedPhysical.decoded : FrameValue → ConnectedPhysical → ConnectedPhysical
  | parentFrame, ConnectedPhysical.mk connectionToParent rigidBody childPhysicals =>
    ConnectedPhysical.mk connectionToParent
      (rigidBody.decoded (connectionToParent.frameFrom parentFrame))
      (decodedChildren (connectionToParent.frameFrom parentFrame) childPhysicals)
/-- The child physicals as the decoder rebuilds them below a parent with frame
`parentFrame`. -/
def decodedChildren : FrameValue → List ConnectedPhysical → List ConnectedPhysical
  | _, [] => []
  | parentFrame, p :: ps =>
    ConnectedPhysical.decoded parentFrame p :: decodedChildren parentFrame ps
end

/-- The motorized physical as the decoder rebuilds it: the frame of the main part is the
one written, the other frames are recomputed. -/
def MotorizedPhysical.decoded (ops : FrameOps) (phys : MotorizedPhysical) :
    MotorizedPhysical :=
  ⟨phys.motionOfCenterOfMass,
   phys.rigidBody.decoded (FrameValue.read (phys.rigidBody.mainPart.cframe.getCFrame ops)),
   decodedChildren (FrameValue.read (phys.rigidBody.mainPart.cframe.getCFrame ops))
    phys.childPhysicals⟩

/-- A part written with its frame as the decoder rebuilds it in the given layer. -/
def Part.reloaded (ops : FrameOps) (layer : Option Nat) (part : Part) : Part :=
  ⟨FrameValue.read (part.cframe.getCFrame ops), part.hitbox, part.properties, layer⟩

mutual
/-- The depth of the tree of physicals below a child physical, itself included. -/
def ConnectedPhysical.depth : ConnectedPhysical → Nat
  | ConnectedPhysical.mk _ _ childPhysicals => childrenDepth childPhysicals + 1
/-- The largest depth among a list of child physicals. -/
def childrenDepth : List ConnectedPhysical → Nat
  | [] => 0
  | p :: ps => max (ConnectedPhysical.depth p) (childrenDepth ps)
end

/-- The body of the loop of `deserializeConnectionsOfPhysicalWithContext` for child `i` of
the physical `parentRef`, the recursion being bounded by `depth`. -/
def deserializeConnection (L : Layout) (depth : Nat) (parentRef : PhysicalRef)
    (parentFrame : FrameValue) (i : Nat) : Decoder ConnectedPhysical := do
  let connection ← deserializeHardPhysicalConnection L
  let cframeOfConnectedPhys := FrameValue.relativeToParent parentFrame
    connection.attachOnChild connection.attachOnParent
    connection.constraintWithParent.classId connection.constraintWithParent.payload
  let b ← deserializeRigidBodyWithContext L cframeOfConnectedPhys
  modify (fun st =>
    { st with indexToPhysicalMap := st.indexToPhysicalMap ++ [parentRef ++ [i]] })
  let children ← deserializeConnectionsOfPhysicalWithContext L depth (parentRef ++ [i])
    cframeOfConnectedPhys
  pure (ConnectedPhysical.mk connection b children)

/-- The world after a loop of `deserializeWorld` has stored the values `ys`, the first of
them at loop index `i`. -/
def storeIndexed {α : Type} (store : WorldPrototype → Nat → α → WorldPrototype) :
    WorldPrototype → Nat → List α → WorldPrototype
  | world, _, [] => world
  | world, i, y :: ys => storeIndexed store (store world i y) (i + 1) ys

/-- The collision layers as the decoder rebuilds them, the first of them being layer `i`:
the terrain sub-layer of each holds the parts the original held without a parent. -/
def decodedLayers (ops : FrameOps) : Nat → List SourceLayer → List ColissionLayer
  | _, [] => []
  | i, layer :: layers =>
    ⟨(unPhysicaledParts layer.terrainParts).map (Part.reloaded ops (some i))⟩ ::
      decodedLayers ops (i + 1) layers

/-- The collide flags as the decoder records them: one entry for each pair `(i, j)` with
`j ≤ i`, the latest first. -/
def decodedCollisions (world : SourceWorld) : List (Nat × Nat × Bool) :=
  ((layerPairs world.getLayerCount).map
    (fun ij => (ij.1, ij.2, world.doLayersCollide ij.1 ij.2))).reverse

/-- The world `deserializeWorld` leaves in `target` when it decodes the stream of `world`:
age, layers and collide flags are those of `world`; the physicals, constraint groups and
external forces of `world` are appended to those of `target`. -/
def decodedWorld (ops : FrameOps) (target : WorldPrototype) (world : SourceWorld) :
    WorldPrototype where
  age := world.age
  layers := decodedLayers ops 0 world.layers
  collisions := decodedCollisions world
  physicals := target.physicals ++ world.physicals.map (MotorizedPhysical.decoded ops)
  constraints := target.constraints ++ world.constraints
  externalForces := target.externalForces ++ world.externalForces

mutual
/-- The numbers of attached parts and of children of a child physical and of each of its
descendants, in depth-first pre-order. -/
def ConnectedPhysical.partCounts : ConnectedPhysical → List (Nat × Nat)
  | ConnectedPhysical.mk _ rigidBody childPhysicals =>
    (rigidBody.parts.length, childPhysicals.length) :: childrenPartCounts childPhysicals
/-- The numbers of attached parts and of children through a list of child physicals. -/
def childrenPartCounts : List ConnectedPhysical → List (Nat × Nat)
  | [] => []
  | p :: ps => ConnectedPhysical.partCounts p ++ childrenPartCounts ps
end

/-- The numbers of attached parts and of children of a motorized physical and of each of its
descendants, in depth-first pre-order; they determine the shape of the tree of physicals. -/
def MotorizedPhysical.partCounts (phys : MotorizedPhysical) : List (Nat × Nat) :=
  (phys.rigidBody.parts.length, phys.childPhysicals.length) ::
    childrenPartCounts phys.childPhysicals

/-- The number of parts of a motorized physical and its descendants: for each physical the
main part and the attached parts. -/
def MotorizedPhysical.partCount (phys : MotorizedPhysical) : Nat :=
  (phys.partCounts.map (fun c => c.1 + 1)).sum

/-- The number of parts of a world being written: the parts without a parent in the terrain
sub-layers and the parts of the physicals. -/
def SourceWorld.partCount (world : SourceWorld) : Nat :=
  (world.layers.map (fun layer => (unPhysicaledParts layer.terrainParts).length)).sum +
    (world.physicals.map MotorizedPhysical.partCount).sum

/-- The number of parts of a decoded world: the parts added to the terrain sub-layers and
the parts of the physicals. -/
def WorldPrototype.partCount (world : WorldPrototype) : Nat :=
  (world.layers.map (fun layer => layer.terrainParts.length)).sum +
    (world.physicals.map MotorizedPhysical.partCount).sum

/-- The decoder `d`, run in the session state `st` on a stream that begins with `bytes`,
returns `a`, has consumed exactly `bytes`, and leaves the rest of the session state as in
`st'` (the streams recorded in `st` and `st'` play no role). -/
def Decodes {α : Type} (d : Decoder α) (st : DecodeState) (bytes : List Nat) (a : α)
    (st' : DecodeState) : Prop :=
  ∀ rest, d { st with istream := bytes ++ rest } = Except.ok (a, { st' with istream := rest })

/-! ## Example worlds and streams -/

/-- A world of age 5 with one collision layer that collides with itself. -/
def sampleWorld : WorldPrototype :=
  ⟨5, [⟨[]⟩], [(0, 0, true)], [], [], []⟩

/-- A stream with the current version tag, an empty shape-class registry, age 7, no layers,
no physicals, no constraint groups and one external force with the unknown discriminant
99. -/
def unknownForceStream : Stream :=
  toLittleEndian 4 2 ++ toLittleEndian 4 0 ++ toLittleEndian 8 7 ++ toLittleEndian 4 0 ++
  toLittleEndian 4 0 ++ toLittleEndian 4 0 ++ toLittleEndian 4 1 ++ toLittleEndian 4 99

/-- The stream `unknownForceStream` with its version tag incremented to 3. -/
def incrementedVersionStream : Stream :=
  toLittleEndian 4 3 ++ unknownForceStream.drop 4

/-- Frame operations for the examples: the results are the attachment bytes. -/
def exampleOps : FrameOps :=
  ⟨fun _ attach => attach, fun _ attachOnChild _ _ _ => attachOnChild⟩

/-- A block of `n` zero bytes. -/
def zeroBytes (n : Nat) : List Nat := List.replicate n 0

/-- A part with the given shape class and layer, all of whose data are zero bytes in the
standard layout. -/
def examplePart (shapeClass : ShapeClass) (layer : Option Nat) : Part :=
  ⟨FrameValue.read (zeroBytes 96), ⟨shapeClass, zeroBytes 8, zeroBytes 8, zeroBytes 8⟩,
    zeroBytes 48, layer⟩

/-- A polyhedron class with one vertex and one triangle. -/
def examplePolyhedron : ShapeClass :=
  ShapeClass.polyhedron [zeroBytes 12] [zeroBytes 12]

/-- A motorized physical with one attached part and one child physical, which is connected
by a constant-speed motor and has no children. -/
def examplePhysical : MotorizedPhysical :=
  ⟨zeroBytes 96,
   ⟨examplePart (ShapeClass.builtin 0) (some 0),
    [⟨zeroBytes 96, examplePart examplePolyhedron (some 0)⟩]⟩,
   [ConnectedPhysical.mk ⟨zeroBytes 96, zeroBytes 96, ⟨1, zeroBytes 16⟩⟩
      ⟨examplePart (ShapeClass.builtin 1) (some 1), []⟩ []]⟩

/-- A world of age 9 with two collision layers, of which only layer 0 collides with itself;
the terrain sub-layer of layer 0 holds one part without a parent and one part with a parent;
there is one motorized physical with one child, one ball constraint between the child and
its parent, and one gravity force. -/
def exampleSourceWorld : SourceWorld :=
  ⟨9,
   [⟨[], [⟨examplePart examplePolyhedron none, false⟩,
          ⟨examplePart (ShapeClass.builtin 2) none, true⟩]⟩, ⟨[], []⟩],
   [(0, 0, true)],
   [examplePhysical],
   [⟨[⟨[0, 0], [0], ⟨0, zeroBytes 48⟩⟩]⟩],
   [⟨0, zeroBytes 24⟩]⟩

/-- An empty world to decode into. -/
def emptyWorld : WorldPrototype :=
  ⟨0, [], [], [], [], []⟩

/-! ## Example trees -/

/-- The tree `[[L1], L2]`: a root whose first child is an internal node with the single
leaf `L1 = [0,1]³` and whose second child is the leaf `L2 = [2,3]³`. -/
def singleChildTree : TreeNode :=
  TreeNode.ofSubTrees (TreeNode.ofSubTrees (cubeLeaf 1 0 1) []) [cubeLeaf 2 2 3]

/-- The tree `[[L1, L2], L3]` over the leaves `[0,1]³`, `[2,3]³` and `[4,5]³`. -/
def threeLeafTree : TreeNode :=
  TreeNode.ofSubTrees (TreeNode.ofSubTrees (cubeLeaf 1 0 1) [cubeLeaf 2 2 3]) [cubeLeaf 3 4 5]

/-- A tall thin leaf `L` (x in [0,1], y in [0,100]) next to a flat group `S` holding `X`
(inside `L`) and `Z` (x in [5,6], outside `L`): the tree `[L, [X, Z]]`. -/
def tallLeafTree : TreeNode :=
  TreeNode.ofSubTrees (TreeNode.leaf 1 ⟨⟨0, 0, 0⟩, ⟨1, 100, 0⟩⟩ false)
    [TreeNode.ofSubTrees (TreeNode.leaf 2 ⟨⟨0, 0, 0⟩, ⟨1, 1, 0⟩⟩ false)
      [TreeNode.leaf 3 ⟨⟨5, 0, 0⟩, ⟨6, 1, 0⟩⟩ false]]

/-- A root with `MAX_BRANCHES` children: the leaves `[0,1]³`, `[2,3]³`, `[4,5]³`, `[6,7]³`. -/
def fullRootTree : TreeNode :=
  TreeNode.ofSubTrees (cubeLeaf 1 0 1) [cubeLeaf 2 2 3, cubeLeaf 3 4 5, cubeLeaf 4 6 7]

/-- The tree `[[L1, L2], L3]` whose inner node caches the bounds of `L1` alone. -/
def staleBoundsTree : TreeNode :=
  TreeNode.ofSubTrees
    ((TreeNode.ofSubTrees (cubeLeaf 1 0 1) [cubeLeaf 2 2 3]).setBounds (cube 0 1))
    [cubeLeaf 3 4 5]

/-- One choice for the methods whose code is not at hand, used in the examples:
`ensureHasParent` gives a part without parent a physical of its own, `getPartCount` counts
the parts of the main physical's tree, `setAnchored` changes nothing that is modelled, and
`add` is `addOutside` on the root node. -/
def World.exampleOps : World.WorldOps where
  ensureHasParent := fun memory part =>
    match memory.parent part with
    | some _ => memory
    | none =>
      { memory with
        parent := Function.update memory.parent part (some part)
        mainPhysical := Function.update memory.mainPhysical part part
        world := Function.update memory.world part none
        physical := Function.update memory.physical part (World.Physical.mk part part [] []) }
  getPartCount := fun memory phys => (memory.physical (memory.mainPhysical phys)).allParts.length
  setAnchored := fun memory _ _ => memory
  add := fun rootNode newNode => rootNode.addOutside newNode

/-- A physical with main part 1, attached part 2 and a child physical with main part 3. -/
def World.examplePhysical : World.Physical :=
  World.Physical.mk 10 1 [2] [World.Physical.mk 11 3 [] []]

/-- A memory in which the parts 1, 2, 3 belong to `examplePhysical` (handles 10 and 11),
which belongs to the world with handle 0; every other part has no parent. -/
def World.exampleMemory : World.Memory where
  parent := fun part => if part = 1 ∨ part = 2 then some 10 else if part = 3 then some 11 else none
  strictBounds := fun part => cube (2 * (part - 1)) (2 * (part - 1) + 1)
  mainPhysical := fun _ => 10
  world := fun phys => if phys = 10 then some 0 else none
  physical := fun _ => World.examplePhysical

/-- The world with handle 0 holding `examplePhysical`: its object tree is `[[L1, L2], L3]`. -/
def World.exampleState : World.WorldState where
  world := ⟨threeLeafTree, cubeLeaf 9 0 1, [10], 3, []⟩
  memory := World.exampleMemory

/-- An attached part with integer data: inertia `diag(2, 3, 4)`, mass 5, centre of mass
`(1, 0, 0)`, rotated a quarter turn about the z axis and offset by `(0, 1, 0)`. -/
def exampleInertiaPartA : InertiaPart Int where
  inertia := Matrix.of ![![2, 0, 0], ![0, 3, 0], ![0, 0, 4]]
  mass := 5
  localCenterOfMass := ![1, 0, 0]
  offsetCFrame := ⟨![0, 1, 0], Matrix.of ![![0, -1, 0], ![1, 0, 0], ![0, 0, 1]]⟩

/-- A second attached part with integer data: inertia `diag(1, 1, 6)`, mass 2, centre of
mass `(0, 0, 1)`, not rotated and offset by `(3, 0, 0)`. -/
def exampleInertiaPartB : InertiaPart Int where
  inertia := Matrix.of ![![1, 0, 0], ![0, 1, 0], ![0, 0, 6]]
  mass := 2
  localCenterOfMass := ![0, 0, 1]
  offsetCFrame := ⟨![3, 0, 0], 1⟩

/-- The first child of `tallLeafTree`: the tall thin leaf `L`. -/
def tallLeaf : TreeNode :=
  TreeNode.leaf 1 ⟨⟨0, 0, 0⟩, ⟨1, 100, 0⟩⟩ false

/-- The second child of `tallLeafTree`: the flat group `S = [X, Z]`. -/
def flatGroup : TreeNode :=
  TreeNode.ofSubTrees (TreeNode.leaf 2 ⟨⟨0, 0, 0⟩, ⟨1, 1, 0⟩⟩ false)
    [TreeNode.leaf 3 ⟨⟨5, 0, 0⟩, ⟨6, 1, 0⟩⟩ false]

/-- One choice for `GlobalCFrame::localToRelative`, used in the examples: the local frame
rotated by the rotation of the global frame. -/
def exampleLocalToRelative (g : CFrame Int) (c : CFrame Int) : CFrame Int :=
  ⟨g.rotation.mulVec c.position, g.rotation * c.rotation⟩

/-- A soft link between two parts that are not rotated, attached at `(1, 0, 0)` on the first
part and at `(0, 2, 0)` on the second. -/
def exampleSoftLink : SoftLink (CFrame Int) (CFrame Int) where
  attachedPart1 := ⟨⟨![1, 0, 0], 1⟩, ⟨![0, 0, 0], 1⟩⟩
  attachedPart2 := ⟨⟨![0, 2, 0], 1⟩, ⟨![5, 0, 0], 1⟩⟩

/-- A filter at the origin looking along the x axis, with planes at 45 degrees above, below,
left and right, and depth 10. -/
def exampleFilter : VisibilityFilter Rat where
  origin := ⟨0, 0, 0⟩
  up := ![-1, 1, 0]
  down := ![-1, -1, 0]
  left := ![-1, 0, -1]
  right := ![-1, 0, 1]
  forward := ![1, 0, 0]
  maxDepth := 10

/-- A world with handle 0 that holds no physical yet, over the memory of `exampleMemory` in
which `examplePhysical` belongs to no world. -/
def World.exampleFreshState : World.WorldState where
  world := ⟨cubeLeaf 8 10 11, cubeLeaf 9 0 1, [], 0, []⟩
  memory := { World.exampleMemory with world := fun _ => none }

/-- A wide flat box whose corners are representable in 64 bits: `x` and `y` run from 0 to
`2^62 - 1`, `z` is 0. -/
def wideBox : Bounds :=
  ⟨⟨0, 0, 0⟩, ⟨4611686018427387903, 4611686018427387903, 0⟩⟩

/-- The box of the single point with `x = 2^62 + 5` on the x axis. -/
def farPoint : Bounds :=
  ⟨⟨4611686018427387909, 0, 0⟩, ⟨4611686018427387909, 0, 0⟩⟩

end P3D

/-! # Theorems -/

/-! ## Lemmas: boxes -/

namespace P3D

theorem unionOfBounds_comm (a b : Bounds) : unionOfBounds a b = unionOfBounds b a := by
  simp [unionOfBounds, min_comm, max_comm]

theorem unionOfBounds_assoc (a b c : Bounds) :
    unionOfBounds (unionOfBounds a b) c = unionOfBounds a (unionOfBounds b c) := by
  simp [unionOfBounds, min_assoc, max_assoc]

theorem unionOfBounds_self (a : Bounds) : unionOfBounds a a = a := by
  simp [unionOfBounds]

theorem unionOfBounds_right_idem (a b : Bounds) :
    unionOfBounds (unionOfBounds a b) b = unionOfBounds a b := by
  rw [unionOfBounds_assoc, unionOfBounds_self]

theorem computeBoundsOfList_eq (c : TreeNode) (cs : List TreeNode) :
    computeBoundsOfList c cs = foldBounds c.bounds cs := rfl

theorem foldBounds_nil (b0 : Bounds) : foldBounds b0 [] = b0 := rfl

theorem foldBounds_cons (b0 : Bounds) (c : TreeNode) (cs : List TreeNode) :
    foldBounds b0 (c :: cs) = foldBounds (unionOfBounds b0 c.bounds) cs := rfl

theorem foldBounds_union (l : List TreeNode) (b0 m : Bounds) :
    foldBounds (unionOfBounds b0 m) l = unionOfBounds (foldBounds b0 l) m := by
  induction l generalizing b0 with
  | nil => rfl
  | cons c cs ih =>
    rw [foldBounds_cons, foldBounds_cons, unionOfBounds_assoc, unionOfBounds_comm m,
      ← unionOfBounds_assoc, ih]

theorem foldBounds_append (b0 : Bounds) (l₁ l₂ : List TreeNode) :
    foldBounds b0 (l₁ ++ l₂) = foldBounds (foldBounds b0 l₁) l₂ := by
  simp [foldBounds, List.foldl_append]

namespace TreeNode

/-! ## Lemmas: insertion -/

@[simp] theorem bounds_leaf (o : Nat) (b : Bounds) (g : Bool) : (leaf o b g).bounds = b := rfl

@[simp] theorem bounds_node (cs : List TreeNode) (b : Bounds) (g : Bool) :
    (node cs b g).bounds = b := rfl

@[simp] theorem bounds_setBounds (t : TreeNode) (b : Bounds) : (t.setBounds b).bounds = b := by
  cases t <;> rfl

@[simp] theorem bounds_setGroupHead (t : TreeNode) (g : Bool) :
    (t.setGroupHead g).bounds = t.bounds := by
  cases t <;> rfl

theorem boundsValidList_iff (cs : List TreeNode) :
    boundsValidList cs = true ↔ ∀ c ∈ cs, boundsValid c = true := by
  induction cs with
  | nil => simp [boundsValidList]
  | cons c cs ih => simp [boundsValidList, ih]

theorem boundsValid_node_iff (cs : List TreeNode) (b : Bounds) (g : Bool) :
    boundsValid (node cs b g) = true ↔
      ∃ c rest, cs = c :: rest ∧ b = computeBoundsOfList c rest ∧
        boundsValidList cs = true := by
  cases cs with
  | nil => simp [boundsValid]
  | cons c rest =>
    simp only [boundsValid, Bool.and_eq_true, decide_eq_true_eq]
    constructor
    · rintro ⟨h1, h2⟩
      exact ⟨c, rest, rfl, h1, h2⟩
    · rintro ⟨c', rest', he, h1, h2⟩
      cases he
      exact ⟨h1, h2⟩

theorem boundsValid_setGroupHead (t : TreeNode) (g : Bool) :
    boundsValid (t.setGroupHead g) = boundsValid t := by
  cases t with
  | leaf o b g0 => rfl
  | node cs b g0 => cases cs <;> simp [setGroupHead, boundsValid]

theorem bounds_addInside (t n : TreeNode) :
    (addInside t n).bounds = unionOfBounds t.bounds n.bounds := by
  cases t with
  | leaf o b g =>
    simp [addInside, computeBoundsOfList, unionOfBounds_right_idem]
  | node cs b g => simp [addInside]

theorem bounds_pushDown (t n : TreeNode) :
    (pushDown t n).bounds = unionOfBounds t.bounds n.bounds := by
  simp [pushDown, computeBoundsOfList, unionOfBounds_right_idem]

theorem bounds_addOutside (t n : TreeNode) :
    (addOutside t n).bounds = unionOfBounds t.bounds n.bounds := by
  unfold addOutside
  split
  · exact bounds_pushDown t n
  · simp [bounds_addInside, unionOfBounds_right_idem]

theorem addOutsideAt_zero (c : TreeNode) (cs : List TreeNode) (n : TreeNode) :
    addOutsideAt (c :: cs) 0 n = addOutside c n :: cs := by
  simp [addOutsideAt, addOutside]

theorem addOutsideAt_succ (c : TreeNode) (cs : List TreeNode) (i : Nat) (n : TreeNode) :
    addOutsideAt (c :: cs) (i + 1) n = c :: addOutsideAt cs i n := by
  simp [addOutsideAt]

theorem addInside_node (cs : List TreeNode) (b : Bounds) (g : Bool) (n : TreeNode) :
    addInside (node cs b g) n =
      node (addToSubTrees cs n) (unionOfBounds b n.bounds) g := by
  simp [addInside, addToSubTrees]

theorem addOutsideAt_eq_set (cs : List TreeNode) (i : Nat) (n : TreeNode) (h : i < cs.length) :
    addOutsideAt cs i n = cs.set i (addOutside (cs.get ⟨i, h⟩) n) := by
  induction cs generalizing i with
  | nil => simp at h
  | cons c cs ih =>
    cases i with
    | zero => simp [addOutsideAt_zero]
    | succ i =>
      simp only [List.length_cons, Nat.add_lt_add_iff_right] at h
      simp [addOutsideAt_succ, ih i h]

theorem length_addOutsideAt (cs : List TreeNode) (i : Nat) (n : TreeNode) :
    (addOutsideAt cs i n).length = cs.length := by
  induction cs generalizing i with
  | nil => simp [addOutsideAt]
  | cons c cs ih =>
    cases i with
    | zero => simp [addOutsideAt_zero]
    | succ i => simp [addOutsideAt_succ, ih]

theorem bestIndexFrom_lt (nb : Bounds) (l : List TreeNode) (bc : Int) (bi i : Nat)
    (h : bi < i) : bestIndexFrom nb bc bi i l < i + l.length := by
  induction l generalizing bc bi i with
  | nil => simpa [bestIndexFrom] using h
  | cons c cs ih =>
    simp only [bestIndexFrom, List.length_cons]
    split
    · have := ih (computeCombinationCost nb c.bounds) i (i + 1) (Nat.lt_succ_self i)
      omega
    · have := ih bc bi (i + 1) (by omega)
      omega

theorem bestIndex_lt (nb : Bounds) (l : List TreeNode) (h : l ≠ []) :
    bestIndex nb l < l.length := by
  cases l with
  | nil => exact absurd rfl h
  | cons c cs =>
    have := bestIndexFrom_lt nb cs (computeCombinationCost nb c.bounds) 0 1 (by decide)
    simp only [bestIndex, List.length_cons]
    omega

theorem foldBounds_addOutsideAt (cs : List TreeNode) (i : Nat) (n : TreeNode) (b0 : Bounds)
    (h : i < cs.length) :
    foldBounds b0 (addOutsideAt cs i n) = unionOfBounds (foldBounds b0 cs) n.bounds := by
  induction cs generalizing i b0 with
  | nil => simp at h
  | cons c cs ih =>
    cases i with
    | zero =>
      rw [addOutsideAt_zero, foldBounds_cons, foldBounds_cons, bounds_addOutside,
        ← unionOfBounds_assoc, foldBounds_union]
    | succ i =>
      simp only [List.length_cons, Nat.add_lt_add_iff_right] at h
      rw [addOutsideAt_succ, foldBounds_cons, foldBounds_cons, ih i _ h]

/-- The union of the children's bounds after `addOutside` has been applied to one child,
for a non-empty list of children `c :: cs`. -/
theorem computeBoundsOfList_addOutsideAt (c : TreeNode) (cs : List TreeNode) (i : Nat)
    (n : TreeNode) (h : i < (c :: cs).length) :
    ∃ c' cs', addOutsideAt (c :: cs) i n = c' :: cs' ∧
      computeBoundsOfList c' cs' = unionOfBounds (computeBoundsOfList c cs) n.bounds := by
  cases i with
  | zero =>
    refine ⟨addOutside c n, cs, addOutsideAt_zero c cs n, ?_⟩
    rw [computeBoundsOfList_eq, computeBoundsOfList_eq, bounds_addOutside, foldBounds_union]
  | succ i =>
    simp only [List.length_cons, Nat.add_lt_add_iff_right] at h
    refine ⟨c, addOutsideAt cs i n, addOutsideAt_succ c cs i n, ?_⟩
    rw [computeBoundsOfList_eq, computeBoundsOfList_eq, foldBounds_addOutsideAt _ _ _ _ h]

mutual
theorem boundsValid_addInside (t n : TreeNode) (ht : boundsValid t = true)
    (hn : boundsValid n = true) : boundsValid (addInside t n) = true := by
  cases t with
  | leaf o b g =>
    simp [addInside, boundsValid, boundsValidList, computeBoundsOfList,
      unionOfBounds_right_idem, boundsValid_setGroupHead, hn]
  | node cs b g =>
    obtain ⟨c, rest, hcs, hb, hl⟩ := (boundsValid_node_iff cs b g).1 ht
    subst hcs
    rw [addInside_node]
    unfold addToSubTrees
    split
    · -- room left: the new node becomes the last child
      have hv : boundsValidList (c :: (rest ++ [n])) = true := by
        rw [boundsValidList_iff] at hl ⊢
        intro x hx
        simp only [List.mem_cons, List.mem_append, List.mem_singleton, List.not_mem_nil,
          or_false] at hx
        rcases hx with rfl | hx | rfl
        · exact hl _ (List.mem_cons_self _ _)
        · exact hl _ (List.mem_cons_of_mem _ hx)
        · exact hn
      simp only [List.cons_append, boundsValid, hv, Bool.and_true, decide_eq_true_eq]
      rw [hb, computeBoundsOfList_eq, computeBoundsOfList_eq, foldBounds_append]
      rfl
    · -- full: descend into the cheapest child
      have hi := bestIndex_lt n.bounds (c :: rest) (List.cons_ne_nil _ _)
      obtain ⟨c', cs', he, hu⟩ := computeBoundsOfList_addOutsideAt c rest _ n hi
      have hv := boundsValidList_addOutsideAt (c :: rest) (bestIndex n.bounds (c :: rest)) n
        hl hn
      rw [he] at hv ⊢
      simp only [boundsValid, hv, Bool.and_true, decide_eq_true_eq]
      rw [hu, hb]
theorem boundsValidList_addOutsideAt (cs : List TreeNode) (i : Nat) (n : TreeNode)
    (hcs : boundsValidList cs = true) (hn : boundsValid n = true) :
    boundsValidList (addOutsideAt cs i n) = true := by
  cases cs with
  | nil => simp [addOutsideAt, boundsValidList]
  | cons c cs =>
    simp only [boundsValidList, Bool.and_eq_true] at hcs
    cases i with
    | zero =>
      simp only [addOutsideAt, boundsValidList, Bool.and_eq_true]
      refine ⟨?_, hcs.2⟩
      split
      · simp [pushDown, ofSubTrees, setBounds, boundsValid, boundsValidList,
          computeBoundsOfList, unionOfBounds_right_idem, hcs.1, hn]
      · have h1 := boundsValid_addInside c n hcs.1 hn
        have h2 := bounds_addInside c n
        generalize addInside c n = r at h1 h2
        cases r with
        | leaf o b g => rfl
        | node rs b g =>
          cases rs with
          | nil => simp [boundsValid] at h1
          | cons r0 rs =>
            simp only [boundsValid, Bool.and_eq_true, decide_eq_true_eq] at h1
            simp only [bounds] at h2
            simp [setBounds, boundsValid, bounds, h1.2, ← h1.1, h2, unionOfBounds_right_idem]
    | succ i =>
      simp only [addOutsideAt, boundsValidList, Bool.and_eq_true]
      exact ⟨hcs.1, boundsValidList_addOutsideAt cs i n hcs.2 hn⟩
end

end TreeNode
end P3D

namespace P3D
namespace TreeNode

theorem boundsValid_addOutside (t n : TreeNode) (ht : boundsValid t = true)
    (hn : boundsValid n = true) : boundsValid (addOutside t n) = true := by
  have h := boundsValidList_addOutsideAt [t] 0 n (by simp [boundsValidList, ht]) hn
  rw [addOutsideAt_zero] at h
  simpa [boundsValidList] using h

/-! ## Group heads under insertion -/

theorem groupHeads_leaf (o : Nat) (b : Bounds) (g : Bool) :
    groupHeads (leaf o b g) = if g then [leaf o b g] else [] := by
  cases g <;> simp [groupHeads, subNodes, isGroupHead]

theorem groupHeads_node (cs : List TreeNode) (b : Bounds) (g : Bool) :
    groupHeads (node cs b g) =
      (if g then [node cs b g] else []) ++ (subNodesList cs).filter isGroupHead := by
  cases g <;> simp [groupHeads, subNodes, isGroupHead]

theorem subNodesList_append (l₁ l₂ : List TreeNode) :
    subNodesList (l₁ ++ l₂) = subNodesList l₁ ++ subNodesList l₂ := by
  induction l₁ with
  | nil => simp [subNodesList]
  | cons c cs ih => simp [subNodesList, ih]

theorem isGroupHead_addInside (t n : TreeNode) :
    (addInside t n).isGroupHead = t.isGroupHead := by
  cases t <;> simp [addInside, isGroupHead]

theorem groupHeads_setBounds (t : TreeNode) (b : Bounds) (h : t.isGroupHead = false) :
    groupHeads (t.setBounds b) = groupHeads t := by
  cases t with
  | leaf o b0 g =>
    simp only [isGroupHead] at h
    subst h
    simp [setBounds, groupHeads_leaf]
  | node cs b0 g =>
    simp only [isGroupHead] at h
    subst h
    simp [setBounds, groupHeads_node]

theorem groupHeads_setGroupHead_false_leaf (o : Nat) (b : Bounds) (g : Bool) :
    groupHeads ((leaf o b g).setGroupHead false) = [] := by
  simp [setGroupHead, groupHeads_leaf]

mutual
theorem groupHeads_addInside_sublist (t n : TreeNode) (ht : t.isGroupHead = false) :
    (groupHeads t).Sublist (groupHeads (addInside t n)) := by
  cases t with
  | leaf o b g =>
    simp only [isGroupHead] at ht
    subst ht
    simp [groupHeads_leaf]
  | node cs b g =>
    simp only [isGroupHead] at ht
    subst ht
    rw [addInside_node, groupHeads_node, groupHeads_node]
    simp only [Bool.false_eq_true, if_false, List.nil_append]
    unfold addToSubTrees
    split
    · rw [subNodesList_append, List.filter_append]
      exact List.sublist_append_left _ _
    · exact groupHeadsList_addOutsideAt_sublist cs _ n
theorem groupHeadsList_addOutsideAt_sublist (cs : List TreeNode) (i : Nat) (n : TreeNode) :
    ((subNodesList cs).filter isGroupHead).Sublist
      ((subNodesList (addOutsideAt cs i n)).filter isGroupHead) := by
  cases cs with
  | nil => simp [addOutsideAt]
  | cons c cs =>
    cases i with
    | zero =>
      simp only [addOutsideAt, subNodesList, List.filter_append]
      refine List.Sublist.append ?_ (List.Sublist.refl _)
      split
      · rename_i hc
        have : groupHeads (pushDown c n) =
            (subNodes c).filter isGroupHead ++ ((subNodes n).filter isGroupHead ++ []) := by
          simp [pushDown, ofSubTrees, setBounds, groupHeads_node, subNodesList]
        show ((subNodes c).filter isGroupHead).Sublist (groupHeads (pushDown c n))
        rw [this]
        exact List.sublist_append_left _ _
      · rename_i hc
        have hc' : c.isGroupHead = false := by simpa using hc
        have h1 := groupHeads_addInside_sublist c n hc'
        have h2 := groupHeads_setBounds (addInside c n)
          (unionOfBounds (addInside c n).bounds n.bounds)
          (by rw [isGroupHead_addInside]; exact hc')
        show (groupHeads c).Sublist (groupHeads _)
        rw [h2]
        exact h1
    | succ i =>
      simp only [addOutsideAt, subNodesList, List.filter_append]
      exact List.Sublist.append (List.Sublist.refl _)
        (groupHeadsList_addOutsideAt_sublist cs i n)
end

theorem groupHeads_addOutside_sublist (t n : TreeNode) :
    (groupHeads t).Sublist (groupHeads (addOutside t n)) := by
  have h := groupHeadsList_addOutsideAt_sublist [t] 0 n
  rw [addOutsideAt_zero] at h
  simpa [subNodesList, groupHeads] using h

end TreeNode

/-! ## Insertion: the claims -/

/-- C1. For every tree that satisfies the bounds-cache invariant (every internal node has
children and its cached bounds equal the union of its children's cached bounds, down to the
leaves) and for every new leaf, the trees produced by `addOutside` and by `addInside`
satisfy the invariant again. -/
theorem insertion_preserves_bounds_cache (t : TreeNode) (o : Nat) (b : Bounds) (g : Bool)
    (ht : t.boundsValid = true) :
    (t.addOutside (TreeNode.leaf o b g)).boundsValid = true ∧
    (t.addInside (TreeNode.leaf o b g)).boundsValid = true :=
  ⟨TreeNode.boundsValid_addOutside t _ ht rfl, TreeNode.boundsValid_addInside t _ ht rfl⟩

/-- Witness for C1: insertion of a leaf `[8,9]³` into the valid tree `[[L1, L2], L3]`. -/
theorem insertion_preserves_bounds_cache_witness :
    threeLeafTree.boundsValid = true ∧
    (threeLeafTree.addOutside (cubeLeaf 9 8 9)).boundsValid = true ∧
    (threeLeafTree.addInside (cubeLeaf 9 8 9)).boundsValid = true :=
  ⟨by decide, insertion_preserves_bounds_cache threeLeafTree 9 (cube 8 9) false (by decide)⟩

/-- C3. For every tree and every new leaf, every group head of the tree is still a node of
the tree after `addOutside`, unchanged: the group heads of the old tree form a sublist
(multiplicities included) of the group heads of the new tree. In particular for every group
head `g` the new tree contains a group head with exactly the leaf objects of `g`. -/
theorem addOutside_keeps_group_heads (t : TreeNode) (o : Nat) (b : Bounds) (f : Bool) :
    (t.groupHeads).Sublist ((t.addOutside (TreeNode.leaf o b f)).groupHeads) ∧
    ∀ g ∈ t.subNodes, g.isGroupHead = true →
      ∃ g' ∈ (t.addOutside (TreeNode.leaf o b f)).subNodes,
        g'.isGroupHead = true ∧ g'.leafObjects = g.leafObjects := by
  have h := TreeNode.groupHeads_addOutside_sublist t (TreeNode.leaf o b f)
  refine ⟨h, fun g hg hflag => ?_⟩
  have hmem : g ∈ t.groupHeads := by
    simp only [TreeNode.groupHeads, List.mem_filter]
    exact ⟨hg, hflag⟩
  have hmem' := h.subset hmem
  simp only [TreeNode.groupHeads, List.mem_filter] at hmem'
  exact ⟨g, hmem'.1, hmem'.2, rfl⟩

/-- C7, the claim as stated fails: after the five insertions of the scenario into an empty
root the root does not have 2 children. -/
theorem scenario_root_not_two_children :
    ¬ ((insertAll (TreeNode.withEmptySubNodes (cube 0 0)) scenarioLeaves).children.length = 2) := by
  decide

/-- C7 as amended. After the five insertions of the scenario into an empty root (whatever
bounds the empty root carries) the root has exactly 4 children: the leaves `[0,1]³`, `[2,3]³`,
`[4,5]³` and an internal node holding the leaves `[6,7]³` and `[8,9]³`. -/
theorem scenario_root_children (slot0 : Bounds) :
    (insertAll (TreeNode.withEmptySubNodes slot0) scenarioLeaves).children =
      [cubeLeaf 1 0 1, cubeLeaf 2 2 3, cubeLeaf 3 4 5,
       TreeNode.node [cubeLeaf 4 6 7, cubeLeaf 5 8 9] (cube 6 9) false] := by
  rfl

/-- The bounds of the root after inserting leaves into an empty root: the running union that
starts from the bounds the empty root was created with. -/
theorem bounds_insertAll (root : TreeNode) (leaves : List TreeNode) :
    (insertAll root leaves).bounds = foldBounds root.bounds leaves := by
  induction leaves generalizing root with
  | nil => rfl
  | cons l ls ih =>
    show (insertAll (root.addInside l) ls).bounds = _
    rw [ih, TreeNode.bounds_addInside, foldBounds_cons]

end P3D

namespace P3D
namespace TreeNode

/-! ## Removal -/

theorem perm_set_eraseIdx {α : Type} (l : List α) (i : Nat) (a : α) (h : i < l.length) :
    (l.set i a).Perm (a :: l.eraseIdx i) := by
  induction l generalizing i with
  | nil => simp at h
  | cons x xs ih =>
    cases i with
    | zero => simp
    | succ i =>
      simp only [List.length_cons, Nat.add_lt_add_iff_right] at h
      simp only [List.set_cons_succ, List.eraseIdx_cons_succ]
      exact ((ih i h).cons x).trans (List.Perm.swap a x _)

theorem perm_get_eraseIdx {α : Type} (l : List α) (i : Nat) (h : i < l.length) :
    l.Perm (l.get ⟨i, h⟩ :: l.eraseIdx i) := by
  induction l generalizing i with
  | nil => simp at h
  | cons x xs ih =>
    cases i with
    | zero => simp
    | succ i =>
      simp only [List.length_cons, Nat.add_lt_add_iff_right] at h
      simp only [List.get_eq_getElem, List.getElem_cons_succ, List.eraseIdx_cons_succ]
      exact ((ih i h).cons x).trans (List.Perm.swap _ x _)

/-- Exchanging the element at position `i`: the old list with the new element is a
permutation of the new list with the old element. -/
theorem perm_set_exchange {α : Type} (l : List α) (i : Nat) (a : α) (h : i < l.length) :
    (l.get ⟨i, h⟩ :: l.set i a).Perm (a :: l) := by
  have h1 := perm_set_eraseIdx l i a h
  have h2 := perm_get_eraseIdx l i h
  exact ((h1.cons _).trans (List.Perm.swap _ _ _)).trans (h2.symm.cons a)

theorem swapOut_perm (cs : List TreeNode) (index : Nat) (last : TreeNode)
    (hlast : cs.getLast? = some last) (h : index < cs.length) :
    cs.Perm (cs.get ⟨index, h⟩ :: swapOut cs index last) := by
  have hd : cs.dropLast ++ [last] = cs := List.dropLast_append_getLast? last hlast
  have hlen : cs.dropLast.length = cs.length - 1 := by simp
  unfold swapOut
  split
  · rename_i hne
    have hi : index < cs.dropLast.length := by omega
    have hset : (cs.set index last).dropLast = cs.dropLast.set index last := by
      conv_lhs => rw [← hd]
      rw [List.set_append_left _ _ hi, List.dropLast_concat]
    have hget : cs.get ⟨index, h⟩ = cs.dropLast.get ⟨index, hi⟩ := by
      simp only [List.get_eq_getElem]
      rw [List.getElem_dropLast]
    rw [hset, hget]
    have := perm_set_exchange cs.dropLast index last hi
    calc cs.Perm (cs.dropLast ++ [last]) := by rw [hd]
      _ |>.Perm (last :: cs.dropLast) := List.perm_append_singleton _ _
      _ |>.Perm _ := this.symm
  · rename_i hne
    have hidx : index = cs.length - 1 := by
      by_contra hc
      exact hne hc
    have hget : cs.get ⟨index, h⟩ = last := by
      have h1 : cs.getLast? = some (cs.get ⟨index, h⟩) := by
        rw [List.getLast?_eq_getElem?]
        simp only [List.get_eq_getElem]
        rw [← hidx, List.getElem?_eq_getElem h]
      rw [hlast] at h1
      exact (Option.some.inj h1).symm
    rw [hget]
    calc cs.Perm (cs.dropLast ++ [last]) := by rw [hd]
      _ |>.Perm (last :: cs.dropLast) := List.perm_append_singleton _ _

theorem length_swapOut (cs : List TreeNode) (index : Nat) (last : TreeNode) :
    (swapOut cs index last).length = cs.length - 1 := by
  unfold swapOut
  split <;> simp

end TreeNode
end P3D

namespace P3D
namespace TreeNode

theorem leafBoundsList_coe (cs : List TreeNode) :
    (↑(leafBoundsList cs) : Multiset (Nat × Bounds)) =
      (cs.map (fun c => (↑(leafBounds c) : Multiset (Nat × Bounds)))).sum := by
  induction cs with
  | nil => simp [leafBoundsList]
  | cons c cs ih =>
    simp only [leafBoundsList, List.map_cons, List.sum_cons, ← ih]
    rfl

theorem leafBounds_setGroupHead (t : TreeNode) (g : Bool) :
    leafBounds (t.setGroupHead g) = leafBounds t := by
  cases t <;> simp [setGroupHead, leafBounds]

theorem recalculate_of_valid (t : TreeNode) (hv : boundsValid t = true)
    (hl : t.isLeafNode = false) : t.recalculateBoundsFromSubBounds = some t := by
  cases t with
  | leaf o b g => simp [isLeafNode] at hl
  | node cs b g =>
    cases cs with
    | nil => simp [boundsValid] at hv
    | cons c cs =>
      simp only [boundsValid, Bool.and_eq_true, decide_eq_true_eq] at hv
      simp [recalculateBoundsFromSubBounds, ← hv.1]

theorem boundsValid_recalculate (cs : List TreeNode) (b : Bounds) (g : Bool)
    (hne : cs ≠ []) (hv : boundsValidList cs = true) :
    ∃ r, (node cs b g).recalculateBoundsFromSubBounds = some r ∧ boundsValid r = true ∧
      r.isLeafNode = false ∧ leafBounds r = leafBoundsList cs := by
  cases cs with
  | nil => exact absurd rfl hne
  | cons c cs =>
    refine ⟨node (c :: cs) (computeBoundsOfList c cs) g, rfl, ?_, rfl, ?_⟩
    · simp [boundsValid, hv]
    · simp [leafBounds]

/-- The effect of `TreeNode::remove(index)` on a valid node with at least two children. -/
theorem remove_child_spec (cs : List TreeNode) (b : Bounds) (g : Bool) (index : Nat)
    (hv : boundsValidList cs = true) (h2 : 2 ≤ cs.length) (hi : index < cs.length) :
    ∃ r, remove (node cs b g) index = some (cs.get ⟨index, hi⟩, r) ∧
      boundsValid r = true ∧
      (↑(leafBoundsList cs) : Multiset (Nat × Bounds)) =
        ↑(leafBounds (cs.get ⟨index, hi⟩)) + ↑(leafBounds r) ∧
      (r.isLeafNode = false → r.recalculateBoundsFromSubBounds = some r) := by
  have hne : cs ≠ [] := by
    intro h
    rw [h] at h2
    simp at h2
  have hlast : cs.getLast? = some (cs.getLast hne) := List.getLast?_eq_getLast cs hne
  have hget : cs[index]? = some (cs.get ⟨index, hi⟩) := by
    simp [List.getElem?_eq_getElem hi]
  have hperm := swapOut_perm cs index _ hlast hi
  have hlen := length_swapOut cs index (cs.getLast hne)
  have hsum : (↑(leafBoundsList cs) : Multiset (Nat × Bounds)) =
      ↑(leafBounds (cs.get ⟨index, hi⟩)) +
        ↑(leafBoundsList (swapOut cs index (cs.getLast hne))) := by
    rw [leafBoundsList_coe, leafBoundsList_coe,
      (hperm.map (fun c => (↑(leafBounds c) : Multiset (Nat × Bounds)))).sum_eq]
    simp
  have hvs : boundsValidList (swapOut cs index (cs.getLast hne)) = true := by
    rw [boundsValidList_iff] at hv ⊢
    intro x hx
    exact hv x (hperm.symm.subset (List.mem_cons_of_mem _ hx))
  generalize hsw : swapOut cs index (cs.getLast hne) = cs' at hperm hlen hsum hvs
  match cs', hlen, hsum, hvs, hsw with
  | [], hlen, _, _, _ =>
    simp at hlen
    omega
  | [only], _, hsum, hvs, hsw =>
    refine ⟨only.setGroupHead (g || only.isGroupHead), ?_, ?_, ?_, ?_⟩
    · simp [remove, hget, hlast, hsw]
    · rw [boundsValid_setGroupHead]
      simpa [boundsValidList] using hvs
    · rw [hsum, leafBounds_setGroupHead]
      simp [leafBoundsList]
    · intro hl
      apply recalculate_of_valid _ _ hl
      rw [boundsValid_setGroupHead]
      simpa [boundsValidList] using hvs
  | c1 :: c2 :: rest, _, hsum, hvs, hsw =>
    obtain ⟨r, hr, hrv, hrl, hrb⟩ :=
      boundsValid_recalculate (c1 :: c2 :: rest) b g (List.cons_ne_nil _ _) hvs
    refine ⟨r, ?_, hrv, ?_, fun hl => recalculate_of_valid r hrv hl⟩
    · simp [remove, hget, hlast, hsw, hr]
    · rw [hsum, hrb]

end TreeNode
end P3D

namespace P3D
namespace NodeStack

open TreeNode

/-- The removal through a cursor of depth one: the parent is the root. -/
theorem remove_singleton (t : TreeNode) (index : Nat) :
    remove ⟨t, [index]⟩ =
      ((t.remove index).map Prod.snd).bind
        (fun r => if r.isLeafNode then some r else r.recalculateBoundsFromSubBounds) := by
  simp only [remove, List.getLast?_singleton, List.dropLast_single, modifyAt]
  cases h : (t.remove index).map Prod.snd with
  | none => rfl
  | some r =>
    by_cases hl : r.isLeafNode = true <;>
      simp [hl, updateBoundsAllTheWayToTop, nodeAt, recalculateAlong]

/-- The removal through a deeper cursor: it happens inside the child taken first, after
which the root's bounds are recalculated. -/
theorem remove_cons (cs : List TreeNode) (b : Bounds) (g : Bool) (i : Nat) (rest : List Nat)
    (c : TreeNode) (hc : cs[i]? = some c) (hrest : rest ≠ []) :
    remove ⟨node cs b g, i :: rest⟩ =
      (remove ⟨c, rest⟩).bind
        (fun c' => (node (cs.set i c') b g).recalculateBoundsFromSubBounds) := by
  have hi : i < cs.length := by
    rcases List.getElem?_eq_some_iff.1 hc with ⟨h, _⟩
    exact h
  obtain ⟨index, hindex⟩ : ∃ index, rest.getLast? = some index := by
    cases hl : rest.getLast? with
    | none => exact absurd (List.getLast?_eq_none_iff.1 hl) hrest
    | some x => exact ⟨x, rfl⟩
  have h1 : (i :: rest).getLast? = some index := by
    cases rest with
    | nil => exact absurd rfl hrest
    | cons r rs => simpa [List.getLast?_cons_cons] using hindex
  have h2 : (i :: rest).dropLast = i :: rest.dropLast := by
    cases rest with
    | nil => exact absurd rfl hrest
    | cons r rs => rfl
  simp only [remove, h1, h2, hindex, modifyAt, hc]
  cases hm : modifyAt (fun parent => (parent.remove index).map Prod.snd) c rest.dropLast with
  | none => rfl
  | some c1 =>
    have hset : (cs.set i c1)[i]? = some c1 := by
      simp [List.getElem?_set_self hi]
    simp only [Option.map_some', Option.some_bind, updateBoundsAllTheWayToTop, nodeAt, hset]
    cases hn : nodeAt c1 rest.dropLast with
    | none => rfl
    | some top =>
      simp only []
      by_cases hleaf : top.isLeafNode = true
      · simp only [hleaf, if_true]
        by_cases hd : rest.dropLast = []
        · simp [hd, recalculateAlong]
        · have h3 : (i :: rest.dropLast).dropLast = i :: rest.dropLast.dropLast := by
            cases hr : rest.dropLast with
            | nil => exact absurd hr hd
            | cons r rs => rfl
          simp [hd, h3, recalculateAlong, hset, List.set_set]
      · simp [hleaf, recalculateAlong, hset, List.set_set]

end NodeStack

namespace TreeNode

theorem boundsValidList_set (cs : List TreeNode) (i : Nat) (c : TreeNode)
    (hv : boundsValidList cs = true) (hc : boundsValid c = true) :
    boundsValidList (cs.set i c) = true := by
  rw [boundsValidList_iff] at hv ⊢
  intro x hx
  rcases List.mem_or_eq_of_mem_set hx with h | h
  · exact hv x h
  · rw [h]
    exact hc

theorem leafBoundsList_set (cs : List TreeNode) (i : Nat) (c c' : TreeNode)
    (hc : cs[i]? = some c) (x : Nat × Bounds)
    (hx : (↑(leafBounds c) : Multiset (Nat × Bounds)) = x ::ₘ ↑(leafBounds c')) :
    (↑(leafBoundsList cs) : Multiset (Nat × Bounds)) = x ::ₘ ↑(leafBoundsList (cs.set i c')) := by
  obtain ⟨hi, hget⟩ := List.getElem?_eq_some_iff.1 hc
  have hp := perm_set_exchange cs i c' hi
  have hs := (hp.map (fun c => (↑(leafBounds c) : Multiset (Nat × Bounds)))).sum_eq
  simp only [List.map_cons, List.sum_cons, List.get_eq_getElem, hget] at hs
  rw [leafBoundsList_coe, leafBoundsList_coe]
  rw [hx] at hs
  have h3 : x ::ₘ (↑(leafBounds c') +
      (List.map (fun c => (↑(leafBounds c) : Multiset (Nat × Bounds))) (cs.set i c')).sum) =
      ↑(leafBounds c') +
        (List.map (fun c => (↑(leafBounds c) : Multiset (Nat × Bounds))) cs).sum := by
    rw [← hs, Multiset.cons_add]
  rw [← Multiset.add_cons] at h3
  exact (add_left_cancel h3).symm

end TreeNode

/-- The effect of `NodeStack::remove` when the leaf's parent has at least two children. -/
theorem NodeStack.remove_cursor_spec (path : List Nat) :
    ∀ (t : TreeNode) (index : Nat) (pcs : List TreeNode) (pb : Bounds) (pg : Bool)
      (o : Nat) (lb : Bounds) (lg : Bool),
      t.boundsValid = true → t.nodeAt path = some (TreeNode.node pcs pb pg) →
      pcs[index]? = some (TreeNode.leaf o lb lg) → 2 ≤ pcs.length →
      ∃ t', NodeStack.remove ⟨t, path ++ [index]⟩ = some t' ∧ t'.boundsValid = true ∧
        (↑(t.leafBounds) : Multiset (Nat × Bounds)) = (o, lb) ::ₘ ↑(t'.leafBounds) ∧
        (t'.isLeafNode = false → t'.recalculateBoundsFromSubBounds = some t') := by
  induction path with
  | nil =>
    intro t index pcs pb pg o lb lg hv hp hleaf h2
    simp only [TreeNode.nodeAt, Option.some.injEq] at hp
    subst hp
    obtain ⟨hi, hget⟩ := List.getElem?_eq_some_iff.1 hleaf
    obtain ⟨c, rest, hcs, hb, hl⟩ := (TreeNode.boundsValid_node_iff pcs pb pg).1 hv
    obtain ⟨r, hr, hrv, hrs, hrr⟩ := TreeNode.remove_child_spec pcs pb pg index hl h2 hi
    refine ⟨r, ?_, hrv, ?_, hrr⟩
    · rw [List.nil_append, NodeStack.remove_singleton, hr]
      simp only [Option.map_some', Option.some_bind]
      split
      · rfl
      · rename_i hnl
        exact hrr (by simpa using hnl)
    · simp only [List.get_eq_getElem, hget, TreeNode.leafBounds] at hrs
      simp only [TreeNode.leafBounds]
      rw [hrs]
      rfl
  | cons i path ih =>
    intro t index pcs pb pg o lb lg hv hp hleaf h2
    cases t with
    | leaf o' b' g' => simp [TreeNode.nodeAt] at hp
    | node cs b g =>
      simp only [TreeNode.nodeAt] at hp
      cases hc : cs[i]? with
      | none => simp [hc] at hp
      | some c =>
        simp only [hc] at hp
        obtain ⟨c0, rest, hcs, hb, hl⟩ := (TreeNode.boundsValid_node_iff cs b g).1 hv
        have hcv : c.boundsValid = true :=
          (TreeNode.boundsValidList_iff cs).1 hl c (List.getElem?_mem hc)
        obtain ⟨c', hc', hcv', hcs', _⟩ := ih c index pcs pb pg o lb lg hcv hp hleaf h2
        have hne : cs.set i c' ≠ [] := by
          rw [hcs]
          cases i <;> simp
        obtain ⟨r, hr, hrv, hrl, hrb⟩ := TreeNode.boundsValid_recalculate (cs.set i c') b g hne
          (TreeNode.boundsValidList_set cs i c' hl hcv')
        refine ⟨r, ?_, hrv, ?_, fun hl' => TreeNode.recalculate_of_valid r hrv hl'⟩
        · rw [List.cons_append, NodeStack.remove_cons cs b g i (path ++ [index]) c hc (by simp),
            hc']
          exact hr
        · rw [hrb]
          simp only [TreeNode.leafBounds]
          exact TreeNode.leafBoundsList_set cs i c c' hc (o, lb) hcs'

end P3D

namespace P3D

/-- The tree `[[L1], L2]`, which no operation builds (an inner node is made with 2 children
and is replaced by its child when left with one), has two leaves and satisfies the
bounds-cache invariant, and the cursor `[0, 0]` is a valid root-to-leaf path (to `L1`); there
`NodeStack::remove` leaves the parent of `L1` without children and
`recalculateBoundsFromSubBounds` reads its slot 0. -/
theorem cursor_remove_fails_below_single_child_parent :
    singleChildTree.boundsValid = true ∧ 2 ≤ singleChildTree.leafObjects.length ∧
    NodeStack.pointsToLeaf ⟨singleChildTree, [0, 0]⟩ = true ∧
    ¬ ∃ t', NodeStack.remove ⟨singleChildTree, [0, 0]⟩ = some t' ∧ t'.boundsValid = true := by
  refine ⟨by decide, by decide, by decide, ?_⟩
  rintro ⟨t', h, _⟩
  have hnone : NodeStack.remove ⟨singleChildTree, [0, 0]⟩ = none := rfl
  rw [hnone] at h
  cases h

/-- For every tree that satisfies the bounds-cache invariant and every cursor that is a valid
root-to-leaf path (`path ++ [index]`, ending at the leaf `(o, lb)`) whose leaf's parent has at
least two children, `NodeStack::remove` yields a tree that satisfies the bounds-cache
invariant and whose leaves are the old leaves without that leaf. -/
theorem cursor_remove_preserves_bounds_cache (t : TreeNode) (path : List Nat) (index : Nat)
    (pcs : List TreeNode) (pb : Bounds) (pg : Bool) (o : Nat) (lb : Bounds) (lg : Bool)
    (hv : t.boundsValid = true)
    (hparent : t.nodeAt path = some (TreeNode.node pcs pb pg))
    (hleaf : pcs[index]? = some (TreeNode.leaf o lb lg))
    (h2 : 2 ≤ pcs.length) :
    ∃ t', NodeStack.remove ⟨t, path ++ [index]⟩ = some t' ∧ t'.boundsValid = true ∧
      (t.leafBounds).Perm ((o, lb) :: t'.leafBounds) := by
  obtain ⟨t', h1, h2', h3, _⟩ :=
    NodeStack.remove_cursor_spec path t index pcs pb pg o lb lg hv hparent hleaf h2
  refine ⟨t', h1, h2', ?_⟩
  rw [Multiset.cons_coe] at h3
  exact Multiset.coe_eq_coe.1 h3

/-- An instance: removing the leaf `[2,3]³` from `[[L1, L2], L3]` through the cursor
`[0, 1]`. -/
theorem cursor_remove_preserves_bounds_cache_witness :
    ∃ t', NodeStack.remove ⟨threeLeafTree, [0] ++ [1]⟩ = some t' ∧ t'.boundsValid = true ∧
      (threeLeafTree.leafBounds).Perm ((2, cube 2 3) :: t'.leafBounds) :=
  cursor_remove_preserves_bounds_cache threeLeafTree [0] 1
    [cubeLeaf 1 0 1, cubeLeaf 2 2 3] (cube 0 3) false 2 (cube 2 3) false
    (by decide) (by rfl) (by rfl) (by decide)

end P3D

/-! ## Unions of boxes, independent of order -/

namespace P3D

theorem Bounds.le_refl (a : Bounds) : a.le a := by
  simp [Bounds.le]

theorem Bounds.le_trans {a b c : Bounds} (h₁ : a.le b) (h₂ : b.le c) : a.le c := by
  simp only [Bounds.le] at *
  omega

theorem Bounds.le_antisymm {a b : Bounds} (h₁ : a.le b) (h₂ : b.le a) : a = b := by
  obtain ⟨⟨ax, ay, az⟩, ⟨aX, aY, aZ⟩⟩ := a
  obtain ⟨⟨bx, b_y, bz⟩, ⟨bX, bY, bZ⟩⟩ := b
  simp only [Bounds.le] at h₁ h₂
  simp only [Bounds.mk.injEq, Position.mk.injEq]
  omega

theorem Bounds.le_union_left (a b : Bounds) : a.le (unionOfBounds a b) := by
  simp only [Bounds.le, unionOfBounds]
  omega

theorem Bounds.le_union_right (a b : Bounds) : b.le (unionOfBounds a b) := by
  simp only [Bounds.le, unionOfBounds]
  omega

theorem Bounds.union_le {a b c : Bounds} (h₁ : a.le c) (h₂ : b.le c) :
    (unionOfBounds a b).le c := by
  simp only [Bounds.le, unionOfBounds] at *
  omega

/-- A value within the 64-bit range is held as it is. -/
theorem wrapInt64_of_fits (n : Int) (hlo : -9223372036854775808 ≤ n)
    (hhi : n < 9223372036854775808) : wrapInt64 n = n := by
  unfold wrapInt64
  omega

/-- A 64-bit value lies between `-2^63` and `2^63 - 1`. -/
theorem wrapInt64_range (n : Int) :
    -9223372036854775808 ≤ wrapInt64 n ∧ wrapInt64 n < 9223372036854775808 := by
  unfold wrapInt64
  omega

theorem addInt64_comm (a b : Int) : addInt64 a b = addInt64 b a := by
  simp only [addInt64, add_comm]

/-- The cost of a box is its exact extent sum reduced to 64 bits. -/
theorem computeCost_eq_wrap (b : Bounds) : computeCost b = wrapInt64 b.extentSum := by
  simp only [computeCost, Bounds.getDiagonal, Bounds.extentSum, addInt64, subInt64, wrapInt64]
  omega

/-- The exact extent sum is monotone under containment. -/
theorem extentSum_mono {a b : Bounds} (h : a.le b) : a.extentSum ≤ b.extentSum := by
  simp only [Bounds.le] at h
  simp only [Bounds.extentSum]
  omega

theorem IsUnionOf.unique {u u' : Bounds} {bs : List Bounds} (h : IsUnionOf u bs)
    (h' : IsUnionOf u' bs) : u = u' :=
  Bounds.le_antisymm (h.2 u' h'.1) (h'.2 u h.1)

theorem IsUnionOf.congr {u : Bounds} {bs bs' : List Bounds} (h : IsUnionOf u bs)
    (hm : ∀ b, b ∈ bs ↔ b ∈ bs') : IsUnionOf u bs' :=
  ⟨fun b hb => h.1 b ((hm b).2 hb), fun u' hu' => h.2 u' (fun b hb => hu' b ((hm b).1 hb))⟩

theorem IsUnionOf.singleton (b : Bounds) : IsUnionOf b [b] :=
  ⟨fun x hx => by
      rw [List.mem_singleton.1 hx]
      exact Bounds.le_refl b,
    fun u' hu' => hu' b (List.mem_singleton_self b)⟩

theorem IsUnionOf.append {u₁ u₂ : Bounds} {l₁ l₂ : List Bounds} (h₁ : IsUnionOf u₁ l₁)
    (h₂ : IsUnionOf u₂ l₂) : IsUnionOf (unionOfBounds u₁ u₂) (l₁ ++ l₂) := by
  constructor
  · intro b hb
    rcases List.mem_append.1 hb with hb | hb
    · exact Bounds.le_trans (h₁.1 b hb) (Bounds.le_union_left _ _)
    · exact Bounds.le_trans (h₂.1 b hb) (Bounds.le_union_right _ _)
  · intro u' hu'
    exact Bounds.union_le
      (h₁.2 u' (fun b hb => hu' b (List.mem_append_left _ hb)))
      (h₂.2 u' (fun b hb => hu' b (List.mem_append_right _ hb)))

theorem isUnionOf_foldBounds (l : List TreeNode) (b0 : Bounds) :
    IsUnionOf (foldBounds b0 l) (b0 :: l.map TreeNode.bounds) := by
  induction l generalizing b0 with
  | nil => exact IsUnionOf.singleton b0
  | cons c cs ih =>
    rw [foldBounds_cons, foldBounds_union]
    have h := ih b0
    have h2 := (h.append (IsUnionOf.singleton c.bounds))
    refine h2.congr ?_
    intro b
    simp only [List.map_cons, List.mem_cons, List.mem_append, List.mem_singleton]
    tauto

theorem isUnionOf_computeBoundsOfList (c : TreeNode) (cs : List TreeNode) :
    IsUnionOf (computeBoundsOfList c cs) ((c :: cs).map TreeNode.bounds) :=
  isUnionOf_foldBounds cs c.bounds

/-- The cached bounds of a valid node are the union of the boxes of its candidates: of its
children for an internal node, of itself for a leaf. -/
theorem isUnionOf_candidates (t : TreeNode) (hv : t.boundsValid = true) :
    IsUnionOf t.bounds
      ((if t.isLeafNode then [t] else t.children).map TreeNode.bounds) := by
  cases t with
  | leaf o b g => exact IsUnionOf.singleton b
  | node cs b g =>
    obtain ⟨c, rest, hcs, hb, _⟩ := (TreeNode.boundsValid_node_iff cs b g).1 hv
    subst hcs
    simp only [TreeNode.isLeafNode, Bool.false_eq_true, if_false, TreeNode.children,
      TreeNode.bounds_node, hb]
    exact isUnionOf_computeBoundsOfList c rest

end P3D

/-! ## The search for the best arrangement -/

namespace P3D

theorem perm_of_coe_eq {α : Type} {l₁ l₂ : List α}
    (h : (↑l₁ : Multiset α) = ↑l₂) : l₁.Perm l₂ :=
  Multiset.coe_eq_coe.1 h

theorem perm_split_inA (A B cs : List TreeNode) (c : TreeNode) :
    ((A ++ [c]) ++ B ++ cs).Perm (A ++ B ++ (c :: cs)) := by
  apply perm_of_coe_eq
  simp only [← Multiset.coe_add, ← Multiset.cons_coe, Multiset.coe_nil, Multiset.add_cons,
    Multiset.cons_add, add_zero, zero_add]

theorem perm_split_inB (A B cs : List TreeNode) (c : TreeNode) :
    (A ++ (B ++ [c]) ++ cs).Perm (A ++ B ++ (c :: cs)) := by
  apply perm_of_coe_eq
  simp only [← Multiset.coe_add, ← Multiset.cons_coe, Multiset.coe_nil, Multiset.add_cons,
    Multiset.cons_add, add_zero, zero_add]

theorem perm_split_restB (A B cs : List TreeNode) (c : TreeNode) :
    ((A ++ [c]) ++ (B ++ cs)).Perm (A ++ B ++ (c :: cs)) := by
  apply perm_of_coe_eq
  simp only [← Multiset.coe_add, ← Multiset.cons_coe, Multiset.coe_nil, Multiset.add_cons,
    Multiset.cons_add, add_zero, zero_add]
  congr 1
  abel

theorem perm_split_restA (A B cs : List TreeNode) (c : TreeNode) :
    ((A ++ cs) ++ (B ++ [c])).Perm (A ++ B ++ (c :: cs)) := by
  apply perm_of_coe_eq
  simp only [← Multiset.coe_add, ← Multiset.cons_coe, Multiset.coe_nil, Multiset.add_cons,
    Multiset.cons_add, add_zero, zero_add]
  congr 1
  abel

theorem sound_updateBestPermutationIfNeeded (best : BestSoFar) (current : NodePermutation)
    (allNodes : List TreeNode) (c0 : Int) (hb : best.Sound allNodes c0)
    (hc : current.IsSplitOf allNodes) :
    (updateBestPermutationIfNeeded best current).Sound allNodes c0 := by
  unfold updateBestPermutationIfNeeded
  cases hcost : current.cost with
  | none => exact hb
  | some c =>
    simp only []
    split
    · rename_i hlt
      have h1 := hb.1
      exact ⟨by simp only []; omega, Or.inr ⟨hc, hcost, by simp only []; omega⟩⟩
    · exact hb

theorem sound_recursiveFindBestCombination (allNodes : List TreeNode) (c0 : Int)
    (candidates : List TreeNode) :
    ∀ (best : BestSoFar) (current : NodePermutation), best.Sound allNodes c0 →
      current.permutationA ≠ [] → current.permutationB ≠ [] →
      (current.permutationA ++ current.permutationB ++ candidates).Perm allNodes →
      (recursiveFindBestCombination best current candidates).Sound allNodes c0 := by
  induction candidates with
  | nil =>
    intro best current hb hA hB hp
    simp only [recursiveFindBestCombination]
    exact sound_updateBestPermutationIfNeeded best current allNodes c0 hb
      ⟨hA, hB, by simpa using hp⟩
  | cons c cs ih =>
    intro best current hb hA hB hp
    simp only [recursiveFindBestCombination]
    have hA' : current.permutationA ++ [c] ≠ [] := by simp
    have hB' : current.permutationB ++ [c] ≠ [] := by simp
    have h1 : BestSoFar.Sound
        (if NodePermutation.countA ⟨current.permutationA ++ [c], current.permutationB⟩ =
            MAX_BRANCHES then
          updateBestPermutationIfNeeded best
            ⟨current.permutationA ++ [c], current.permutationB ++ cs⟩
        else recursiveFindBestCombination best
            ⟨current.permutationA ++ [c], current.permutationB⟩ cs) allNodes c0 := by
      split
      · exact sound_updateBestPermutationIfNeeded _ _ allNodes c0 hb
          ⟨hA', by simp [hB], (perm_split_restB _ _ cs c).trans hp⟩
      · exact ih _ _ hb hA' hB ((perm_split_inA _ _ cs c).trans hp)
    split
    · exact sound_updateBestPermutationIfNeeded _ _ allNodes c0 h1
        ⟨by simp [hA], hB', (perm_split_restA _ _ cs c).trans hp⟩
    · exact ih _ _ h1 hA hB' ((perm_split_inB _ _ cs c).trans hp)

theorem sound_findBestLoop (allNodes : List TreeNode) (c0 : Int) (fuel : Nat) :
    ∀ (i : Nat) (best : BestSoFar), best.Sound allNodes c0 →
      (findBestLoop allNodes fuel i best).Sound allNodes c0 := by
  induction fuel with
  | zero =>
    intro i best hb
    exact hb
  | succ fuel ih =>
    intro i best hb
    simp only [findBestLoop]
    cases hd : allNodes.drop (i + 1) with
    | nil => exact hb
    | cons b candidates =>
      simp only []
      have hlen : i + 1 < allNodes.length := by
        by_contra hc
        rw [List.drop_eq_nil_of_le (by omega)] at hd
        cases hd
      have hsplit : allNodes.take (i + 1) ++ (b :: candidates) = allNodes := by
        rw [← hd, List.take_append_drop]
      have hA : allNodes.take (i + 1) ≠ [] := by
        intro h
        rcases List.take_eq_nil_iff.1 h with h | h
        · omega
        · rw [h] at hlen
          simp at hlen
      split
      · rename_i hfull
        have hi : i + 1 = MAX_BRANCHES := by
          simp only [NodePermutation.countA, List.length_take] at hfull
          omega
        have hrest : allNodes.drop (MAX_BRANCHES + 1) = candidates := by
          rw [← hi, ← List.drop_drop 1 (i + 1), hd]
          rfl
        refine sound_updateBestPermutationIfNeeded _ _ allNodes c0 hb ⟨hA, by simp, ?_⟩
        simp only [hrest, List.singleton_append]
        rw [hsplit]
      · refine ih (i + 1) _ (sound_recursiveFindBestCombination allNodes c0 candidates
          best _ hb hA (by simp) ?_)
        simp only [List.append_assoc, List.singleton_append]
        rw [hsplit]

/-- The arrangement returned by `findBestPermutation` is either empty (`countA = 0`) or a
split of the candidates whose cost is strictly below the initial cost. -/
theorem findBestPermutation_spec (allNodes : List TreeNode) (c0 : Int) :
    (findBestPermutation allNodes c0).permutationA = [] ∨
      ((findBestPermutation allNodes c0).IsSplitOf allNodes ∧
        ∃ c, (findBestPermutation allNodes c0).cost = some c ∧ c < c0) := by
  have h := sound_findBestLoop allNodes c0 (allNodes.length - 1) 0 ⟨c0, ⟨[], []⟩⟩
    ⟨le_refl c0, Or.inl rfl⟩
  rcases h.2 with h | ⟨h1, h2, h3⟩
  · exact Or.inl h
  · exact Or.inr ⟨h1, _, h2, h3⟩

end P3D

/-! ## Leaves and groups of a node -/

namespace P3D
namespace TreeNode

theorem leafObjectsList_coe (cs : List TreeNode) :
    (↑(leafObjectsList cs) : Multiset Nat) = (cs.map leafMultiset).sum := by
  induction cs with
  | nil => simp [leafObjectsList]
  | cons c cs ih =>
    simp only [leafObjectsList, List.map_cons, List.sum_cons, ← ih, leafMultiset]
    rfl

theorem leafMultiset_node (cs : List TreeNode) (b : Bounds) (g : Bool) :
    leafMultiset (node cs b g) = (cs.map leafMultiset).sum := by
  simp only [leafMultiset, leafObjects]
  exact leafObjectsList_coe cs

theorem groupHeadsList_coe (cs : List TreeNode) :
    (↑(((subNodesList cs).filter isGroupHead).map
        (fun g => (↑(leafObjects g) : Multiset Nat))) : Multiset (Multiset Nat)) =
      (cs.map groupMultiset).sum := by
  induction cs with
  | nil => simp [subNodesList]
  | cons c cs ih =>
    simp only [subNodesList, List.filter_append, List.map_append, List.map_cons, List.sum_cons,
      ← ih, groupMultiset, groupLeafSets, groupHeads]
    rfl

theorem groupMultiset_node (cs : List TreeNode) (b : Bounds) (g : Bool) :
    groupMultiset (node cs b g) =
      (if g then {(cs.map leafMultiset).sum} else 0) + (cs.map groupMultiset).sum := by
  rw [← groupHeadsList_coe, ← leafMultiset_node cs b g]
  cases g
  · simp [groupMultiset, groupLeafSets, groupHeads_node]
  · simp only [groupMultiset, groupLeafSets, groupHeads_node, if_true, List.singleton_append,
      List.map_cons, leafMultiset]
    rfl

theorem groupMultiset_node_false (cs : List TreeNode) (b : Bounds) :
    groupMultiset (node cs b false) = (cs.map groupMultiset).sum := by
  simp [groupMultiset_node]

/-- The candidates a node contributes to `nodesToList`. -/
theorem sum_leafMultiset_candidates (t : TreeNode) :
    ((if t.isLeafNode then [t] else t.children).map leafMultiset).sum = leafMultiset t := by
  cases t with
  | leaf o b g => simp [isLeafNode]
  | node cs b g => simp [isLeafNode, children, leafMultiset_node]

theorem sum_groupMultiset_candidates (t : TreeNode) (h : t.isGroupHead = false) :
    ((if t.isLeafNode then [t] else t.children).map groupMultiset).sum = groupMultiset t := by
  cases t with
  | leaf o b g => simp [isLeafNode]
  | node cs b g =>
    simp only [isGroupHead] at h
    subst h
    simp [isLeafNode, children, groupMultiset_node_false]

theorem boundsValid_candidates (t : TreeNode) (hv : t.boundsValid = true) :
    ∀ c ∈ (if t.isLeafNode then [t] else t.children), c.boundsValid = true := by
  cases t with
  | leaf o b g =>
    intro c hc
    simp only [isLeafNode, if_true, List.mem_singleton] at hc
    rw [hc]
    rfl
  | node cs b g =>
    obtain ⟨c0, rest, _, _, hl⟩ := (boundsValid_node_iff cs b g).1 hv
    simpa [isLeafNode, children] using (boundsValidList_iff cs).1 hl

end TreeNode
end P3D

/-! ## The horizontal pair optimisation -/

namespace P3D

open TreeNode

theorem PairStep.same (A B : TreeNode) : PairStep A B A B :=
  ⟨rfl, rfl, fun hA hB => ⟨hA, hB, rfl⟩⟩

theorem NodePermutation.cost_swap (p : NodePermutation) : p.swap.cost = p.cost := by
  obtain ⟨A, B⟩ := p
  cases A with
  | nil => cases B <;> rfl
  | cons a as =>
    cases B with
    | nil => rfl
    | cons b bs =>
      simp only [NodePermutation.swap, NodePermutation.cost]
      rw [addInt64_comm]

/-- On a node that satisfies the bounds-cache invariant the recalculation changes nothing. -/
theorem recalculateUnlessLeaf_of_valid (t : TreeNode) (hv : t.boundsValid = true) :
    t.recalculateUnlessLeaf = t := by
  cases t with
  | leaf o b g => rfl
  | node cs b g =>
    cases cs with
    | nil => rfl
    | cons c cs =>
      simp only [boundsValid, Bool.and_eq_true, decide_eq_true_eq] at hv
      simp [recalculateUnlessLeaf, ← hv.1]

theorem leafMultiset_recalculateUnlessLeaf (t : TreeNode) :
    t.recalculateUnlessLeaf.leafMultiset = t.leafMultiset := by
  cases t with
  | leaf o b g => rfl
  | node cs b g =>
    cases cs with
    | nil => rfl
    | cons c cs => simp only [recalculateUnlessLeaf, leafMultiset_node]

theorem groupMultiset_recalculateUnlessLeaf (t : TreeNode) :
    t.recalculateUnlessLeaf.groupMultiset = t.groupMultiset := by
  cases t with
  | leaf o b g => rfl
  | node cs b g =>
    cases cs with
    | nil => rfl
    | cons c cs => simp only [recalculateUnlessLeaf, groupMultiset_node]

/-- What `fillGroups` builds from two non-empty groups. -/
theorem fillGroups_spec (first second : TreeNode) (A B : List TreeNode) (hA : A ≠ [])
    (hB : B ≠ []) :
    (fillGroups first second A B).1.leafMultiset + (fillGroups first second A B).2.leafMultiset
        = ((A ++ B).map leafMultiset).sum ∧
    (first.isGroupHead = false → second.isGroupHead = false →
      (fillGroups first second A B).1.groupMultiset +
        (fillGroups first second A B).2.groupMultiset = ((A ++ B).map groupMultiset).sum) ∧
    ((∀ c ∈ A ++ B, c.boundsValid = true) →
      (fillGroups first second A B).1.boundsValid = true ∧
        (fillGroups first second A B).2.boundsValid = true) ∧
    ((∀ c ∈ A ++ B, c.boundsValid = true) →
      IsUnionOf (unionOfBounds (fillGroups first second A B).1.bounds
        (fillGroups first second A B).2.bounds) ((A ++ B).map TreeNode.bounds)) ∧
    (fillGroups first second A B).1.isGroupHead = first.isGroupHead ∧
    ((∀ c ∈ A ++ B, c.boundsValid = true) → ∀ c, NodePermutation.cost ⟨A, B⟩ = some c →
      addInt64 (computeCost (fillGroups first second A B).1.bounds)
        (computeCost (fillGroups first second A B).2.bounds) = c) := by
  cases A with
  | nil => exact absurd rfl hA
  | cons a as =>
    cases B with
    | nil => exact absurd rfl hB
    | cons b bs =>
      have hvA : (∀ c ∈ (a :: as) ++ (b :: bs), c.boundsValid = true) →
          boundsValidList (a :: as) = true := by
        intro h
        rw [boundsValidList_iff]
        exact fun c hc => h c (List.mem_append_left _ hc)
      have hvB : (∀ c ∈ (a :: as) ++ (b :: bs), c.boundsValid = true) →
          boundsValidList (b :: bs) = true := by
        intro h
        rw [boundsValidList_iff]
        exact fun c hc => h c (List.mem_append_right _ hc)
      have hU := (isUnionOf_computeBoundsOfList a as).append
        (isUnionOf_computeBoundsOfList b bs)
      rw [← List.map_append] at hU
      cases bs with
      | nil =>
        simp only [fillGroups]
        refine ⟨?_, ?_, ?_, ?_, rfl, ?_⟩
        · simp [leafMultiset_node, leafMultiset_recalculateUnlessLeaf, add_assoc]
        · intro h1 _
          rw [h1, groupMultiset_node_false, groupMultiset_recalculateUnlessLeaf]
          simp [add_assoc]
        · intro h
          rw [recalculateUnlessLeaf_of_valid b (h b (by simp))]
          refine ⟨?_, h b (by simp)⟩
          simp only [boundsValid, decide_True, Bool.true_and]
          exact hvA h
        · intro h
          rw [recalculateUnlessLeaf_of_valid b (h b (by simp))]
          simpa [computeBoundsOfList] using hU
        · intro h c hc
          rw [recalculateUnlessLeaf_of_valid b (h b (by simp))]
          simpa [NodePermutation.cost, computeBoundsOfList] using hc
      | cons b2 bs =>
        simp only [fillGroups]
        refine ⟨?_, ?_, ?_, ?_, rfl, ?_⟩
        · simp [leafMultiset_node, add_assoc]
        · intro h1 h2
          rw [h1, h2, groupMultiset_node_false, groupMultiset_node_false]
          simp [add_assoc]
        · intro h
          constructor
          · simp only [boundsValid, decide_True, Bool.true_and]
            exact hvA h
          · simp only [boundsValid, decide_True, Bool.true_and]
            exact hvB h
        · exact fun _ => hU
        · intro _ c hc
          simpa [NodePermutation.cost] using hc

/-- What `fillNodePairWithPermutation` builds from a split of the candidates. -/
theorem fillNodePairWithPermutation_spec (first second : TreeNode) (p : NodePermutation)
    (cands : List TreeNode) (hp : p.IsSplitOf cands) :
    (fillNodePairWithPermutation first second p).1.leafMultiset +
        (fillNodePairWithPermutation first second p).2.leafMultiset
        = (cands.map leafMultiset).sum ∧
    (first.isGroupHead = false → second.isGroupHead = false →
      (fillNodePairWithPermutation first second p).1.groupMultiset +
        (fillNodePairWithPermutation first second p).2.groupMultiset
        = (cands.map groupMultiset).sum) ∧
    ((∀ c ∈ cands, c.boundsValid = true) →
      (fillNodePairWithPermutation first second p).1.boundsValid = true ∧
        (fillNodePairWithPermutation first second p).2.boundsValid = true) ∧
    ((∀ c ∈ cands, c.boundsValid = true) →
      IsUnionOf (unionOfBounds (fillNodePairWithPermutation first second p).1.bounds
        (fillNodePairWithPermutation first second p).2.bounds) (cands.map TreeNode.bounds)) ∧
    (fillNodePairWithPermutation first second p).1.isGroupHead = first.isGroupHead ∧
    ((∀ c ∈ cands, c.boundsValid = true) → ∀ c, p.cost = some c →
      addInt64 (computeCost (fillNodePairWithPermutation first second p).1.bounds)
        (computeCost (fillNodePairWithPermutation first second p).2.bounds) = c) := by
  obtain ⟨hA, hB, hperm⟩ := hp
  -- the arrangement after the initial swap, again a split with the same cost
  have key : ∀ q : NodePermutation, q.permutationA ≠ [] → q.permutationB ≠ [] →
      (q.permutationA ++ q.permutationB).Perm cands → q.cost = p.cost →
      (fillGroups first second q.permutationA q.permutationB).1.leafMultiset +
          (fillGroups first second q.permutationA q.permutationB).2.leafMultiset
          = (cands.map leafMultiset).sum ∧
      (first.isGroupHead = false → second.isGroupHead = false →
        (fillGroups first second q.permutationA q.permutationB).1.groupMultiset +
          (fillGroups first second q.permutationA q.permutationB).2.groupMultiset
          = (cands.map groupMultiset).sum) ∧
      ((∀ c ∈ cands, c.boundsValid = true) →
        (fillGroups first second q.permutationA q.permutationB).1.boundsValid = true ∧
          (fillGroups first second q.permutationA q.permutationB).2.boundsValid = true) ∧
      ((∀ c ∈ cands, c.boundsValid = true) →
        IsUnionOf (unionOfBounds (fillGroups first second q.permutationA q.permutationB).1.bounds
          (fillGroups first second q.permutationA q.permutationB).2.bounds)
        (cands.map TreeNode.bounds)) ∧
      (fillGroups first second q.permutationA q.permutationB).1.isGroupHead
        = first.isGroupHead ∧
      ((∀ c ∈ cands, c.boundsValid = true) → ∀ c, p.cost = some c →
        addInt64 (computeCost (fillGroups first second q.permutationA q.permutationB).1.bounds)
          (computeCost (fillGroups first second q.permutationA q.permutationB).2.bounds)
          = c) := by
    intro q hqA hqB hqperm hqcost
    obtain ⟨h1, h2, h3, h4, h5, h6⟩ :=
      fillGroups_spec first second q.permutationA q.permutationB hqA hqB
    have hsub : (∀ c ∈ cands, c.boundsValid = true) →
        ∀ c ∈ q.permutationA ++ q.permutationB, c.boundsValid = true :=
      fun h c hc => h c (hqperm.subset hc)
    refine ⟨?_, ?_, ?_, ?_, h5, ?_⟩
    · rw [h1]
      exact (hqperm.map leafMultiset).sum_eq
    · intro hf hs
      rw [h2 hf hs]
      exact (hqperm.map groupMultiset).sum_eq
    · intro h
      exact h3 (hsub h)
    · intro h
      exact (h4 (hsub h)).congr (fun b => (hqperm.map TreeNode.bounds).mem_iff)
    · intro h c hc
      exact h6 (hsub h) c (by rw [← hc, ← hqcost])
  unfold fillNodePairWithPermutation
  simp only []
  split
  · exact key p.swap hB hA (List.perm_append_comm.trans hperm) p.cost_swap
  · exact key p hA hB hperm rfl

theorem sum_map_nodesToList {M : Type} [AddCommMonoid M] (f : TreeNode → M)
    (A B : TreeNode) :
    ((nodesToList A B).map f).sum =
      ((if A.isLeafNode then [A] else A.children).map f).sum +
        ((if B.isLeafNode then [B] else B.children).map f).sum := by
  simp [nodesToList, List.map_append, List.sum_append]

/-- The horizontal pair optimisation: it keeps the group-head flag of `first`, on two nodes
that are not group heads it is a `PairStep`, and on two nodes that satisfy the bounds-cache
invariant it never raises the cost of the pair. -/
theorem optimizeNodePairHorizontal_spec (A B : TreeNode) :
    (A.isGroupHead = false → B.isGroupHead = false →
      PairStep A B (optimizeNodePairHorizontal A B).1 (optimizeNodePairHorizontal A B).2) ∧
    (optimizeNodePairHorizontal A B).1.isGroupHead = A.isGroupHead ∧
    (A.boundsValid = true → B.boundsValid = true →
      addInt64 (computeCost (optimizeNodePairHorizontal A B).1.bounds)
          (computeCost (optimizeNodePairHorizontal A B).2.bounds)
        ≤ addInt64 (computeCost A.bounds) (computeCost B.bounds)) := by
  have hall : A.boundsValid = true → B.boundsValid = true →
      ∀ c ∈ nodesToList A B, c.boundsValid = true := by
    intro hvA hvB c hc
    rcases List.mem_append.1 hc with hc | hc
    · exact boundsValid_candidates A hvA c hc
    · exact boundsValid_candidates B hvB c hc
  unfold optimizeNodePairHorizontal
  split
  · exact ⟨fun _ _ => PairStep.same A B, rfl, fun _ _ => le_refl _⟩
  · simp only []
    split
    · rename_i hcount
      rcases findBestPermutation_spec (nodesToList A B)
          (addInt64 (computeCost A.bounds) (computeCost B.bounds)) with h | ⟨hsplit, c, hc, hlt⟩
      · exact absurd (by simp [NodePermutation.countA, h]) hcount
      · obtain ⟨h1, h2, h3, h4, h5, h6⟩ :=
          fillNodePairWithPermutation_spec A B _ (nodesToList A B) hsplit
        refine ⟨fun hA hB => ⟨?_, ?_, ?_⟩, h5, ?_⟩
        · rw [h1, sum_map_nodesToList, sum_leafMultiset_candidates,
            sum_leafMultiset_candidates]
        · rw [h2 hA hB, sum_map_nodesToList, sum_groupMultiset_candidates A hA,
            sum_groupMultiset_candidates B hB]
        · intro hvA hvB
          obtain ⟨hv1, hv2⟩ := h3 (hall hvA hvB)
          refine ⟨hv1, hv2, ?_⟩
          have hU := (isUnionOf_candidates A hvA).append (isUnionOf_candidates B hvB)
          rw [← List.map_append] at hU
          exact (h4 (hall hvA hvB)).unique hU
        · intro hvA hvB
          rw [h6 (hall hvA hvB) c hc]
          omega
    · exact ⟨fun _ _ => PairStep.same A B, rfl, fun _ _ => le_refl _⟩

end P3D

/-! ## The vertical pair optimisation -/

namespace P3D

open TreeNode

theorem bestExchangeFrom_spec (node : TreeNode) (group : List TreeNode) (c0 : Int)
    (fuel : Nat) :
    ∀ (i : Nat) (bestCost : Int) (bestIndex : Option Nat), i + fuel ≤ group.length →
      bestCost ≤ c0 →
      (∀ k, bestIndex = some k → k < group.length ∧
        computeCost (foldBounds node.bounds (group.eraseIdx k)) < c0) →
      ∀ k, bestExchangeFrom node group fuel i bestCost bestIndex = some k →
        k < group.length ∧ computeCost (foldBounds node.bounds (group.eraseIdx k)) < c0 := by
  induction fuel with
  | zero =>
    intro i bestCost bestIndex _ _ hbi k hk
    exact hbi k hk
  | succ fuel ih =>
    intro i bestCost bestIndex hi hbc hbi k hk
    simp only [bestExchangeFrom] at hk
    split at hk
    · rename_i hlt
      refine ih (i + 1) _ (some i) (by omega) (by omega) ?_ k hk
      intro k' hk'
      cases hk'
      exact ⟨by omega, by omega⟩
    · exact ih (i + 1) bestCost bestIndex (by omega) hbc hbi k hk

/-- The vertical pair optimisation: the group stays an internal node with its flag, its cost
never rises, and with a group that is not a group head it is a `PairStep`. -/
theorem optimizeNodePairVertical_spec (n G : TreeNode) :
    (G.isGroupHead = false →
      PairStep n G (optimizeNodePairVertical n G).1 (optimizeNodePairVertical n G).2) ∧
    (optimizeNodePairVertical n G).2.isGroupHead = G.isGroupHead ∧
    (optimizeNodePairVertical n G).2.isLeafNode = G.isLeafNode ∧
    computeCost (optimizeNodePairVertical n G).2.bounds ≤ computeCost G.bounds := by
  cases G with
  | leaf o b g => exact ⟨fun _ => PairStep.same _ _, rfl, rfl, le_refl _⟩
  | node gcs gb gg =>
    simp only [optimizeNodePairVertical]
    cases hbest : bestExchangeFrom n gcs gcs.length 0 (computeCost gb) none with
    | none => exact ⟨fun _ => PairStep.same _ _, rfl, rfl, le_refl _⟩
    | some k =>
      obtain ⟨hk, hcost⟩ := bestExchangeFrom_spec n gcs (computeCost gb) gcs.length 0
        (computeCost gb) none (by omega) (le_refl _) (fun k h => by cases h) k hbest
      have hget : gcs[k]? = some (gcs.get ⟨k, hk⟩) := by
        simp [List.getElem?_eq_getElem hk]
      simp only [hget]
      cases hset : gcs.set k n with
      | nil =>
        have := congrArg List.length hset
        rw [List.length_set, List.length_nil] at this
        omega
      | cons c cs =>
        simp only []
        have hex := perm_set_exchange gcs k n hk
        rw [hset] at hex
        have hpe := perm_set_eraseIdx gcs k n hk
        rw [hset] at hpe
        -- the new bounds of the group are the bounds whose cost the scan computed
        have hb : computeBoundsOfList c cs = foldBounds n.bounds (gcs.eraseIdx k) := by
          refine (isUnionOf_computeBoundsOfList c cs).unique ?_
          exact (isUnionOf_foldBounds (gcs.eraseIdx k) n.bounds).congr
            (fun b => ((hpe.map TreeNode.bounds).mem_iff).symm)
        refine ⟨fun hg => ⟨?_, ?_, ?_⟩, rfl, rfl, ?_⟩
        · have := (hex.map leafMultiset).sum_eq
          simp only [List.map_cons, List.sum_cons] at this
          rw [leafMultiset_node, leafMultiset_node]
          simpa using this
        · simp only [isGroupHead] at hg
          subst hg
          have := (hex.map groupMultiset).sum_eq
          simp only [List.map_cons, List.sum_cons] at this
          rw [groupMultiset_node_false, groupMultiset_node_false]
          simpa using this
        · intro hvn hvG
          obtain ⟨c0, rest, hcs, hgb, hl⟩ := (boundsValid_node_iff gcs gb gg).1 hvG
          have hl' := (boundsValidList_iff gcs).1 hl
          have hvset : boundsValidList (c :: cs) = true := by
            rw [← hset]
            exact boundsValidList_set gcs k n hl hvn
          refine ⟨hl' _ (List.get_mem gcs k hk), ?_, ?_⟩
          · simp only [boundsValid, decide_True, Bool.true_and]
            exact hvset
          · simp only [bounds_node]
            have h1 := (IsUnionOf.singleton (gcs.get ⟨k, hk⟩).bounds).append
              (isUnionOf_computeBoundsOfList c cs)
            have h2 : IsUnionOf (unionOfBounds n.bounds gb)
                ([n.bounds] ++ gcs.map TreeNode.bounds) := by
              refine (IsUnionOf.singleton n.bounds).append ?_
              rw [hgb, hcs]
              exact isUnionOf_computeBoundsOfList c0 rest
            refine h1.unique (h2.congr ?_)
            intro b
            have := (hex.map TreeNode.bounds).mem_iff (a := b)
            simp only [List.map_cons, List.mem_cons] at this
            simp only [List.singleton_append, List.mem_cons, List.map_cons]
            exact this.symm
        · simp only [bounds_node, hb]
          omega

end P3D

/-! ## The passes over the children -/

namespace P3D

open TreeNode

theorem sum_map_set_set {M : Type} [AddCancelCommMonoid M] (f : TreeNode → M)
    (cs : List TreeNode) (i j : Nat) (A' B' : TreeNode) (hij : i ≠ j) (hi : i < cs.length)
    (hj : j < cs.length)
    (h : f A' + f B' = f (cs.get ⟨i, hi⟩) + f (cs.get ⟨j, hj⟩)) :
    (((cs.set i A').set j B').map f).sum = (cs.map f).sum := by
  have hj' : j < (cs.set i A').length := by simpa using hj
  have p1 := ((perm_set_exchange cs i A' hi).map f).sum_eq
  have p2 := ((perm_set_exchange (cs.set i A') j B' hj').map f).sum_eq
  have hget : (cs.set i A').get ⟨j, hj'⟩ = cs.get ⟨j, hj⟩ := by
    simp only [List.get_eq_getElem]
    exact List.getElem_set_ne hij _
  simp only [List.map_cons, List.sum_cons, hget] at p1 p2
  have key : (f (cs.get ⟨i, hi⟩) + f (cs.get ⟨j, hj⟩)) +
      (((cs.set i A').set j B').map f).sum =
      (f (cs.get ⟨i, hi⟩) + f (cs.get ⟨j, hj⟩)) + (cs.map f).sum := by
    calc (f (cs.get ⟨i, hi⟩) + f (cs.get ⟨j, hj⟩)) + (((cs.set i A').set j B').map f).sum
        = f (cs.get ⟨i, hi⟩) +
            (f (cs.get ⟨j, hj⟩) + (((cs.set i A').set j B').map f).sum) := by
          rw [add_assoc]
      _ = f (cs.get ⟨i, hi⟩) + (f B' + ((cs.set i A').map f).sum) := by rw [p2]
      _ = f B' + (f (cs.get ⟨i, hi⟩) + ((cs.set i A').map f).sum) := by
          rw [add_left_comm]
      _ = f B' + (f A' + (cs.map f).sum) := by rw [p1]
      _ = (f A' + f B') + (cs.map f).sum := by
          rw [← add_assoc, add_comm (f B')]
      _ = _ := by rw [h]
  exact add_left_cancel key

theorem PassInv.unchanged (cs : List TreeNode) : PassInv cs cs :=
  ⟨rfl, rfl, rfl, fun h => ⟨h, fun _ hu => hu⟩⟩

theorem mem_set_set {cs : List TreeNode} {i j : Nat} {A' B' x : TreeNode}
    (hx : x ∈ (cs.set i A').set j B') : x = A' ∨ x = B' ∨ x ∈ cs := by
  rcases List.mem_or_eq_of_mem_set hx with h | h
  · rcases List.mem_or_eq_of_mem_set h with h | h
    · exact Or.inr (Or.inr h)
    · exact Or.inl h
  · exact Or.inr (Or.inl h)

/-- One pair optimisation applied to two distinct children keeps the invariant of the pass. -/
theorem PassInv.step {cs0 cs : List TreeNode} (h : PassInv cs0 cs) (i j : Nat)
    (A' B' : TreeNode) (hij : i ≠ j) (hi : i < cs.length) (hj : j < cs.length)
    (hs : PairStep (cs.get ⟨i, hi⟩) (cs.get ⟨j, hj⟩) A' B') :
    PassInv cs0 ((cs.set i A').set j B') := by
  refine ⟨by simp [h.length], ?_, ?_, ?_⟩
  · rw [sum_map_set_set leafMultiset cs i j A' B' hij hi hj hs.leaves, h.leaves]
  · rw [sum_map_set_set groupMultiset cs i j A' B' hij hi hj hs.groups, h.groups]
  · intro hv0
    obtain ⟨hv, hu⟩ := h.valid hv0
    have hvl := (boundsValidList_iff cs).1 hv
    obtain ⟨hvA, hvB, hub⟩ := hs.valid (hvl _ (List.get_mem cs i hi))
      (hvl _ (List.get_mem cs j hj))
    refine ⟨boundsValidList_set _ j B' (boundsValidList_set cs i A' hv hvA) hvB, ?_⟩
    intro u hu0
    have hU := hu u hu0
    have hiu : (cs.get ⟨i, hi⟩).bounds.le u :=
      hU.1 _ (List.mem_map_of_mem _ (List.get_mem cs i hi))
    have hju : (cs.get ⟨j, hj⟩).bounds.le u :=
      hU.1 _ (List.mem_map_of_mem _ (List.get_mem cs j hj))
    have hAB : (unionOfBounds A'.bounds B'.bounds).le u := by
      rw [hub]
      exact Bounds.union_le hiu hju
    have hAmem : A' ∈ (cs.set i A').set j B' := by
      have h1 : ((cs.set i A').set j B')[i]? = some A' := by
        rw [List.getElem?_set_ne (Ne.symm hij), List.getElem?_set_self hi]
      exact List.getElem?_mem h1
    have hBmem : B' ∈ (cs.set i A').set j B' := by
      have h1 : ((cs.set i A').set j B')[j]? = some B' := by
        rw [List.getElem?_set_self (by simpa using hj)]
      exact List.getElem?_mem h1
    constructor
    · intro b hb
      obtain ⟨x, hx, rfl⟩ := List.mem_map.1 hb
      rcases mem_set_set hx with rfl | rfl | hx
      · exact Bounds.le_trans (Bounds.le_union_left _ _) hAB
      · exact Bounds.le_trans (Bounds.le_union_right _ _) hAB
      · exact hU.1 _ (List.mem_map_of_mem _ hx)
    · intro u' hu'
      have hA' : A'.bounds.le u' := hu' _ (List.mem_map_of_mem _ hAmem)
      have hB' : B'.bounds.le u' := hu' _ (List.mem_map_of_mem _ hBmem)
      have hold : (unionOfBounds (cs.get ⟨i, hi⟩).bounds (cs.get ⟨j, hj⟩).bounds).le u' := by
        rw [← hub]
        exact Bounds.union_le hA' hB'
      refine hU.2 u' ?_
      intro b hb
      obtain ⟨x, hx, rfl⟩ := List.mem_map.1 hb
      obtain ⟨m, hm, rfl⟩ := List.getElem_of_mem hx
      by_cases hmi : m = i
      · subst hmi
        exact Bounds.le_trans (Bounds.le_union_left _ _) hold
      · by_cases hmj : m = j
        · subst hmj
          exact Bounds.le_trans (Bounds.le_union_right _ _) hold
        · have h1 : ((cs.set i A').set j B')[m]? = some cs[m] := by
            rw [List.getElem?_set_ne (Ne.symm hmj), List.getElem?_set_ne (Ne.symm hmi),
              List.getElem?_eq_getElem hm]
          exact hu' _ (List.mem_map_of_mem _ (List.getElem?_mem h1))

theorem passInv_horizontalInner (cs0 : List TreeNode) (i : Nat) (fuel : Nat) :
    ∀ (j : Nat) (cs : List TreeNode), i < j → PassInv cs0 cs →
      (∀ A, cs[i]? = some A → A.isGroupHead = false) →
      PassInv cs0 (horizontalInner i fuel j cs) := by
  induction fuel with
  | zero =>
    intro j cs _ h _
    exact h
  | succ fuel ih =>
    intro j cs hij h hg
    simp only [horizontalInner]
    cases hA : cs[i]? with
    | none => exact ih (j + 1) cs (by omega) h hg
    | some A =>
      cases hB : cs[j]? with
      | none => exact ih (j + 1) cs (by omega) h hg
      | some B =>
        simp only []
        by_cases hBg : B.isGroupHead = true
        · simp only [hBg, if_true]
          exact ih (j + 1) cs (by omega) h hg
        · simp only [hBg, Bool.false_eq_true, if_false]
          by_cases hint : intersects A.bounds B.bounds = true
          · simp only [hint, if_true]
            obtain ⟨hi, hiA⟩ := List.getElem?_eq_some_iff.1 hA
            obtain ⟨hj, hjB⟩ := List.getElem?_eq_some_iff.1 hB
            obtain ⟨hstep, hflag, _⟩ := optimizeNodePairHorizontal_spec A B
            have hAg : A.isGroupHead = false := hg A hA
            refine ih (j + 1) _ (by omega)
              (h.step i j _ _ (by omega) hi hj ?_) ?_
            · simp only [List.get_eq_getElem, hiA, hjB]
              exact hstep hAg (by simpa using hBg)
            · intro A2 hA2
              rw [List.getElem?_set_ne (by omega), List.getElem?_set_self hi] at hA2
              cases hA2
              rw [hflag]
              exact hAg
          · simp only [hint, Bool.false_eq_true, if_false]
            exact ih (j + 1) cs (by omega) h hg

theorem passInv_horizontalOuter (cs0 : List TreeNode) (fuel : Nat) :
    ∀ (i : Nat) (cs : List TreeNode), PassInv cs0 cs →
      PassInv cs0 (horizontalOuter fuel i cs) := by
  induction fuel with
  | zero =>
    intro i cs h
    exact h
  | succ fuel ih =>
    intro i cs h
    simp only [horizontalOuter]
    cases hA : cs[i]? with
    | none => exact ih (i + 1) cs h
    | some A =>
      simp only []
      by_cases hAg : A.isGroupHead = true
      · simp only [hAg, if_true]
        exact ih (i + 1) cs h
      · simp only [hAg, Bool.false_eq_true, if_false]
        refine ih (i + 1) _ (passInv_horizontalInner cs0 i _ (i + 1) cs (by omega) h ?_)
        intro A2 hA2
        rw [hA] at hA2
        cases hA2
        simpa using hAg

theorem passInv_verticalInner (cs0 : List TreeNode) (i : Nat) (fuel : Nat) :
    ∀ (j : Nat) (cs : List TreeNode), PassInv cs0 cs →
      (∀ A, cs[i]? = some A → A.isGroupHead = false ∧ A.isLeafNode = false) →
      PassInv cs0 (verticalInner i fuel j cs) := by
  induction fuel with
  | zero =>
    intro j cs h _
    exact h
  | succ fuel ih =>
    intro j cs h hg
    simp only [verticalInner]
    by_cases hij : i = j
    · rw [if_pos hij]
      exact ih (j + 1) cs h hg
    · simp only [hij, if_false]
      cases hA : cs[i]? with
      | none => exact ih (j + 1) cs h hg
      | some A =>
        cases hB : cs[j]? with
        | none => exact ih (j + 1) cs h hg
        | some B =>
          simp only []
          by_cases hint : intersects A.bounds B.bounds = true
          · simp only [hint, if_true]
            obtain ⟨hi, hiA⟩ := List.getElem?_eq_some_iff.1 hA
            obtain ⟨hj, hjB⟩ := List.getElem?_eq_some_iff.1 hB
            obtain ⟨hstep, hflag, hleaf, _⟩ := optimizeNodePairVertical_spec B A
            obtain ⟨hAg, hAl⟩ := hg A hA
            refine ih (j + 1) _ (h.step j i _ _ (Ne.symm hij) hj hi ?_) ?_
            · simp only [List.get_eq_getElem, hiA, hjB]
              exact hstep hAg
            · intro A2 hA2
              rw [List.getElem?_set_self (by simpa using hi)] at hA2
              cases hA2
              rw [hflag, hleaf]
              exact ⟨hAg, hAl⟩
          · simp only [hint, Bool.false_eq_true, if_false]
            exact ih (j + 1) cs h hg

theorem passInv_verticalOuter (cs0 : List TreeNode) (fuel : Nat) :
    ∀ (i : Nat) (cs : List TreeNode), PassInv cs0 cs →
      PassInv cs0 (verticalOuter fuel i cs) := by
  induction fuel with
  | zero =>
    intro i cs h
    exact h
  | succ fuel ih =>
    intro i cs h
    simp only [verticalOuter]
    cases hA : cs[i]? with
    | none => exact ih (i + 1) cs h
    | some A =>
      simp only []
      by_cases hAl : A.isLeafNode = true
      · simp only [hAl, if_true]
        exact ih (i + 1) cs h
      · simp only [hAl, Bool.false_eq_true, if_false]
        by_cases hAg : A.isGroupHead = true
        · simp only [hAg, if_true]
          exact ih (i + 1) cs h
        · simp only [hAg, Bool.false_eq_true, if_false]
          refine ih (i + 1) _ (passInv_verticalInner cs0 i _ 0 cs h ?_)
          intro A2 hA2
          rw [hA] at hA2
          cases hA2
          exact ⟨by simpa using hAg, by simpa using hAl⟩

end P3D

/-! ## The whole pass -/

namespace P3D
namespace TreeNode

mutual
theorem improveStructure_spec (t : TreeNode) :
    (improveStructure t).bounds = t.bounds ∧
    (improveStructure t).leafMultiset = t.leafMultiset ∧
    (improveStructure t).groupMultiset = t.groupMultiset ∧
    (t.boundsValid = true → (improveStructure t).boundsValid = true) := by
  cases t with
  | leaf o b g => exact ⟨rfl, rfl, rfl, fun h => h⟩
  | node cs b g =>
    have h0 := improveStructureList_spec cs
    have h1 := passInv_horizontalOuter cs (cs.length - 1) 0 _ h0
    have h2 := passInv_verticalOuter cs cs.length 0 _ h1
    simp only [improveStructure]
    refine ⟨rfl, ?_, ?_, ?_⟩
    · rw [leafMultiset_node, leafMultiset_node, h2.leaves]
    · rw [groupMultiset_node, groupMultiset_node, h2.leaves, h2.groups]
    · intro hv
      obtain ⟨c, rest, hcs, hb, hl⟩ := (boundsValid_node_iff cs b g).1 hv
      obtain ⟨hv3, hu3⟩ := h2.valid hl
      have hU : IsUnionOf b (cs.map TreeNode.bounds) := by
        rw [hb, hcs]
        exact isUnionOf_computeBoundsOfList c rest
      have hU3 := hu3 b hU
      have hlen := h2.length
      generalize verticalOuter cs.length 0
        (horizontalOuter (cs.length - 1) 0 (improveStructureList cs)) = cs3 at hv3 hU3 hlen
      cases cs3 with
      | nil =>
        rw [hcs] at hlen
        simp at hlen
      | cons c3 rest3 =>
        simp only [boundsValid, Bool.and_eq_true, decide_eq_true_eq]
        exact ⟨hU3.unique (isUnionOf_computeBoundsOfList c3 rest3), hv3⟩
theorem improveStructureList_spec (cs : List TreeNode) :
    PassInv cs (improveStructureList cs) := by
  cases cs with
  | nil => exact PassInv.unchanged []
  | cons c cs =>
    obtain ⟨hb, hl, hg, hv⟩ := improveStructure_spec c
    have ih := improveStructureList_spec cs
    simp only [improveStructureList]
    refine ⟨by simp [ih.length], ?_, ?_, ?_⟩
    · simp only [List.map_cons, List.sum_cons, hl, ih.leaves]
    · simp only [List.map_cons, List.sum_cons, hg, ih.groups]
    · intro hv0
      simp only [boundsValidList, Bool.and_eq_true] at hv0
      obtain ⟨hvs, hus⟩ := ih.valid hv0.2
      refine ⟨by simp [boundsValidList, hv hv0.1, hvs], ?_⟩
      intro u hu
      simp only [List.map_cons, hb]
      simp only [List.map_cons] at hu
      -- the boxes of the improved children are those of the children
      have htail : ∀ u', IsUnionOf u' (cs.map TreeNode.bounds) →
          IsUnionOf u' ((improveStructureList cs).map TreeNode.bounds) := hus
      constructor
      · intro x hx
        rcases List.mem_cons.1 hx with rfl | hx
        · exact hu.1 _ (List.mem_cons_self _ _)
        · cases hcs : cs with
          | nil =>
            rw [hcs] at hx
            simp [improveStructureList] at hx
          | cons d ds =>
            have hUd := htail _ (by rw [hcs]; exact isUnionOf_computeBoundsOfList d ds)
            have hle : (computeBoundsOfList d ds).le u := by
              refine (isUnionOf_computeBoundsOfList d ds).2 u ?_
              intro y hy
              exact hu.1 y (List.mem_cons_of_mem _ (by rw [hcs]; exact hy))
            exact Bounds.le_trans (hUd.1 x hx) hle
      · intro u' hu'
        refine hu.2 u' ?_
        intro x hx
        rcases List.mem_cons.1 hx with rfl | hx
        · exact hu' _ (List.mem_cons_self _ _)
        · cases hcs : cs with
          | nil =>
            rw [hcs] at hx
            simp at hx
          | cons d ds =>
            have hUd := htail _ (by rw [hcs]; exact isUnionOf_computeBoundsOfList d ds)
            have hle : (computeBoundsOfList d ds).le u' := by
              refine hUd.2 u' ?_
              intro y hy
              exact hu' y (List.mem_cons_of_mem _ hy)
            refine Bounds.le_trans ?_ hle
            exact (isUnionOf_computeBoundsOfList d ds).1 x (by rw [← hcs]; exact hx)
end

end TreeNode

/-! ## Structural optimisation: the claims -/

/-- C4. For every tree, `improveStructure` leaves the multiset of leaf objects of the whole
tree unchanged, and the group heads keep their leaf objects: the multiset of the leaf-object
multisets of the group-head nodes is the same after the pass as before. -/
theorem improveStructure_keeps_leaves_and_groups (t : TreeNode) :
    (t.improveStructure.leafObjects).Perm t.leafObjects ∧
    (t.improveStructure.groupLeafSets).Perm t.groupLeafSets := by
  obtain ⟨_, hl, hg, _⟩ := TreeNode.improveStructure_spec t
  exact ⟨Multiset.coe_eq_coe.1 hl, Multiset.coe_eq_coe.1 hg⟩

/-- C6. For every tree that satisfies the bounds-cache invariant, the tree after
`improveStructure` satisfies it at every internal node, the node it was called on included,
whose cached bounds the pass leaves as they were. -/
theorem improveStructure_preserves_bounds_cache (t : TreeNode) (ht : t.boundsValid = true) :
    t.improveStructure.boundsValid = true ∧ t.improveStructure.bounds = t.bounds :=
  ⟨(TreeNode.improveStructure_spec t).2.2.2 ht, (TreeNode.improveStructure_spec t).1⟩

/-- Witness for C6: the tree `[L, [X, Z]]`, which the pass rearranges into `[[L, X], Z]`. -/
theorem improveStructure_preserves_bounds_cache_witness :
    tallLeafTree.boundsValid = true ∧
    tallLeafTree.improveStructure.boundsValid = true ∧
    tallLeafTree.improveStructure.bounds = tallLeafTree.bounds :=
  ⟨by decide, improveStructure_preserves_bounds_cache tallLeafTree (by decide)⟩

/-- C5, the claim as stated fails: the tree `[L, [X, Z]]` satisfies the bounds-cache
invariant and its total cost (the sum of `computeCost(bounds)` over the internal nodes) is
113; `improveStructure` turns it into `[[L, X], Z]` with total cost 207. -/
theorem improveStructure_raises_total_cost :
    tallLeafTree.boundsValid = true ∧ tallLeafTree.totalCost = 113 ∧
    tallLeafTree.improveStructure.totalCost = 207 ∧
    ¬ (tallLeafTree.improveStructure.totalCost ≤ tallLeafTree.totalCost) := by
  decide

/-- C5 as amended. `improveStructure` leaves the bounds, hence the cost, of the node it is
called on unchanged; on two nodes that satisfy the bounds-cache invariant
`optimizeNodePairHorizontal` never increases the cost of the pair,
`computeCost(first.bounds) + computeCost(second.bounds)` as the code computes it;
`optimizeNodePairVertical` never increases `computeCost(group.bounds)`. -/
theorem improveStructure_cost_steps :
    (∀ t : TreeNode, computeCost t.improveStructure.bounds = computeCost t.bounds) ∧
    (∀ first second : TreeNode, first.boundsValid = true → second.boundsValid = true →
      addInt64 (computeCost (optimizeNodePairHorizontal first second).1.bounds)
          (computeCost (optimizeNodePairHorizontal first second).2.bounds)
        ≤ addInt64 (computeCost first.bounds) (computeCost second.bounds)) ∧
    (∀ node group : TreeNode,
      computeCost (optimizeNodePairVertical node group).2.bounds
        ≤ computeCost group.bounds) :=
  ⟨fun t => by rw [(TreeNode.improveStructure_spec t).1],
   fun first second hf hs => (optimizeNodePairHorizontal_spec first second).2.2 hf hs,
   fun node group => (optimizeNodePairVertical_spec node group).2.2.2⟩

end P3D



/-! ## The world decoder -/

namespace P3D

theorem readUInt32_of_four (st : DecodeState) (b0 b1 b2 b3 : Nat) (rest : Stream)
    (hs : st.istream = b0 :: b1 :: b2 :: b3 :: rest) :
    readUInt32 st =
      Except.ok (fromLittleEndian [b0, b1, b2, b3], { st with istream := rest }) := by
  simp [readUInt32, readBytes, hs, bind, StateT.bind, Except.bind, pure, StateT.pure,
    Except.pure]

theorem assertVersionCorrect_of_other (st : DecodeState) (b0 b1 b2 b3 : Nat) (rest : Stream)
    (hs : st.istream = b0 :: b1 :: b2 :: b3 :: rest)
    (hv : fromLittleEndian [b0, b1, b2, b3] ≠ CURRENT_VERSION_ID) :
    assertVersionCorrect st = Except.error DecodeFailure.serializationException := by
  have h := readUInt32_of_four st b0 b1 b2 b3 rest hs
  simp only [assertVersionCorrect, bind, StateT.bind, Except.bind, h]
  simp [hv, Decoder.fail]

theorem header_of_other_version (L : Layout) (st : DecodeState) (b0 b1 b2 b3 : Nat)
    (rest : Stream) (hs : st.istream = b0 :: b1 :: b2 :: b3 :: rest)
    (hv : fromLittleEndian [b0, b1, b2, b3] ≠ CURRENT_VERSION_ID) :
    deserializeAndCollectHeaderInformation L st =
      Except.error DecodeFailure.serializationException := by
  have h := assertVersionCorrect_of_other st b0 b1 b2 b3 rest hs hv
  simp only [deserializeAndCollectHeaderInformation, bind, StateT.bind, Except.bind, h]

theorem deserializeWorld_of_header_error (L : Layout) (world : WorldPrototype)
    (st : DecodeState) (f : DecodeFailure)
    (h : deserializeAndCollectHeaderInformation L st = Except.error f) :
    deserializeWorld L world st = (world, DecodeEnd.failed f) := by
  simp [deserializeWorld, WorldStep.run, h]

theorem age_run {α : Type} (world : WorldPrototype) (st : DecodeState) (d : Decoder α)
    (next : α → DecodeState → WorldStep) (a : Nat) (hw : world.age = a)
    (hn : ∀ x st', (next x st').1.age = a) : (WorldStep.run world st d next).1.age = a := by
  unfold WorldStep.run
  cases d st with
  | error f => exact hw
  | ok r => exact hn r.1 r.2

theorem age_worldLoop {α : Type} (body : Nat → Decoder α)
    (store : WorldPrototype → Nat → α → WorldPrototype)
    (hstore : ∀ w i x, (store w i x).age = w.age) (count : Nat) :
    ∀ (i : Nat) (world : WorldPrototype) (st : DecodeState),
      (worldLoop body store count i world st).1.age = world.age := by
  induction count with
  | zero =>
    intro i world st
    rfl
  | succ count ih =>
    intro i world st
    simp only [worldLoop]
    refine age_run world st (body i) _ world.age rfl ?_
    intro x st'
    rw [ih, hstore]

theorem age_worldFor (body : Nat → WorldPrototype → DecodeState → WorldStep)
    (hbody : ∀ i w st, (body i w st).1.age = w.age) (count : Nat) :
    ∀ (i : Nat) (world : WorldPrototype) (st : DecodeState),
      (worldFor body count i world st).1.age = world.age := by
  induction count with
  | zero =>
    intro i world st
    rfl
  | succ count ih =>
    intro i world st
    simp only [worldFor]
    have h := hbody i world st
    cases hb : body i world st with
    | mk w' r =>
      rw [hb] at h
      cases r with
      | error f => exact h
      | ok st' =>
        simp only []
        rw [ih]
        exact h

theorem age_deserializeWorldLayer (L : Layout) (i : Nat) (world : WorldPrototype)
    (st : DecodeState) : (deserializeWorldLayer L i world st).1.age = world.age := by
  unfold deserializeWorldLayer
  refine age_run world st _ _ world.age rfl ?_
  intro n st'
  exact age_worldLoop _ (fun w _ part => w.addTerrainPart i part) (fun w i x => rfl) n 0
    world st'

/-- Nothing that `deserializeWorld` does after rebuilding the layers touches the age. -/
theorem age_deserializeWorldContents (L : Layout) (layerCount : Nat) (world : WorldPrototype)
    (st : DecodeState) :
    (deserializeWorldContents L layerCount world st).1.age = world.age := by
  unfold deserializeWorldContents
  have h1 := age_worldLoop (fun _ => readBool)
    (fun w k flag => w.setLayersCollide ((layerPairs layerCount).getD k (0, 0)).1
      ((layerPairs layerCount).getD k (0, 0)).2 flag) (fun w i x => rfl)
    (layerPairs layerCount).length 0 world st
  cases hc1 : worldLoop (fun _ => readBool)
    (fun w k flag => w.setLayersCollide ((layerPairs layerCount).getD k (0, 0)).1
      ((layerPairs layerCount).getD k (0, 0)).2 flag)
    (layerPairs layerCount).length 0 world st with
  | mk w1 r1 =>
    rw [hc1] at h1
    cases r1 with
    | error f => exact h1
    | ok st1 =>
      simp only []
      have h2 := age_worldFor (fun i w st => deserializeWorldLayer L i w st)
        (fun i w st => age_deserializeWorldLayer L i w st) w1.layers.length 0 w1 st1
      cases hc2 : worldFor (fun i w st => deserializeWorldLayer L i w st) w1.layers.length 0
        w1 st1 with
      | mk w2 r2 =>
        rw [hc2] at h2
        cases r2 with
        | error f => exact h2.trans h1
        | ok st2 =>
          simp only []
          refine age_run w2 st2 _ _ world.age (h2.trans h1) ?_
          intro n3 st3
          have h3 := age_worldLoop (fun _ => deserializeMotorizedPhysicalWithContext L)
            (fun w _ phys => w.addPhysicalWithExistingLayers phys) (fun w i x => rfl)
            n3 0 w2 st3
          cases hc3 : worldLoop (fun _ => deserializeMotorizedPhysicalWithContext L)
            (fun w _ phys => w.addPhysicalWithExistingLayers phys) n3 0 w2 st3 with
          | mk w3 r3 =>
            rw [hc3] at h3
            cases r3 with
            | error f => exact h3.trans (h2.trans h1)
            | ok st3' =>
              simp only []
              refine age_run w3 st3' _ _ world.age (h3.trans (h2.trans h1)) ?_
              intro n4 st4
              have h4 := age_worldLoop (fun _ => deserializeConstraintGroup L)
                (fun w _ group => { w with constraints := w.constraints ++ [group] })
                (fun w i x => rfl) n4 0 w3 st4
              cases hc4 : worldLoop (fun _ => deserializeConstraintGroup L)
                (fun w _ group => { w with constraints := w.constraints ++ [group] })
                n4 0 w3 st4 with
              | mk w4 r4 =>
                rw [hc4] at h4
                cases r4 with
                | error f => exact h4.trans (h3.trans (h2.trans h1))
                | ok st4' =>
                  simp only []
                  refine age_run w4 st4' _ _ world.age
                    (h4.trans (h3.trans (h2.trans h1))) ?_
                  intro n5 st5
                  have h5 := age_worldLoop
                    (fun _ => deserializeDynamic (dynamicExternalForceSerializer L))
                    (fun w _ force => { w with externalForces := w.externalForces ++ [force] })
                    (fun w i x => rfl) n5 0 w4 st5
                  exact h5.trans (h4.trans (h3.trans (h2.trans h1)))

theorem age_deserializeWorldBody (L : Layout) (world : WorldPrototype) (st st' : DecodeState)
    (age : Nat) (h : readUInt64 st = Except.ok (age, st')) :
    (deserializeWorldBody L world st).1.age = age := by
  simp only [deserializeWorldBody, WorldStep.run, h]
  refine age_run _ st' readUInt32 _ age rfl ?_
  intro layerCount st''
  rw [age_deserializeWorldContents]

/-! ## The world decoder: the claims -/

/-- C9. For every byte stream whose leading 32-bit version tag (the first four bytes, read
little-endian) differs from `CURRENT_VERSION_ID`, `deserializeWorld` signals a
`SerializationException` and leaves the target world exactly as it was. -/
theorem deserializeWorld_rejects_other_version (L : Layout) (world : WorldPrototype)
    (st : DecodeState) (b0 b1 b2 b3 : Nat) (rest : Stream)
    (hs : st.istream = b0 :: b1 :: b2 :: b3 :: rest)
    (hv : fromLittleEndian [b0, b1, b2, b3] ≠ CURRENT_VERSION_ID) :
    deserializeWorld L world st =
      (world, DecodeEnd.failed DecodeFailure.serializationException) :=
  deserializeWorld_of_header_error L world st _
    (header_of_other_version L st b0 b1 b2 b3 rest hs hv)

/-- Witness for C9: the stream whose version tag was incremented to 3. -/
theorem deserializeWorld_rejects_other_version_witness :
    deserializeWorld Layout.standard sampleWorld (DecodeState.fresh incrementedVersionStream) =
      (sampleWorld, DecodeEnd.failed DecodeFailure.serializationException) :=
  deserializeWorld_rejects_other_version Layout.standard sampleWorld
    (DecodeState.fresh incrementedVersionStream) 3 0 0 0 (unknownForceStream.drop 4)
    (by rfl) (by decide)

/-- C10, the claim as stated fails: on the stream with the current version tag, age 7, no
layers and one external force with the unknown discriminant 99, `deserializeWorld` signals a
`SerializationException` and leaves the world of age 5 with one layer at age 7 without
layers. -/
theorem deserializeWorld_partial_on_unknown_discriminant :
    (deserializeWorld Layout.standard sampleWorld (DecodeState.fresh unknownForceStream)).2 =
      DecodeEnd.failed DecodeFailure.serializationException ∧
    sampleWorld.age = 5 ∧ sampleWorld.layers = [⟨[]⟩] ∧
    (deserializeWorld Layout.standard sampleWorld (DecodeState.fresh unknownForceStream)).1.age
      = 7 ∧
    (deserializeWorld Layout.standard sampleWorld
      (DecodeState.fresh unknownForceStream)).1.layers = [] := by
  decide

/-- C10 as amended. When `deserializeWorld` fails while the header (version tag and
shape-class registry) is decoded, the target world is left exactly as it was. Once the header
and the age have been decoded, the world's age is the decoded age however the call ends: a
failure signalled later in the body leaves the world overwritten so far. -/
theorem deserializeWorld_failure_atomic_in_header_only (L : Layout) (world : WorldPrototype)
    (st : DecodeState) :
    (∀ f, deserializeAndCollectHeaderInformation L st = Except.error f →
      deserializeWorld L world st = (world, DecodeEnd.failed f)) ∧
    (∀ st₁ age st₂, deserializeAndCollectHeaderInformation L st = Except.ok ((), st₁) →
      readUInt64 st₁ = Except.ok (age, st₂) →
      (deserializeWorld L world st).1.age = age) := by
  refine ⟨fun f h => deserializeWorld_of_header_error L world st f h, ?_⟩
  intro st₁ age st₂ hh ha
  have hb := age_deserializeWorldBody L world st₁ st₂ age ha
  simp only [deserializeWorld, WorldStep.run, hh]
  cases hc : deserializeWorldBody L world st₁ with
  | mk w r =>
    rw [hc] at hb
    cases r <;> exact hb

/-- Witness for C10 as amended: the header of `incrementedVersionStream` fails and the world
is unchanged; the header and the age of `unknownForceStream` decode and the age becomes 7. -/
theorem deserializeWorld_failure_atomic_in_header_only_witness :
    deserializeWorld Layout.standard sampleWorld (DecodeState.fresh incrementedVersionStream)
      = (sampleWorld, DecodeEnd.failed DecodeFailure.serializationException) ∧
    (deserializeWorld Layout.standard sampleWorld
      (DecodeState.fresh unknownForceStream)).1.age = 7 :=
  ⟨(deserializeWorld_failure_atomic_in_header_only Layout.standard sampleWorld
      (DecodeState.fresh incrementedVersionStream)).1 _ (by rfl),
   (deserializeWorld_failure_atomic_in_header_only Layout.standard sampleWorld
      (DecodeState.fresh unknownForceStream)).2
      ⟨unknownForceStream.drop 8, [ShapeClass.builtin 0, ShapeClass.builtin 1,
        ShapeClass.builtin 2], [], 0⟩ 7
      ⟨unknownForceStream.drop 16, [ShapeClass.builtin 0, ShapeClass.builtin 1,
        ShapeClass.builtin 2], [], 0⟩ (by rfl) (by rfl)⟩

end P3D

/-! ## Insertion and removal at a single node -/

namespace P3D

open TreeNode

/-- What `bestIndexFrom` returns: the running best index when no later child is strictly
cheaper, otherwise the position of the first child that attains the smallest cost. -/
theorem bestIndexFrom_spec (nb : Bounds) (l : List TreeNode) (bc : Int) (bi i : Nat) :
    (bestIndexFrom nb bc bi i l = bi ∧
      ∀ c ∈ l, bc ≤ computeCombinationCost nb c.bounds) ∨
    (∃ k best, l[k]? = some best ∧ bestIndexFrom nb bc bi i l = i + k ∧
      computeCombinationCost nb best.bounds < bc ∧
      (∀ (j : Nat) (c : TreeNode), l[j]? = some c →
        computeCombinationCost nb best.bounds ≤ computeCombinationCost nb c.bounds) ∧
      (∀ (j : Nat) (c : TreeNode), j < k → l[j]? = some c →
        computeCombinationCost nb best.bounds < computeCombinationCost nb c.bounds)) := by
  induction l generalizing bc bi i with
  | nil => exact Or.inl ⟨rfl, by simp⟩
  | cons c cs ih =>
    simp only [bestIndexFrom]
    split
    · rename_i hlt
      rcases ih (computeCombinationCost nb c.bounds) i (i + 1) with ⟨h1, h2⟩ | ⟨k, best, h⟩
      · refine Or.inr ⟨0, c, List.getElem?_cons_zero, by simpa using h1, hlt, ?_, ?_⟩
        · intro j c' hj
          cases j with
          | zero =>
            simp only [List.getElem?_cons_zero, Option.some.injEq] at hj
            rw [hj]
          | succ j =>
            simp only [List.getElem?_cons_succ] at hj
            exact h2 c' (List.getElem?_mem hj)
        · intro j c' hj
          exact absurd hj (Nat.not_lt_zero j)
      · obtain ⟨hk, hr, hlt', hmin, hfirst⟩ := h
        refine Or.inr ⟨k + 1, best, by simpa using hk, by rw [hr]; omega,
          lt_trans hlt' hlt, ?_, ?_⟩
        · intro j c' hj
          cases j with
          | zero =>
            simp only [List.getElem?_cons_zero, Option.some.injEq] at hj
            rw [← hj]
            exact le_of_lt hlt'
          | succ j =>
            simp only [List.getElem?_cons_succ] at hj
            exact hmin j c' hj
        · intro j c' hjk hj
          cases j with
          | zero =>
            simp only [List.getElem?_cons_zero, Option.some.injEq] at hj
            rw [← hj]
            exact hlt'
          | succ j =>
            simp only [List.getElem?_cons_succ] at hj
            exact hfirst j c' (by omega) hj
    · rename_i hge
      rcases ih bc bi (i + 1) with ⟨h1, h2⟩ | ⟨k, best, h⟩
      · refine Or.inl ⟨h1, ?_⟩
        intro c' hc'
        rcases List.mem_cons.mp hc' with rfl | hc'
        · exact not_lt.mp hge
        · exact h2 c' hc'
      · obtain ⟨hk, hr, hlt', hmin, hfirst⟩ := h
        refine Or.inr ⟨k + 1, best, by simpa using hk, by rw [hr]; omega, hlt', ?_, ?_⟩
        · intro j c' hj
          cases j with
          | zero =>
            simp only [List.getElem?_cons_zero, Option.some.injEq] at hj
            rw [← hj]
            exact le_trans (le_of_lt hlt') (not_lt.mp hge)
          | succ j =>
            simp only [List.getElem?_cons_succ] at hj
            exact hmin j c' hj
        · intro j c' hjk hj
          cases j with
          | zero =>
            simp only [List.getElem?_cons_zero, Option.some.injEq] at hj
            rw [← hj]
            exact lt_of_lt_of_le hlt' (not_lt.mp hge)
          | succ j =>
            simp only [List.getElem?_cons_succ] at hj
            exact hfirst j c' (by omega) hj

/-- The index chosen by `addToSubTrees` in a non-empty child list is the smallest index among
those whose child minimises the combination cost with the new box. -/
theorem bestIndex_spec (nb : Bounds) (l : List TreeNode) (h : l ≠ []) :
    ∃ best, l[bestIndex nb l]? = some best ∧
      (∀ (j : Nat) (c : TreeNode), l[j]? = some c →
        computeCombinationCost nb best.bounds ≤ computeCombinationCost nb c.bounds) ∧
      (∀ (j : Nat) (c : TreeNode), j < bestIndex nb l → l[j]? = some c →
        computeCombinationCost nb best.bounds < computeCombinationCost nb c.bounds) := by
  cases l with
  | nil => exact absurd rfl h
  | cons c cs =>
    simp only [bestIndex]
    rcases bestIndexFrom_spec nb cs (computeCombinationCost nb c.bounds) 0 1 with
      ⟨h1, h2⟩ | ⟨k, best, hk, hr, hlt, hmin, hfirst⟩
    · rw [h1]
      refine ⟨c, List.getElem?_cons_zero, ?_, fun j c' hj => absurd hj (Nat.not_lt_zero j)⟩
      intro j c' hj
      cases j with
      | zero =>
        simp only [List.getElem?_cons_zero, Option.some.injEq] at hj
        rw [hj]
      | succ j =>
        simp only [List.getElem?_cons_succ] at hj
        exact h2 c' (List.getElem?_mem hj)
    · rw [hr]
      refine ⟨best, by simpa [Nat.add_comm 1 k] using hk, ?_, ?_⟩
      · intro j c' hj
        cases j with
        | zero =>
          simp only [List.getElem?_cons_zero, Option.some.injEq] at hj
          rw [← hj]
          exact le_of_lt hlt
        | succ j =>
          simp only [List.getElem?_cons_succ] at hj
          exact hmin j c' hj
      · intro j c' hjk hj
        cases j with
        | zero =>
          simp only [List.getElem?_cons_zero, Option.some.injEq] at hj
          rw [← hj]
          exact hlt
        | succ j =>
          simp only [List.getElem?_cons_succ] at hj
          exact hfirst j c' (by omega) hj

end P3D

namespace P3D

open TreeNode

/-- Positions of the child array after the first steps of `TreeNode::remove(index)`:
position `index` holds the former last child unless it was the last position, and every
other position below the new count is unchanged. -/
theorem getElem?_swapOut (cs : List TreeNode) (index : Nat) (last : TreeNode)
    (hi : index < cs.length) :
    (index ≠ cs.length - 1 → (swapOut cs index last)[index]? = some last) ∧
    (∀ k, k < cs.length - 1 → k ≠ index → (swapOut cs index last)[k]? = cs[k]?) := by
  unfold swapOut
  constructor
  · intro hne
    rw [if_pos hne, List.getElem?_dropLast, List.length_set, if_pos (by omega),
      List.getElem?_set_self hi]
  · intro k hk hki
    split
    · rw [List.getElem?_dropLast, List.length_set, if_pos hk,
        List.getElem?_set_ne (Ne.symm hki)]
    · rw [List.getElem?_dropLast, if_pos hk]

/-- C16. For every node flagged `isGroupHead` and every new leaf, `TreeNode::addOutside`
does not descend into the node: the result is an internal node that is not a group head,
with exactly two children, child 0 being the original node unchanged and child 1 the new
leaf, and with cached bounds equal to the union of the bounds of the two. -/
theorem addOutside_group_head_pushes_down (t : TreeNode) (object : Nat) (bounds : Bounds)
    (flag : Bool) (h : t.isGroupHead = true) :
    addOutside t (leaf object bounds flag) =
      node [t, leaf object bounds flag] (unionOfBounds t.bounds bounds) false := by
  have hb := bounds_pushDown t (leaf object bounds flag)
  unfold addOutside
  rw [if_pos h]
  simp only [pushDown, ofSubTrees, setBounds, bounds_node, bounds_leaf] at hb ⊢
  rw [hb]

/-- Witness for C16: a group-head leaf `[0,1]³` receives the leaf `[2,3]³`. -/
theorem addOutside_group_head_pushes_down_witness :
    addOutside (leaf 1 (cube 0 1) true) (leaf 2 (cube 2 3) false) =
      node [leaf 1 (cube 0 1) true, leaf 2 (cube 2 3) false]
        (unionOfBounds (leaf 1 (cube 0 1) true).bounds (cube 2 3)) false :=
  addOutside_group_head_pushes_down (leaf 1 (cube 0 1) true) 2 (cube 2 3) false rfl

/-- C17. For every leaf node and every new leaf, `TreeNode::addInside` turns the node into an
internal node with exactly the two children old leaf, new leaf, both with `isGroupHead`
false; the node's `isGroupHead` is the old leaf's flag and its cached bounds are the union of
the bounds of the two leaves. -/
theorem addInside_leaf_makes_pair (object : Nat) (bounds : Bounds) (flag : Bool)
    (newObject : Nat) (newBounds : Bounds) (newFlag : Bool) :
    addInside (leaf object bounds flag) (leaf newObject newBounds newFlag) =
      node [leaf object bounds false, leaf newObject newBounds false]
        (unionOfBounds bounds newBounds) flag := by
  simp [addInside, setGroupHead, computeBoundsOfList, unionOfBounds_right_idem]

/-- C18. For every internal node and every new leaf: when the node has fewer than
`MAX_BRANCHES` children, `TreeNode::addInside` appends the leaf as the new last child; when
it has exactly `MAX_BRANCHES` children, it replaces one child by the result of `addOutside`
on it, namely the child `best` at the smallest index `k` among those minimising
`computeCost(unionOfBounds(newLeaf.bounds, child.bounds))`; every other child and the number
of children stay as they were. -/
theorem addInside_internal_appends_or_descends (cs : List TreeNode) (b : Bounds) (g : Bool)
    (object : Nat) (bounds : Bounds) (flag : Bool) :
    (cs.length < MAX_BRANCHES →
      addInside (node cs b g) (leaf object bounds flag) =
        node (cs ++ [leaf object bounds flag]) (unionOfBounds b bounds) g) ∧
    (cs.length = MAX_BRANCHES →
      ∃ k best, cs[k]? = some best ∧
        (∀ (j : Nat) (c : TreeNode), cs[j]? = some c →
          computeCost (unionOfBounds bounds best.bounds) ≤
            computeCost (unionOfBounds bounds c.bounds)) ∧
        (∀ (j : Nat) (c : TreeNode), j < k → cs[j]? = some c →
          computeCost (unionOfBounds bounds best.bounds) <
            computeCost (unionOfBounds bounds c.bounds)) ∧
        addInside (node cs b g) (leaf object bounds flag) =
          node (cs.set k (addOutside best (leaf object bounds flag)))
            (unionOfBounds b bounds) g ∧
        (cs.set k (addOutside best (leaf object bounds flag))).length = MAX_BRANCHES) := by
  constructor
  · intro h
    rw [addInside_node, addToSubTrees, if_pos (Nat.ne_of_lt h), bounds_leaf]
  · intro h
    have hne : cs ≠ [] := by
      intro h0
      rw [h0] at h
      exact absurd h (by decide)
    obtain ⟨best, hk, hmin, hfirst⟩ := bestIndex_spec bounds cs hne
    have hlt := bestIndex_lt bounds cs hne
    refine ⟨bestIndex bounds cs, best, hk, hmin, hfirst, ?_, by rw [List.length_set, h]⟩
    rw [addInside_node, addToSubTrees, if_neg (by simpa using h), bounds_leaf,
      addOutsideAt_eq_set cs _ _ hlt]
    have hb : cs.get ⟨bestIndex bounds cs, hlt⟩ = best := by
      rw [List.getElem?_eq_getElem hlt] at hk
      exact Option.some.inj hk
    rw [hb]

/-- Witness for C18: the empty internal node receives a leaf as its only child, and the full
node over the four leaves `[0,1]³, [2,3]³, [4,5]³, [6,7]³` keeps four children. -/
theorem addInside_internal_appends_or_descends_witness :
    addInside (node [] (cube 0 0) false) (cubeLeaf 1 0 1) =
      node ([] ++ [cubeLeaf 1 0 1]) (unionOfBounds (cube 0 0) (cube 0 1)) false ∧
    ∃ k best, (scenarioLeaves.take 4)[k]? = some best ∧
      (∀ (j : Nat) (c : TreeNode), (scenarioLeaves.take 4)[j]? = some c →
        computeCost (unionOfBounds (cube 8 9) best.bounds) ≤
          computeCost (unionOfBounds (cube 8 9) c.bounds)) ∧
      (∀ (j : Nat) (c : TreeNode), j < k → (scenarioLeaves.take 4)[j]? = some c →
        computeCost (unionOfBounds (cube 8 9) best.bounds) <
          computeCost (unionOfBounds (cube 8 9) c.bounds)) ∧
      addInside (node (scenarioLeaves.take 4) (cube 0 7) false) (leaf 5 (cube 8 9) false) =
        node ((scenarioLeaves.take 4).set k (addOutside best (leaf 5 (cube 8 9) false)))
          (unionOfBounds (cube 0 7) (cube 8 9)) false ∧
      ((scenarioLeaves.take 4).set k (addOutside best (leaf 5 (cube 8 9) false))).length =
        MAX_BRANCHES :=
  ⟨(addInside_internal_appends_or_descends [] (cube 0 0) false 1 (cube 0 1) false).1
      (by decide),
   (addInside_internal_appends_or_descends (scenarioLeaves.take 4) (cube 0 7) false 5
      (cube 8 9) false).2 (by decide)⟩

/-- C19. For every internal node with `n ≥ 3` children and every index `i < n`,
`TreeNode::remove(i)` returns the former child `i` and leaves a node with `n − 1` children
in which position `i` holds the former last child (when `i ≠ n − 1`), every other remaining
position is unchanged, and the cached bounds are the union of the bounds of the remaining
children, as computed by `computeBoundsOfList`. -/
theorem remove_of_three_or_more (cs : List TreeNode) (b : Bounds) (g : Bool) (i : Nat)
    (h3 : 3 ≤ cs.length) (hi : i < cs.length) :
    ∃ removed last first rest,
      cs[i]? = some removed ∧ cs.getLast? = some last ∧
      remove (node cs b g) i =
        some (removed, node (first :: rest) (computeBoundsOfList first rest) g) ∧
      (first :: rest).length = cs.length - 1 ∧
      (i ≠ cs.length - 1 → (first :: rest)[i]? = some last) ∧
      (∀ k, k < cs.length - 1 → k ≠ i → (first :: rest)[k]? = cs[k]?) ∧
      IsUnionOf (computeBoundsOfList first rest) ((first :: rest).map TreeNode.bounds) := by
  have hne : cs ≠ [] := by
    intro h
    rw [h] at h3
    simp at h3
  have hlast : cs.getLast? = some (cs.getLast hne) := List.getLast?_eq_getLast cs hne
  have hget : cs[i]? = some (cs.get ⟨i, hi⟩) := by
    simp [List.getElem?_eq_getElem hi]
  have hlen := length_swapOut cs i (cs.getLast hne)
  have hpos := getElem?_swapOut cs i (cs.getLast hne) hi
  generalize hsw : swapOut cs i (cs.getLast hne) = cs' at hlen hpos
  match cs', hlen, hpos, hsw with
  | [], hlen, _, _ =>
    simp only [List.length_nil] at hlen
    omega
  | [only], hlen, _, _ =>
    simp only [List.length_singleton] at hlen
    omega
  | first :: second :: rest, hlen, hpos, hsw =>
    refine ⟨cs.get ⟨i, hi⟩, cs.getLast hne, first, second :: rest, hget, hlast, ?_, hlen,
      hpos.1, hpos.2, isUnionOf_computeBoundsOfList first (second :: rest)⟩
    simp only [remove, hget, hlast, hsw, recalculateBoundsFromSubBounds, Option.map_some']

/-- Witness for C19: child 1 is removed from the node over the four leaves
`[0,1]³, [2,3]³, [4,5]³, [6,7]³`. -/
theorem remove_of_three_or_more_witness :
    ∃ removed last first rest,
      (scenarioLeaves.take 4)[1]? = some removed ∧
      (scenarioLeaves.take 4).getLast? = some last ∧
      remove (node (scenarioLeaves.take 4) (cube 0 7) false) 1 =
        some (removed, node (first :: rest) (computeBoundsOfList first rest) false) ∧
      (first :: rest).length = (scenarioLeaves.take 4).length - 1 ∧
      (1 ≠ (scenarioLeaves.take 4).length - 1 → (first :: rest)[1]? = some last) ∧
      (∀ k, k < (scenarioLeaves.take 4).length - 1 → k ≠ 1 →
        (first :: rest)[k]? = (scenarioLeaves.take 4)[k]?) ∧
      IsUnionOf (computeBoundsOfList first rest) ((first :: rest).map TreeNode.bounds) :=
  remove_of_three_or_more (scenarioLeaves.take 4) (cube 0 7) false 1 (by decide) (by decide)

/-- C20. For every internal node with exactly two children and either index,
`TreeNode::remove(i)` returns child `i` and replaces the node by the contents of the other
child (its object or its subtrees, and its bounds), with `isGroupHead` set to the node's
flag or the surviving child's flag. -/
theorem remove_of_two_collapses (c0 c1 : TreeNode) (b : Bounds) (g : Bool) :
    remove (node [c0, c1] b g) 0 = some (c0, c1.setGroupHead (g || c1.isGroupHead)) ∧
    remove (node [c0, c1] b g) 1 = some (c1, c0.setGroupHead (g || c0.isGroupHead)) ∧
    (c1.setGroupHead (g || c1.isGroupHead)).bounds = c1.bounds ∧
    (c0.setGroupHead (g || c0.isGroupHead)).bounds = c0.bounds ∧
    (c1.setGroupHead (g || c1.isGroupHead)).children = c1.children ∧
    (c0.setGroupHead (g || c0.isGroupHead)).children = c0.children ∧
    (c1.setGroupHead (g || c1.isGroupHead)).isLeafNode = c1.isLeafNode ∧
    (c0.setGroupHead (g || c0.isGroupHead)).isLeafNode = c0.isLeafNode := by
  refine ⟨by simp [remove, swapOut], by simp [remove, swapOut], ?_, ?_, ?_, ?_, ?_, ?_⟩ <;>
    first
    | (cases c1 <;> rfl)
    | (cases c0 <;> rfl)

end P3D

/-! ## World serialization: what the encoders write -/

namespace P3D

@[simp] theorem write_ostream (st : EncodeState) (b : List Nat) :
    (st.write b).ostream = st.ostream ++ b := rfl

@[simp] theorem write_predefined (st : EncodeState) (b : List Nat) :
    (st.write b).predefined = st.predefined := rfl

@[simp] theorem write_included (st : EncodeState) (b : List Nat) :
    (st.write b).included = st.included := rfl

@[simp] theorem write_physicalIndexMap (st : EncodeState) (b : List Nat) :
    (st.write b).physicalIndexMap = st.physicalIndexMap := rfl

@[simp] theorem write_currentPhysicalIndex (st : EncodeState) (b : List Nat) :
    (st.write b).currentPhysicalIndex = st.currentPhysicalIndex := rfl

@[simp] theorem write_write (st : EncodeState) (a b : List Nat) :
    (st.write a).write b = st.write (a ++ b) := by
  simp [EncodeState.write]

@[simp] theorem write_nil (st : EncodeState) : st.write [] = st := by
  simp [EncodeState.write]

/-- A loop whose body only writes bytes that depend on the known shape classes writes the
concatenation of these bytes. -/
theorem foldl_write {α : Type} (g : EncodeState → α → EncodeState)
    (f : List ShapeClass → α → List Nat)
    (h : ∀ st x, g st x = st.write (f (st.predefined ++ st.included) x)) (xs : List α)
    (st : EncodeState) :
    xs.foldl g st = st.write ((xs.map (f (st.predefined ++ st.included))).flatten) := by
  induction xs generalizing st with
  | nil => simp
  | cons x xs ih => simp [ih, h]

theorem serializePolyhedron_eq (vertices triangles : List (List Nat)) (st : EncodeState) :
    serializePolyhedron vertices triangles st =
      st.write (polyhedronBytes vertices triangles) := by
  simp only [serializePolyhedron, serializeUInt32, serializePod]
  rw [foldl_write _ (fun _ v => v) (fun _ _ => rfl),
    foldl_write _ (fun _ v => v) (fun _ _ => rfl)]
  simp [polyhedronBytes]

theorem serializeShapeClass_eq (shapeClass : ShapeClass) (st : EncodeState) :
    serializeShapeClass shapeClass st = st.write (shapeClassBytes shapeClass) := by
  cases shapeClass with
  | builtin k => simp [serializeShapeClass, shapeClassBytes]
  | polyhedron v t =>
    simp [serializeShapeClass, shapeClassBytes, serializePolyhedron_eq, serializeUInt32]

theorem serializeRegistry_eq (st : EncodeState) :
    serializeRegistry st = st.write (registryBytes st.included) := by
  simp only [serializeRegistry, serializeUInt32]
  rw [foldl_write _ (fun _ c => shapeClassBytes c) (fun _ _ => serializeShapeClass_eq _ _)]
  simp [registryBytes]

theorem serializeCollectedHeaderInformation_eq (st : EncodeState) :
    serializeCollectedHeaderInformation st =
      st.write (toLittleEndian 4 CURRENT_VERSION_ID ++ registryBytes st.included) := by
  simp [serializeCollectedHeaderInformation, serializeRegistry_eq, serializeVersion,
    serializeUInt32]

theorem serializeShape_eq (shape : Shape) (st : EncodeState) :
    serializeShape shape st = st.write (shapeBytes (st.predefined ++ st.included) shape) := by
  simp [serializeShape, serializeIDFor, serializeUInt32, serializePod, shapeBytes]

theorem serializePartData_eq (part : Part) (st : EncodeState) :
    serializePartData part st =
      st.write (partDataBytes (st.predefined ++ st.included) part) := by
  simp [serializePartData, serializeShape_eq, serializePod, partDataBytes]

theorem serializeRigidBodyInContext_eq (rigidBody : RigidBody) (st : EncodeState) :
    serializeRigidBodyInContext rigidBody st =
      st.write (rigidBodyBytes (st.predefined ++ st.included) rigidBody) := by
  simp only [serializeRigidBodyInContext, serializeLayer, serializeUInt32, serializePod,
    serializePartData_eq, write_write, write_predefined, write_included]
  rw [foldl_write _ (fun known atPart => atPart.attachment ++ bodyPartBytes known atPart.part)
    (fun _ _ => by simp [bodyPartBytes])]
  simp [rigidBodyBytes, bodyPartBytes]

theorem serializeDynamic_eq (object : DynamicObject) (st : EncodeState) :
    serializeDynamic object st = st.write (dynamicBytes object) := by
  simp [serializeDynamic, serializeUInt32, serializePod, dynamicBytes]

theorem serializeHardPhysicalConnection_eq (connection : HardPhysicalConnection)
    (st : EncodeState) :
    serializeHardPhysicalConnection connection st =
      st.write (hardConnectionBytes connection) := by
  simp [serializeHardPhysicalConnection, serializeDynamic_eq, serializePod,
    hardConnectionBytes]

theorem emplacePhysical_write (ref : PhysicalRef) (st : EncodeState) (b : List Nat) :
    emplacePhysical ref (st.write b) = (emplacePhysical ref st).write b := rfl

@[simp] theorem emplacePhysical_predefined (ref : PhysicalRef) (st : EncodeState) :
    (emplacePhysical ref st).predefined = st.predefined := rfl

@[simp] theorem emplacePhysical_included (ref : PhysicalRef) (st : EncodeState) :
    (emplacePhysical ref st).included = st.included := rfl

@[simp] theorem emplacePhysical_ostream (ref : PhysicalRef) (st : EncodeState) :
    (emplacePhysical ref st).ostream = st.ostream := rfl

theorem emplaceAll_write (refs : List PhysicalRef) (st : EncodeState) (b : List Nat) :
    emplaceAll refs (st.write b) = (emplaceAll refs st).write b := by
  induction refs generalizing st with
  | nil => rfl
  | cons r rs ih =>
    simp only [emplaceAll, List.foldl_cons] at ih ⊢
    rw [emplacePhysical_write, ih]

@[simp] theorem emplaceAll_predefined (refs : List PhysicalRef) (st : EncodeState) :
    (emplaceAll refs st).predefined = st.predefined := by
  induction refs generalizing st with
  | nil => rfl
  | cons r rs ih =>
    simp only [emplaceAll, List.foldl_cons] at ih ⊢
    rw [ih, emplacePhysical_predefined]

@[simp] theorem emplaceAll_included (refs : List PhysicalRef) (st : EncodeState) :
    (emplaceAll refs st).included = st.included := by
  induction refs generalizing st with
  | nil => rfl
  | cons r rs ih =>
    simp only [emplaceAll, List.foldl_cons] at ih ⊢
    rw [ih, emplacePhysical_included]

@[simp] theorem emplaceAll_ostream (refs : List PhysicalRef) (st : EncodeState) :
    (emplaceAll refs st).ostream = st.ostream := by
  induction refs generalizing st with
  | nil => rfl
  | cons r rs ih =>
    simp only [emplaceAll, List.foldl_cons] at ih ⊢
    rw [ih, emplacePhysical_ostream]

theorem emplaceAll_nil (st : EncodeState) : emplaceAll [] st = st := rfl

theorem emplaceAll_cons (r : PhysicalRef) (rs : List PhysicalRef) (st : EncodeState) :
    emplaceAll (r :: rs) st = emplaceAll rs (emplacePhysical r st) := rfl

theorem emplaceAll_append (rs rs' : List PhysicalRef) (st : EncodeState) :
    emplaceAll (rs ++ rs') st = emplaceAll rs' (emplaceAll rs st) := by
  simp [emplaceAll]

end P3D

namespace P3D

mutual
theorem serializeConnectedPhysical_eq (p : ConnectedPhysical) (ref : PhysicalRef)
    (st : EncodeState) :
    serializeConnectedPhysical ref p st =
      (emplaceAll (ConnectedPhysical.preorder ref p) st).write
        (connectedPhysicalBytes (st.predefined ++ st.included) p) := by
  cases p with
  | mk conn rb cs =>
    have ih := serializeChildPhysicals_eq cs
    simp only [serializeConnectedPhysical, ConnectedPhysical.preorder, connectedPhysicalBytes,
      serializeHardPhysicalConnection_eq, serializeRigidBodyInContext_eq, serializeUInt32, ih,
      emplacePhysical_write, emplaceAll_write, emplaceAll_cons, write_write, write_predefined,
      write_included, emplacePhysical_predefined, emplacePhysical_included,
      List.append_assoc]
theorem serializeChildPhysicals_eq (ps : List ConnectedPhysical) (ref : PhysicalRef) (i : Nat)
    (st : EncodeState) :
    serializeChildPhysicals ref i ps st =
      (emplaceAll (childrenPreorder ref i ps) st).write
        (childPhysicalsBytes (st.predefined ++ st.included) ps) := by
  cases ps with
  | nil => simp [serializeChildPhysicals, childrenPreorder, childPhysicalsBytes, emplaceAll_nil]
  | cons p ps =>
    have ih1 := serializeConnectedPhysical_eq p
    have ih2 := serializeChildPhysicals_eq ps
    simp only [serializeChildPhysicals, childrenPreorder, childPhysicalsBytes, ih1, ih2,
      emplaceAll_write, emplaceAll_append, write_write, write_predefined, write_included,
      emplaceAll_predefined, emplaceAll_included]
end

theorem serializeMotorizedPhysicalInContext_eq (ops : FrameOps) (ref : PhysicalRef)
    (phys : MotorizedPhysical) (st : EncodeState) :
    serializeMotorizedPhysicalInContext ops ref phys st =
      (emplaceAll (ref :: childrenPreorder ref 0 phys.childPhysicals) st).write
        (motorizedPhysicalBytes ops (st.predefined ++ st.included) phys) := by
  simp only [serializeMotorizedPhysicalInContext, serializePhysicalInContext,
    motorizedPhysicalBytes, serializePod, serializeRigidBodyInContext_eq, serializeUInt32,
    serializeChildPhysicals_eq, emplacePhysical_write, emplaceAll_write, emplaceAll_cons,
    write_write, write_predefined, write_included, emplacePhysical_predefined,
    emplacePhysical_included, List.append_assoc]

theorem serializeMotorizedPhysicals_eq (ops : FrameOps) (ps : List MotorizedPhysical) (i : Nat)
    (st : EncodeState) :
    serializeMotorizedPhysicals ops i ps st =
      (emplaceAll (physicalsPreorder i ps) st).write
        ((ps.map (motorizedPhysicalBytes ops (st.predefined ++ st.included))).flatten) := by
  induction ps generalizing i st with
  | nil => simp [serializeMotorizedPhysicals, physicalsPreorder, emplaceAll_nil]
  | cons p ps ih =>
    simp only [serializeMotorizedPhysicals, physicalsPreorder, ih,
      serializeMotorizedPhysicalInContext_eq, emplaceAll_write, emplaceAll_append, write_write,
      write_predefined, write_included, emplaceAll_predefined, emplaceAll_included,
      List.map_cons, List.flatten_cons]

end P3D

namespace P3D

theorem indexIn_append_zero (map : List (PhysicalRef × Nat)) (p k : PhysicalRef) :
    map.lookup p = none → indexIn (map ++ [(p, 0)]) k = indexIn map k := by
  intro hp
  simp only [indexIn, List.lookup_append]
  cases hk : map.lookup k with
  | some v => rfl
  | none =>
    simp only [Option.none_or, List.lookup_cons, List.lookup_nil, Option.getD_none]
    split <;> rfl

@[simp] theorem withMap_physicalIndexMap (st : EncodeState) (m : List (PhysicalRef × Nat)) :
    (st.withMap m).physicalIndexMap = m := rfl

@[simp] theorem withMap_ostream (st : EncodeState) (m : List (PhysicalRef × Nat)) :
    (st.withMap m).ostream = st.ostream := rfl

@[simp] theorem withMap_predefined (st : EncodeState) (m : List (PhysicalRef × Nat)) :
    (st.withMap m).predefined = st.predefined := rfl

@[simp] theorem withMap_included (st : EncodeState) (m : List (PhysicalRef × Nat)) :
    (st.withMap m).included = st.included := rfl

@[simp] theorem withMap_withMap (st : EncodeState) (m m' : List (PhysicalRef × Nat)) :
    (st.withMap m).withMap m' = st.withMap m' := rfl

@[simp] theorem withMap_write (st : EncodeState) (b : List Nat)
    (m : List (PhysicalRef × Nat)) : (st.write b).withMap m = (st.withMap m).write b := rfl

/-- The lookup `physicalIndexMap[phys]` returns the number the map gives the physical and
leaves a map that gives every physical the same number as before. -/
theorem physicalIndexOf_spec (phys : PhysicalRef) (st : EncodeState) :
    ∃ map', indexIn map' = indexIn st.physicalIndexMap ∧
      physicalIndexOf phys st = (indexIn st.physicalIndexMap phys, st.withMap map') := by
  unfold physicalIndexOf
  cases h : st.physicalIndexMap.lookup phys with
  | some v => exact ⟨st.physicalIndexMap, rfl, by simp [indexIn, h, EncodeState.withMap]⟩
  | none =>
    exact ⟨st.physicalIndexMap ++ [(phys, 0)], funext (indexIn_append_zero _ _ · h),
      by simp [indexIn, h, EncodeState.withMap]⟩

theorem serializeConstraintInContext_spec (c : PhysicalConstraint) (st : EncodeState) :
    ∃ map', indexIn map' = indexIn st.physicalIndexMap ∧
      serializeConstraintInContext c st =
        (st.withMap map').write (constraintBytes (indexIn st.physicalIndexMap) c) := by
  obtain ⟨m1, h1, e1⟩ := physicalIndexOf_spec c.physA st
  obtain ⟨m2, h2, e2⟩ := physicalIndexOf_spec c.physB (st.withMap m1)
  refine ⟨m2, h2.trans h1, ?_⟩
  simp only [serializeConstraintInContext, e1, e2, h1, serializeUInt32, serializeDynamic_eq,
    write_write, constraintBytes, List.append_assoc, withMap_physicalIndexMap,
    withMap_withMap]

theorem serializeConstraints_spec (cs : List PhysicalConstraint) (st : EncodeState) :
    ∃ map', indexIn map' = indexIn st.physicalIndexMap ∧
      cs.foldl (fun st c => serializeConstraintInContext c st) st =
        (st.withMap map').write
          ((cs.map (constraintBytes (indexIn st.physicalIndexMap))).flatten) := by
  induction cs generalizing st with
  | nil => exact ⟨st.physicalIndexMap, rfl, by simp [EncodeState.withMap]⟩
  | cons c cs ih =>
    obtain ⟨m1, h1, e1⟩ := serializeConstraintInContext_spec c st
    obtain ⟨m2, h2, e2⟩ := ih ((st.withMap m1).write
      (constraintBytes (indexIn st.physicalIndexMap) c))
    simp only [write_physicalIndexMap, withMap_physicalIndexMap] at h2 e2
    refine ⟨m2, h2.trans h1, ?_⟩
    simp only [List.foldl_cons, e1, e2, h1, write_write, List.map_cons, List.flatten_cons,
      withMap_write, withMap_withMap]

theorem serializeConstraintGroups_spec (groups : List ConstraintGroup) (st : EncodeState) :
    ∃ map', indexIn map' = indexIn st.physicalIndexMap ∧
      groups.foldl (fun st cg =>
        cg.constraints.foldl (fun st c => serializeConstraintInContext c st)
          (serializeUInt32 cg.constraints.length st)) st =
        (st.withMap map').write
          ((groups.map (constraintGroupBytes (indexIn st.physicalIndexMap))).flatten) := by
  induction groups generalizing st with
  | nil => exact ⟨st.physicalIndexMap, rfl, by simp [EncodeState.withMap]⟩
  | cons g gs ih =>
    obtain ⟨m1, h1, e1⟩ := serializeConstraints_spec g.constraints
      (serializeUInt32 g.constraints.length st)
    simp only [serializeUInt32, write_physicalIndexMap, withMap_write, write_write] at h1 e1
    obtain ⟨m2, h2, e2⟩ := ih ((st.withMap m1).write (toLittleEndian 4 g.constraints.length ++
      (g.constraints.map (constraintBytes (indexIn st.physicalIndexMap))).flatten))
    simp only [write_physicalIndexMap, withMap_physicalIndexMap] at h2 e2
    refine ⟨m2, h2.trans h1, ?_⟩
    have hu : serializeUInt32 g.constraints.length st =
        st.write (toLittleEndian 4 g.constraints.length) := rfl
    rw [List.foldl_cons, hu, e1, e2]
    simp only [h1, List.map_cons, List.flatten_cons, constraintGroupBytes, withMap_write,
      withMap_withMap, write_write, List.append_assoc]

end P3D

namespace P3D

theorem includeAll_append (predefined included : List ShapeClass) (a b : List ShapeClass) :
    includeAll predefined included (a ++ b) =
      includeAll predefined (includeAll predefined included a) b := by
  induction a generalizing included with
  | nil => rfl
  | cons c cs ih => exact ih _

@[simp] theorem collect_ostream (st : EncodeState) (cs : List ShapeClass) :
    (st.collect cs).ostream = st.ostream := rfl

@[simp] theorem collect_predefined (st : EncodeState) (cs : List ShapeClass) :
    (st.collect cs).predefined = st.predefined := rfl

@[simp] theorem collect_included (st : EncodeState) (cs : List ShapeClass) :
    (st.collect cs).included = includeAll st.predefined st.included cs := rfl

@[simp] theorem collect_physicalIndexMap (st : EncodeState) (cs : List ShapeClass) :
    (st.collect cs).physicalIndexMap = st.physicalIndexMap := rfl

@[simp] theorem collect_nil (st : EncodeState) : st.collect [] = st := rfl

@[simp] theorem collect_collect (st : EncodeState) (a b : List ShapeClass) :
    (st.collect a).collect b = st.collect (a ++ b) := by
  simp [EncodeState.collect, includeAll_append]

theorem includeShapeClass_eq (c : ShapeClass) (st : EncodeState) :
    includeShapeClass c st = st.collect [c] := by
  unfold includeShapeClass EncodeState.collect
  simp only [includeAll]
  split <;> rfl

/-- A loop whose body only includes shape classes includes them all, in order. -/
theorem foldl_collect {α : Type} (g : EncodeState → α → EncodeState)
    (f : α → List ShapeClass) (h : ∀ st x, g st x = st.collect (f x)) (xs : List α)
    (st : EncodeState) : xs.foldl g st = st.collect ((xs.map f).flatten) := by
  induction xs generalizing st with
  | nil => simp
  | cons x xs ih => simp [ih, h]

theorem collectRigidBodyInformation_eq (rigidBody : RigidBody) (st : EncodeState) :
    collectRigidBodyInformation rigidBody st = st.collect rigidBody.shapeClasses := by
  simp only [collectRigidBodyInformation, collectPartInformation, includeShapeClass_eq]
  refine (foldl_collect _ (fun (atPart : AttachedPart) => [atPart.part.hitbox.baseShape])
    (fun _ _ => rfl) _ _).trans ?_
  rw [collect_collect]
  congr 1
  simp only [RigidBody.shapeClasses, List.singleton_append, List.cons.injEq, true_and]
  induction rigidBody.parts with
  | nil => rfl
  | cons a l ih => simp [ih]

mutual
theorem collectConnectedPhysicalInformation_eq (p : ConnectedPhysical) (st : EncodeState) :
    collectConnectedPhysicalInformation p st = st.collect p.shapeClasses := by
  cases p with
  | mk conn rb cs =>
    have ih := collectChildPhysicalsInformation_eq cs
    simp only [collectConnectedPhysicalInformation, ConnectedPhysical.shapeClasses,
      collectRigidBodyInformation_eq, ih, collect_collect]
theorem collectChildPhysicalsInformation_eq (ps : List ConnectedPhysical) (st : EncodeState) :
    collectChildPhysicalsInformation ps st = st.collect (childrenShapeClasses ps) := by
  cases ps with
  | nil => rfl
  | cons p ps =>
    have ih1 := collectConnectedPhysicalInformation_eq p
    have ih2 := collectChildPhysicalsInformation_eq ps
    simp only [collectChildPhysicalsInformation, childrenShapeClasses, ih1, ih2,
      collect_collect]
end

theorem collectMotorizedPhysicalInformation_eq (phys : MotorizedPhysical)
    (st : EncodeState) :
    collectMotorizedPhysicalInformation phys st =
      st.collect (phys.rigidBody.shapeClasses ++ childrenShapeClasses phys.childPhysicals) := by
  simp only [collectMotorizedPhysicalInformation, collectRigidBodyInformation_eq,
    collectChildPhysicalsInformation_eq, collect_collect]

theorem collectLayerInformation_eq (layer : List LayerPart) (st : EncodeState) :
    collectLayerInformation layer st =
      st.collect ((unPhysicaledParts layer).map (fun part => part.hitbox.baseShape)) := by
  induction layer generalizing st with
  | nil => rfl
  | cons p ps ih =>
    unfold collectLayerInformation at ih ⊢
    rw [List.foldl_cons, ih]
    cases hp : p.hasParent <;>
      simp [unPhysicaledParts, hp, collectPartInformation, includeShapeClass_eq]

theorem serializeWorldLayer_eq (ops : FrameOps) (layer : List LayerPart) (st : EncodeState) :
    serializeWorldLayer ops layer st =
      st.write (worldLayerBytes ops (st.predefined ++ st.included) layer) := by
  have hcount : ∀ (l : List LayerPart) (n : Nat),
      l.foldl (fun count p => if p.hasParent then count else count + 1) n =
        n + (unPhysicaledParts l).length := by
    intro l
    induction l with
    | nil => intro n; rfl
    | cons p ps ih =>
      intro n
      rw [List.foldl_cons, ih]
      cases hp : p.hasParent
      · simp [unPhysicaledParts, hp]
        omega
      · simp [unPhysicaledParts, hp]
  have hparts : ∀ (l : List LayerPart) (st : EncodeState),
      l.foldl (fun st p => if p.hasParent then st
        else serializePartData p.part (serializePod (p.part.cframe.getCFrame ops) st)) st =
      st.write (((unPhysicaledParts l).map
        (framedPartBytes ops (st.predefined ++ st.included))).flatten) := by
    intro l
    induction l with
    | nil => intro st; simp [unPhysicaledParts]
    | cons p ps ih =>
      intro st
      rw [List.foldl_cons, ih]
      cases hp : p.hasParent <;>
        simp [unPhysicaledParts, hp, serializePartData_eq, serializePod, framedPartBytes]
  simp only [serializeWorldLayer, hcount, hparts, serializeUInt32, write_write,
    write_predefined, write_included, worldLayerBytes, Nat.zero_add]

theorem serializeCollideFlags_eq (world : SourceWorld) (st : EncodeState) :
    (List.range world.getLayerCount).foldl (fun st i =>
      (List.range (i + 1)).foldl (fun st j =>
        serializeBool (world.doLayersCollide i j) st) st) st =
      st.write (collideFlagBytes world) := by
  refine (foldl_write _ (fun _ i => (List.range (i + 1)).map
    (fun j => if world.doLayersCollide i j then 1 else 0)) ?_ _ _).trans ?_
  · intro st i
    refine (foldl_write _ (fun _ j => [if world.doLayersCollide i j then 1 else 0])
      (fun _ _ => rfl) _ _).trans ?_
    congr 1
    show ((List.range (i + 1)).map
        (fun j => [if world.doLayersCollide i j then 1 else 0])).flatten =
      (List.range (i + 1)).map (fun j => if world.doLayersCollide i j then 1 else 0)
    generalize List.range (i + 1) = l
    induction l with
    | nil => rfl
    | cons a l ih => simp [ih]
  · congr 1
    simp only [collideFlagBytes, layerPairs, List.flatMap, List.map_flatten, List.map_map,
      Function.comp_def]

end P3D

namespace P3D

theorem emplaceAll_collect (refs : List PhysicalRef) (st : EncodeState)
    (cs : List ShapeClass) :
    emplaceAll refs (st.collect cs) = (emplaceAll refs st).collect cs := by
  induction refs generalizing st with
  | nil => rfl
  | cons r rs ih =>
    rw [emplaceAll_cons, emplaceAll_cons, ← ih]
    rfl

theorem emplaceAll_physicalIndexMap_collect (refs : List PhysicalRef) (st : EncodeState)
    (cs : List ShapeClass) :
    (emplaceAll refs (st.collect cs)).physicalIndexMap =
      (emplaceAll refs st).physicalIndexMap := by
  rw [emplaceAll_collect, collect_physicalIndexMap]

/-- The collection phase of `serializeWorld` includes the shape classes of the world. -/
theorem collectWorld_eq (world : SourceWorld) (st : EncodeState) :
    world.layers.foldl (fun st clayer =>
      [clayer.freeParts, clayer.terrainParts].foldl
        (fun st layer => collectLayerInformation layer st) st)
      (world.physicals.foldl (fun st p => collectMotorizedPhysicalInformation p st) st) =
    st.collect world.shapeClasses := by
  rw [foldl_collect _ (fun (p : MotorizedPhysical) =>
      p.rigidBody.shapeClasses ++ childrenShapeClasses p.childPhysicals)
    (fun _ _ => collectMotorizedPhysicalInformation_eq _ _)]
  rw [foldl_collect _ (fun (clayer : SourceLayer) =>
      (unPhysicaledParts clayer.freeParts ++ unPhysicaledParts clayer.terrainParts).map
        (fun part => part.hitbox.baseShape))
    (fun st clayer => by
      simp [collectLayerInformation_eq])]
  rw [collect_collect]
  rfl

/-- What `serializeWorld` does to the session: the shape classes of the world are included,
the physicals are numbered in pre-order, and the layout of the world is appended to the
stream. -/
theorem serializeWorld_eq (ops : FrameOps) (world : SourceWorld) (st : EncodeState) :
    ∃ map', indexIn map' =
        indexIn (emplaceAll (physicalsPreorder 0 world.physicals) st).physicalIndexMap ∧
      serializeWorld ops world st =
        ((emplaceAll (physicalsPreorder 0 world.physicals)
            (st.collect world.shapeClasses)).withMap map').write
          (worldBytes ops (includeAll st.predefined st.included world.shapeClasses)
            (st.predefined ++ includeAll st.predefined st.included world.shapeClasses)
            (indexIn (emplaceAll (physicalsPreorder 0 world.physicals) st).physicalIndexMap)
            world) := by
  obtain ⟨m, hm, em⟩ := serializeConstraintGroups_spec world.constraints
    (serializeUInt32 world.constraints.length
      (serializeMotorizedPhysicals ops 0 world.physicals
        (serializeUInt32 world.physicals.length
          (world.layers.foldl (fun st layer => serializeWorldLayer ops layer.terrainParts st)
            ((List.range world.getLayerCount).foldl (fun st i =>
              (List.range (i + 1)).foldl (fun st j =>
                serializeBool (world.doLayersCollide i j) st) st)
              (serializeUInt32 world.getLayerCount (serializeUInt64 world.age
                (serializeCollectedHeaderInformation
                  (st.collect world.shapeClasses)))))))))
  have hlayers : ∀ st : EncodeState,
      world.layers.foldl (fun st layer => serializeWorldLayer ops layer.terrainParts st) st =
        st.write ((world.layers.map (fun layer =>
          worldLayerBytes ops (st.predefined ++ st.included) layer.terrainParts)).flatten) :=
    fun st => foldl_write _ (fun known (layer : SourceLayer) =>
      worldLayerBytes ops known layer.terrainParts)
      (fun _ _ => serializeWorldLayer_eq _ _ _) _ _
  have hforces : ∀ st : EncodeState,
      world.externalForces.foldl (fun st force => serializeDynamic force st) st =
        st.write ((world.externalForces.map dynamicBytes).flatten) :=
    fun st => foldl_write _ (fun _ force => dynamicBytes force)
      (fun _ _ => serializeDynamic_eq _ _) _ _
  refine ⟨m, ?_, ?_⟩
  · simpa only [serializeCollectedHeaderInformation_eq, serializeUInt64, serializeUInt32,
      serializeCollideFlags_eq, hlayers, serializeMotorizedPhysicals_eq, write_write,
      write_predefined, write_included, write_physicalIndexMap, emplaceAll_predefined,
      emplaceAll_included, collect_predefined, collect_included, emplaceAll_write,
      emplaceAll_physicalIndexMap_collect] using hm
  unfold serializeWorld
  simp only [collectWorld_eq]
  rw [hforces, em]
  clear em hm
  simp only [serializeCollectedHeaderInformation_eq, serializeUInt64, serializeUInt32,
    serializeCollideFlags_eq, hlayers, serializeMotorizedPhysicals_eq, write_write,
    withMap_write, worldBytes, List.append_assoc, withMap_predefined, withMap_included,
    write_predefined, write_included, write_physicalIndexMap, emplaceAll_predefined,
    emplaceAll_included, collect_predefined, collect_included, emplaceAll_write,
    emplaceAll_physicalIndexMap_collect]

theorem serializeParts_eq (ops : FrameOps) (parts : List Part) (st : EncodeState) :
    serializeParts ops parts st =
      (st.collect (parts.map (fun part => part.hitbox.baseShape))).write
        (partsBytes ops
          (includeAll st.predefined st.included (parts.map (fun part => part.hitbox.baseShape)))
          (st.predefined ++
            includeAll st.predefined st.included (parts.map (fun part => part.hitbox.baseShape)))
          parts) := by
  have hcollect : ∀ st : EncodeState,
      parts.foldl (fun st part => collectPartInformation part st) st =
        st.collect (parts.map (fun part => part.hitbox.baseShape)) := by
    intro st
    refine (foldl_collect _ (fun (part : Part) => [part.hitbox.baseShape])
      (fun _ _ => includeShapeClass_eq _ _) _ _).trans ?_
    congr 1
    induction parts with
    | nil => rfl
    | cons a l ih => simp [ih]
  have hparts : ∀ st : EncodeState,
      parts.foldl (fun st part =>
        serializePartData part (serializePod (part.cframe.getCFrame ops) st)) st =
      st.write ((parts.map (framedPartBytes ops (st.predefined ++ st.included))).flatten) :=
    fun st => foldl_write _ (fun known part => framedPartBytes ops known part)
      (fun _ _ => by simp [serializePartData_eq, serializePod, framedPartBytes]) _ _
  simp only [serializeParts, hcollect, hparts, serializeCollectedHeaderInformation_eq,
    serializeUInt32, write_write, write_predefined, write_included, collect_predefined,
    collect_included, partsBytes, List.append_assoc]

end P3D

/-! ## World serialization: what the decoders read -/

namespace P3D

theorem fromLittleEndian_toLittleEndian (count n : Nat) :
    fromLittleEndian (toLittleEndian count n) = n % 256 ^ count := by
  induction count generalizing n with
  | zero => simp [toLittleEndian, fromLittleEndian, Nat.mod_one]
  | succ count ih =>
    simp only [toLittleEndian, fromLittleEndian, ih, pow_succ]
    rw [Nat.mul_comm (256 ^ count) 256, Nat.mod_mul, Nat.add_comm]

theorem length_toLittleEndian (count n : Nat) : (toLittleEndian count n).length = count := by
  induction count generalizing n with
  | zero => rfl
  | succ count ih => simp [toLittleEndian, ih]

theorem Decodes.pure {α : Type} (a : α) (st : DecodeState) :
    Decodes (Pure.pure a : Decoder α) st [] a st := by
  intro rest
  rfl

theorem Decodes.bind {α β : Type} {d : Decoder α} {f : α → Decoder β} {st st1 st2 : DecodeState}
    {b1 b2 : List Nat} {a : α} {c : β} (h1 : Decodes d st b1 a st1)
    (h2 : Decodes (f a) st1 b2 c st2) : Decodes (d >>= f) st (b1 ++ b2) c st2 := by
  intro rest
  have e1 := h1 (b2 ++ rest)
  have e2 := h2 rest
  simp only [List.append_assoc, Bind.bind, StateT.bind, e1, Except.bind]
  exact e2

theorem Decodes.of_eq {α : Type} {d : Decoder α} {st st' : DecodeState} {b b' : List Nat}
    {a a' : α} (h : Decodes d st b a st') (hb : b = b') (ha : a = a') :
    Decodes d st b' a' st' := by
  subst hb
  subst ha
  exact h

theorem readBytes_decodes (st : DecodeState) (bytes : List Nat) :
    Decodes (readBytes bytes.length) st bytes bytes st := by
  intro rest
  simp [readBytes]

theorem readPod_decodes (L : Layout) (t : PodType) (st : DecodeState) (bytes : List Nat)
    (h : bytes.length = L.sizeOf t) : Decodes (readPod L t) st bytes bytes st := by
  unfold readPod
  rw [← h]
  exact readBytes_decodes st bytes

theorem readUInt32_decodes (st : DecodeState) (n : Nat) (h : n < 2 ^ 32) :
    Decodes readUInt32 st (toLittleEndian 4 n) n st := by
  have hb := readBytes_decodes st (toLittleEndian 4 n)
  rw [length_toLittleEndian] at hb
  have key : Decodes readUInt32 st (toLittleEndian 4 n ++ [])
      (fromLittleEndian (toLittleEndian 4 n)) st := Decodes.bind hb (Decodes.pure _ _)
  refine key.of_eq (List.append_nil _) ?_
  rw [fromLittleEndian_toLittleEndian]
  exact Nat.mod_eq_of_lt (by simpa using h)

theorem readUInt64_decodes (st : DecodeState) (n : Nat) (h : n < 2 ^ 64) :
    Decodes readUInt64 st (toLittleEndian 8 n) n st := by
  have hb := readBytes_decodes st (toLittleEndian 8 n)
  rw [length_toLittleEndian] at hb
  have key : Decodes readUInt64 st (toLittleEndian 8 n ++ [])
      (fromLittleEndian (toLittleEndian 8 n)) st := Decodes.bind hb (Decodes.pure _ _)
  refine key.of_eq (List.append_nil _) ?_
  rw [fromLittleEndian_toLittleEndian]
  exact Nat.mod_eq_of_lt (by simpa using h)

theorem readBool_decodes (st : DecodeState) (flag : Bool) :
    Decodes readBool st [if flag then 1 else 0] flag st := by
  have hb : Decodes (readBytes 1) st [if flag then 1 else 0] [if flag then 1 else 0] st :=
    readBytes_decodes st [if flag then 1 else 0]
  have key : Decodes readBool st ([if flag then 1 else 0] ++ [])
      (decide (fromLittleEndian [if flag then 1 else 0] ≠ 0)) st :=
    Decodes.bind hb (Decodes.pure _ _)
  refine key.of_eq (List.append_nil _) ?_
  cases flag <;> simp [fromLittleEndian]

/-- A counted loop over the elements of a list: when the body decodes the bytes of each
element to its image and steps the session state, the loop decodes the concatenated bytes to
the images and leaves the session state stepped through the list. The invariant `P` of the
session state is kept by every step. -/
theorem decodeLoop_decodes {α β : Type} (body : Nat → Decoder β) (enc : α → List Nat)
    (img : α → β) (step : α → DecodeState → DecodeState) (P : DecodeState → Prop)
    (xs : List α)
    (h : ∀ k x st, x ∈ xs → P st →
      Decodes (body k) st (enc x) (img x) (step x st) ∧ P (step x st)) :
    ∀ (i : Nat) (st : DecodeState), P st →
      P (xs.foldl (fun st x => step x st) st) ∧
      Decodes (decodeLoop body xs.length i) st ((xs.map enc).flatten) (xs.map img)
        (xs.foldl (fun st x => step x st) st) := by
  induction xs with
  | nil =>
    intro i st hP
    exact ⟨hP, Decodes.pure _ _⟩
  | cons x xs ih =>
    intro i st hP
    obtain ⟨h0, hP0⟩ := h i x st (List.mem_cons_self _ _) hP
    obtain ⟨hP', hl⟩ := ih (fun k y st1 hy hP1 => h k y st1 (List.mem_cons_of_mem _ hy) hP1)
      (i + 1) (step x st) hP0
    refine ⟨hP', ?_⟩
    have key : Decodes (decodeLoop body (x :: xs).length i) st
        (enc x ++ ((xs.map enc).flatten ++ [])) (img x :: xs.map img)
        (xs.foldl (fun st x => step x st) (step x st)) :=
      Decodes.bind h0 (Decodes.bind hl (Decodes.pure _ _))
    refine key.of_eq ?_ rfl
    simp

/-- A counted loop whose body leaves the session state as it is. -/
theorem decodeLoop_decodes_pure {α β : Type} (body : Nat → Decoder β) (enc : α → List Nat)
    (img : α → β) (P : DecodeState → Prop) (xs : List α)
    (h : ∀ k x st, x ∈ xs → P st → Decodes (body k) st (enc x) (img x) st)
    (i : Nat) (st : DecodeState) (hP : P st) :
    Decodes (decodeLoop body xs.length i) st ((xs.map enc).flatten) (xs.map img) st := by
  have := (decodeLoop_decodes body enc img (fun _ st => st) P xs
    (fun k x st hx hP => ⟨h k x st hx hP, hP⟩) i st hP).2
  have e : xs.foldl (fun st _ => st) st = st := by
    clear this h
    induction xs with
    | nil => rfl
    | cons x xs ih => simp
  rwa [e] at this

end P3D

namespace P3D

theorem Decodes.modify (f : DecodeState → DecodeState) (st : DecodeState)
    (hf : ∀ s x, f { s with istream := x } = { f s with istream := x }) :
    Decodes (modify f : Decoder Unit) st [] () (f st) := by
  intro rest
  simp only [List.nil_append]
  show Except.ok ((), f { st with istream := rest }) = _
  rw [hf]

/-- A payload of `count` values of one size splits into `count` blocks of that size. -/
theorem exists_blocks (size count : Nat) (payload : List Nat)
    (h : payload.length = count * size) :
    ∃ blocks : List (List Nat), blocks.flatten = payload ∧ blocks.length = count ∧
      ∀ b ∈ blocks, b.length = size := by
  induction count generalizing payload with
  | zero =>
    refine ⟨[], ?_, rfl, by simp⟩
    simp only [Nat.zero_mul, List.length_eq_zero] at h
    simp [h]
  | succ count ih =>
    have hlen : (payload.drop size).length = count * size := by
      rw [List.length_drop, h, Nat.succ_mul, Nat.add_sub_cancel]
    obtain ⟨blocks, hf, hl, hb⟩ := ih (payload.drop size) hlen
    refine ⟨payload.take size :: blocks, ?_, by simp [hl], ?_⟩
    · simp [hf]
    · intro b hb'
      rcases List.mem_cons.mp hb' with rfl | hb'
      · rw [List.length_take, h, Nat.succ_mul]
        omega
      · exact hb b hb'

theorem readPods_decodes (L : Layout) (t : PodType) (count : Nat) (st : DecodeState)
    (payload : List Nat) (h : payload.length = count * L.sizeOf t) :
    Decodes (readPods L t count) st payload payload st := by
  obtain ⟨blocks, hf, hl, hb⟩ := exists_blocks (L.sizeOf t) count payload h
  have hloop := decodeLoop_decodes_pure (fun _ => readPod L t) (fun b => b) (fun b => b)
    (fun _ => True) blocks (fun _ b st hb' _ => readPod_decodes L t st b (hb b hb')) 0 st
    trivial
  rw [hl, List.map_id'] at hloop
  have key : Decodes (readPods L t count) st (blocks.flatten ++ []) blocks.flatten st :=
    Decodes.bind hloop (Decodes.pure _ _)
  exact key.of_eq (by simp [hf]) hf

theorem deserializeDynamic_decodes (table : List (Nat × Decoder (List Nat)))
    (object : DynamicObject) (st : DecodeState) (decode : Decoder (List Nat))
    (hl : table.lookup object.classId = some decode)
    (hd : Decodes decode st object.payload object.payload st)
    (hid : object.classId < 2 ^ 32) :
    Decodes (deserializeDynamic table) st (dynamicBytes object) object st := by
  have h1 : Decodes (dynamicDeserialize table) st
      (toLittleEndian 4 object.classId ++ (object.payload ++ []))
      (object.classId, object.payload) st := by
    unfold dynamicDeserialize
    refine Decodes.bind (readUInt32_decodes st object.classId hid) ?_
    simp only [hl]
    exact Decodes.bind hd (Decodes.pure _ _)
  have key : Decodes (deserializeDynamic table) st
      ((toLittleEndian 4 object.classId ++ (object.payload ++ [])) ++ []) object st :=
    Decodes.bind h1 (Decodes.pure _ _)
  exact key.of_eq (by simp [dynamicBytes]) rfl

theorem mem_of_lookup {k v : Nat} {l : List (Nat × Nat)} (h : l.lookup k = some v) :
    (k, v) ∈ l := by
  induction l with
  | nil => simp at h
  | cons e l ih =>
    obtain ⟨a, b⟩ := e
    rw [List.lookup_cons] at h
    by_cases hk : k = a
    · subst hk
      simp only [beq_self_eq_true, Option.some.injEq] at h
      subst h
      exact List.mem_cons_self _ _
    · have hb : (k == a) = false := by simpa using hk
      rw [hb] at h
      exact List.mem_cons_of_mem _ (ih h)

theorem hardConstraint_decodes (L : Layout) (object : DynamicObject) (st : DecodeState)
    (h : object.wellFormed (hardConstraintPayloadSizes L) = true) :
    Decodes (deserializeDynamic (dynamicHardConstraintSerializer L)) st
      (dynamicBytes object) object st := by
  simp only [DynamicObject.wellFormed, beq_iff_eq] at h
  have hm := mem_of_lookup h
  simp only [hardConstraintPayloadSizes, List.mem_cons, Prod.mk.injEq, List.not_mem_nil,
    or_false] at hm
  rcases hm with ⟨hc, hp⟩ | ⟨hc, hp⟩ | ⟨hc, hp⟩ | ⟨hc, hp⟩
  · refine deserializeDynamic_decodes _ object st (Pure.pure []) (by rw [hc]; rfl) ?_
      (by rw [hc]; decide)
    rw [List.length_eq_zero.mp hp]
    exact Decodes.pure _ _
  · exact deserializeDynamic_decodes _ object st _ (by rw [hc]; rfl)
      (readPods_decodes L _ 2 st _ hp) (by rw [hc]; decide)
  · exact deserializeDynamic_decodes _ object st _ (by rw [hc]; rfl)
      (readPods_decodes L _ 4 st _ hp) (by rw [hc]; decide)
  · exact deserializeDynamic_decodes _ object st _ (by rw [hc]; rfl)
      (readPods_decodes L _ 4 st _ hp) (by rw [hc]; decide)

theorem constraint_decodes (L : Layout) (object : DynamicObject) (st : DecodeState)
    (h : object.wellFormed (constraintPayloadSizes L) = true) :
    Decodes (deserializeDynamic (dynamicConstraintSerializer L)) st
      (dynamicBytes object) object st := by
  simp only [DynamicObject.wellFormed, beq_iff_eq] at h
  have hm := mem_of_lookup h
  simp only [constraintPayloadSizes, List.mem_cons, Prod.mk.injEq, List.not_mem_nil,
    or_false] at hm
  rcases hm with ⟨hc, hp⟩ | ⟨hc, hp⟩ | ⟨hc, hp⟩
  · exact deserializeDynamic_decodes _ object st _ (by rw [hc]; rfl)
      (readPods_decodes L _ 2 st _ hp) (by rw [hc]; decide)
  · exact deserializeDynamic_decodes _ object st _ (by rw [hc]; rfl)
      (readPods_decodes L _ 4 st _ hp) (by rw [hc]; decide)
  · refine deserializeDynamic_decodes _ object st _ (by rw [hc]; rfl) ?_ (by rw [hc]; decide)
    have hsplit : object.payload =
        object.payload.take (2 * L.sizeOf PodType.vec3) ++
          (object.payload.drop (2 * L.sizeOf PodType.vec3) ++ []) := by simp
    have h1 := readPods_decodes L PodType.vec3 2 st
      (object.payload.take (2 * L.sizeOf PodType.vec3)) (by
        rw [List.length_take, hp]
        omega)
    have h2 := readPod_decodes L PodType.double st
      (object.payload.drop (2 * L.sizeOf PodType.vec3)) (by
        rw [List.length_drop, hp]
        omega)
    have key : Decodes (do
        let attach ← readPods L PodType.vec3 2
        let length ← readPod L PodType.double
        Pure.pure (attach ++ length) : Decoder (List Nat)) st
        (object.payload.take (2 * L.sizeOf PodType.vec3) ++
          (object.payload.drop (2 * L.sizeOf PodType.vec3) ++ []))
        (object.payload.take (2 * L.sizeOf PodType.vec3) ++
          object.payload.drop (2 * L.sizeOf PodType.vec3)) st :=
      Decodes.bind h1 (Decodes.bind h2 (Decodes.pure _ _))
    exact key.of_eq hsplit.symm (by simp)

theorem externalForce_decodes (L : Layout) (object : DynamicObject) (st : DecodeState)
    (h : object.wellFormed (externalForcePayloadSizes L) = true) :
    Decodes (deserializeDynamic (dynamicExternalForceSerializer L)) st
      (dynamicBytes object) object st := by
  simp only [DynamicObject.wellFormed, beq_iff_eq] at h
  have hm := mem_of_lookup h
  simp only [externalForcePayloadSizes, List.mem_cons, Prod.mk.injEq, List.not_mem_nil,
    or_false] at hm
  obtain ⟨hc, hp⟩ := hm
  exact deserializeDynamic_decodes _ object st _ (by rw [hc]; rfl)
    (readPod_decodes L _ st _ hp) (by rw [hc]; decide)

end P3D

namespace P3D

theorem readBlocks_decodes (L : Layout) (t : PodType) (blocks : List (List Nat)) (i : Nat)
    (st : DecodeState) (h : ∀ b ∈ blocks, b.length = L.sizeOf t) :
    Decodes (decodeLoop (fun _ => readPod L t) blocks.length i) st blocks.flatten blocks st := by
  have hloop := decodeLoop_decodes_pure (fun _ => readPod L t) (fun b => b) (fun b => b)
    (fun _ => True) blocks (fun _ b st hb' _ => readPod_decodes L t st b (h b hb')) i st
    trivial
  rwa [List.map_id'] at hloop

theorem deserializePolyhedron_decodes (L : Layout) (vertices triangles : List (List Nat))
    (st : DecodeState)
    (h : (ShapeClass.polyhedron vertices triangles).wellFormed L = true) :
    Decodes (deserializePolyhedron L) st (polyhedronBytes vertices triangles)
      (ShapeClass.polyhedron vertices triangles) st := by
  simp only [ShapeClass.wellFormed, Bool.and_eq_true, decide_eq_true_eq, List.all_eq_true,
    beq_iff_eq] at h
  obtain ⟨⟨⟨hv, ht⟩, hvs⟩, hts⟩ := h
  refine Decodes.of_eq (b := toLittleEndian 4 vertices.length ++
    (toLittleEndian 4 triangles.length ++ (vertices.flatten ++ (triangles.flatten ++ []))))
    ?_ (by simp [polyhedronBytes]) rfl
  exact Decodes.bind (readUInt32_decodes st _ (lt_trans hv (by decide)))
    (Decodes.bind (readUInt32_decodes st _ (lt_trans ht (by decide)))
      (Decodes.bind (readBlocks_decodes L _ vertices 0 st hvs)
        (Decodes.bind (readBlocks_decodes L _ triangles 0 st hts) (Decodes.pure _ _))))

/-- A registry entry that is a well-formed polyhedron class decodes to itself, with
discriminant 0. -/
theorem registryEntry_decodes (L : Layout) (c : ShapeClass) (st : DecodeState)
    (hp : ∃ v t, c = ShapeClass.polyhedron v t) (h : c.wellFormed L = true) :
    Decodes (dynamicDeserialize (dynamicShapeClassSerializer L)) st (shapeClassBytes c)
      (0, c) st := by
  obtain ⟨v, t, rfl⟩ := hp
  unfold dynamicDeserialize
  refine Decodes.of_eq (b := toLittleEndian 4 0 ++ (polyhedronBytes v t ++ [])) ?_
    (by simp [shapeClassBytes]) rfl
  refine Decodes.bind (readUInt32_decodes st 0 (by decide)) ?_
  simp only [dynamicShapeClassSerializer, List.lookup, beq_self_eq_true]
  exact Decodes.bind (deserializePolyhedron_decodes L v t st h) (Decodes.pure _ _)

theorem deserializeRegistry_decodes (L : Layout) (included : List ShapeClass)
    (st : DecodeState) (hlen : included.length < 2 ^ 32)
    (h : ∀ c ∈ included, (∃ v t, c = ShapeClass.polyhedron v t) ∧ c.wellFormed L = true) :
    Decodes (deserializeRegistry L) st (registryBytes included) ()
      { st with shapeClasses := st.shapeClasses ++ included } := by
  have hloop := decodeLoop_decodes_pure
    (fun _ => dynamicDeserialize (dynamicShapeClassSerializer L)) shapeClassBytes
    (fun c => (0, c)) (fun _ => True) included
    (fun _ c st hc _ => registryEntry_decodes L c st (h c hc).1 (h c hc).2) 0 st trivial
  refine Decodes.of_eq (b := toLittleEndian 4 included.length ++
    ((included.map shapeClassBytes).flatten ++ [])) ?_ (by simp [registryBytes]) rfl
  refine Decodes.bind (readUInt32_decodes st _ hlen) (Decodes.bind hloop ?_)
  have hm := Decodes.modify (fun st : DecodeState =>
    { st with shapeClasses := st.shapeClasses ++
      (included.map (fun c => ((0 : Nat), c))).map Prod.snd }) st (fun _ _ => rfl)
  refine Eq.mp ?_ hm
  congr 2
  simp [Function.comp_def]

theorem assertVersionCorrect_decodes (st : DecodeState) :
    Decodes assertVersionCorrect st (toLittleEndian 4 CURRENT_VERSION_ID) () st := by
  refine Decodes.of_eq (b := toLittleEndian 4 CURRENT_VERSION_ID ++ []) ?_ (by simp) rfl
  refine Decodes.bind (readUInt32_decodes st _ (by decide)) ?_
  simp only [ne_eq, not_true_eq_false, if_false]
  exact Decodes.pure _ _

theorem header_decodes (L : Layout) (included : List ShapeClass) (st : DecodeState)
    (hlen : included.length < 2 ^ 32)
    (h : ∀ c ∈ included, (∃ v t, c = ShapeClass.polyhedron v t) ∧ c.wellFormed L = true) :
    Decodes (deserializeAndCollectHeaderInformation L) st
      (toLittleEndian 4 CURRENT_VERSION_ID ++ registryBytes included) ()
      { st with shapeClasses := st.shapeClasses ++ included } :=
  Decodes.bind (assertVersionCorrect_decodes st) (deserializeRegistry_decodes L included st hlen h)

end P3D

namespace P3D

theorem deserializeSharedShapeClass_decodes (st : DecodeState) (c : ShapeClass)
    (hlen : st.shapeClasses.length ≤ 2 ^ 32) (hc : c ∈ st.shapeClasses) :
    Decodes deserializeSharedShapeClass st (toLittleEndian 4 (st.shapeClasses.indexOf c)) c
      st := by
  have hlt : st.shapeClasses.indexOf c < st.shapeClasses.length := List.indexOf_lt_length.mpr hc
  have hget : st.shapeClasses[st.shapeClasses.indexOf c]? = some c := List.getElem?_indexOf hc
  unfold deserializeSharedShapeClass
  refine Decodes.of_eq (b := toLittleEndian 4 (st.shapeClasses.indexOf c) ++ []) ?_
    (by simp) rfl
  refine Decodes.bind (readUInt32_decodes st _ (lt_of_lt_of_le hlt hlen)) ?_
  intro rest
  simp only [List.nil_append, Bind.bind, StateT.bind, get, getThe, MonadStateOf.get,
    StateT.get, Pure.pure, Except.pure, Except.bind, hget]
  rfl

theorem deserializeShape_decodes (L : Layout) (st : DecodeState) (shape : Shape)
    (hlen : st.shapeClasses.length ≤ 2 ^ 32) (hc : shape.baseShape ∈ st.shapeClasses)
    (hw : shape.width.length = L.sizeOf PodType.double)
    (hh : shape.height.length = L.sizeOf PodType.double)
    (hd : shape.depth.length = L.sizeOf PodType.double) :
    Decodes (deserializeShape L) st (shapeBytes st.shapeClasses shape) shape st := by
  refine Decodes.of_eq (b := toLittleEndian 4 (st.shapeClasses.indexOf shape.baseShape) ++
    (shape.width ++ (shape.height ++ (shape.depth ++ [])))) ?_ (by simp [shapeBytes]) rfl
  exact Decodes.bind (deserializeSharedShapeClass_decodes st _ hlen hc)
    (Decodes.bind (readPod_decodes L _ st _ hw) (Decodes.bind (readPod_decodes L _ st _ hh)
      (Decodes.bind (readPod_decodes L _ st _ hd) (Decodes.pure _ _))))

theorem deserializePartData_decodes (L : Layout) (st : DecodeState) (part : Part)
    (cframe : FrameValue) (layer : Option Nat)
    (hlen : st.shapeClasses.length ≤ 2 ^ 32) (hc : part.hitbox.baseShape ∈ st.shapeClasses)
    (h : part.wellFormed L = true) :
    Decodes (deserializePartData L cframe layer) st (partDataBytes st.shapeClasses part)
      ⟨cframe, part.hitbox, part.properties, layer⟩ st := by
  simp only [Part.wellFormed, Bool.and_eq_true, beq_iff_eq] at h
  obtain ⟨⟨⟨⟨_, hw⟩, hh⟩, hd⟩, hp⟩ := h
  refine Decodes.of_eq (b := shapeBytes st.shapeClasses part.hitbox ++
    (part.properties ++ [])) ?_ (by simp [partDataBytes]) rfl
  exact Decodes.bind (deserializeShape_decodes L st _ hlen hc hw hh hd)
    (Decodes.bind (readPod_decodes L _ st _ hp) (Decodes.pure _ _))

/-- A part of a rigid body: the layer id, then the data. -/
theorem bodyPart_decodes (L : Layout) (st : DecodeState) (part : Part) (cframe : FrameValue)
    (hlen : st.shapeClasses.length ≤ 2 ^ 32) (hc : part.hitbox.baseShape ∈ st.shapeClasses)
    (h : part.wellLayered L = true) :
    Decodes (do
        let layer ← deserializeLayer
        deserializePartData L cframe layer) st
      (bodyPartBytes st.shapeClasses part) (part.placed cframe) st := by
  simp only [Part.wellLayered, Bool.and_eq_true, decide_eq_true_eq] at h
  have hl : Decodes deserializeLayer st (toLittleEndian 4 part.getLayerID)
      (some part.getLayerID) st := by
    refine Decodes.of_eq (b := toLittleEndian 4 part.getLayerID ++ []) ?_ (by simp) rfl
    exact Decodes.bind (readUInt32_decodes st _ h.2) (Decodes.pure _ _)
  exact Decodes.bind hl (deserializePartData_decodes L st part cframe _ hlen hc h.1)

theorem deserializeRigidBodyWithContext_decodes (L : Layout) (st : DecodeState)
    (rigidBody : RigidBody) (cframeOfMain : FrameValue)
    (hlen : st.shapeClasses.length ≤ 2 ^ 32)
    (hc : ∀ c ∈ rigidBody.shapeClasses, c ∈ st.shapeClasses)
    (h : rigidBody.wellFormed L = true) :
    Decodes (deserializeRigidBodyWithContext L cframeOfMain) st
      (rigidBodyBytes st.shapeClasses rigidBody) (rigidBody.decoded cframeOfMain) st := by
  simp only [RigidBody.wellFormed, Bool.and_eq_true, decide_eq_true_eq, List.all_eq_true,
    beq_iff_eq] at h
  obtain ⟨⟨hmain, hcount⟩, hparts⟩ := h
  have hloop := decodeLoop_decodes_pure (fun _ => (do
      let attach ← readPod L PodType.cframe
      let layer ← deserializeLayer
      let newPart ← deserializePartData L (FrameValue.localToGlobal cframeOfMain attach) layer
      Pure.pure (AttachedPart.mk attach newPart) : Decoder AttachedPart))
    (fun atPart => atPart.attachment ++ bodyPartBytes st.shapeClasses atPart.part)
    (fun atPart => (⟨atPart.attachment,
      atPart.part.placed (FrameValue.localToGlobal cframeOfMain atPart.attachment)⟩ :
        AttachedPart))
    (fun s => s.shapeClasses = st.shapeClasses) rigidBody.parts
    (fun _ atPart s hmem hs => by
      have hb := bodyPart_decodes L s atPart.part
        (FrameValue.localToGlobal cframeOfMain atPart.attachment) (by rw [hs]; exact hlen)
        (by
          rw [hs]
          exact hc _ (List.mem_cons_of_mem _ (List.mem_map_of_mem _ hmem)))
        (hparts atPart hmem).2
      rw [hs] at hb
      refine Decodes.of_eq (b := atPart.attachment ++
        ((toLittleEndian 4 atPart.part.getLayerID ++
          (partDataBytes st.shapeClasses atPart.part ++ [])))) ?_
        (by simp [bodyPartBytes]) rfl
      refine Decodes.bind (readPod_decodes L _ s _ (hparts atPart hmem).1) ?_
      simp only [Part.wellLayered, Bool.and_eq_true, decide_eq_true_eq] at hparts
      have hl : Decodes deserializeLayer s (toLittleEndian 4 atPart.part.getLayerID)
          (some atPart.part.getLayerID) s := by
        refine Decodes.of_eq (b := toLittleEndian 4 atPart.part.getLayerID ++ []) ?_
          (by simp) rfl
        exact Decodes.bind (readUInt32_decodes s _ (hparts atPart hmem).2.2)
          (Decodes.pure _ _)
      have hd := deserializePartData_decodes L s atPart.part
        (FrameValue.localToGlobal cframeOfMain atPart.attachment)
        (some atPart.part.getLayerID) (by rw [hs]; exact hlen)
        (by
          rw [hs]
          exact hc _ (List.mem_cons_of_mem _ (List.mem_map_of_mem _ hmem)))
        (hparts atPart hmem).2.1
      rw [hs] at hd
      exact Decodes.bind hl (Decodes.bind hd (Decodes.pure _ _)))
    0 st rfl
  have hmainD := bodyPart_decodes L st rigidBody.mainPart cframeOfMain hlen
    (hc _ (List.mem_cons_self _ _)) hmain
  refine Decodes.of_eq (b := (toLittleEndian 4 rigidBody.mainPart.getLayerID ++
    (partDataBytes st.shapeClasses rigidBody.mainPart ++
      (toLittleEndian 4 rigidBody.parts.length ++
        ((rigidBody.parts.map (fun atPart =>
          atPart.attachment ++ bodyPartBytes st.shapeClasses atPart.part)).flatten ++ [])))))
    ?_ (by simp [rigidBodyBytes, bodyPartBytes]) rfl
  simp only [Part.wellLayered, Bool.and_eq_true, decide_eq_true_eq] at hmain
  have hl : Decodes deserializeLayer st (toLittleEndian 4 rigidBody.mainPart.getLayerID)
      (some rigidBody.mainPart.getLayerID) st := by
    refine Decodes.of_eq (b := toLittleEndian 4 rigidBody.mainPart.getLayerID ++ []) ?_
      (by simp) rfl
    exact Decodes.bind (readUInt32_decodes st _ hmain.2) (Decodes.pure _ _)
  exact Decodes.bind hl
    (Decodes.bind (deserializePartData_decodes L st rigidBody.mainPart cframeOfMain _ hlen
      (hc _ (List.mem_cons_self _ _)) hmain.1)
      (Decodes.bind (readUInt32_decodes st _ hcount) (Decodes.bind hloop (Decodes.pure _ _))))

theorem deserializeHardPhysicalConnection_decodes (L : Layout) (st : DecodeState)
    (connection : HardPhysicalConnection) (h : connection.wellFormed L = true) :
    Decodes (deserializeHardPhysicalConnection L) st (hardConnectionBytes connection)
      connection st := by
  simp only [HardPhysicalConnection.wellFormed, Bool.and_eq_true, beq_iff_eq] at h
  obtain ⟨⟨hchild, hparent⟩, hcons⟩ := h
  refine Decodes.of_eq (b := connection.attachOnChild ++ (connection.attachOnParent ++
    (dynamicBytes connection.constraintWithParent ++ []))) ?_
    (by simp [hardConnectionBytes]) rfl
  exact Decodes.bind (readPod_decodes L _ st _ hchild)
    (Decodes.bind (readPod_decodes L _ st _ hparent)
      (Decodes.bind (hardConstraint_decodes L _ st hcons) (Decodes.pure _ _)))

end P3D

namespace P3D

theorem Decodes.of_state {α : Type} {d : Decoder α} {st st' st'' : DecodeState}
    {b : List Nat} {a : α} (h : Decodes d st b a st') (hs : st' = st'') :
    Decodes d st b a st'' := by
  subst hs
  exact h

theorem deserializeConnections_succ (L : Layout) (depth : Nat) (parentRef : PhysicalRef)
    (parentFrame : FrameValue) :
    deserializeConnectionsOfPhysicalWithContext L (depth + 1) parentRef parentFrame =
      (do
        let childrenCount ← readUInt32
        decodeLoop (deserializeConnection L depth parentRef parentFrame) childrenCount 0) :=
  rfl

/-- Decoding the children of a physical, given the two facts about the loop over them. -/
theorem deserializeConnections_of_loop (L : Layout) (known : List ShapeClass)
    (cs : List ConnectedPhysical) (depth : Nat) (ref : PhysicalRef) (frame : FrameValue)
    (st : DecodeState) (hd : childrenDepth cs < depth) (hcount : cs.length < 2 ^ 32)
    (hloop : ∀ depth', childrenDepth cs ≤ depth' →
      Decodes (decodeLoop (deserializeConnection L depth' ref frame) cs.length 0) st
        (childPhysicalsBytes known cs) (decodedChildren frame cs)
        { st with indexToPhysicalMap := st.indexToPhysicalMap ++ childrenPreorder ref 0 cs }) :
    Decodes (deserializeConnectionsOfPhysicalWithContext L depth ref frame) st
      (toLittleEndian 4 cs.length ++ childPhysicalsBytes known cs) (decodedChildren frame cs)
      { st with indexToPhysicalMap := st.indexToPhysicalMap ++ childrenPreorder ref 0 cs } := by
  cases depth with
  | zero => exact absurd hd (Nat.not_lt_zero _)
  | succ depth =>
    rw [deserializeConnections_succ]
    exact Decodes.bind (readUInt32_decodes st _ hcount) (hloop depth (Nat.lt_succ_iff.mp hd))

mutual
theorem deserializeConnection_decodes (L : Layout) (known : List ShapeClass)
    (hlen : known.length ≤ 2 ^ 32) (p : ConnectedPhysical) (depth : Nat)
    (parentRef : PhysicalRef) (parentFrame : FrameValue) (i : Nat) (st : DecodeState)
    (hd : p.depth ≤ depth) (hs : st.shapeClasses = known) (hw : p.wellFormed L = true)
    (hc : ∀ c ∈ p.shapeClasses, c ∈ known) :
    Decodes (deserializeConnection L depth parentRef parentFrame i) st
      (connectedPhysicalBytes known p) (p.decoded parentFrame)
      { st with indexToPhysicalMap :=
          st.indexToPhysicalMap ++ p.preorder (parentRef ++ [i]) } := by
  cases p with
  | mk conn rb cs =>
    simp only [ConnectedPhysical.wellFormed, Bool.and_eq_true, decide_eq_true_eq] at hw
    obtain ⟨⟨⟨hconn, hrb⟩, hcount⟩, hcs⟩ := hw
    simp only [ConnectedPhysical.depth] at hd
    simp only [ConnectedPhysical.shapeClasses, List.mem_append] at hc
    have hrbD := deserializeRigidBodyWithContext_decodes L st rb (conn.frameFrom parentFrame)
      (by rw [hs]; exact hlen) (by rw [hs]; exact fun c h => hc c (Or.inl h)) hrb
    rw [hs] at hrbD
    have hm := Decodes.modify (fun s : DecodeState =>
      { s with indexToPhysicalMap := s.indexToPhysicalMap ++ [parentRef ++ [i]] }) st
      (fun _ _ => rfl)
    have hchildren := deserializeConnections_of_loop L known cs depth (parentRef ++ [i])
      (conn.frameFrom parentFrame)
      { st with indexToPhysicalMap := st.indexToPhysicalMap ++ [parentRef ++ [i]] }
      (by omega) hcount
      (fun depth' hd' => deserializeConnectionLoop_decodes L known hlen cs depth'
        (parentRef ++ [i]) (conn.frameFrom parentFrame) 0 _ hd' hs hcs
        (fun c h => hc c (Or.inr h)))
    have key : Decodes (deserializeConnection L depth parentRef parentFrame i) st
        (hardConnectionBytes conn ++ (rigidBodyBytes known rb ++ ([] ++
          ((toLittleEndian 4 cs.length ++ childPhysicalsBytes known cs) ++ []))))
        (ConnectedPhysical.mk conn (rb.decoded (conn.frameFrom parentFrame))
          (decodedChildren (conn.frameFrom parentFrame) cs)) _ :=
      Decodes.bind (deserializeHardPhysicalConnection_decodes L st conn hconn)
        (Decodes.bind hrbD (Decodes.bind hm (Decodes.bind hchildren (Decodes.pure _ _))))
    refine (key.of_eq (by simp [connectedPhysicalBytes]) (by
      simp [ConnectedPhysical.decoded])).of_state ?_
    simp [ConnectedPhysical.preorder]
theorem deserializeConnectionLoop_decodes (L : Layout) (known : List ShapeClass)
    (hlen : known.length ≤ 2 ^ 32) (ps : List ConnectedPhysical) (depth : Nat)
    (parentRef : PhysicalRef) (parentFrame : FrameValue) (i : Nat) (st : DecodeState)
    (hd : childrenDepth ps ≤ depth) (hs : st.shapeClasses = known)
    (hw : childrenWellFormed L ps = true) (hc : ∀ c ∈ childrenShapeClasses ps, c ∈ known) :
    Decodes (decodeLoop (deserializeConnection L depth parentRef parentFrame) ps.length i) st
      (childPhysicalsBytes known ps) (decodedChildren parentFrame ps)
      { st with indexToPhysicalMap :=
          st.indexToPhysicalMap ++ childrenPreorder parentRef i ps } := by
  cases ps with
  | nil =>
    refine (Decodes.pure _ _).of_state ?_
    simp [childrenPreorder]
  | cons p ps =>
    simp only [childrenWellFormed, Bool.and_eq_true] at hw
    simp only [childrenDepth] at hd
    simp only [childrenShapeClasses, List.mem_append] at hc
    have h1 := deserializeConnection_decodes L known hlen p depth parentRef parentFrame i st
      (le_trans (le_max_left _ _) hd) hs hw.1 (fun c h => hc c (Or.inl h))
    have h2 := deserializeConnectionLoop_decodes L known hlen ps depth parentRef parentFrame
      (i + 1)
      { st with indexToPhysicalMap := st.indexToPhysicalMap ++ p.preorder (parentRef ++ [i]) }
      (le_trans (le_max_right _ _) hd) hs hw.2 (fun c h => hc c (Or.inr h))
    have key : Decodes
        (decodeLoop (deserializeConnection L depth parentRef parentFrame) (p :: ps).length i)
        st (connectedPhysicalBytes known p ++ (childPhysicalsBytes known ps ++ []))
        (p.decoded parentFrame :: decodedChildren parentFrame ps) _ :=
      Decodes.bind h1 (Decodes.bind h2 (Decodes.pure _ _))
    refine (key.of_eq (by simp [childPhysicalsBytes]) (by simp [decodedChildren])).of_state ?_
    simp [childrenPreorder]
end

end P3D

namespace P3D

mutual
theorem depth_le_length (known : List ShapeClass) (p : ConnectedPhysical) :
    p.depth ≤ (connectedPhysicalBytes known p).length := by
  cases p with
  | mk conn rb cs =>
    have ih := childrenDepth_le_length known cs
    simp only [ConnectedPhysical.depth, connectedPhysicalBytes, List.length_append,
      length_toLittleEndian]
    omega
theorem childrenDepth_le_length (known : List ShapeClass) (ps : List ConnectedPhysical) :
    childrenDepth ps ≤ (childPhysicalsBytes known ps).length := by
  cases ps with
  | nil => simp [childrenDepth]
  | cons p ps =>
    have ih1 := depth_le_length known p
    have ih2 := childrenDepth_le_length known ps
    simp only [childrenDepth, childPhysicalsBytes, List.length_append]
    omega
end

theorem deserializeMotorizedPhysicalWithContext_decodes (ops : FrameOps) (L : Layout)
    (known : List ShapeClass) (hlen : known.length ≤ 2 ^ 32) (phys : MotorizedPhysical)
    (st : DecodeState) (hs : st.shapeClasses = known) (hw : phys.wellFormed ops L = true)
    (hc : ∀ c ∈ phys.rigidBody.shapeClasses ++ childrenShapeClasses phys.childPhysicals,
      c ∈ known) :
    Decodes (deserializeMotorizedPhysicalWithContext L) st
      (motorizedPhysicalBytes ops known phys) (phys.decoded ops)
      { st with
        indexToPhysicalMap := st.indexToPhysicalMap ++
          ([st.decodedRoots] :: childrenPreorder [st.decodedRoots] 0 phys.childPhysicals),
        decodedRoots := st.decodedRoots + 1 } := by
  simp only [MotorizedPhysical.wellFormed, Bool.and_eq_true, decide_eq_true_eq,
    beq_iff_eq] at hw
  obtain ⟨⟨⟨⟨hmotion, hframe⟩, hrb⟩, hcount⟩, hcs⟩ := hw
  simp only [List.mem_append] at hc
  have hrbD := deserializeRigidBodyWithContext_decodes L st phys.rigidBody
    (FrameValue.read (phys.rigidBody.mainPart.cframe.getCFrame ops))
    (by rw [hs]; exact hlen) (by rw [hs]; exact fun c h => hc c (Or.inl h)) hrb
  rw [hs] at hrbD
  have htail : Decodes (do
      let s ← get
      let ref : PhysicalRef := [s.decodedRoots]
      set { s with indexToPhysicalMap := s.indexToPhysicalMap ++ [ref],
                   decodedRoots := s.decodedRoots + 1 }
      let children ← deserializeConnectionsOfPhysicalWithContext L (s.istream.length + 1) ref
        (FrameValue.read (phys.rigidBody.mainPart.cframe.getCFrame ops))
      Pure.pure (⟨phys.motionOfCenterOfMass,
        phys.rigidBody.decoded (FrameValue.read (phys.rigidBody.mainPart.cframe.getCFrame ops)),
        children⟩ : MotorizedPhysical) : Decoder MotorizedPhysical) st
      (toLittleEndian 4 phys.childPhysicals.length ++
        childPhysicalsBytes known phys.childPhysicals) (phys.decoded ops)
      { st with
        indexToPhysicalMap := st.indexToPhysicalMap ++
          ([st.decodedRoots] :: childrenPreorder [st.decodedRoots] 0 phys.childPhysicals),
        decodedRoots := st.decodedRoots + 1 } := by
    intro rest
    have hdepth := childrenDepth_le_length known phys.childPhysicals
    have hD := deserializeConnections_of_loop L known phys.childPhysicals
      (((toLittleEndian 4 phys.childPhysicals.length ++
        childPhysicalsBytes known phys.childPhysicals) ++ rest).length + 1)
      [st.decodedRoots] (FrameValue.read (phys.rigidBody.mainPart.cframe.getCFrame ops))
      { st with indexToPhysicalMap := st.indexToPhysicalMap ++ [[st.decodedRoots]],
                decodedRoots := st.decodedRoots + 1 }
      (by
        simp only [List.length_append]
        omega) hcount
      (fun depth' hd' => deserializeConnectionLoop_decodes L known hlen phys.childPhysicals
        depth' [st.decodedRoots] _ 0 _ hd' hs hcs (fun c h => hc c (Or.inr h)))
    have hD' := hD rest
    simp only [Bind.bind, StateT.bind, get, getThe, MonadStateOf.get, StateT.get, set,
      StateT.set, Except.bind, Pure.pure, Except.pure, StateT.pure] at hD' ⊢
    rw [hD']
    simp [MotorizedPhysical.decoded]
  refine Decodes.of_eq (b := phys.motionOfCenterOfMass ++
    (phys.rigidBody.mainPart.cframe.getCFrame ops ++ (rigidBodyBytes known phys.rigidBody ++
      (toLittleEndian 4 phys.childPhysicals.length ++
        childPhysicalsBytes known phys.childPhysicals)))) ?_
    (by simp [motorizedPhysicalBytes]) rfl
  exact Decodes.bind (readPod_decodes L _ st _ hmotion)
    (Decodes.bind (readPod_decodes L _ st _ hframe) (Decodes.bind hrbD htail))

end P3D

namespace P3D

theorem deserializeConstraintInContext_decodes (L : Layout) (index : PhysicalRef → Nat)
    (c : PhysicalConstraint) (st : DecodeState)
    (hA : st.indexToPhysicalMap[index c.physA]? = some c.physA)
    (hB : st.indexToPhysicalMap[index c.physB]? = some c.physB)
    (hlen : st.indexToPhysicalMap.length ≤ 2 ^ 32)
    (hw : c.constraint.wellFormed (constraintPayloadSizes L) = true) :
    Decodes (deserializeConstraintInContext L) st (constraintBytes index c) c st := by
  have hAl : index c.physA < 2 ^ 32 :=
    lt_of_lt_of_le (List.getElem?_eq_some_iff.mp hA).1 hlen
  have hBl : index c.physB < 2 ^ 32 :=
    lt_of_lt_of_le (List.getElem?_eq_some_iff.mp hB).1 hlen
  refine Decodes.of_eq (b := toLittleEndian 4 (index c.physA) ++
    (toLittleEndian 4 (index c.physB) ++ dynamicBytes c.constraint)) ?_
    (by simp [constraintBytes]) rfl
  refine Decodes.bind (readUInt32_decodes st _ hAl)
    (Decodes.bind (readUInt32_decodes st _ hBl) ?_)
  intro rest
  have hd0 : Decodes (do
      let constraint ← deserializeDynamic (dynamicConstraintSerializer L)
      Pure.pure (⟨c.physA, c.physB, constraint⟩ : PhysicalConstraint) :
        Decoder PhysicalConstraint) st (dynamicBytes c.constraint ++ []) c st :=
    Decodes.bind (constraint_decodes L c.constraint st hw) (Decodes.pure _ _)
  have hd := hd0 rest
  simp only [List.append_nil] at hd
  simp only [Bind.bind, StateT.bind, get, getThe, MonadStateOf.get, StateT.get, Except.bind,
    Pure.pure, Except.pure, hA, hB] at hd ⊢
  exact hd

theorem deserializeConstraintGroup_decodes (L : Layout) (index : PhysicalRef → Nat)
    (group : ConstraintGroup) (st : DecodeState)
    (hcount : group.constraints.length < 2 ^ 32)
    (hlen : st.indexToPhysicalMap.length ≤ 2 ^ 32)
    (h : ∀ c ∈ group.constraints,
      st.indexToPhysicalMap[index c.physA]? = some c.physA ∧
      st.indexToPhysicalMap[index c.physB]? = some c.physB ∧
      c.constraint.wellFormed (constraintPayloadSizes L) = true) :
    Decodes (deserializeConstraintGroup L) st (constraintGroupBytes index group) group st := by
  have hloop := decodeLoop_decodes_pure (fun _ => deserializeConstraintInContext L)
    (constraintBytes index) (fun c => c)
    (fun s => s.indexToPhysicalMap = st.indexToPhysicalMap) group.constraints
    (fun _ c s hc hs => deserializeConstraintInContext_decodes L index c s
      (by rw [hs]; exact (h c hc).1) (by rw [hs]; exact (h c hc).2.1)
      (by rw [hs]; exact hlen) (h c hc).2.2) 0 st rfl
  rw [List.map_id'] at hloop
  refine Decodes.of_eq (b := toLittleEndian 4 group.constraints.length ++
    ((group.constraints.map (constraintBytes index)).flatten ++ [])) ?_
    (by simp [constraintGroupBytes]) rfl
  exact Decodes.bind (readUInt32_decodes st _ hcount) (Decodes.bind hloop (Decodes.pure _ _))

theorem WorldStep.run_of_decodes {α : Type} (world : WorldPrototype) (st st' : DecodeState)
    (d : Decoder α) (next : α → DecodeState → WorldStep) (bytes rest : List Nat) (a : α)
    (h : Decodes d st bytes a st') :
    WorldStep.run world { st with istream := bytes ++ rest } d next =
      next a { st' with istream := rest } := by
  simp only [WorldStep.run, h rest]

/-- A storing loop whose decodes succeed stores the decoded values one by one. -/
theorem worldLoop_of_decodeLoop {α : Type} (body : Nat → Decoder α)
    (store : WorldPrototype → Nat → α → WorldPrototype) (count : Nat) :
    ∀ (i : Nat) (world : WorldPrototype) (s s' : DecodeState) (ys : List α),
      decodeLoop body count i s = Except.ok (ys, s') →
      worldLoop body store count i world s = (storeIndexed store world i ys, Except.ok s') := by
  induction count with
  | zero =>
    intro i world s s' ys h
    simp only [decodeLoop, Pure.pure, StateT.pure, Except.pure, Except.ok.injEq,
      Prod.mk.injEq] at h
    obtain ⟨rfl, rfl⟩ := h
    rfl
  | succ count ih =>
    intro i world s s' ys h
    simp only [decodeLoop, Bind.bind, StateT.bind, Except.bind] at h
    cases hb : body i s with
    | error e => simp [hb] at h
    | ok r =>
      obtain ⟨a, s1⟩ := r
      simp only [hb] at h
      cases hl : decodeLoop body count (i + 1) s1 with
      | error e => simp [hl] at h
      | ok r' =>
        obtain ⟨ys', s2⟩ := r'
        simp only [hl, Pure.pure, StateT.pure, Except.pure, Except.ok.injEq,
          Prod.mk.injEq] at h
        obtain ⟨rfl, rfl⟩ := h
        simp only [worldLoop, WorldStep.run, hb, ih (i + 1) (store world i a) s1 s2 ys' hl,
          storeIndexed]

theorem worldLoop_of_decodes {α : Type} (body : Nat → Decoder α)
    (store : WorldPrototype → Nat → α → WorldPrototype) (count i : Nat)
    (world : WorldPrototype) (st st' : DecodeState) (bytes rest : List Nat) (ys : List α)
    (h : Decodes (decodeLoop body count i) st bytes ys st') :
    worldLoop body store count i world { st with istream := bytes ++ rest } =
      (storeIndexed store world i ys, Except.ok { st' with istream := rest }) :=
  worldLoop_of_decodeLoop body store count i world _ _ ys (h rest)

end P3D

namespace P3D

theorem includeAll_subset (predefined : List ShapeClass) (cs included : List ShapeClass) :
    ∀ c ∈ included, c ∈ includeAll predefined included cs := by
  induction cs generalizing included with
  | nil => exact fun c h => h
  | cons x cs ih =>
    intro c hc
    simp only [includeAll]
    apply ih
    split
    · exact hc
    · exact List.mem_append_left _ hc

theorem mem_includeAll (predefined : List ShapeClass) (cs included : List ShapeClass) :
    ∀ c ∈ cs, c ∈ predefined ++ includeAll predefined included cs := by
  induction cs generalizing included with
  | nil => intro c hc; simp at hc
  | cons x cs ih =>
    intro c hc
    simp only [includeAll]
    rcases List.mem_cons.mp hc with rfl | hc
    · by_cases hx : c ∈ predefined ++ included
      · rw [if_pos hx]
        rcases List.mem_append.mp hx with hp | hi
        · exact List.mem_append_left _ hp
        · exact List.mem_append_right _ (includeAll_subset _ _ _ _ hi)
      · rw [if_neg hx]
        exact List.mem_append_right _ (includeAll_subset _ _ _ _ (by simp))
    · exact ih _ c hc

theorem includeAll_mem (predefined : List ShapeClass) (cs included : List ShapeClass) :
    ∀ c ∈ includeAll predefined included cs, c ∈ included ∨ (c ∈ cs ∧ c ∉ predefined) := by
  induction cs generalizing included with
  | nil => exact fun c h => Or.inl h
  | cons x cs ih =>
    intro c hc
    simp only [includeAll] at hc
    rcases ih _ c hc with h | ⟨h1, h2⟩
    · by_cases hx : x ∈ predefined ++ included
      · rw [if_pos hx] at h
        exact Or.inl h
      · rw [if_neg hx] at h
        rcases List.mem_append.mp h with h | h
        · exact Or.inl h
        · simp only [List.mem_singleton] at h
          subst h
          exact Or.inr ⟨List.mem_cons_self _ _, fun hp => hx (List.mem_append_left _ hp)⟩
    · exact Or.inr ⟨List.mem_cons_of_mem _ h1, h2⟩

/-- In a fresh session every included class of a collection of well-formed classes is a
well-formed polyhedron. -/
theorem included_polyhedron (L : Layout) (cs : List ShapeClass)
    (h : ∀ c ∈ cs, c.wellFormed L = true) :
    ∀ c ∈ includeAll EncodeState.fresh.predefined [] cs,
      (∃ v t, c = ShapeClass.polyhedron v t) ∧ c.wellFormed L = true := by
  intro c hc
  rcases includeAll_mem _ _ _ c hc with h0 | ⟨h1, h2⟩
  · simp at h0
  · refine ⟨?_, h c h1⟩
    cases c with
    | polyhedron v t => exact ⟨v, t, rfl⟩
    | builtin k =>
      exfalso
      have hk := h _ h1
      simp only [ShapeClass.wellFormed, decide_eq_true_eq] at hk
      apply h2
      simp only [EncodeState.fresh, List.mem_cons, ShapeClass.builtin.injEq, List.not_mem_nil,
        or_false]
      omega

theorem lookup_append_singleton (map : List (PhysicalRef × Nat)) (r key : PhysicalRef)
    (v idx : Nat) (h : (map ++ [(r, v)]).lookup key = some idx) :
    map.lookup key = some idx ∨ (map.lookup key = none ∧ key = r ∧ idx = v) := by
  rw [List.lookup_append] at h
  cases hk : map.lookup key with
  | some w =>
    rw [hk] at h
    exact Or.inl h
  | none =>
    rw [hk] at h
    simp only [Option.none_or, List.lookup_cons, List.lookup_nil] at h
    by_cases hkr : key = r
    · subst hkr
      simp only [beq_self_eq_true, Option.some.injEq] at h
      exact Or.inr ⟨rfl, rfl, h.symm⟩
    · have hb : (key == r) = false := by simpa using hkr
      rw [hb] at h
      simp at h

/-- The numbering invariant of the encoder: the counter is the number of physicals numbered
so far, every index stored in the map is the position of its physical in the list of the
physicals numbered so far, and every physical numbered so far is a key of the map. -/
theorem emplaceAll_inv (refs : List PhysicalRef) :
    ∀ (done : List PhysicalRef) (st : EncodeState),
      st.currentPhysicalIndex = done.length →
      (∀ key idx, st.physicalIndexMap.lookup key = some idx → done[idx]? = some key) →
      (∀ key ∈ done, ∃ idx, st.physicalIndexMap.lookup key = some idx) →
      (emplaceAll refs st).currentPhysicalIndex = (done ++ refs).length ∧
      (∀ key idx, (emplaceAll refs st).physicalIndexMap.lookup key = some idx →
        (done ++ refs)[idx]? = some key) ∧
      (∀ key ∈ done ++ refs, ∃ idx,
        (emplaceAll refs st).physicalIndexMap.lookup key = some idx) := by
  induction refs with
  | nil =>
    intro done st h1 h2 h3
    simpa [emplaceAll_nil] using ⟨h1, h2, h3⟩
  | cons r rs ih =>
    intro done st h1 h2 h3
    rw [emplaceAll_cons]
    have := ih (done ++ [r]) (emplacePhysical r st) (by simp [emplacePhysical, h1]) (by
      intro key idx hk
      simp only [emplacePhysical] at hk
      cases hr : st.physicalIndexMap.lookup r with
      | some w =>
        simp only [hr] at hk
        have := h2 key idx hk
        rw [List.getElem?_append_left (List.getElem?_eq_some_iff.mp this).1]
        exact this
      | none =>
        simp only [hr] at hk
        rcases lookup_append_singleton _ _ _ _ _ hk with hk | ⟨_, rfl, rfl⟩
        · have := h2 key idx hk
          rw [List.getElem?_append_left (List.getElem?_eq_some_iff.mp this).1]
          exact this
        · rw [h1]
          simp) (by
      intro key hkey
      simp only [emplacePhysical]
      cases hr : st.physicalIndexMap.lookup r with
      | some w =>
        rcases List.mem_append.mp hkey with hk | hk
        · exact h3 key hk
        · simp only [List.mem_singleton] at hk
          subst hk
          exact ⟨w, hr⟩
      | none =>
        simp only [List.lookup_append]
        rcases List.mem_append.mp hkey with hk | hk
        · obtain ⟨idx, hidx⟩ := h3 key hk
          exact ⟨idx, by simp [hidx]⟩
        · simp only [List.mem_singleton] at hk
          subst hk
          exact ⟨st.currentPhysicalIndex, by simp [hr, List.lookup_cons]⟩)
    simpa [List.append_assoc] using this

/-- In a fresh session the number of a physical of the list is a position at which the list
holds it. -/
theorem getElem?_indexIn_emplaceAll (refs : List PhysicalRef) (key : PhysicalRef)
    (h : key ∈ refs) :
    refs[indexIn (emplaceAll refs EncodeState.fresh).physicalIndexMap key]? = some key := by
  obtain ⟨_, h2, h3⟩ := emplaceAll_inv refs [] EncodeState.fresh rfl
    (by intro key idx hk; simp [EncodeState.fresh] at hk) (by intro key hk; simp at hk)
  simp only [List.nil_append] at h2 h3
  obtain ⟨idx, hidx⟩ := h3 key h
  simp only [indexIn, hidx, Option.getD_some]
  exact h2 key idx hidx

end P3D

namespace P3D

theorem storeIndexed_eq_foldl {α : Type} (g : WorldPrototype → α → WorldPrototype)
    (ys : List α) (world : WorldPrototype) (i : Nat) :
    storeIndexed (fun w _ y => g w y) world i ys = ys.foldl g world := by
  induction ys generalizing world i with
  | nil => rfl
  | cons y ys ih => simp only [storeIndexed, List.foldl_cons, ih]

theorem modify_length_append {α : Type} (f : α → α) (pre : List α) (x : α) (rest : List α) :
    List.modify f pre.length (pre ++ x :: rest) = pre ++ f x :: rest := by
  induction pre with
  | nil => simp [List.modify_zero_cons]
  | cons a l ih => simp [List.modify_succ_cons, ih]

/-- Adding parts to the terrain sub-layer of the layer that follows the layers `pre`. -/
theorem foldl_addTerrainPart (parts : List Part) (world : WorldPrototype)
    (pre : List ColissionLayer) (layer : ColissionLayer) (rest : List ColissionLayer)
    (h : world.layers = pre ++ layer :: rest) :
    parts.foldl (fun w part => w.addTerrainPart pre.length part) world =
      { world with layers := pre ++ ⟨layer.terrainParts ++ parts⟩ :: rest } := by
  induction parts generalizing world layer with
  | nil =>
    cases world
    simp only at h
    simp [h]
  | cons p ps ih =>
    rw [List.foldl_cons, ih (world.addTerrainPart pre.length p) ⟨layer.terrainParts ++ [p]⟩]
    · simp [WorldPrototype.addTerrainPart]
    · simp [WorldPrototype.addTerrainPart, h, modify_length_append]

theorem framedPart_decodes (ops : FrameOps) (L : Layout) (st : DecodeState) (part : Part)
    (layer : Option Nat) (hlen : st.shapeClasses.length ≤ 2 ^ 32)
    (hc : part.hitbox.baseShape ∈ st.shapeClasses) (h : part.wellFramed ops L = true) :
    Decodes (do
        let cf ← readPod L PodType.globalCFrame
        deserializePartData L (FrameValue.read cf) layer) st
      (framedPartBytes ops st.shapeClasses part) (part.reloaded ops layer) st := by
  simp only [Part.wellFramed, Bool.and_eq_true, beq_iff_eq] at h
  exact Decodes.bind (readPod_decodes L _ st _ h.2)
    (deserializePartData_decodes L st part _ layer hlen hc h.1)

theorem deserializeWorldLayer_eq (ops : FrameOps) (L : Layout) (known : List ShapeClass)
    (hlen : known.length ≤ 2 ^ 32) (layer : List LayerPart) (world : WorldPrototype)
    (st : DecodeState) (rest : List Nat) (pre : List ColissionLayer)
    (post : List ColissionLayer) (hs : st.shapeClasses = known)
    (hl : world.layers = pre ++ ⟨[]⟩ :: post)
    (hcount : (unPhysicaledParts layer).length < 2 ^ 32)
    (hw : ∀ part ∈ unPhysicaledParts layer,
      part.wellFramed ops L = true ∧ part.hitbox.baseShape ∈ known) :
    deserializeWorldLayer L pre.length world
        { st with istream := worldLayerBytes ops known layer ++ rest } =
      ({ world with layers := pre ++
          ⟨(unPhysicaledParts layer).map (Part.reloaded ops (some pre.length))⟩ :: post },
        Except.ok { st with istream := rest }) := by
  have hloop := decodeLoop_decodes_pure (fun _ => (do
      let cf ← readPod L PodType.globalCFrame
      deserializePartData L (FrameValue.read cf) (some pre.length) : Decoder Part))
    (framedPartBytes ops known) (Part.reloaded ops (some pre.length))
    (fun s => s.shapeClasses = known) (unPhysicaledParts layer)
    (fun _ part s hp hs' => by
      have := framedPart_decodes ops L s part (some pre.length) (by rw [hs']; exact hlen)
        (by rw [hs']; exact (hw part hp).2) (hw part hp).1
      rwa [hs'] at this) 0 st hs
  unfold deserializeWorldLayer worldLayerBytes
  rw [List.append_assoc, WorldStep.run_of_decodes world st st _ _ _ _ _
    (readUInt32_decodes st _ hcount)]
  rw [worldLoop_of_decodes _ _ _ _ _ st st _ _ _ hloop, storeIndexed_eq_foldl,
    foldl_addTerrainPart _ _ pre ⟨[]⟩ post hl]
  simp

end P3D

namespace P3D

/-- The loop of `deserializeWorld` over the terrain sub-layers of the layers that follow the
layers `pre`. -/
theorem worldFor_layers (ops : FrameOps) (L : Layout) (known : List ShapeClass)
    (hlen : known.length ≤ 2 ^ 32) (layers : List SourceLayer) :
    ∀ (pre : List ColissionLayer) (world : WorldPrototype) (st : DecodeState)
      (rest : List Nat), st.shapeClasses = known →
      world.layers = pre ++ List.replicate layers.length ⟨[]⟩ →
      (∀ layer ∈ layers, (unPhysicaledParts layer.terrainParts).length < 2 ^ 32 ∧
        ∀ part ∈ unPhysicaledParts layer.terrainParts,
          part.wellFramed ops L = true ∧ part.hitbox.baseShape ∈ known) →
      worldFor (fun i w st => deserializeWorldLayer L i w st) layers.length pre.length world
          { st with istream :=
            (layers.map (fun layer => worldLayerBytes ops known layer.terrainParts)).flatten ++
              rest } =
        ({ world with layers := pre ++ decodedLayers ops pre.length layers },
          Except.ok { st with istream := rest }) := by
  induction layers with
  | nil =>
    intro pre world st rest _ hl _
    cases world
    simp only [List.length_nil, List.replicate_zero, List.append_nil] at hl
    simp [worldFor, decodedLayers, hl]
  | cons layer layers ih =>
    intro pre world st rest hs hl hw
    have h1 := deserializeWorldLayer_eq ops L known hlen layer.terrainParts world st
      ((layers.map (fun layer => worldLayerBytes ops known layer.terrainParts)).flatten ++
        rest) pre (List.replicate layers.length ⟨[]⟩) hs
      (by simpa [List.replicate_succ] using hl) (hw layer (List.mem_cons_self _ _)).1
      (hw layer (List.mem_cons_self _ _)).2
    have h2 := ih (pre ++
      [⟨(unPhysicaledParts layer.terrainParts).map (Part.reloaded ops (some pre.length))⟩])
      { world with layers := pre ++
        ⟨(unPhysicaledParts layer.terrainParts).map (Part.reloaded ops (some pre.length))⟩ ::
          List.replicate layers.length ⟨[]⟩ } st rest hs (by simp)
      (fun l hl' => hw l (List.mem_cons_of_mem _ hl'))
    simp only [List.length_append, List.length_singleton] at h2
    simp only [List.length_cons, worldFor, List.map_cons, List.flatten_cons,
      List.append_assoc, h1, h2, decodedLayers]
    simp

theorem flatten_map_singleton {α β : Type} (f : α → β) (xs : List α) :
    (xs.map (fun x => [f x])).flatten = xs.map f := by
  induction xs with
  | nil => rfl
  | cons x xs ih => simp [ih]

/-- Storing the flags of the index pairs `suffix` that follow the pairs `pre`. -/
theorem storeIndexed_flags (flag : Nat × Nat → Bool) (suffix : List (Nat × Nat)) :
    ∀ (pre : List (Nat × Nat)) (world : WorldPrototype),
      storeIndexed (fun w k f =>
          w.setLayersCollide ((pre ++ suffix).getD k (0, 0)).1
            ((pre ++ suffix).getD k (0, 0)).2 f) world pre.length (suffix.map flag) =
        { world with collisions :=
            (suffix.map (fun ij => (ij.1, ij.2, flag ij))).reverse ++ world.collisions } := by
  induction suffix with
  | nil =>
    intro pre world
    simp [storeIndexed]
  | cons ij suffix ih =>
    intro pre world
    have h := ih (pre ++ [ij]) (world.setLayersCollide ij.1 ij.2 (flag ij))
    simp only [List.append_assoc, List.singleton_append, List.length_append,
      List.length_singleton] at h
    simp only [List.map_cons, storeIndexed]
    have hget : (pre ++ ij :: suffix).getD pre.length (0, 0) = ij := by
      rw [List.getD_eq_getElem?_getD, List.getElem?_append_right (Nat.le_refl _)]
      simp
    rw [hget, h]
    simp [WorldPrototype.setLayersCollide]

theorem collideFlags_eq (world : SourceWorld) (target : WorldPrototype) (st : DecodeState)
    (rest : List Nat) :
    worldLoop (fun _ => readBool)
        (fun w k flag => w.setLayersCollide
          ((layerPairs world.getLayerCount).getD k (0, 0)).1
          ((layerPairs world.getLayerCount).getD k (0, 0)).2 flag)
        (layerPairs world.getLayerCount).length 0 target
        { st with istream := collideFlagBytes world ++ rest } =
      ({ target with collisions := decodedCollisions world ++ target.collisions },
        Except.ok { st with istream := rest }) := by
  have hloop := decodeLoop_decodes_pure (fun _ => readBool)
    (fun ij : Nat × Nat => [if world.doLayersCollide ij.1 ij.2 then 1 else 0])
    (fun ij => world.doLayersCollide ij.1 ij.2) (fun _ => True)
    (layerPairs world.getLayerCount) (fun _ ij s _ _ => readBool_decodes s _) 0 st trivial
  rw [flatten_map_singleton] at hloop
  have hstore := storeIndexed_flags (fun ij => world.doLayersCollide ij.1 ij.2)
    (layerPairs world.getLayerCount) [] target
  simp only [List.nil_append, List.length_nil] at hstore
  unfold collideFlagBytes
  rw [worldLoop_of_decodes _ _ _ _ _ st st _ _ _ hloop, hstore]
  rfl

/-- The session state after decoding a list of motorized physicals. -/
theorem foldl_decodePhysicals (ps : List MotorizedPhysical) (st : DecodeState) :
    ps.foldl (fun (s : DecodeState) (p : MotorizedPhysical) =>
        { s with
          indexToPhysicalMap := s.indexToPhysicalMap ++
            ([s.decodedRoots] :: childrenPreorder [s.decodedRoots] 0 p.childPhysicals),
          decodedRoots := s.decodedRoots + 1 }) st =
      { st with
        indexToPhysicalMap := st.indexToPhysicalMap ++ physicalsPreorder st.decodedRoots ps,
        decodedRoots := st.decodedRoots + ps.length } := by
  induction ps generalizing st with
  | nil => simp [physicalsPreorder]
  | cons p ps ih =>
    rw [List.foldl_cons, ih]
    simp [physicalsPreorder, Nat.add_assoc, Nat.add_comm 1]

theorem physicals_decode (ops : FrameOps) (L : Layout) (known : List ShapeClass)
    (hlen : known.length ≤ 2 ^ 32) (ps : List MotorizedPhysical) (st : DecodeState)
    (hs : st.shapeClasses = known)
    (hw : ∀ p ∈ ps, p.wellFormed ops L = true ∧
      ∀ c ∈ p.rigidBody.shapeClasses ++ childrenShapeClasses p.childPhysicals, c ∈ known) :
    Decodes (decodeLoop (fun _ => deserializeMotorizedPhysicalWithContext L) ps.length 0) st
      ((ps.map (motorizedPhysicalBytes ops known)).flatten)
      (ps.map (MotorizedPhysical.decoded ops))
      { st with
        indexToPhysicalMap := st.indexToPhysicalMap ++ physicalsPreorder st.decodedRoots ps,
        decodedRoots := st.decodedRoots + ps.length } := by
  have hloop := (decodeLoop_decodes (fun _ => deserializeMotorizedPhysicalWithContext L)
    (motorizedPhysicalBytes ops known) (MotorizedPhysical.decoded ops)
    (fun (p : MotorizedPhysical) (s : DecodeState) =>
      { s with
        indexToPhysicalMap := s.indexToPhysicalMap ++
          ([s.decodedRoots] :: childrenPreorder [s.decodedRoots] 0 p.childPhysicals),
        decodedRoots := s.decodedRoots + 1 })
    (fun s => s.shapeClasses = known) ps
    (fun _ p s hp hs' =>
      ⟨deserializeMotorizedPhysicalWithContext_decodes ops L known hlen p s hs' (hw p hp).1
        (hw p hp).2, hs'⟩) 0 st hs).2
  rwa [foldl_decodePhysicals] at hloop

end P3D

namespace P3D

theorem foldl_addPhysical (ps : List MotorizedPhysical) (world : WorldPrototype) :
    ps.foldl (fun w phys => w.addPhysicalWithExistingLayers phys) world =
      { world with physicals := world.physicals ++ ps } := by
  induction ps generalizing world with
  | nil => simp
  | cons p ps ih =>
    rw [List.foldl_cons, ih]
    simp [WorldPrototype.addPhysicalWithExistingLayers]

theorem foldl_addConstraintGroup (gs : List ConstraintGroup) (world : WorldPrototype) :
    gs.foldl (fun w group => { w with constraints := w.constraints ++ [group] }) world =
      { world with constraints := world.constraints ++ gs } := by
  induction gs generalizing world with
  | nil => simp
  | cons g gs ih => simp [ih]

theorem foldl_addExternalForce (fs : List DynamicObject) (world : WorldPrototype) :
    fs.foldl (fun w force => { w with externalForces := w.externalForces ++ [force] }) world =
      { world with externalForces := world.externalForces ++ fs } := by
  induction fs generalizing world with
  | nil => simp
  | cons f fs ih => simp [ih]

/-- The part of `deserializeWorld` after the layers have been rebuilt, on the stream of a
world from the collide flags on. -/
theorem deserializeWorldContents_eq (ops : FrameOps) (L : Layout) (known : List ShapeClass)
    (hlen : known.length ≤ 2 ^ 32) (src : SourceWorld) (index : PhysicalRef → Nat)
    (world : WorldPrototype) (st : DecodeState) (rest : List Nat)
    (hs : st.shapeClasses = known)
    (hl : world.layers = List.replicate src.layers.length ⟨[]⟩)
    (hlayers : ∀ layer ∈ src.layers,
      (unPhysicaledParts layer.terrainParts).length < 2 ^ 32 ∧
        ∀ part ∈ unPhysicaledParts layer.terrainParts,
          part.wellFramed ops L = true ∧ part.hitbox.baseShape ∈ known)
    (hpcount : src.physicals.length < 2 ^ 32)
    (hphys : ∀ p ∈ src.physicals, p.wellFormed ops L = true ∧
      ∀ c ∈ p.rigidBody.shapeClasses ++ childrenShapeClasses p.childPhysicals, c ∈ known)
    (hmap : (st.indexToPhysicalMap ++
      physicalsPreorder st.decodedRoots src.physicals).length ≤ 2 ^ 32)
    (hgcount : src.constraints.length < 2 ^ 32)
    (hgroups : ∀ group ∈ src.constraints, group.constraints.length < 2 ^ 32 ∧
      ∀ c ∈ group.constraints,
        (st.indexToPhysicalMap ++
          physicalsPreorder st.decodedRoots src.physicals)[index c.physA]? = some c.physA ∧
        (st.indexToPhysicalMap ++
          physicalsPreorder st.decodedRoots src.physicals)[index c.physB]? = some c.physB ∧
        c.constraint.wellFormed (constraintPayloadSizes L) = true)
    (hfcount : src.externalForces.length < 2 ^ 32)
    (hforces : ∀ force ∈ src.externalForces,
      force.wellFormed (externalForcePayloadSizes L) = true) :
    deserializeWorldContents L src.getLayerCount world
        { st with istream := collideFlagBytes src ++
          ((src.layers.map (fun layer =>
              worldLayerBytes ops known layer.terrainParts)).flatten ++
            (toLittleEndian 4 src.physicals.length ++
              ((src.physicals.map (motorizedPhysicalBytes ops known)).flatten ++
                (toLittleEndian 4 src.constraints.length ++
                  ((src.constraints.map (constraintGroupBytes index)).flatten ++
                    (toLittleEndian 4 src.externalForces.length ++
                      ((src.externalForces.map dynamicBytes).flatten ++ rest))))))) } =
      ({ world with
          layers := decodedLayers ops 0 src.layers,
          collisions := decodedCollisions src ++ world.collisions,
          physicals := world.physicals ++ src.physicals.map (MotorizedPhysical.decoded ops),
          constraints := world.constraints ++ src.constraints,
          externalForces := world.externalForces ++ src.externalForces },
        Except.ok { st with
          istream := rest,
          indexToPhysicalMap := st.indexToPhysicalMap ++
            physicalsPreorder st.decodedRoots src.physicals,
          decodedRoots := st.decodedRoots + src.physicals.length }) := by
  have hflags := collideFlags_eq src world st
    ((src.layers.map (fun layer =>
        worldLayerBytes ops known layer.terrainParts)).flatten ++
      (toLittleEndian 4 src.physicals.length ++
        ((src.physicals.map (motorizedPhysicalBytes ops known)).flatten ++
          (toLittleEndian 4 src.constraints.length ++
            ((src.constraints.map (constraintGroupBytes index)).flatten ++
              (toLittleEndian 4 src.externalForces.length ++
                ((src.externalForces.map dynamicBytes).flatten ++ rest)))))))
  have hterrain := worldFor_layers ops L known hlen src.layers []
    { world with collisions := decodedCollisions src ++ world.collisions } st
    (toLittleEndian 4 src.physicals.length ++
      ((src.physicals.map (motorizedPhysicalBytes ops known)).flatten ++
        (toLittleEndian 4 src.constraints.length ++
          ((src.constraints.map (constraintGroupBytes index)).flatten ++
            (toLittleEndian 4 src.externalForces.length ++
              ((src.externalForces.map dynamicBytes).flatten ++ rest))))))
    hs (by simpa using hl) hlayers
  simp only [List.length_nil, List.nil_append] at hterrain
  obtain ⟨st2, hst2⟩ : ∃ st2 : DecodeState, st2 = { st with
      indexToPhysicalMap := st.indexToPhysicalMap ++
        physicalsPreorder st.decodedRoots src.physicals,
      decodedRoots := st.decodedRoots + src.physicals.length } := ⟨_, rfl⟩
  have hphysD : Decodes
      (decodeLoop (fun _ => deserializeMotorizedPhysicalWithContext L) src.physicals.length 0)
      st ((src.physicals.map (motorizedPhysicalBytes ops known)).flatten)
      (src.physicals.map (MotorizedPhysical.decoded ops)) st2 := by
    rw [hst2]
    exact physicals_decode ops L known hlen src.physicals st hs hphys
  have hgroupsD := decodeLoop_decodes_pure (fun _ => deserializeConstraintGroup L)
    (constraintGroupBytes index) (fun g => g)
    (fun s => s.indexToPhysicalMap =
      st.indexToPhysicalMap ++ physicalsPreorder st.decodedRoots src.physicals)
    src.constraints
    (fun _ g s hg hs' => deserializeConstraintGroup_decodes L index g s (hgroups g hg).1
      (by rw [hs']; exact hmap) (by rw [hs']; exact (hgroups g hg).2)) 0 st2
    (by rw [hst2])
  rw [List.map_id'] at hgroupsD
  have hforcesD := decodeLoop_decodes_pure
    (fun _ => deserializeDynamic (dynamicExternalForceSerializer L)) dynamicBytes
    (fun f => f) (fun _ => True) src.externalForces
    (fun _ f s hf _ => externalForce_decodes L f s (hforces f hf)) 0 st2 trivial
  rw [List.map_id'] at hforcesD
  unfold deserializeWorldContents
  rw [hflags]
  simp only [hl, List.length_replicate]
  rw [hl] at hterrain
  rw [hterrain]
  simp only []
  rw [WorldStep.run_of_decodes _ st st _ _ _ _ _ (readUInt32_decodes st _ hpcount),
    worldLoop_of_decodes _ _ _ _ _ st _ _ _ _ hphysD]
  simp only []
  rw [WorldStep.run_of_decodes _ st2 st2 _ _ _ _ _ (readUInt32_decodes _ _ hgcount),
    worldLoop_of_decodes _ _ _ _ _ st2 _ _ _ _ hgroupsD]
  simp only []
  rw [WorldStep.run_of_decodes _ st2 st2 _ _ _ _ _ (readUInt32_decodes _ _ hfcount),
    worldLoop_of_decodes _ _ _ _ _ st2 _ _ _ _ hforcesD]
  subst hst2
  simp only [storeIndexed_eq_foldl, foldl_addPhysical, foldl_addConstraintGroup,
    foldl_addExternalForce]

end P3D

namespace P3D

theorem part_class_wellFormed (L : Layout) (part : Part) (h : part.wellFormed L = true) :
    part.hitbox.baseShape.wellFormed L = true := by
  simp only [Part.wellFormed, Bool.and_eq_true] at h
  exact h.1.1.1.1

theorem rigidBody_classes_wellFormed (L : Layout) (rigidBody : RigidBody)
    (h : rigidBody.wellFormed L = true) :
    ∀ c ∈ rigidBody.shapeClasses, c.wellFormed L = true := by
  simp only [RigidBody.wellFormed, Part.wellLayered, Bool.and_eq_true, decide_eq_true_eq,
    List.all_eq_true] at h
  intro c hc
  simp only [RigidBody.shapeClasses, List.mem_cons, List.mem_map] at hc
  rcases hc with rfl | ⟨atPart, hmem, rfl⟩
  · exact part_class_wellFormed L _ h.1.1.1
  · exact part_class_wellFormed L _ (h.2 atPart hmem).2.1

mutual
theorem connected_classes_wellFormed (L : Layout) (p : ConnectedPhysical)
    (h : p.wellFormed L = true) : ∀ c ∈ p.shapeClasses, c.wellFormed L = true := by
  cases p with
  | mk conn rb cs =>
    simp only [ConnectedPhysical.wellFormed, Bool.and_eq_true] at h
    intro c hc
    simp only [ConnectedPhysical.shapeClasses, List.mem_append] at hc
    rcases hc with hc | hc
    · exact rigidBody_classes_wellFormed L rb h.1.1.2 c hc
    · exact children_classes_wellFormed L cs h.2 c hc
theorem children_classes_wellFormed (L : Layout) (ps : List ConnectedPhysical)
    (h : childrenWellFormed L ps = true) :
    ∀ c ∈ childrenShapeClasses ps, c.wellFormed L = true := by
  cases ps with
  | nil => intro c hc; simp [childrenShapeClasses] at hc
  | cons p ps =>
    simp only [childrenWellFormed, Bool.and_eq_true] at h
    intro c hc
    simp only [childrenShapeClasses, List.mem_append] at hc
    rcases hc with hc | hc
    · exact connected_classes_wellFormed L p h.1 c hc
    · exact children_classes_wellFormed L ps h.2 c hc
end

theorem motorized_classes_wellFormed (ops : FrameOps) (L : Layout) (p : MotorizedPhysical)
    (h : p.wellFormed ops L = true) :
    ∀ c ∈ p.rigidBody.shapeClasses ++ childrenShapeClasses p.childPhysicals,
      c.wellFormed L = true := by
  simp only [MotorizedPhysical.wellFormed, Bool.and_eq_true] at h
  intro c hc
  rcases List.mem_append.mp hc with hc | hc
  · exact rigidBody_classes_wellFormed L _ h.1.1.2 c hc
  · exact children_classes_wellFormed L _ h.2 c hc

/-- What the well-formedness of a world says, as propositions. -/
theorem wellFormed_iff (ops : FrameOps) (L : Layout) (world : SourceWorld) :
    world.wellFormed ops L = true ↔
      world.age < 2 ^ 64 ∧ world.layers.length < 2 ^ 32 ∧
      (∀ layer ∈ world.layers,
        (unPhysicaledParts layer.terrainParts).length < 2 ^ 32 ∧
        (∀ part ∈ unPhysicaledParts layer.terrainParts, part.wellFramed ops L = true) ∧
        (∀ part ∈ unPhysicaledParts layer.freeParts,
          part.hitbox.baseShape.wellFormed L = true)) ∧
      world.physicals.length < 2 ^ 32 ∧
      (∀ phys ∈ world.physicals, phys.wellFormed ops L = true) ∧
      (physicalsPreorder 0 world.physicals).length < 2 ^ 32 ∧
      world.constraints.length < 2 ^ 32 ∧
      (∀ group ∈ world.constraints, group.constraints.length < 2 ^ 32 ∧
        ∀ c ∈ group.constraints,
          c.wellFormed L (physicalsPreorder 0 world.physicals) = true) ∧
      world.externalForces.length < 2 ^ 32 ∧
      (∀ force ∈ world.externalForces,
        force.wellFormed (externalForcePayloadSizes L) = true) ∧
      EncodeState.fresh.predefined.length +
        (includeAll EncodeState.fresh.predefined [] world.shapeClasses).length < 2 ^ 32 := by
  simp only [SourceWorld.wellFormed, Bool.and_eq_true, decide_eq_true_eq, List.all_eq_true,
    and_assoc]

theorem world_classes_wellFormed (ops : FrameOps) (L : Layout) (world : SourceWorld)
    (h : world.wellFormed ops L = true) :
    ∀ c ∈ world.shapeClasses, c.wellFormed L = true := by
  obtain ⟨_, _, hlayers, _, hphys, _⟩ := (wellFormed_iff ops L world).mp h
  intro c hc
  simp only [SourceWorld.shapeClasses, List.mem_append, List.mem_flatten, List.mem_map] at hc
  rcases hc with ⟨l, ⟨p, hp, rfl⟩, hc⟩ | ⟨l, ⟨layer, hlayer, rfl⟩, hc⟩
  · exact motorized_classes_wellFormed ops L p (hphys p hp) c hc
  · simp only [List.mem_map, List.mem_append] at hc
    obtain ⟨part, hpart, rfl⟩ := hc
    rcases hpart with hpart | hpart
    · exact (hlayers layer hlayer).2.2 part hpart
    · have := (hlayers layer hlayer).2.1 part hpart
      simp only [Part.wellFramed, Bool.and_eq_true] at this
      exact part_class_wellFormed L part this.1

end P3D

namespace P3D

/-- The body of `deserializeWorld` after the header, on the stream of a world from the age
on. -/
theorem deserializeWorldBody_eq (ops : FrameOps) (L : Layout) (known : List ShapeClass)
    (hlen : known.length ≤ 2 ^ 32) (src : SourceWorld) (index : PhysicalRef → Nat)
    (target : WorldPrototype) (st : DecodeState) (rest : List Nat)
    (hs : st.shapeClasses = known) (hage : src.age < 2 ^ 64)
    (hlcount : src.layers.length < 2 ^ 32)
    (hlayers : ∀ layer ∈ src.layers,
      (unPhysicaledParts layer.terrainParts).length < 2 ^ 32 ∧
        ∀ part ∈ unPhysicaledParts layer.terrainParts,
          part.wellFramed ops L = true ∧ part.hitbox.baseShape ∈ known)
    (hpcount : src.physicals.length < 2 ^ 32)
    (hphys : ∀ p ∈ src.physicals, p.wellFormed ops L = true ∧
      ∀ c ∈ p.rigidBody.shapeClasses ++ childrenShapeClasses p.childPhysicals, c ∈ known)
    (hmap : (st.indexToPhysicalMap ++
      physicalsPreorder st.decodedRoots src.physicals).length ≤ 2 ^ 32)
    (hgcount : src.constraints.length < 2 ^ 32)
    (hgroups : ∀ group ∈ src.constraints, group.constraints.length < 2 ^ 32 ∧
      ∀ c ∈ group.constraints,
        (st.indexToPhysicalMap ++
          physicalsPreorder st.decodedRoots src.physicals)[index c.physA]? = some c.physA ∧
        (st.indexToPhysicalMap ++
          physicalsPreorder st.decodedRoots src.physicals)[index c.physB]? = some c.physB ∧
        c.constraint.wellFormed (constraintPayloadSizes L) = true)
    (hfcount : src.externalForces.length < 2 ^ 32)
    (hforces : ∀ force ∈ src.externalForces,
      force.wellFormed (externalForcePayloadSizes L) = true) :
    deserializeWorldBody L target
        { st with istream := toLittleEndian 8 src.age ++
          (toLittleEndian 4 src.getLayerCount ++ (collideFlagBytes src ++
          ((src.layers.map (fun layer =>
              worldLayerBytes ops known layer.terrainParts)).flatten ++
            (toLittleEndian 4 src.physicals.length ++
              ((src.physicals.map (motorizedPhysicalBytes ops known)).flatten ++
                (toLittleEndian 4 src.constraints.length ++
                  ((src.constraints.map (constraintGroupBytes index)).flatten ++
                    (toLittleEndian 4 src.externalForces.length ++
                      ((src.externalForces.map dynamicBytes).flatten ++ rest))))))))) } =
      (decodedWorld ops target src,
        Except.ok { st with
          istream := rest,
          indexToPhysicalMap := st.indexToPhysicalMap ++
            physicalsPreorder st.decodedRoots src.physicals,
          decodedRoots := st.decodedRoots + src.physicals.length }) := by
  unfold deserializeWorldBody
  rw [WorldStep.run_of_decodes _ st st _ _ _ _ _ (readUInt64_decodes st _ hage)]
  simp only []
  rw [WorldStep.run_of_decodes _ st st _ _ _ _ _
    (readUInt32_decodes st src.getLayerCount hlcount)]
  refine (deserializeWorldContents_eq ops L known hlen src index _ st rest hs rfl hlayers
    hpcount hphys hmap hgcount hgroups hfcount hforces).trans ?_
  simp [decodedWorld]

/-- Decoding the stream `serializeWorld` writes for a well-formed world, both sessions being
fresh: the header and the body of `deserializeWorld` succeed, the target world becomes the
decoded image of the world, the whole stream is consumed, the decoder knows the predefined
and the included shape classes, and its index table holds the pointers of the physicals in
pre-order. -/
theorem worldSession_roundTrip (ops : FrameOps) (L : Layout) (src : SourceWorld)
    (target : WorldPrototype) (hw : src.wellFormed ops L = true) :
    WorldStep.run target
        (DecodeState.fresh (serializeWorld ops src EncodeState.fresh).ostream)
        (deserializeAndCollectHeaderInformation L)
        (fun _ st => deserializeWorldBody L target st) =
      (decodedWorld ops target src,
        Except.ok ⟨[], EncodeState.fresh.predefined ++
          includeAll EncodeState.fresh.predefined [] src.shapeClasses,
          physicalsPreorder 0 src.physicals, src.physicals.length⟩) := by
  have hclasses := world_classes_wellFormed ops L src hw
  obtain ⟨hage, hlcount, hlayers, hpcount, hphys, hrefs, hgcount, hgroups, hfcount, hforces,
    hreg⟩ := (wellFormed_iff ops L src).mp hw
  obtain ⟨m, hm, e⟩ := serializeWorld_eq ops src EncodeState.fresh
  have hpoly := included_polyhedron L src.shapeClasses hclasses
  have hknown : ∀ c ∈ src.shapeClasses, c ∈ EncodeState.fresh.predefined ++
      includeAll EncodeState.fresh.predefined [] src.shapeClasses :=
    mem_includeAll _ _ _
  have hinc : EncodeState.fresh.included = [] := rfl
  rw [hinc] at e
  obtain ⟨R, hR⟩ : ∃ R, R = includeAll EncodeState.fresh.predefined [] src.shapeClasses :=
    ⟨_, rfl⟩
  obtain ⟨index, hindex⟩ : ∃ index, index = indexIn (emplaceAll
    (physicalsPreorder 0 src.physicals) EncodeState.fresh).physicalIndexMap := ⟨_, rfl⟩
  rw [← hR] at hreg hpoly hknown e ⊢
  rw [← hindex] at e
  have hstream : (serializeWorld ops src EncodeState.fresh).ostream =
      (toLittleEndian 4 CURRENT_VERSION_ID ++ registryBytes R) ++
      (toLittleEndian 8 src.age ++
        (toLittleEndian 4 src.getLayerCount ++ (collideFlagBytes src ++
        ((src.layers.map (fun layer => worldLayerBytes ops
            (EncodeState.fresh.predefined ++ R) layer.terrainParts)).flatten ++
          (toLittleEndian 4 src.physicals.length ++
            ((src.physicals.map (motorizedPhysicalBytes ops
              (EncodeState.fresh.predefined ++ R))).flatten ++
              (toLittleEndian 4 src.constraints.length ++
                ((src.constraints.map (constraintGroupBytes index)).flatten ++
                  (toLittleEndian 4 src.externalForces.length ++
                    ((src.externalForces.map dynamicBytes).flatten ++ [])))))))))) := by
    rw [e]
    have ho : EncodeState.fresh.ostream = [] := rfl
    simp only [write_ostream, withMap_ostream, emplaceAll_ostream, collect_ostream, ho,
      worldBytes, List.append_assoc, List.append_nil, List.nil_append]
  rw [hstream]
  have hheader := header_decodes L R ⟨[], EncodeState.fresh.predefined, [], 0⟩ (by omega) hpoly
  have hrun := WorldStep.run_of_decodes target ⟨[], EncodeState.fresh.predefined, [], 0⟩ _
    (deserializeAndCollectHeaderInformation L) (fun _ st => deserializeWorldBody L target st)
    _ (toLittleEndian 8 src.age ++
        (toLittleEndian 4 src.getLayerCount ++ (collideFlagBytes src ++
        ((src.layers.map (fun layer => worldLayerBytes ops
            (EncodeState.fresh.predefined ++ R) layer.terrainParts)).flatten ++
          (toLittleEndian 4 src.physicals.length ++
            ((src.physicals.map (motorizedPhysicalBytes ops
              (EncodeState.fresh.predefined ++ R))).flatten ++
              (toLittleEndian 4 src.constraints.length ++
                ((src.constraints.map (constraintGroupBytes index)).flatten ++
                  (toLittleEndian 4 src.externalForces.length ++
                    ((src.externalForces.map dynamicBytes).flatten ++ [])))))))))) () hheader
  refine Eq.trans (by exact hrun) ?_
  have hbody := deserializeWorldBody_eq ops L (EncodeState.fresh.predefined ++ R) (by
      simp only [List.length_append]
      omega) src index target
    ⟨[], EncodeState.fresh.predefined ++ R, [], 0⟩ [] rfl hage hlcount (by
      intro layer hlayer
      refine ⟨(hlayers layer hlayer).1, fun part hpart =>
        ⟨(hlayers layer hlayer).2.1 part hpart, hknown _ ?_⟩⟩
      simp only [SourceWorld.shapeClasses, List.mem_append, List.mem_flatten, List.mem_map]
      exact Or.inr ⟨_, ⟨layer, hlayer, rfl⟩,
        List.mem_map_of_mem _ (List.mem_append_right _ hpart)⟩) hpcount (by
      intro p hp
      refine ⟨hphys p hp, fun c hc => hknown c ?_⟩
      simp only [SourceWorld.shapeClasses, List.mem_append, List.mem_flatten, List.mem_map]
      exact Or.inl ⟨_, ⟨p, hp, rfl⟩, hc⟩) (by
      simp only [List.nil_append]
      exact le_of_lt hrefs) hgcount (by
      intro group hgroup
      refine ⟨(hgroups group hgroup).1, fun c hc => ?_⟩
      have hcw := (hgroups group hgroup).2 c hc
      simp only [PhysicalConstraint.wellFormed, Bool.and_eq_true, decide_eq_true_eq] at hcw
      simp only [List.nil_append]
      rw [hindex]
      exact ⟨getElem?_indexIn_emplaceAll _ _ hcw.1.1,
        getElem?_indexIn_emplaceAll _ _ hcw.1.2, hcw.2⟩) hfcount hforces
  refine Eq.trans (by exact hbody) ?_
  simp only [List.nil_append, Nat.zero_add]

end P3D

/-! ## The pre-order numbering of the physicals -/

namespace P3D

mutual
theorem below_of_mem_preorder (p : ConnectedPhysical) (ref r : PhysicalRef)
    (h : r ∈ p.preorder ref) : ref <+: r := by
  cases p with
  | mk conn rb cs =>
    simp only [ConnectedPhysical.preorder, List.mem_cons] at h
    rcases h with rfl | h
    · exact List.prefix_refl _
    · obtain ⟨j, _, hj⟩ := below_of_mem_childrenPreorder cs ref 0 r h
      exact (List.prefix_append ref [j]).trans hj
theorem below_of_mem_childrenPreorder (ps : List ConnectedPhysical) (ref : PhysicalRef)
    (i : Nat) (r : PhysicalRef) (h : r ∈ childrenPreorder ref i ps) :
    ∃ j, i ≤ j ∧ (ref ++ [j]) <+: r := by
  cases ps with
  | nil => simp [childrenPreorder] at h
  | cons p ps =>
    simp only [childrenPreorder, List.mem_append] at h
    rcases h with h | h
    · exact ⟨i, Nat.le_refl _, below_of_mem_preorder p _ r h⟩
    · obtain ⟨j, hj, hp⟩ := below_of_mem_childrenPreorder ps ref (i + 1) r h
      exact ⟨j, by omega, hp⟩
end

/-- Two extensions of a pointer by one child index that are prefixes of the same pointer
use the same index. -/
theorem index_eq_of_extension (ref r : PhysicalRef) (i j : Nat) (hi : (ref ++ [i]) <+: r)
    (hj : (ref ++ [j]) <+: r) : i = j := by
  have hp := List.prefix_of_prefix_length_le hi hj (by simp)
  have he := hp.eq_of_length (by simp)
  simpa using he

mutual
theorem nodup_preorder (p : ConnectedPhysical) (ref : PhysicalRef) :
    (p.preorder ref).Nodup := by
  cases p with
  | mk conn rb cs =>
    simp only [ConnectedPhysical.preorder, List.nodup_cons]
    refine ⟨?_, nodup_childrenPreorder cs ref 0⟩
    intro h
    obtain ⟨j, _, hj⟩ := below_of_mem_childrenPreorder cs ref 0 ref h
    have := hj.length_le
    simp at this
theorem nodup_childrenPreorder (ps : List ConnectedPhysical) (ref : PhysicalRef) (i : Nat) :
    (childrenPreorder ref i ps).Nodup := by
  cases ps with
  | nil => simp [childrenPreorder]
  | cons p ps =>
    simp only [childrenPreorder]
    refine List.Nodup.append (nodup_preorder p _) (nodup_childrenPreorder ps ref (i + 1)) ?_
    intro r h1 h2
    have hp1 := below_of_mem_preorder p _ r h1
    obtain ⟨j, hj, hp2⟩ := below_of_mem_childrenPreorder ps ref (i + 1) r h2
    have := index_eq_of_extension ref r i j hp1 hp2
    omega
end

theorem below_of_mem_physicalsPreorder (ps : List MotorizedPhysical) (i : Nat)
    (r : PhysicalRef) (h : r ∈ physicalsPreorder i ps) : ∃ j, i ≤ j ∧ [j] <+: r := by
  induction ps generalizing i with
  | nil => simp [physicalsPreorder] at h
  | cons p ps ih =>
    simp only [physicalsPreorder, List.mem_append, List.mem_cons] at h
    rcases h with (rfl | h) | h
    · exact ⟨i, Nat.le_refl _, List.prefix_refl _⟩
    · obtain ⟨j, _, hj⟩ := below_of_mem_childrenPreorder p.childPhysicals [i] 0 r h
      exact ⟨i, Nat.le_refl _, (List.prefix_append [i] [j]).trans hj⟩
    · obtain ⟨j, hj, hp⟩ := ih (i + 1) h
      exact ⟨j, by omega, hp⟩

/-- The pointers of the physicals of a world are pairwise distinct. -/
theorem nodup_physicalsPreorder (ps : List MotorizedPhysical) (i : Nat) :
    (physicalsPreorder i ps).Nodup := by
  induction ps generalizing i with
  | nil => simp [physicalsPreorder]
  | cons p ps ih =>
    simp only [physicalsPreorder]
    refine List.Nodup.append ?_ (ih (i + 1)) ?_
    · simp only [List.nodup_cons]
      refine ⟨?_, nodup_childrenPreorder p.childPhysicals [i] 0⟩
      intro h
      obtain ⟨j, _, hj⟩ := below_of_mem_childrenPreorder p.childPhysicals [i] 0 [i] h
      have := hj.length_le
      simp at this
    · intro r h1 h2
      have hp1 : [i] <+: r := by
        simp only [List.mem_cons] at h1
        rcases h1 with rfl | h1
        · exact List.prefix_refl _
        · obtain ⟨j, _, hj⟩ := below_of_mem_childrenPreorder p.childPhysicals [i] 0 r h1
          exact (List.prefix_append [i] [j]).trans hj
      obtain ⟨j, hj, hp2⟩ := below_of_mem_physicalsPreorder ps (i + 1) r h2
      have := index_eq_of_extension [] r i j (by simpa using hp1) (by simpa using hp2)
      omega

/-- In a fresh session the physical at position `k` of a duplicate-free list is given the
number `k`. -/
theorem indexIn_emplaceAll_of_nodup (refs : List PhysicalRef) (hn : refs.Nodup) (k : Nat)
    (ref : PhysicalRef) (h : refs[k]? = some ref) :
    indexIn (emplaceAll refs EncodeState.fresh).physicalIndexMap ref = k := by
  have hmem : ref ∈ refs := List.getElem?_mem h
  have h1 := getElem?_indexIn_emplaceAll refs ref hmem
  obtain ⟨hk, hk'⟩ := List.getElem?_eq_some_iff.mp h
  obtain ⟨hi, hi'⟩ := List.getElem?_eq_some_iff.mp h1
  exact (List.Nodup.getElem_inj_iff hn).mp (hi'.trans hk'.symm)

mutual
theorem preorder_decoded (p : ConnectedPhysical) (frame : FrameValue) (ref : PhysicalRef) :
    (p.decoded frame).preorder ref = p.preorder ref := by
  cases p with
  | mk conn rb cs =>
    simp only [ConnectedPhysical.decoded, ConnectedPhysical.preorder,
      childrenPreorder_decoded cs]
theorem childrenPreorder_decoded (ps : List ConnectedPhysical) (frame : FrameValue)
    (ref : PhysicalRef) (i : Nat) :
    childrenPreorder ref i (decodedChildren frame ps) = childrenPreorder ref i ps := by
  cases ps with
  | nil => rfl
  | cons p ps =>
    simp only [decodedChildren, childrenPreorder, preorder_decoded p,
      childrenPreorder_decoded ps]
end

theorem physicalsPreorder_decoded (ops : FrameOps) (ps : List MotorizedPhysical) (i : Nat) :
    physicalsPreorder i (ps.map (MotorizedPhysical.decoded ops)) = physicalsPreorder i ps := by
  induction ps generalizing i with
  | nil => rfl
  | cons p ps ih =>
    simp only [List.map_cons, physicalsPreorder, ih, MotorizedPhysical.decoded,
      childrenPreorder_decoded]

end P3D

/-! ## World serialization: the round trip -/

namespace P3D

/-- Decoding the stream `serializeWorld` writes for a well-formed world, both sessions being
fresh: `deserializeWorld` returns and leaves the decoded image of the world in the target. -/
theorem deserializeWorld_serializeWorld (ops : FrameOps) (L : Layout) (src : SourceWorld)
    (target : WorldPrototype) (hw : src.wellFormed ops L = true) :
    deserializeWorld L target
        (DecodeState.fresh (serializeWorld ops src EncodeState.fresh).ostream) =
      (decodedWorld ops target src, DecodeEnd.returned) := by
  unfold deserializeWorld
  rw [worldSession_roundTrip ops L src target hw]

theorem length_layerPairs (n : Nat) : (layerPairs n).length = n * (n + 1) / 2 := by
  have h : 2 * (layerPairs n).length = n * (n + 1) := by
    induction n with
    | zero => rfl
    | succ n ih =>
      have e : (layerPairs (n + 1)).length = (layerPairs n).length + (n + 1) := by
        simp [layerPairs, List.range_succ, List.flatMap_append]
      rw [e, Nat.mul_add, ih]
      ring
  exact (Nat.div_eq_of_eq_mul_right (by decide) h.symm).symm

theorem mem_layerPairs (n i j : Nat) : (i, j) ∈ layerPairs n ↔ j ≤ i ∧ i < n := by
  simp only [layerPairs, List.mem_flatMap, List.mem_range, List.mem_map, Prod.mk.injEq]
  constructor
  · rintro ⟨a, ha, b, hb, rfl, rfl⟩
    exact ⟨by omega, ha⟩
  · rintro ⟨h1, h2⟩
    exact ⟨i, h2, j, by omega, rfl, rfl⟩

theorem doLayersCollide_comm (world : SourceWorld) (i j : Nat) :
    world.doLayersCollide i j = world.doLayersCollide j i := by
  unfold SourceWorld.doLayersCollide
  have : (fun e : Nat × Nat × Bool =>
      decide ((e.1 = i ∧ e.2.1 = j) ∨ (e.1 = j ∧ e.2.1 = i))) =
      (fun e : Nat × Nat × Bool =>
        decide ((e.1 = j ∧ e.2.1 = i) ∨ (e.1 = i ∧ e.2.1 = j))) := by
    funext e
    exact decide_eq_decide.mpr Or.comm
  rw [this]

theorem length_decodedLayers (ops : FrameOps) (layers : List SourceLayer) (i : Nat) :
    (decodedLayers ops i layers).length = layers.length := by
  induction layers generalizing i with
  | nil => rfl
  | cons l ls ih => simp [decodedLayers, ih]

theorem terrain_decodedLayers (ops : FrameOps) (layers : List SourceLayer) (i : Nat) :
    (decodedLayers ops i layers).map (fun layer => layer.terrainParts.length) =
      layers.map (fun layer => (unPhysicaledParts layer.terrainParts).length) := by
  induction layers generalizing i with
  | nil => rfl
  | cons l ls ih => simp [decodedLayers, ih]

/-- The collide matrix of the decoded image agrees with the matrix of the world. -/
theorem doLayersCollide_decodedWorld (ops : FrameOps) (src : SourceWorld)
    (target : WorldPrototype) (i j : Nat) (hi : i < src.getLayerCount)
    (hj : j < src.getLayerCount) :
    (decodedWorld ops target src).doLayersCollide i j = src.doLayersCollide i j := by
  have hmem : ∀ e ∈ decodedCollisions src, e.2.2 = src.doLayersCollide e.1 e.2.1 := by
    intro e he
    simp only [decodedCollisions, List.mem_reverse, List.mem_map] at he
    obtain ⟨ij, _, rfl⟩ := he
    rfl
  unfold WorldPrototype.doLayersCollide
  show (match (decodedCollisions src).find? _ with
    | some e => e.2.2
    | none => false) = _
  cases hfind : (decodedCollisions src).find?
      (fun e => decide ((e.1 = i ∧ e.2.1 = j) ∨ (e.1 = j ∧ e.2.1 = i))) with
  | none =>
    exfalso
    rw [List.find?_eq_none] at hfind
    by_cases hji : j ≤ i
    · refine hfind (i, j, src.doLayersCollide i j) ?_ (by simp)
      simp only [decodedCollisions, List.mem_reverse, List.mem_map]
      exact ⟨(i, j), (mem_layerPairs _ i j).mpr ⟨hji, hi⟩, rfl⟩
    · refine hfind (j, i, src.doLayersCollide j i) ?_ (by simp)
      simp only [decodedCollisions, List.mem_reverse, List.mem_map]
      exact ⟨(j, i), (mem_layerPairs _ j i).mpr ⟨by omega, hj⟩, rfl⟩
  | some e =>
    have hp := List.find?_some hfind
    have he := hmem e (List.mem_of_find?_eq_some hfind)
    simp only [decide_eq_true_eq] at hp
    show e.2.2 = _
    rcases hp with ⟨h1, h2⟩ | ⟨h1, h2⟩
    · rw [he, h1, h2]
    · rw [he, h1, h2, doLayersCollide_comm]

end P3D

namespace P3D

/-- C15. For every world with `n` collision layers and every session state, the bytes
`serializeWorld` appends to the stream are the concatenation, in this order, of: the
four-byte version tag, the shape-class registry, the eight-byte world age, the four-byte
layer count `n`, the collide flags, one terrain-layer record for each collision layer, the
four-byte physical count followed by the physicals, the four-byte constraint-group count
followed by the groups, and the four-byte force count followed by the forces. The collide
flags are one byte for each pair `(i, j)` with `j ≤ i`, row by row, `n·(n+1)/2` in all, and
there are `n` terrain-layer records. -/
theorem serializeWorld_stream_layout (ops : FrameOps) (world : SourceWorld)
    (st : EncodeState) :
    (serializeWorld ops world st).ostream =
      st.ostream ++
        (toLittleEndian 4 CURRENT_VERSION_ID ++
          registryBytes (includeAll st.predefined st.included world.shapeClasses) ++
          toLittleEndian 8 world.age ++
          toLittleEndian 4 world.getLayerCount ++
          collideFlagBytes world ++
          (world.layers.map (fun layer => worldLayerBytes ops
            (st.predefined ++ includeAll st.predefined st.included world.shapeClasses)
            layer.terrainParts)).flatten ++
          (toLittleEndian 4 world.physicals.length ++
            (world.physicals.map (motorizedPhysicalBytes ops
              (st.predefined ++
                includeAll st.predefined st.included world.shapeClasses))).flatten) ++
          (toLittleEndian 4 world.constraints.length ++
            (world.constraints.map (constraintGroupBytes (indexIn
              (emplaceAll (physicalsPreorder 0 world.physicals)
                st).physicalIndexMap))).flatten) ++
          (toLittleEndian 4 world.externalForces.length ++
            (world.externalForces.map dynamicBytes).flatten)) ∧
    collideFlagBytes world = (layerPairs world.getLayerCount).map
      (fun ij => if world.doLayersCollide ij.1 ij.2 then 1 else 0) ∧
    (collideFlagBytes world).length = world.getLayerCount * (world.getLayerCount + 1) / 2 ∧
    (world.layers.map (fun layer => worldLayerBytes ops
      (st.predefined ++ includeAll st.predefined st.included world.shapeClasses)
      layer.terrainParts)).length = world.getLayerCount := by
  obtain ⟨m, _, e⟩ := serializeWorld_eq ops world st
  refine ⟨?_, rfl, ?_, ?_⟩
  · rw [e]
    simp only [write_ostream, withMap_ostream, emplaceAll_ostream, collect_ostream, worldBytes]
  · simp only [collideFlagBytes, List.length_map, length_layerPairs]
  · simp only [List.length_map, SourceWorld.getLayerCount]

/-- C11. For every well-formed world with `n` collision layers, `deserializeWorld` applied
to the stream written by `serializeWorld` (fresh sessions) returns and leaves a world with
`n` layers in which `doLayersCollide(i, j)` has the same value as in the original for all
`i, j < n`. -/
theorem roundTrip_keeps_collide_matrix (ops : FrameOps) (L : Layout) (src : SourceWorld)
    (target : WorldPrototype) (hw : src.wellFormed ops L = true) :
    ∃ decoded,
      deserializeWorld L target
          (DecodeState.fresh (serializeWorld ops src EncodeState.fresh).ostream) =
        (decoded, DecodeEnd.returned) ∧
      decoded.layers.length = src.getLayerCount ∧
      ∀ i j, i < src.getLayerCount → j < src.getLayerCount →
        decoded.doLayersCollide i j = src.doLayersCollide i j :=
  ⟨decodedWorld ops target src, deserializeWorld_serializeWorld ops L src target hw,
    length_decodedLayers ops src.layers 0,
    fun i j hi hj => doLayersCollide_decodedWorld ops src target i j hi hj⟩

/-- Witness for C11: the example world, decoded into the empty world. -/
theorem roundTrip_keeps_collide_matrix_witness :
    exampleSourceWorld.wellFormed exampleOps Layout.standard = true ∧
    ∃ decoded,
      deserializeWorld Layout.standard emptyWorld
          (DecodeState.fresh
            (serializeWorld exampleOps exampleSourceWorld EncodeState.fresh).ostream) =
        (decoded, DecodeEnd.returned) ∧
      decoded.layers.length = exampleSourceWorld.getLayerCount ∧
      ∀ i j, i < exampleSourceWorld.getLayerCount → j < exampleSourceWorld.getLayerCount →
        decoded.doLayersCollide i j = exampleSourceWorld.doLayersCollide i j :=
  ⟨by decide, roundTrip_keeps_collide_matrix exampleOps Layout.standard exampleSourceWorld
    emptyWorld (by decide)⟩

/-- C12. `serializeWorld` numbers the physicals 0, 1, 2, … in depth-first pre-order: in a
fresh session the physical at position `k` of the pre-order list of the world's physicals
gets the number `k`. For a well-formed world, `deserializeWorld` on the written stream
(fresh session) ends with an index table that holds, in this order, the pointers of the
decoded physicals in pre-order, which are the pointers of the originals; and the decoded
constraint groups are the original ones: a constraint between the physicals at pre-order
positions `a` and `b` is decoded as the constraint between the decoded physicals at
positions `a` and `b`. -/
theorem roundTrip_keeps_constraint_ends (ops : FrameOps) (L : Layout) (src : SourceWorld)
    (target : WorldPrototype) (hw : src.wellFormed ops L = true) :
    (∀ (k : Nat) (ref : PhysicalRef), (physicalsPreorder 0 src.physicals)[k]? = some ref →
      indexIn (serializeWorld ops src EncodeState.fresh).physicalIndexMap ref = k) ∧
    ∃ decoded st decodedPhysicals,
      WorldStep.run target
          (DecodeState.fresh (serializeWorld ops src EncodeState.fresh).ostream)
          (deserializeAndCollectHeaderInformation L)
          (fun _ st => deserializeWorldBody L target st) = (decoded, Except.ok st) ∧
      deserializeWorld L target
          (DecodeState.fresh (serializeWorld ops src EncodeState.fresh).ostream) =
        (decoded, DecodeEnd.returned) ∧
      decoded.physicals = target.physicals ++ decodedPhysicals ∧
      st.indexToPhysicalMap = physicalsPreorder 0 decodedPhysicals ∧
      physicalsPreorder 0 decodedPhysicals = physicalsPreorder 0 src.physicals ∧
      decoded.constraints = target.constraints ++ src.constraints ∧
      ∀ group ∈ src.constraints, ∀ c ∈ group.constraints, ∀ a b : Nat,
        (physicalsPreorder 0 src.physicals)[a]? = some c.physA →
        (physicalsPreorder 0 src.physicals)[b]? = some c.physB →
        (physicalsPreorder 0 decodedPhysicals)[a]? = some c.physA ∧
        (physicalsPreorder 0 decodedPhysicals)[b]? = some c.physB := by
  constructor
  · intro k ref hk
    obtain ⟨m, hm, e⟩ := serializeWorld_eq ops src EncodeState.fresh
    rw [e, write_physicalIndexMap, withMap_physicalIndexMap, hm]
    exact indexIn_emplaceAll_of_nodup _ (nodup_physicalsPreorder _ _) k ref hk
  · refine ⟨decodedWorld ops target src, _, src.physicals.map (MotorizedPhysical.decoded ops),
      worldSession_roundTrip ops L src target hw,
      deserializeWorld_serializeWorld ops L src target hw, rfl, ?_,
      physicalsPreorder_decoded ops _ 0, rfl, ?_⟩
    · exact (physicalsPreorder_decoded ops _ 0).symm
    · intro group _ c _ a b ha hb
      rw [physicalsPreorder_decoded]
      exact ⟨ha, hb⟩

/-- Witness for C12: the example world, decoded into the empty world. -/
theorem roundTrip_keeps_constraint_ends_witness :
    exampleSourceWorld.wellFormed exampleOps Layout.standard = true ∧
    ((∀ (k : Nat) (ref : PhysicalRef),
        (physicalsPreorder 0 exampleSourceWorld.physicals)[k]? = some ref →
      indexIn (serializeWorld exampleOps exampleSourceWorld
        EncodeState.fresh).physicalIndexMap ref = k) ∧
    ∃ decoded st decodedPhysicals,
      WorldStep.run emptyWorld
          (DecodeState.fresh
            (serializeWorld exampleOps exampleSourceWorld EncodeState.fresh).ostream)
          (deserializeAndCollectHeaderInformation Layout.standard)
          (fun _ st => deserializeWorldBody Layout.standard emptyWorld st) =
        (decoded, Except.ok st) ∧
      deserializeWorld Layout.standard emptyWorld
          (DecodeState.fresh
            (serializeWorld exampleOps exampleSourceWorld EncodeState.fresh).ostream) =
        (decoded, DecodeEnd.returned) ∧
      decoded.physicals = emptyWorld.physicals ++ decodedPhysicals ∧
      st.indexToPhysicalMap = physicalsPreorder 0 decodedPhysicals ∧
      physicalsPreorder 0 decodedPhysicals =
        physicalsPreorder 0 exampleSourceWorld.physicals ∧
      decoded.constraints = emptyWorld.constraints ++ exampleSourceWorld.constraints ∧
      ∀ group ∈ exampleSourceWorld.constraints, ∀ c ∈ group.constraints, ∀ a b : Nat,
        (physicalsPreorder 0 exampleSourceWorld.physicals)[a]? = some c.physA →
        (physicalsPreorder 0 exampleSourceWorld.physicals)[b]? = some c.physB →
        (physicalsPreorder 0 decodedPhysicals)[a]? = some c.physA ∧
        (physicalsPreorder 0 decodedPhysicals)[b]? = some c.physB) :=
  ⟨by decide, roundTrip_keeps_constraint_ends exampleOps Layout.standard exampleSourceWorld
    emptyWorld (by decide)⟩

end P3D

namespace P3D

theorem length_decodedChildren (frame : FrameValue) (ps : List ConnectedPhysical) :
    (decodedChildren frame ps).length = ps.length := by
  induction ps with
  | nil => rfl
  | cons p ps ih => simp [decodedChildren, ih]

mutual
theorem partCounts_decoded (p : ConnectedPhysical) (frame : FrameValue) :
    (p.decoded frame).partCounts = p.partCounts := by
  cases p with
  | mk conn rb cs =>
    simp only [ConnectedPhysical.decoded, ConnectedPhysical.partCounts,
      childrenPartCounts_decoded cs, length_decodedChildren, RigidBody.decoded,
      List.length_map]
theorem childrenPartCounts_decoded (ps : List ConnectedPhysical) (frame : FrameValue) :
    childrenPartCounts (decodedChildren frame ps) = childrenPartCounts ps := by
  cases ps with
  | nil => rfl
  | cons p ps =>
    simp only [decodedChildren, childrenPartCounts, partCounts_decoded p,
      childrenPartCounts_decoded ps]
end

theorem motorized_partCounts_decoded (ops : FrameOps) (phys : MotorizedPhysical) :
    (phys.decoded ops).partCounts = phys.partCounts := by
  simp only [MotorizedPhysical.decoded, MotorizedPhysical.partCounts,
    childrenPartCounts_decoded, length_decodedChildren, RigidBody.decoded, List.length_map]

theorem motorized_partCount_decoded (ops : FrameOps) (phys : MotorizedPhysical) :
    (phys.decoded ops).partCount = phys.partCount := by
  simp only [MotorizedPhysical.partCount, motorized_partCounts_decoded]

/-- C13. For every well-formed world, `deserializeWorld` applied to the stream written by
`serializeWorld` (fresh sessions) returns and appends to the physicals of the target as many
motorized physicals as the original holds, in the same order, each with the same number of
attached parts in its rigid body and the same number of child physicals as the original,
recursively through its whole tree of physicals; the terrain sub-layer of each collision
layer receives as many parts as the original held parts without a parent; and the number of
parts of the decoded world is the number of parts of the original (plus the parts of the
physicals the target held before). -/
theorem roundTrip_keeps_part_counts (ops : FrameOps) (L : Layout) (src : SourceWorld)
    (target : WorldPrototype) (hw : src.wellFormed ops L = true) :
    ∃ decoded appended,
      deserializeWorld L target
          (DecodeState.fresh (serializeWorld ops src EncodeState.fresh).ostream) =
        (decoded, DecodeEnd.returned) ∧
      decoded.physicals = target.physicals ++ appended ∧
      appended.length = src.physicals.length ∧
      appended.map MotorizedPhysical.partCounts =
        src.physicals.map MotorizedPhysical.partCounts ∧
      decoded.layers.map (fun layer => layer.terrainParts.length) =
        src.layers.map (fun layer => (unPhysicaledParts layer.terrainParts).length) ∧
      decoded.partCount =
        (target.physicals.map MotorizedPhysical.partCount).sum + src.partCount := by
  refine ⟨decodedWorld ops target src, src.physicals.map (MotorizedPhysical.decoded ops),
    deserializeWorld_serializeWorld ops L src target hw, rfl, List.length_map _ _, ?_,
    terrain_decodedLayers ops src.layers 0, ?_⟩
  · simp only [List.map_map, Function.comp_def, motorized_partCounts_decoded]
  · simp only [WorldPrototype.partCount, SourceWorld.partCount, decodedWorld,
      terrain_decodedLayers, List.map_append, List.sum_append, List.map_map,
      Function.comp_def, motorized_partCount_decoded]
    exact Nat.add_left_comm _ _ _

/-- Witness for C13: the example world, decoded into the empty world. -/
theorem roundTrip_keeps_part_counts_witness :
    exampleSourceWorld.wellFormed exampleOps Layout.standard = true ∧
    ∃ decoded appended,
      deserializeWorld Layout.standard emptyWorld
          (DecodeState.fresh
            (serializeWorld exampleOps exampleSourceWorld EncodeState.fresh).ostream) =
        (decoded, DecodeEnd.returned) ∧
      decoded.physicals = emptyWorld.physicals ++ appended ∧
      appended.length = exampleSourceWorld.physicals.length ∧
      appended.map MotorizedPhysical.partCounts =
        exampleSourceWorld.physicals.map MotorizedPhysical.partCounts ∧
      decoded.layers.map (fun layer => layer.terrainParts.length) =
        exampleSourceWorld.layers.map
          (fun layer => (unPhysicaledParts layer.terrainParts).length) ∧
      decoded.partCount =
        (emptyWorld.physicals.map MotorizedPhysical.partCount).sum +
          exampleSourceWorld.partCount :=
  ⟨by decide, roundTrip_keeps_part_counts exampleOps Layout.standard exampleSourceWorld
    emptyWorld (by decide)⟩

/-- Decoding the stream `serializeParts` writes for a well-formed list of parts, both
sessions being fresh. -/
theorem deserializeParts_decodes (ops : FrameOps) (L : Layout) (parts : List Part)
    (hw : partsWellFormed ops L parts = true) :
    deserializeParts L
        (DecodeState.fresh (serializeParts ops parts EncodeState.fresh).ostream) =
      Except.ok (parts.map (Part.reloaded ops none),
        ⟨[], EncodeState.fresh.predefined ++ includeAll EncodeState.fresh.predefined []
          (parts.map (fun part => part.hitbox.baseShape)), [], 0⟩) := by
  simp only [partsWellFormed, Bool.and_eq_true, decide_eq_true_eq, List.all_eq_true] at hw
  obtain ⟨⟨hcount, hparts⟩, hreg⟩ := hw
  have hclasses : ∀ c ∈ parts.map (fun part => part.hitbox.baseShape),
      c.wellFormed L = true := by
    intro c hc
    obtain ⟨part, hpart, rfl⟩ := List.mem_map.mp hc
    have := hparts part hpart
    simp only [Part.wellFramed, Bool.and_eq_true] at this
    exact part_class_wellFormed L part this.1
  have hpoly := included_polyhedron L _ hclasses
  have hknown := mem_includeAll EncodeState.fresh.predefined
    (parts.map (fun part => part.hitbox.baseShape)) []
  obtain ⟨R, hR⟩ : ∃ R, R = includeAll EncodeState.fresh.predefined []
    (parts.map (fun part => part.hitbox.baseShape)) := ⟨_, rfl⟩
  rw [← hR] at hreg hpoly hknown ⊢
  have hstream : (serializeParts ops parts EncodeState.fresh).ostream =
      ((toLittleEndian 4 CURRENT_VERSION_ID ++ registryBytes R) ++
        (toLittleEndian 4 parts.length ++
          (parts.map (framedPartBytes ops (EncodeState.fresh.predefined ++ R))).flatten)) ++
        [] := by
    rw [serializeParts_eq]
    have ho : EncodeState.fresh.ostream = [] := rfl
    have hi : EncodeState.fresh.included = [] := rfl
    simp only [write_ostream, collect_ostream, ho, hi, ← hR, partsBytes, List.append_assoc,
      List.nil_append, List.append_nil]
  have hheader := header_decodes L R ⟨[], EncodeState.fresh.predefined, [], 0⟩ (by omega) hpoly
  have hloop := decodeLoop_decodes_pure (fun _ => (do
      let cframeOfPart ← readPod L PodType.globalCFrame
      deserializePartData L (FrameValue.read cframeOfPart) none : Decoder Part))
    (framedPartBytes ops (EncodeState.fresh.predefined ++ R)) (Part.reloaded ops none)
    (fun s => s.shapeClasses = EncodeState.fresh.predefined ++ R) parts
    (fun _ part s hp hs => by
      have := framedPart_decodes ops L s part none (by
          rw [hs]
          simp only [List.length_append]
          omega)
        (by rw [hs]; exact hknown _ (List.mem_map_of_mem _ hp)) (hparts part hp)
      rwa [hs] at this) 0 ⟨[], EncodeState.fresh.predefined ++ R, [], 0⟩ rfl
  have key : Decodes (deserializeParts L) ⟨[], EncodeState.fresh.predefined, [], 0⟩
      ((toLittleEndian 4 CURRENT_VERSION_ID ++ registryBytes R) ++
        (toLittleEndian 4 parts.length ++
          (parts.map (framedPartBytes ops (EncodeState.fresh.predefined ++ R))).flatten))
      (parts.map (Part.reloaded ops none))
      ⟨[], EncodeState.fresh.predefined ++ R, [], 0⟩ :=
    Decodes.bind hheader (Decodes.bind (readUInt32_decodes _ _ hcount) hloop)
  rw [hstream]
  exact key []

/-- C14. For every well-formed list of parts, `deserializeParts` applied to the stream
written by `serializeParts` (fresh sessions) returns a list of the same length whose `i`-th
part has the same shape (shape class, width, height and depth), the same global frame and
the same properties as the `i`-th input part. -/
theorem roundTrip_keeps_parts (ops : FrameOps) (L : Layout) (parts : List Part)
    (hw : partsWellFormed ops L parts = true) :
    ∃ decoded st,
      deserializeParts L
          (DecodeState.fresh (serializeParts ops parts EncodeState.fresh).ostream) =
        Except.ok (decoded, st) ∧
      decoded.length = parts.length ∧
      ∀ (i : Nat) (part : Part), parts[i]? = some part →
        ∃ decodedPart, decoded[i]? = some decodedPart ∧
          decodedPart.hitbox = part.hitbox ∧
          decodedPart.cframe.getCFrame ops = part.cframe.getCFrame ops ∧
          decodedPart.properties = part.properties := by
  refine ⟨_, _, deserializeParts_decodes ops L parts hw, List.length_map _ _, ?_⟩
  intro i part hi
  refine ⟨part.reloaded ops none, ?_, rfl, rfl, rfl⟩
  rw [List.getElem?_map, hi]
  rfl

/-- Witness for C14: a part with a polyhedron shape and a part with a built-in shape. -/
theorem roundTrip_keeps_parts_witness :
    partsWellFormed exampleOps Layout.standard
      [examplePart examplePolyhedron none, examplePart (ShapeClass.builtin 2) (some 3)] =
        true ∧
    ∃ decoded st,
      deserializeParts Layout.standard
          (DecodeState.fresh (serializeParts exampleOps
            [examplePart examplePolyhedron none, examplePart (ShapeClass.builtin 2) (some 3)]
            EncodeState.fresh).ostream) =
        Except.ok (decoded, st) ∧
      decoded.length =
        [examplePart examplePolyhedron none,
          examplePart (ShapeClass.builtin 2) (some 3)].length ∧
      ∀ (i : Nat) (part : Part),
        [examplePart examplePolyhedron none,
          examplePart (ShapeClass.builtin 2) (some 3)][i]? = some part →
        ∃ decodedPart, decoded[i]? = some decodedPart ∧
          decodedPart.hitbox = part.hitbox ∧
          decodedPart.cframe.getCFrame exampleOps = part.cframe.getCFrame exampleOps ∧
          decodedPart.properties = part.properties :=
  ⟨by decide, roundTrip_keeps_parts exampleOps Layout.standard _ (by decide)⟩

end P3D

/-! ## The branching factor -/

namespace P3D
namespace TreeNode

theorem branchBoundedList_iff (cs : List TreeNode) :
    branchBoundedList cs = true ↔ ∀ c ∈ cs, branchBounded c = true := by
  induction cs with
  | nil => simp [branchBoundedList]
  | cons c cs ih => simp [branchBoundedList, ih]

theorem branchBounded_node_iff (cs : List TreeNode) (b : Bounds) (g : Bool) :
    branchBounded (node cs b g) = true ↔
      cs.length ≤ MAX_BRANCHES ∧ ∀ c ∈ cs, branchBounded c = true := by
  simp [branchBounded, branchBoundedList_iff]

theorem branchBounded_setGroupHead (t : TreeNode) (g : Bool) :
    branchBounded (t.setGroupHead g) = branchBounded t := by
  cases t <;> simp [setGroupHead, branchBounded]

theorem branchBounded_setBounds (t : TreeNode) (b : Bounds) :
    branchBounded (t.setBounds b) = branchBounded t := by
  cases t <;> simp [setBounds, branchBounded]

theorem branchBounded_pushDown (t n : TreeNode) (ht : branchBounded t = true)
    (hn : branchBounded n = true) : branchBounded (pushDown t n) = true := by
  simp [pushDown, ofSubTrees, setBounds, branchBounded, branchBoundedList, ht, hn, MAX_BRANCHES]

mutual
theorem branchBounded_addInside (t n : TreeNode) (ht : branchBounded t = true)
    (hn : branchBounded n = true) : branchBounded (addInside t n) = true := by
  match t with
  | leaf o b g =>
    simp [addInside, branchBounded, branchBoundedList, branchBounded_setGroupHead, hn,
      MAX_BRANCHES]
  | node cs b g =>
    rw [addInside_node]
    rw [branchBounded_node_iff] at ht ⊢
    by_cases hfull : cs.length ≠ MAX_BRANCHES
    · rw [addToSubTrees, if_pos hfull]
      refine ⟨by simp; omega, ?_⟩
      intro c hc
      rcases List.mem_append.1 hc with h | h
      · exact ht.2 c h
      · simp at h
        rw [h]
        exact hn
    · rw [addToSubTrees, if_neg hfull]
      refine ⟨by rw [length_addOutsideAt]; exact ht.1, ?_⟩
      exact (branchBoundedList_iff _).1
        (branchBoundedList_addOutsideAt cs _ n ((branchBoundedList_iff cs).2 ht.2) hn)
theorem branchBoundedList_addOutsideAt (cs : List TreeNode) (i : Nat) (n : TreeNode)
    (hcs : branchBoundedList cs = true) (hn : branchBounded n = true) :
    branchBoundedList (addOutsideAt cs i n) = true := by
  match cs, i with
  | [], _ => simp [addOutsideAt, branchBoundedList]
  | c :: cs, 0 =>
    rw [addOutsideAt_zero]
    simp only [branchBoundedList, Bool.and_eq_true] at hcs ⊢
    refine ⟨?_, hcs.2⟩
    unfold addOutside
    split
    · exact branchBounded_pushDown c n hcs.1 hn
    · rw [branchBounded_setBounds]
      exact branchBounded_addInside c n hcs.1 hn
  | c :: cs, i + 1 =>
    rw [addOutsideAt_succ]
    simp only [branchBoundedList, Bool.and_eq_true] at hcs ⊢
    exact ⟨hcs.1, branchBoundedList_addOutsideAt cs i n hcs.2 hn⟩
end

theorem branchBounded_addOutside (t n : TreeNode) (ht : branchBounded t = true)
    (hn : branchBounded n = true) : branchBounded (addOutside t n) = true := by
  unfold addOutside
  split
  · exact branchBounded_pushDown t n ht hn
  · rw [branchBounded_setBounds]
    exact branchBounded_addInside t n ht hn

theorem branchBounded_remove (t : TreeNode) (index : Nat) (removed t' : TreeNode)
    (ht : branchBounded t = true) (hr : t.remove index = some (removed, t')) :
    branchBounded removed = true ∧ branchBounded t' = true := by
  cases t with
  | leaf o b g => simp [remove] at hr
  | node cs b g =>
    rw [branchBounded_node_iff] at ht
    unfold remove at hr
    cases hget : cs[index]? with
    | none => simp [hget] at hr
    | some result =>
      cases hlast : cs.getLast? with
      | none => simp [hget, hlast] at hr
      | some last =>
        simp only [hget, hlast] at hr
        obtain ⟨hi, hir⟩ := List.getElem?_eq_some_iff.1 hget
        have hperm := swapOut_perm cs index last hlast hi
        have hlen := length_swapOut cs index last
        have hmem : ∀ x ∈ swapOut cs index last, branchBounded x = true :=
          fun x hx => ht.2 x (hperm.symm.subset (List.mem_cons_of_mem _ hx))
        have hres : branchBounded result = true := ht.2 result (List.getElem?_mem hget)
        generalize swapOut cs index last = cs' at hr hlen hmem
        match cs', hr, hlen, hmem with
        | [only], hr, _, hmem =>
          simp only [Option.some.injEq, Prod.mk.injEq] at hr
          rw [← hr.1, ← hr.2, branchBounded_setGroupHead]
          exact ⟨hres, hmem only (by simp)⟩
        | [], hr, _, _ => simp [recalculateBoundsFromSubBounds] at hr
        | c1 :: c2 :: rest, hr, hlen, hmem =>
          simp only [recalculateBoundsFromSubBounds, Option.map_some', Option.some.injEq,
            Prod.mk.injEq] at hr
          rw [← hr.1, ← hr.2, branchBounded_node_iff]
          exact ⟨hres, by omega, hmem⟩

end TreeNode

theorem fits_updateBestPermutationIfNeeded (best : BestSoFar) (current : NodePermutation)
    (hb : best.bestPermutation.Fits) (hc : current.Fits) :
    (updateBestPermutationIfNeeded best current).bestPermutation.Fits := by
  unfold updateBestPermutationIfNeeded
  split
  · split
    · exact hc
    · exact hb
  · exact hb

theorem fits_recursiveFindBestCombination (candidates : List TreeNode) :
    ∀ (best : BestSoFar) (current : NodePermutation), best.bestPermutation.Fits →
      current.countA < MAX_BRANCHES → current.countB < MAX_BRANCHES →
      current.countA + current.countB + candidates.length ≤ 2 * MAX_BRANCHES →
      (recursiveFindBestCombination best current candidates).bestPermutation.Fits := by
  induction candidates with
  | nil =>
    intro best current hb hA hB _
    simp only [recursiveFindBestCombination]
    exact fits_updateBestPermutationIfNeeded best current hb ⟨Nat.le_of_lt hA, Nat.le_of_lt hB⟩
  | cons c cs ih =>
    intro best current hb hA hB hn
    simp only [NodePermutation.countA, NodePermutation.countB, List.length_cons] at hA hB hn
    simp only [recursiveFindBestCombination]
    have h1 : (if NodePermutation.countA ⟨current.permutationA ++ [c], current.permutationB⟩ =
            MAX_BRANCHES then
          updateBestPermutationIfNeeded best
            ⟨current.permutationA ++ [c], current.permutationB ++ cs⟩
        else recursiveFindBestCombination best
            ⟨current.permutationA ++ [c], current.permutationB⟩ cs).bestPermutation.Fits := by
      split
      · rename_i hfull
        simp only [NodePermutation.countA, List.length_append, List.length_singleton] at hfull
        refine fits_updateBestPermutationIfNeeded _ _ hb ⟨?_, ?_⟩
        · simp only [NodePermutation.countA, List.length_append, List.length_singleton]
          omega
        · simp only [NodePermutation.countB, List.length_append]
          omega
      · rename_i hfull
        simp only [NodePermutation.countA, List.length_append, List.length_singleton] at hfull
        refine ih _ _ hb ?_ ?_ ?_
        · simp only [NodePermutation.countA, List.length_append, List.length_singleton]
          omega
        · exact hB
        · simp only [NodePermutation.countA, NodePermutation.countB, List.length_append,
            List.length_singleton]
          omega
    split
    · rename_i hfull
      simp only [NodePermutation.countB, List.length_append, List.length_singleton] at hfull
      refine fits_updateBestPermutationIfNeeded _ _ h1 ⟨?_, ?_⟩
      · simp only [NodePermutation.countA, List.length_append]
        omega
      · simp only [NodePermutation.countB, List.length_append, List.length_singleton]
        omega
    · rename_i hfull
      simp only [NodePermutation.countB, List.length_append, List.length_singleton] at hfull
      refine ih _ _ h1 hA ?_ ?_
      · simp only [NodePermutation.countB, List.length_append, List.length_singleton]
        omega
      · simp only [NodePermutation.countA, NodePermutation.countB, List.length_append,
          List.length_singleton]
        omega

theorem fits_findBestLoop (allNodes : List TreeNode) (hn : allNodes.length ≤ 2 * MAX_BRANCHES)
    (fuel : Nat) :
    ∀ (i : Nat) (best : BestSoFar), best.bestPermutation.Fits → i + 1 ≤ MAX_BRANCHES →
      (findBestLoop allNodes fuel i best).bestPermutation.Fits := by
  induction fuel with
  | zero =>
    intro i best hb _
    exact hb
  | succ fuel ih =>
    intro i best hb hi
    simp only [findBestLoop]
    cases hd : allNodes.drop (i + 1) with
    | nil => exact hb
    | cons b candidates =>
      simp only []
      have hlen : i + 1 < allNodes.length := by
        by_contra hc
        rw [List.drop_eq_nil_of_le (by omega)] at hd
        cases hd
      have hcl : candidates.length + 1 = allNodes.length - (i + 1) := by
        rw [← List.length_drop, hd]
        rfl
      have htake : (allNodes.take (i + 1)).length = i + 1 := by
        rw [List.length_take]
        omega
      split
      · rename_i hfull
        simp only [NodePermutation.countA, htake] at hfull
        refine fits_updateBestPermutationIfNeeded _ _ hb ⟨?_, ?_⟩
        · simp only [NodePermutation.countA, htake]
          omega
        · simp only [NodePermutation.countB, List.length_append, List.length_singleton,
            List.length_drop]
          omega
      · rename_i hfull
        simp only [NodePermutation.countA, htake] at hfull
        refine ih (i + 1) _ (fits_recursiveFindBestCombination candidates best _ hb ?_ ?_ ?_)
          (by omega)
        · simp only [NodePermutation.countA, htake]
          omega
        · simp [NodePermutation.countB, MAX_BRANCHES]
        · simp only [NodePermutation.countA, NodePermutation.countB, htake,
            List.length_singleton]
          omega

/-- With at most `2 * MAX_BRANCHES` candidates, both groups of the arrangement returned by
`findBestPermutation` have at most `MAX_BRANCHES` nodes. -/
theorem fits_findBestPermutation (allNodes : List TreeNode) (c0 : Int)
    (hn : allNodes.length ≤ 2 * MAX_BRANCHES) : (findBestPermutation allNodes c0).Fits :=
  fits_findBestLoop allNodes hn _ 0 _ ⟨Nat.zero_le _, Nat.zero_le _⟩ (by simp [MAX_BRANCHES])

theorem length_nodesToList_le (A B : TreeNode) (hA : A.branchBounded = true)
    (hB : B.branchBounded = true) : (nodesToList A B).length ≤ 2 * MAX_BRANCHES := by
  have h : ∀ t : TreeNode, t.branchBounded = true →
      (if t.isLeafNode then [t] else t.children).length ≤ MAX_BRANCHES := by
    intro t ht
    cases t with
    | leaf o b g => simp [TreeNode.isLeafNode, MAX_BRANCHES]
    | node cs b g =>
      rw [TreeNode.branchBounded_node_iff] at ht
      simpa [TreeNode.isLeafNode, TreeNode.children] using ht.1
  have h1 := h A hA
  have h2 := h B hB
  simp only [nodesToList, List.length_append]
  omega

theorem branchBounded_candidates (A B : TreeNode) (hA : A.branchBounded = true)
    (hB : B.branchBounded = true) : ∀ c ∈ nodesToList A B, c.branchBounded = true := by
  have h : ∀ t : TreeNode, t.branchBounded = true →
      ∀ c ∈ (if t.isLeafNode then [t] else t.children), c.branchBounded = true := by
    intro t ht c hc
    cases t with
    | leaf o b g =>
      simp only [TreeNode.isLeafNode, if_true, List.mem_singleton] at hc
      rw [hc]
      exact ht
    | node cs b g =>
      rw [TreeNode.branchBounded_node_iff] at ht
      exact ht.2 c (by simpa [TreeNode.isLeafNode, TreeNode.children] using hc)
  intro c hc
  rcases List.mem_append.1 hc with hc | hc
  · exact h A hA c hc
  · exact h B hB c hc

theorem branchBounded_recalculateUnlessLeaf (t : TreeNode) :
    t.recalculateUnlessLeaf.branchBounded = t.branchBounded := by
  cases t with
  | leaf o b g => rfl
  | node cs b g =>
    cases cs with
    | nil => rfl
    | cons c cs => simp [TreeNode.recalculateUnlessLeaf, TreeNode.branchBounded]

theorem branchBounded_fillGroups (first second : TreeNode) (A B : List TreeNode)
    (hf : first.branchBounded = true) (hs : second.branchBounded = true)
    (hA : A.length ≤ MAX_BRANCHES) (hB : B.length ≤ MAX_BRANCHES)
    (hall : ∀ c ∈ A ++ B, c.branchBounded = true) :
    (fillGroups first second A B).1.branchBounded = true ∧
      (fillGroups first second A B).2.branchBounded = true := by
  have hmA : ∀ c ∈ A, c.branchBounded = true := fun c hc => hall c (List.mem_append_left _ hc)
  have hmB : ∀ c ∈ B, c.branchBounded = true := fun c hc => hall c (List.mem_append_right _ hc)
  match A, B, hA, hB, hmA, hmB with
  | [], _, _, _, _, _ => exact ⟨hf, hs⟩
  | _ :: _, [], _, _, _, _ => exact ⟨hf, hs⟩
  | a :: as, [b], hA, _, hmA, hmB =>
    simp only [fillGroups]
    rw [branchBounded_recalculateUnlessLeaf]
    exact ⟨(TreeNode.branchBounded_node_iff _ _ _).2 ⟨hA, hmA⟩, hmB b (by simp)⟩
  | a :: as, b :: b2 :: bs, hA, hB, hmA, hmB =>
    simp only [fillGroups]
    exact ⟨(TreeNode.branchBounded_node_iff _ _ _).2 ⟨hA, hmA⟩,
      (TreeNode.branchBounded_node_iff _ _ _).2 ⟨hB, hmB⟩⟩

/-- The horizontal pair optimisation keeps the branching invariant. -/
theorem branchBounded_optimizeNodePairHorizontal (A B : TreeNode)
    (hA : A.branchBounded = true) (hB : B.branchBounded = true) :
    (optimizeNodePairHorizontal A B).1.branchBounded = true ∧
      (optimizeNodePairHorizontal A B).2.branchBounded = true := by
  unfold optimizeNodePairHorizontal
  split
  · exact ⟨hA, hB⟩
  · simp only []
    split
    · rename_i hcount
      rcases findBestPermutation_spec (nodesToList A B)
          (addInt64 (computeCost A.bounds) (computeCost B.bounds)) with h | ⟨hsplit, _⟩
      · exact absurd (by simp [NodePermutation.countA, h]) hcount
      · have hfit := fits_findBestPermutation (nodesToList A B)
          (addInt64 (computeCost A.bounds) (computeCost B.bounds)) (length_nodesToList_le A B hA hB)
        have hcand := branchBounded_candidates A B hA hB
        have hmem : ∀ c ∈ (findBestPermutation (nodesToList A B)
            (addInt64 (computeCost A.bounds) (computeCost B.bounds))).permutationA ++
            (findBestPermutation (nodesToList A B)
            (addInt64 (computeCost A.bounds) (computeCost B.bounds))).permutationB,
            c.branchBounded = true := fun c hc => hcand c (hsplit.2.2.subset hc)
        unfold fillNodePairWithPermutation
        simp only []
        split
        · refine branchBounded_fillGroups A B _ _ hA hB hfit.2 hfit.1 ?_
          intro c hc
          simp only [NodePermutation.swap] at hc
          exact hmem c (by
            rcases List.mem_append.1 hc with h | h
            · exact List.mem_append_right _ h
            · exact List.mem_append_left _ h)
        · exact branchBounded_fillGroups A B _ _ hA hB hfit.1 hfit.2 hmem
    · exact ⟨hA, hB⟩

/-- The vertical pair optimisation keeps the branching invariant. -/
theorem branchBounded_optimizeNodePairVertical (n G : TreeNode)
    (hn : n.branchBounded = true) (hG : G.branchBounded = true) :
    (optimizeNodePairVertical n G).1.branchBounded = true ∧
      (optimizeNodePairVertical n G).2.branchBounded = true := by
  unfold optimizeNodePairVertical
  cases G with
  | leaf o b g => exact ⟨hn, hG⟩
  | node gcs gb gg =>
    simp only []
    cases hbest : bestExchangeFrom n gcs gcs.length 0 (computeCost gb) none with
    | none => exact ⟨hn, hG⟩
    | some k =>
      simp only []
      have hG2 := (TreeNode.branchBounded_node_iff _ _ _).1 hG
      cases hout : gcs[k]? with
      | none => exact ⟨hn, hG⟩
      | some out =>
        cases hset : gcs.set k n with
        | nil => exact ⟨hn, hG⟩
        | cons c cs =>
          simp only []
          refine ⟨hG2.2 out (List.getElem?_mem hout), ?_⟩
          rw [TreeNode.branchBounded_node_iff, ← hset]
          refine ⟨by rw [List.length_set]; exact hG2.1, ?_⟩
          intro x hx
          rcases List.mem_or_eq_of_mem_set hx with h | h
          · exact hG2.2 x h
          · rw [h]
            exact hn

theorem forall_mem_set_set {P : TreeNode → Prop} {cs : List TreeNode} {i j : Nat}
    {A' B' : TreeNode} (h : ∀ c ∈ cs, P c) (hA : P A') (hB : P B') :
    ∀ c ∈ (cs.set i A').set j B', P c := by
  intro c hc
  rcases mem_set_set hc with h1 | h1 | h1
  · rw [h1]
    exact hA
  · rw [h1]
    exact hB
  · exact h c h1

/-- A property of nodes that the horizontal pair optimisation preserves is kept, for all
children, by the inner loop of the horizontal pass. -/
theorem forall_horizontalInner (P : TreeNode → Prop)
    (hP : ∀ A B, P A → P B →
      P (optimizeNodePairHorizontal A B).1 ∧ P (optimizeNodePairHorizontal A B).2)
    (i : Nat) (fuel : Nat) :
    ∀ (j : Nat) (cs : List TreeNode), (∀ c ∈ cs, P c) →
      ∀ c ∈ horizontalInner i fuel j cs, P c := by
  induction fuel with
  | zero =>
    intro j cs h
    exact h
  | succ fuel ih =>
    intro j cs h
    simp only [horizontalInner]
    refine ih (j + 1) _ ?_
    cases hA : cs[i]? with
    | none => exact h
    | some A =>
      cases hB : cs[j]? with
      | none => exact h
      | some B =>
        simp only []
        split
        · exact h
        · split
          · have hp := hP A B (h A (List.getElem?_mem hA)) (h B (List.getElem?_mem hB))
            exact forall_mem_set_set h hp.1 hp.2
          · exact h

theorem forall_horizontalOuter (P : TreeNode → Prop)
    (hP : ∀ A B, P A → P B →
      P (optimizeNodePairHorizontal A B).1 ∧ P (optimizeNodePairHorizontal A B).2)
    (fuel : Nat) :
    ∀ (i : Nat) (cs : List TreeNode), (∀ c ∈ cs, P c) →
      ∀ c ∈ horizontalOuter fuel i cs, P c := by
  induction fuel with
  | zero =>
    intro i cs h
    exact h
  | succ fuel ih =>
    intro i cs h
    simp only [horizontalOuter]
    refine ih (i + 1) _ ?_
    cases hA : cs[i]? with
    | none => exact h
    | some A =>
      simp only []
      split
      · exact h
      · exact forall_horizontalInner P hP i _ _ cs h

/-- A property of nodes that the vertical pair optimisation preserves is kept, for all
children, by the inner loop of the vertical pass. -/
theorem forall_verticalInner (P : TreeNode → Prop)
    (hP : ∀ n G, P n → P G →
      P (optimizeNodePairVertical n G).1 ∧ P (optimizeNodePairVertical n G).2)
    (i : Nat) (fuel : Nat) :
    ∀ (j : Nat) (cs : List TreeNode), (∀ c ∈ cs, P c) →
      ∀ c ∈ verticalInner i fuel j cs, P c := by
  induction fuel with
  | zero =>
    intro j cs h
    exact h
  | succ fuel ih =>
    intro j cs h
    simp only [verticalInner]
    refine ih (j + 1) _ ?_
    split
    · exact h
    · cases hA : cs[i]? with
      | none => exact h
      | some A =>
        cases hB : cs[j]? with
        | none => exact h
        | some B =>
          simp only []
          split
          · have hp := hP B A (h B (List.getElem?_mem hB)) (h A (List.getElem?_mem hA))
            exact forall_mem_set_set h hp.1 hp.2
          · exact h

theorem forall_verticalOuter (P : TreeNode → Prop)
    (hP : ∀ n G, P n → P G →
      P (optimizeNodePairVertical n G).1 ∧ P (optimizeNodePairVertical n G).2)
    (fuel : Nat) :
    ∀ (i : Nat) (cs : List TreeNode), (∀ c ∈ cs, P c) →
      ∀ c ∈ verticalOuter fuel i cs, P c := by
  induction fuel with
  | zero =>
    intro i cs h
    exact h
  | succ fuel ih =>
    intro i cs h
    simp only [verticalOuter]
    refine ih (i + 1) _ ?_
    cases hA : cs[i]? with
    | none => exact h
    | some A =>
      simp only []
      split
      · exact h
      · split
        · exact h
        · exact forall_verticalInner P hP i _ _ cs h

namespace TreeNode

mutual
theorem branchBounded_improveStructure (t : TreeNode) (ht : branchBounded t = true) :
    branchBounded (improveStructure t) = true := by
  match t with
  | leaf o b g => simpa [improveStructure] using ht
  | node cs b g =>
    rw [branchBounded_node_iff] at ht
    simp only [improveStructure]
    rw [branchBounded_node_iff]
    have hlen := (passInv_verticalOuter cs cs.length 0 _
      (passInv_horizontalOuter cs (cs.length - 1) 0 _ (improveStructureList_spec cs))).length
    refine ⟨?_, ?_⟩
    · rw [hlen]
      exact ht.1
    · refine forall_verticalOuter _ (fun n G => branchBounded_optimizeNodePairVertical n G) _ _ _
        (forall_horizontalOuter _ (fun A B => branchBounded_optimizeNodePairHorizontal A B) _ _ _
          ((branchBoundedList_iff _).1 (branchBoundedList_improveStructureList cs
            ((branchBoundedList_iff cs).2 ht.2))))
theorem branchBoundedList_improveStructureList (cs : List TreeNode)
    (h : branchBoundedList cs = true) : branchBoundedList (improveStructureList cs) = true := by
  match cs with
  | [] => simp [improveStructureList, branchBoundedList]
  | c :: cs =>
    simp only [branchBoundedList, Bool.and_eq_true, improveStructureList] at h ⊢
    exact ⟨branchBounded_improveStructure c h.1, branchBoundedList_improveStructureList cs h.2⟩
end

end TreeNode

/-- C28. The branching invariant (every internal node has at most `MAX_BRANCHES` children) is
preserved by `addInside` and `addOutside` of a node that satisfies it, by `remove(index)`
(for the node left behind and for the removed child), and by `improveStructure`. -/
theorem branching_factor_preserved (t newNode : TreeNode)
    (ht : t.branchBounded = true) (hn : newNode.branchBounded = true) :
    (t.addInside newNode).branchBounded = true ∧
      (t.addOutside newNode).branchBounded = true ∧
      (∀ (index : Nat) (removed t' : TreeNode), t.remove index = some (removed, t') →
        removed.branchBounded = true ∧ t'.branchBounded = true) ∧
      t.improveStructure.branchBounded = true :=
  ⟨TreeNode.branchBounded_addInside t newNode ht hn,
    TreeNode.branchBounded_addOutside t newNode ht hn,
    fun index removed t' hr => TreeNode.branchBounded_remove t index removed t' ht hr,
    TreeNode.branchBounded_improveStructure t ht⟩

/-- Witness for C28: a root with `MAX_BRANCHES` leaves, into which a fifth leaf is inserted
below the first child, and from which the child at index 1 can be removed. -/
theorem branching_factor_preserved_witness :
    fullRootTree.branchBounded = true ∧ (cubeLeaf 5 8 9).branchBounded = true ∧
    (fullRootTree.remove 1).isSome = true ∧
    ((fullRootTree.addInside (cubeLeaf 5 8 9)).branchBounded = true ∧
      (fullRootTree.addOutside (cubeLeaf 5 8 9)).branchBounded = true ∧
      (∀ (index : Nat) (removed t' : TreeNode),
        fullRootTree.remove index = some (removed, t') →
        removed.branchBounded = true ∧ t'.branchBounded = true) ∧
      fullRootTree.improveStructure.branchBounded = true) :=
  ⟨by decide, by decide, by decide,
    branching_factor_preserved fullRootTree (cubeLeaf 5 8 9) (by decide) (by decide)⟩

end P3D

/-! ## The cost metric -/

namespace P3D

/-- C30, the claim as stated fails for large boxes. The corners of `wideBox` and `farPoint`
are representable in 64 bits; the cost of `wideBox` is `2^63 - 2`, the extents of the union
sum to `2^63 + 4`, which a `long long` does not hold: `computeCost` of the union is
`-2^63 + 4`, below the cost of `wideBox`. -/
theorem computeCost_of_union_wraps_around :
    computeCost wideBox = 9223372036854775806 ∧
    (unionOfBounds wideBox farPoint).extentSum = 9223372036854775812 ∧
    computeCost (unionOfBounds wideBox farPoint) = -9223372036854775804 ∧
    computeCombinationCost wideBox farPoint = -9223372036854775804 ∧
    ¬ (computeCost wideBox ≤ computeCost (unionOfBounds wideBox farPoint)) := by
  decide

/-- C30 as amended. `computeCost(b)` is the sum over the three axes of `max − min` on the raw
fixed-point values, reduced to 64 bits; `computeCombinationCost` is the cost of the union; and
for boxes `a` and `b` whose extent sums are at least `-2^63` and whose union has an extent
sum below `2^63`, the three costs are the exact extent sums and the cost of the union is at
least the cost of either operand. -/
theorem computeCost_extents_and_union_monotone (a b : Bounds)
    (ha : -9223372036854775808 ≤ a.extentSum) (hb : -9223372036854775808 ≤ b.extentSum)
    (hfit : (unionOfBounds a b).extentSum < 9223372036854775808) :
    computeCost a = wrapInt64 a.extentSum ∧
      computeCost a = a.extentSum ∧ computeCost b = b.extentSum ∧
      computeCost (unionOfBounds a b) = (unionOfBounds a b).extentSum ∧
      computeCombinationCost a b = computeCost (unionOfBounds a b) ∧
      computeCost a ≤ computeCost (unionOfBounds a b) ∧
      computeCost b ≤ computeCost (unionOfBounds a b) := by
  have hma := extentSum_mono (Bounds.le_union_left a b)
  have hmb := extentSum_mono (Bounds.le_union_right a b)
  have hca : computeCost a = a.extentSum := by
    rw [computeCost_eq_wrap]
    exact wrapInt64_of_fits _ ha (by omega)
  have hcb : computeCost b = b.extentSum := by
    rw [computeCost_eq_wrap]
    exact wrapInt64_of_fits _ hb (by omega)
  have hcu : computeCost (unionOfBounds a b) = (unionOfBounds a b).extentSum := by
    rw [computeCost_eq_wrap]
    exact wrapInt64_of_fits _ (by omega) hfit
  refine ⟨computeCost_eq_wrap a, hca, hcb, hcu, rfl, ?_, ?_⟩
  · rw [hca, hcu]
    exact hma
  · rw [hcb, hcu]
    exact hmb

/-- Witness for C30 as amended: the cubes `[0,1]³` and `[2,3]³`. -/
theorem computeCost_extents_and_union_monotone_witness :
    -9223372036854775808 ≤ (cube 0 1).extentSum ∧
    -9223372036854775808 ≤ (cube 2 3).extentSum ∧
    (unionOfBounds (cube 0 1) (cube 2 3)).extentSum < 9223372036854775808 ∧
    computeCost (cube 0 1) = 3 * 4294967296 ∧
    computeCost (cube 0 1) ≤ computeCost (unionOfBounds (cube 0 1) (cube 2 3)) :=
  have h := computeCost_extents_and_union_monotone (cube 0 1) (cube 2 3)
    (by decide) (by decide) (by decide)
  ⟨by decide, by decide, by decide, h.2.1.trans (by decide), h.2.2.2.2.2.1⟩

end P3D

/-! ## The validity check of the world -/

namespace P3D

open TreeNode in
theorem mem_subNodesList (l : List TreeNode) (x : TreeNode) :
    x ∈ subNodesList l ↔ ∃ c ∈ l, x ∈ subNodes c := by
  induction l with
  | nil => simp [subNodesList]
  | cons c l ih => simp [subNodesList, ih]

open TreeNode in
theorem populated_node_iff (cs : List TreeNode) (b : Bounds) (g : Bool) :
    (node cs b g).populated = true ↔ cs ≠ [] ∧ ∀ c ∈ cs, c.populated = true := by
  simp only [TreeNode.populated, List.all_eq_true, subNodes, List.mem_cons, forall_eq_or_imp,
    isLeafNode, children, Bool.false_or, Bool.not_eq_true', List.isEmpty_eq_false,
    mem_subNodesList]
  constructor
  · rintro ⟨h1, h2⟩
    exact ⟨h1, fun c hc n hn => h2 n ⟨c, hc, hn⟩⟩
  · rintro ⟨h1, h2⟩
    exact ⟨h1, fun n ⟨c, hc, hn⟩ => h2 c hc n hn⟩

open TreeNode in
mutual
theorem recursiveTreeValidCheck_spec (t : TreeNode) (h : t.populated = true) :
    CheckSpec (recursiveTreeValidCheck t) (subNodes t) := by
  match t with
  | leaf o b g =>
    right
    refine ⟨rfl, ?_⟩
    intro n hn
    simp only [subNodes, List.mem_singleton] at hn
    rw [hn]
    rfl
  | node [] b g =>
    rw [populated_node_iff] at h
    exact absurd rfl h.1
  | node (c :: cs) b g =>
    rw [populated_node_iff] at h
    simp only [recursiveTreeValidCheck]
    by_cases hb : computeBoundsOfList c cs ≠ b
    · rw [if_pos hb]
      left
      exact ⟨rfl, node (c :: cs) b g, by simp [subNodes], by simp [boundsMismatch, hb]⟩
    · rw [if_neg hb]
      rcases recursiveTreeValidCheckList_spec (c :: cs) h.2 with ⟨hr, n, hn, hm⟩ | ⟨hr, hall⟩
      · left
        exact ⟨hr, n, by simp only [subNodes, List.mem_cons]; exact Or.inr hn, hm⟩
      · right
        refine ⟨hr, ?_⟩
        intro n hn
        simp only [subNodes, List.mem_cons] at hn
        rcases hn with hn | hn
        · rw [hn]
          simpa [boundsMismatch] using hb
        · exact hall n hn
theorem recursiveTreeValidCheckList_spec (cs : List TreeNode)
    (h : ∀ c ∈ cs, c.populated = true) :
    CheckSpec (recursiveTreeValidCheckList cs) (subNodesList cs) := by
  match cs with
  | [] =>
    right
    exact ⟨rfl, by simp [subNodesList]⟩
  | c :: cs =>
    have hc := recursiveTreeValidCheck_spec c (h c (by simp))
    have hcs := recursiveTreeValidCheckList_spec cs (fun x hx => h x (by simp [hx]))
    simp only [recursiveTreeValidCheckList, subNodesList]
    rcases hc with ⟨hr, n, hn, hm⟩ | ⟨hr, hall⟩
    · left
      rw [hr]
      exact ⟨rfl, n, List.mem_append_left _ hn, hm⟩
    · rw [hr]
      simp only []
      rcases hcs with ⟨hr2, n, hn, hm⟩ | ⟨hr2, hall2⟩
      · left
        exact ⟨hr2, n, List.mem_append_right _ hn, hm⟩
      · right
        refine ⟨hr2, ?_⟩
        intro n hn
        rcases List.mem_append.1 hn with hn | hn
        · exact hall n hn
        · exact hall2 n hn
end

open TreeNode in
mutual
theorem recursiveTreeValidCheck_returned_iff (t : TreeNode) :
    recursiveTreeValidCheck t = some CheckResult.returned ↔ t.boundsValid = true := by
  match t with
  | leaf o b g => simp [recursiveTreeValidCheck, boundsValid]
  | node [] b g => simp [recursiveTreeValidCheck, boundsValid]
  | node (c :: cs) b g =>
    simp only [recursiveTreeValidCheck, boundsValid, Bool.and_eq_true, decide_eq_true_eq]
    by_cases hb : computeBoundsOfList c cs ≠ b
    · rw [if_pos hb]
      constructor
      · intro h
        cases h
      · intro h
        exact absurd h.1.symm hb
    · rw [if_neg hb, recursiveTreeValidCheckList_returned_iff (c :: cs)]
      have hb2 : b = computeBoundsOfList c cs := by
        by_contra hne
        exact hb (fun h => hne h.symm)
      simp [hb2]
theorem recursiveTreeValidCheckList_returned_iff (cs : List TreeNode) :
    recursiveTreeValidCheckList cs = some CheckResult.returned ↔
      boundsValidList cs = true := by
  match cs with
  | [] => simp [recursiveTreeValidCheckList, boundsValidList]
  | c :: cs =>
    have hc := recursiveTreeValidCheck_returned_iff c
    have hcs := recursiveTreeValidCheckList_returned_iff cs
    simp only [recursiveTreeValidCheckList, boundsValidList, Bool.and_eq_true]
    rw [← hc, ← hcs]
    cases hr : recursiveTreeValidCheck c with
    | none => simp
    | some r =>
      cases r with
      | returned => simp
      | thrown => simp
end

/-- C23. On a tree all of whose internal nodes have children, `recursiveTreeValidCheck`
throws exactly when some internal node of the subtree has cached bounds different from the
union of its children's cached bounds, and returns normally exactly when every internal node
agrees with the recomputation (the bounds-cache invariant); on a leaf it returns. -/
theorem recursiveTreeValidCheck_throws_iff_mismatch (t : TreeNode)
    (h : t.populated = true) :
    (recursiveTreeValidCheck t = some CheckResult.thrown ↔
      ∃ n ∈ t.subNodes, n.boundsMismatch = true) ∧
    (recursiveTreeValidCheck t = some CheckResult.returned ↔
      ∀ n ∈ t.subNodes, n.boundsMismatch = false) ∧
    (recursiveTreeValidCheck t = some CheckResult.returned ↔ t.boundsValid = true) ∧
    (t.isLeafNode = true → recursiveTreeValidCheck t = some CheckResult.returned) := by
  have hspec := recursiveTreeValidCheck_spec t h
  refine ⟨?_, ?_, recursiveTreeValidCheck_returned_iff t, ?_⟩
  · constructor
    · intro hr
      rcases hspec with ⟨_, hm⟩ | ⟨hr2, _⟩
      · exact hm
      · rw [hr] at hr2
        cases hr2
    · rintro ⟨n, hn, hm⟩
      rcases hspec with ⟨hr, _⟩ | ⟨_, hall⟩
      · exact hr
      · rw [hall n hn] at hm
        cases hm
  · constructor
    · intro hr
      rcases hspec with ⟨hr2, _⟩ | ⟨_, hall⟩
      · rw [hr] at hr2
        cases hr2
      · exact hall
    · intro hall
      rcases hspec with ⟨_, n, hn, hm⟩ | ⟨hr, _⟩
      · rw [hall n hn] at hm
        cases hm
      · exact hr
  · intro hl
    cases t with
    | leaf o b g => rfl
    | node cs b g => cases hl

/-- Witness for C23: the tree `[[L1, L2], L3]` passes the check, and the same tree with the
cached bounds of its inner node replaced by the bounds of `L1` alone makes it throw. -/
theorem recursiveTreeValidCheck_throws_iff_mismatch_witness :
    staleBoundsTree.populated = true ∧
    recursiveTreeValidCheck staleBoundsTree = some CheckResult.thrown ∧
    recursiveTreeValidCheck threeLeafTree = some CheckResult.returned ∧
    ((recursiveTreeValidCheck staleBoundsTree = some CheckResult.thrown ↔
      ∃ n ∈ staleBoundsTree.subNodes, n.boundsMismatch = true) ∧
    (recursiveTreeValidCheck staleBoundsTree = some CheckResult.returned ↔
      ∀ n ∈ staleBoundsTree.subNodes, n.boundsMismatch = false) ∧
    (recursiveTreeValidCheck staleBoundsTree = some CheckResult.returned ↔
      staleBoundsTree.boundsValid = true) ∧
    (staleBoundsTree.isLeafNode = true →
      recursiveTreeValidCheck staleBoundsTree = some CheckResult.returned)) :=
  ⟨by decide, by decide, by decide,
    recursiveTreeValidCheck_throws_iff_mismatch staleBoundsTree (by decide)⟩

end P3D

/-! ## The node built for a physical -/

namespace P3D
namespace TreeNode

theorem leafBoundsList_append (l₁ l₂ : List TreeNode) :
    leafBoundsList (l₁ ++ l₂) = leafBoundsList l₁ ++ leafBoundsList l₂ := by
  induction l₁ with
  | nil => simp [leafBoundsList]
  | cons c cs ih => simp [leafBoundsList, ih]

theorem leafBounds_setBounds_addInside (t n : TreeNode) (b : Bounds) :
    leafBounds ((addInside t n).setBounds b) = leafBounds (addInside t n) := by
  cases t <;> simp [addInside, setBounds, leafBounds]

theorem leafBounds_pushDown (t n : TreeNode) :
    leafBounds (pushDown t n) = leafBounds t ++ leafBounds n := by
  simp [pushDown, ofSubTrees, setBounds, leafBounds, leafBoundsList]

mutual
/-- The leaves after `addInside` are the old leaves and the leaves of the new node. -/
theorem leafBounds_addInside (t n : TreeNode) :
    (leafBounds (addInside t n)).Perm (leafBounds t ++ leafBounds n) := by
  match t with
  | leaf o b g =>
    simp [addInside, leafBounds, leafBoundsList, leafBounds_setGroupHead]
  | node cs b g =>
    rw [addInside_node]
    simp only [leafBounds]
    by_cases hfull : cs.length ≠ MAX_BRANCHES
    · rw [addToSubTrees, if_pos hfull, leafBoundsList_append]
      simp [leafBoundsList]
    · rw [addToSubTrees, if_neg hfull]
      have hne : cs ≠ [] := by
        intro h
        rw [h] at hfull
        simp [MAX_BRANCHES] at hfull
      exact leafBoundsList_addOutsideAt cs _ n (bestIndex_lt n.bounds cs hne)
theorem leafBoundsList_addOutsideAt (cs : List TreeNode) (i : Nat) (n : TreeNode)
    (hi : i < cs.length) :
    (leafBoundsList (addOutsideAt cs i n)).Perm (leafBoundsList cs ++ leafBounds n) := by
  match cs, i, hi with
  | c :: cs, 0, _ =>
    rw [addOutsideAt_zero]
    simp only [leafBoundsList]
    have hc : (leafBounds (addOutside c n)).Perm (leafBounds c ++ leafBounds n) := by
      unfold addOutside
      split
      · rw [leafBounds_pushDown]
      · rw [leafBounds_setBounds_addInside]
        exact leafBounds_addInside c n
    refine (hc.append_right _).trans ?_
    rw [List.append_assoc, List.append_assoc]
    exact List.Perm.append_left _ List.perm_append_comm
  | c :: cs, i + 1, hi =>
    rw [addOutsideAt_succ]
    simp only [leafBoundsList, List.append_assoc]
    exact List.Perm.append_left _
      (leafBoundsList_addOutsideAt cs i n (by simpa using hi))
end

mutual
theorem leafObjects_eq_map (t : TreeNode) : leafObjects t = (leafBounds t).map Prod.fst := by
  match t with
  | leaf o b g => rfl
  | node cs b g =>
    simp only [leafObjects, leafBounds]
    exact leafObjectsList_eq_map cs
theorem leafObjectsList_eq_map (cs : List TreeNode) :
    leafObjectsList cs = (leafBoundsList cs).map Prod.fst := by
  match cs with
  | [] => rfl
  | c :: cs =>
    simp only [leafObjectsList, leafBoundsList, List.map_append]
    rw [leafObjects_eq_map c, leafObjectsList_eq_map cs]
end

theorem plain_node_iff (cs : List TreeNode) (b : Bounds) (g : Bool) :
    (node cs b g).plain ↔ g = false ∧ ∀ c ∈ cs, c.plain := by
  simp only [plain, subNodes, List.mem_cons, forall_eq_or_imp, isGroupHead, mem_subNodesList]
  constructor
  · rintro ⟨h1, h2⟩
    exact ⟨h1, fun c hc n hn => h2 n ⟨c, hc, hn⟩⟩
  · rintro ⟨h1, h2⟩
    exact ⟨h1, fun n ⟨c, hc, hn⟩ => h2 c hc n hn⟩

theorem plain_leaf_iff (o : Nat) (b : Bounds) (g : Bool) : (leaf o b g).plain ↔ g = false := by
  simp [plain, subNodes, isGroupHead]

theorem plain_setBounds (t : TreeNode) (b : Bounds) (h : t.plain) : (t.setBounds b).plain := by
  cases t with
  | leaf o b0 g =>
    rw [plain_leaf_iff] at h
    simpa [setBounds, plain_leaf_iff] using h
  | node cs b0 g =>
    rw [plain_node_iff] at h
    simpa [setBounds, plain_node_iff] using h

theorem isGroupHead_of_plain (t : TreeNode) (h : t.plain) : t.isGroupHead = false := by
  cases t with
  | leaf o b g => exact (plain_leaf_iff o b g).1 h
  | node cs b g => exact ((plain_node_iff cs b g).1 h).1

mutual
/-- Adding a leaf that is not a group head inside a tree without group heads gives a tree
without group heads. -/
theorem plain_addInside (t : TreeNode) (o : Nat) (b : Bounds) (ht : t.plain) :
    (addInside t (leaf o b false)).plain := by
  match t with
  | leaf o0 b0 g =>
    rw [plain_leaf_iff] at ht
    simp only [addInside, setGroupHead]
    rw [plain_node_iff]
    refine ⟨ht, ?_⟩
    intro c hc
    simp only [List.mem_cons, List.mem_singleton, List.not_mem_nil, or_false] at hc
    rcases hc with hc | hc
    · rw [hc, plain_leaf_iff]
    · rw [hc, plain_leaf_iff]
  | node cs b0 g =>
    rw [plain_node_iff] at ht
    rw [addInside_node, plain_node_iff]
    refine ⟨ht.1, ?_⟩
    unfold addToSubTrees
    split
    · intro c hc
      rcases List.mem_append.1 hc with hc | hc
      · exact ht.2 c hc
      · simp only [List.mem_singleton] at hc
        rw [hc, plain_leaf_iff]
    · exact plainList_addOutsideAt cs _ o b ht.2
theorem plainList_addOutsideAt (cs : List TreeNode) (i : Nat) (o : Nat) (b : Bounds)
    (h : ∀ c ∈ cs, c.plain) : ∀ c ∈ addOutsideAt cs i (leaf o b false), c.plain := by
  match cs, i with
  | [], _ => simp [addOutsideAt]
  | c :: cs, 0 =>
    rw [addOutsideAt_zero]
    intro x hx
    rcases List.mem_cons.1 hx with hx | hx
    · rw [hx]
      unfold addOutside
      rw [if_neg (by simp [isGroupHead_of_plain c (h c (by simp))])]
      exact plain_setBounds _ _ (plain_addInside c o b (h c (by simp)))
    · exact h x (by simp [hx])
  | c :: cs, i + 1 =>
    rw [addOutsideAt_succ]
    intro x hx
    rcases List.mem_cons.1 hx with hx | hx
    · rw [hx]
      exact h c (by simp)
    · exact plainList_addOutsideAt cs i o b (fun y hy => h y (by simp [hy])) x hx
end

/-- Adding a leaf that is not a group head inside a node keeps the property that no proper
descendant of the node is a group head. -/
theorem plain_children_addInside (t : TreeNode) (o : Nat) (b : Bounds)
    (ht : ∀ c ∈ t.children, c.plain) :
    ∀ c ∈ (addInside t (leaf o b false)).children, c.plain := by
  cases t with
  | leaf o0 b0 g =>
    simp only [addInside, setGroupHead, children]
    intro c hc
    simp only [List.mem_cons, List.mem_singleton, List.not_mem_nil, or_false] at hc
    rcases hc with hc | hc
    · rw [hc, plain_leaf_iff]
    · rw [hc, plain_leaf_iff]
  | node cs b0 g =>
    simp only [children] at ht
    rw [addInside_node]
    simp only [children]
    unfold addToSubTrees
    split
    · intro c hc
      rcases List.mem_append.1 hc with hc | hc
      · exact ht c hc
      · simp only [List.mem_singleton] at hc
        rw [hc, plain_leaf_iff]
    · exact plainList_addOutsideAt cs _ o b ht

end TreeNode
end P3D

namespace P3D
namespace World

open TreeNode

theorem insertParts_append (gsb : Nat → Bounds) (node : TreeNode) (l₁ l₂ : List Nat) :
    insertParts gsb node (l₁ ++ l₂) = insertParts gsb (insertParts gsb node l₁) l₂ := by
  simp [insertParts, List.foldl_append]

mutual
theorem addToNode_eq (gsb : Nat → Bounds) (node : TreeNode) (phys : Physical) :
    addToNode gsb node phys = insertParts gsb node phys.allParts := by
  match phys with
  | Physical.mk h m ps cs =>
    simp only [addToNode, Physical.allParts]
    rw [addToNodeChildren_eq gsb _ cs]
    rw [show m :: ps ++ Physical.allPartsList cs = [m] ++ (ps ++ Physical.allPartsList cs) from
      rfl, insertParts_append, insertParts_append]
    rfl
theorem addToNodeChildren_eq (gsb : Nat → Bounds) (node : TreeNode) (cs : List Physical) :
    addToNodeChildren gsb node cs = insertParts gsb node (Physical.allPartsList cs) := by
  match cs with
  | [] => rfl
  | c :: cs =>
    simp only [addToNodeChildren, Physical.allPartsList]
    rw [addToNode_eq gsb node c, addToNodeChildren_eq gsb _ cs, insertParts_append]
end

theorem createNodeFor_eq (gsb : Nat → Bounds) (phys : Physical) :
    createNodeFor gsb phys =
      insertParts gsb (leaf phys.mainPart (gsb phys.mainPart) true) phys.allParts.tail := by
  cases phys with
  | mk h m ps cs =>
    simp only [createNodeFor, Physical.allParts, Physical.mainPart]
    rw [addToNodeChildren_eq]
    show _ = insertParts gsb (leaf m (gsb m) true) (ps ++ Physical.allPartsList cs)
    rw [insertParts_append]
    rfl

/-- What the insertion loop keeps and adds: the group-head flag of the node, its leaves plus
one leaf per part, and the absence of group heads among the proper descendants. -/
theorem insertParts_spec (gsb : Nat → Bounds) (parts : List Nat) :
    ∀ node : TreeNode,
      (insertParts gsb node parts).isGroupHead = node.isGroupHead ∧
      (leafBounds (insertParts gsb node parts)).Perm
        (leafBounds node ++ parts.map (fun p => (p, gsb p))) ∧
      ((∀ c ∈ node.children, c.plain) →
        ∀ c ∈ (insertParts gsb node parts).children, c.plain) := by
  induction parts with
  | nil =>
    intro node
    exact ⟨rfl, by simp [insertParts], fun h => h⟩
  | cons p ps ih =>
    intro node
    obtain ⟨h1, h2, h3⟩ := ih (node.addInside (partLeaf gsb p))
    have hstep : insertParts gsb node (p :: ps) =
        insertParts gsb (node.addInside (partLeaf gsb p)) ps := rfl
    rw [hstep]
    refine ⟨?_, ?_, ?_⟩
    · rw [h1, isGroupHead_addInside]
    · refine h2.trans ?_
      have := leafBounds_addInside node (partLeaf gsb p)
      refine (this.append_right _).trans ?_
      simp [partLeaf, leafBounds]
    · intro hplain
      exact h3 (plain_children_addInside node p (gsb p) hplain)

/-- C29. The node `createNodeFor` builds for a physical is flagged as group head; its leaves
hold exactly the parts of the whole physical tree (main part, attached parts, and the parts of
all connected child physicals, recursively), each part once and with its strict bounds; no
proper descendant of the node is flagged as group head; and this node is what `addPart` hands
to the object tree for the main physical of a part that is not yet in the world. -/
theorem createNodeFor_is_group_of_all_parts (getStrictBounds : Nat → Bounds)
    (phys : Physical) :
    (createNodeFor getStrictBounds phys).isGroupHead = true ∧
    (createNodeFor getStrictBounds phys).leafObjects.Perm phys.allParts ∧
    (createNodeFor getStrictBounds phys).leafBounds.Perm
      (phys.allParts.map (fun p => (p, getStrictBounds p))) ∧
    (∀ n ∈ subNodesList (createNodeFor getStrictBounds phys).children,
      n.isGroupHead = false) ∧
    (∀ (ops : WorldOps) (debug : Bool) (this : Nat) (s : WorldState) (part : Nat)
      (anchored : Bool) (parent : Nat),
      WorldPrototype.assertValid debug this s = some CheckResult.returned →
      (ops.ensureHasParent s.memory part).parent part = some parent →
      (ops.ensureHasParent s.memory part).world
        ((ops.ensureHasParent s.memory part).mainPhysical parent) ≠ some this →
      (WorldPrototype.addPart ops debug this s part anchored).1.world.objectTree =
        ops.add s.world.objectTree
          (createNodeFor (ops.ensureHasParent s.memory part).strictBounds
            ((ops.ensureHasParent s.memory part).physical
              ((ops.ensureHasParent s.memory part).mainPhysical parent)))) := by
  have hall : phys.allParts = phys.mainPart :: phys.allParts.tail := by
    cases phys with
    | mk h m ps cs => rfl
  obtain ⟨h1, h2, h3⟩ := insertParts_spec getStrictBounds phys.allParts.tail
    (leaf phys.mainPart (getStrictBounds phys.mainPart) true)
  have hb : (createNodeFor getStrictBounds phys).leafBounds.Perm
      (phys.allParts.map (fun p => (p, getStrictBounds p))) := by
    rw [createNodeFor_eq]
    refine h2.trans ?_
    conv_rhs => rw [hall]
    simp [leafBounds]
  refine ⟨?_, ?_, hb, ?_, ?_⟩
  · rw [createNodeFor_eq, h1]
    rfl
  · rw [leafObjects_eq_map]
    have := hb.map Prod.fst
    simpa [Function.comp_def] using this
  · intro n hn
    obtain ⟨c, hc, hnc⟩ := (mem_subNodesList _ n).1 hn
    rw [createNodeFor_eq] at hc
    exact h3 (by simp [children]) c hc n hnc
  · intro ops debug this s part anchored parent hvalid hparent hworld
    simp only [WorldPrototype.addPart, hvalid, hparent, if_neg hworld]

end World
end P3D

/-! ## Adding a part to the world -/

namespace P3D
namespace World

/-- C27. For a part that has a parent whose main physical already points to the world,
`addPart` leaves the world (the list of physicals, `objectCount`, the object tree) and the
memory of the physicals (hence the anchored state) as they were, and it ends as the
`ASSERT_VALID` at its entry ends: it returns normally in a release build, and in a debug
build whenever the world is valid. The absent `ensureHasParent` is taken to change nothing
for a part that has a parent. -/
theorem addPart_of_owned_part_changes_nothing (ops : WorldOps) (debug : Bool) (this : Nat)
    (s : WorldState) (part : Nat) (anchored : Bool) (parent : Nat)
    (hensure : ∀ (memory : Memory) (p : Nat),
      memory.parent p ≠ none → ops.ensureHasParent memory p = memory)
    (hparent : s.memory.parent part = some parent)
    (hworld : s.memory.world (s.memory.mainPhysical parent) = some this) :
    (WorldPrototype.addPart ops debug this s part anchored).1.world.physicals
        = s.world.physicals ∧
    (WorldPrototype.addPart ops debug this s part anchored).1.world.objectCount
        = s.world.objectCount ∧
    (WorldPrototype.addPart ops debug this s part anchored).1.world.objectTree
        = s.world.objectTree ∧
    (WorldPrototype.addPart ops debug this s part anchored).1 = s ∧
    (WorldPrototype.addPart ops debug this s part anchored).2
        = WorldPrototype.assertValid debug this s ∧
    (debug = false →
      (WorldPrototype.addPart ops debug this s part anchored).2
        = some CheckResult.returned) ∧
    (WorldPrototype.isValid this s = some (some true) →
      (WorldPrototype.addPart ops debug this s part anchored).2
        = some CheckResult.returned) := by
  have hmem : ops.ensureHasParent s.memory part = s.memory :=
    hensure s.memory part (by rw [hparent]; exact Option.some_ne_none _)
  have key : WorldPrototype.addPart ops debug this s part anchored
      = (s, WorldPrototype.assertValid debug this s) := by
    unfold WorldPrototype.addPart
    cases hv : WorldPrototype.assertValid debug this s with
    | none => rfl
    | some r =>
      cases r with
      | thrown => rfl
      | returned =>
        simp only [hmem, hparent, hworld, if_true]
        rw [hv]
  rw [key]
  refine ⟨rfl, rfl, rfl, rfl, rfl, ?_, ?_⟩
  · intro hd
    simp [WorldPrototype.assertValid, hd]
  · intro hvalid
    simp only [WorldPrototype.assertValid, hvalid]
    cases debug <;> rfl

/-- Witness for C27: part 2 of the example physical is added again to the world that already
holds the physical. -/
theorem addPart_of_owned_part_changes_nothing_witness :
    exampleState.memory.parent 2 = some 10 ∧
    exampleState.memory.world (exampleState.memory.mainPhysical 10) = some 0 ∧
    WorldPrototype.isValid 0 exampleState = some (some true) ∧
    (WorldPrototype.addPart exampleOps true 0 exampleState 2 false).1 = exampleState ∧
    (WorldPrototype.addPart exampleOps true 0 exampleState 2 false).2
      = some CheckResult.returned :=
  have h := addPart_of_owned_part_changes_nothing exampleOps true 0 exampleState 2 false 10
    (by
      intro memory p hp
      simp only [exampleOps]
      cases hparent : memory.parent p with
      | none => exact absurd hparent hp
      | some q => rfl)
    rfl rfl
  have hvalid : WorldPrototype.isValid 0 exampleState = some (some true) := by decide
  ⟨rfl, rfl, hvalid, h.2.2.2.1, h.2.2.2.2.2.2 hvalid⟩

end World
end P3D

/-! ## Inertia -/

namespace P3D

theorem skewSymmetricSquared_apply {K : Type} [CommRing K] (v : Vec3 K) :
    skewSymmetricSquared v =
      Matrix.of ![![-(v 1 * v 1 + v 2 * v 2), v 0 * v 1, v 0 * v 2],
                  ![v 0 * v 1, -(v 0 * v 0 + v 2 * v 2), v 1 * v 2],
                  ![v 0 * v 2, v 1 * v 2, -(v 0 * v 0 + v 1 * v 1)]] := by
  ext i j
  fin_cases i <;> fin_cases j <;>
    simp [skewSymmetricSquared, skewSymmetric, Matrix.mul_apply, Fin.sum_univ_three] <;> ring

theorem skewSymmetricSquared_isSymm {K : Type} [CommRing K] (v : Vec3 K) :
    (skewSymmetricSquared v).IsSymm := by
  rw [skewSymmetricSquared_apply]
  ext i j
  fin_cases i <;> fin_cases j <;> rfl

/-- C25. The transformed inertia of a tensor `I` with mass `m` under an offset frame with
rotation matrix `R` and position `p` is `R·I·Rᵗ − m·skewSymmetricSquared(p)`, where
`skewSymmetricSquared(p)` has diagonal `−(y²+z²), −(x²+z²), −(x²+y²)` and off-diagonal
entries `xy, xz, yz`; the result is symmetric when `I` is. -/
theorem getTransformedInertiaAroundCenterOfMass_formula {K : Type} [CommRing K]
    (I : Mat3 K) (m : K) (frame : CFrame K) :
    getTransformedInertiaAroundCenterOfMass I m frame =
      frame.rotation * I * frame.rotation.transpose
        - m • skewSymmetricSquared frame.position ∧
    getRotatedInertia I frame.rotation = frame.rotation * I * frame.rotation.transpose ∧
    skewSymmetricSquared frame.position =
      Matrix.of ![![-(frame.position 1 * frame.position 1 + frame.position 2 * frame.position 2),
                    frame.position 0 * frame.position 1, frame.position 0 * frame.position 2],
                  ![frame.position 0 * frame.position 1,
                    -(frame.position 0 * frame.position 0 + frame.position 2 * frame.position 2),
                    frame.position 1 * frame.position 2],
                  ![frame.position 0 * frame.position 2, frame.position 1 * frame.position 2,
                    -(frame.position 0 * frame.position 0
                      + frame.position 1 * frame.position 1)]] ∧
    (I.IsSymm → (getTransformedInertiaAroundCenterOfMass I m frame).IsSymm) := by
  refine ⟨rfl, rfl, skewSymmetricSquared_apply _, ?_⟩
  intro hI
  have h1 : (frame.rotation * I * frame.rotation.transpose).IsSymm := by
    unfold Matrix.IsSymm
    rw [Matrix.transpose_mul, Matrix.transpose_mul, Matrix.transpose_transpose, hI.eq,
      Matrix.mul_assoc]
  exact h1.sub ((skewSymmetricSquared_isSymm _).smul m)

/-- C26. The composed inertia around a common centre of mass, the sum of the transformed
inertias of the attached parts, is the same for every permutation of the list of parts. -/
theorem composedInertia_perm {K : Type} [CommRing K] (totalCenterOfMass : Vec3 K)
    (parts parts' : List (InertiaPart K)) (h : parts.Perm parts') :
    composedInertia totalCenterOfMass parts = composedInertia totalCenterOfMass parts' :=
  (h.map _).sum_eq

/-- Witness for C26: two attached parts in either order. -/
theorem composedInertia_perm_witness :
    [exampleInertiaPartA, exampleInertiaPartB].Perm [exampleInertiaPartB, exampleInertiaPartA] ∧
    composedInertia ![1, 1, 1] [exampleInertiaPartA, exampleInertiaPartB] =
      composedInertia ![1, 1, 1] [exampleInertiaPartB, exampleInertiaPartA] :=
  ⟨List.Perm.swap _ _ _, composedInertia_perm ![1, 1, 1] _ _ (List.Perm.swap _ _ _)⟩

end P3D

/-! ## The find constructor -/

namespace P3D

open TreeNode

theorem findLoop_skip (obj : Nat) (ob : Bounds) (fuel : Nat) (top : TreeStackElement)
    (below : List TreeStackElement) (c : TreeNode)
    (hc : top.node.children[top.index]? = some c)
    (hskip : c.bounds.contains ob = false ∨ ∃ o b g, c = leaf o b g ∧ o ≠ obj) :
    findLoop obj ob (fuel + 1) top below
      = findLoop obj ob fuel ⟨top.node, top.index + 1⟩ below := by
  have hlt : top.index < top.node.children.length := (List.getElem?_eq_some_iff.1 hc).1
  simp only [findLoop, hc, if_pos (Nat.ne_of_lt hlt)]
  rcases hskip with h | ⟨o, b, g, rfl, hne⟩
  · simp [h]
  · split
    · simp [hne]
    · rfl

theorem findLoop_push (obj : Nat) (ob : Bounds) (fuel : Nat) (top : TreeStackElement)
    (below : List TreeStackElement) (cs : List TreeNode) (b : Bounds) (g : Bool)
    (hc : top.node.children[top.index]? = some (node cs b g))
    (hcont : b.contains ob = true) :
    findLoop obj ob (fuel + 1) top below
      = findLoop obj ob fuel ⟨node cs b g, 0⟩ (top :: below) := by
  have hlt : top.index < top.node.children.length := (List.getElem?_eq_some_iff.1 hc).1
  simp [findLoop, hc, Nat.ne_of_lt hlt, TreeNode.bounds, hcont]

theorem findLoop_found (obj : Nat) (ob : Bounds) (fuel : Nat) (top : TreeStackElement)
    (below : List TreeStackElement) (b : Bounds) (g : Bool)
    (hc : top.node.children[top.index]? = some (leaf obj b g))
    (hcont : b.contains ob = true) :
    findLoop obj ob (fuel + 1) top below
      = some (FindResult.found ((⟨leaf obj b g, 0⟩ :: top :: below).reverse)) := by
  have hlt : top.index < top.node.children.length := (List.getElem?_eq_some_iff.1 hc).1
  simp [findLoop, hc, Nat.ne_of_lt hlt, TreeNode.bounds, hcont]

theorem findLoop_pop (obj : Nat) (ob : Bounds) (fuel : Nat) (top parent : TreeStackElement)
    (rest : List TreeStackElement) (h : top.index = top.node.children.length) :
    findLoop obj ob (fuel + 1) top (parent :: rest)
      = findLoop obj ob fuel ⟨parent.node, parent.index + 1⟩ rest := by
  simp [findLoop, h]

theorem findLoop_end (obj : Nat) (ob : Bounds) (fuel : Nat) (top : TreeStackElement)
    (h : top.index = top.node.children.length) :
    findLoop obj ob (fuel + 1) top [] = some FindResult.thrown := by
  simp [findLoop, h]

theorem Explored.after {obj : Nat} {ob : Bounds} {pre rem : List TreeNode} {c : TreeNode}
    {b : Bounds} {g : Bool} {below : List TreeStackElement} {n k : Nat}
    (hstep : ∀ fuel, findLoop obj ob (fuel + k) ⟨node (pre ++ c :: rem) b g, pre.length⟩ below
      = findLoop obj ob fuel ⟨node (pre ++ c :: rem) b g, pre.length + 1⟩ below)
    (hc : holdsWithin obj ob c = false)
    (h : Explored obj ob (pre ++ [c]) rem b g below n) :
    Explored obj ob pre (c :: rem) b g below (n + k) := by
  unfold Explored at h ⊢
  simp only [List.append_assoc, List.singleton_append, List.length_append,
    List.length_singleton] at h
  rcases h with ⟨hh, stk, j, lb, lg, hrun, hchain⟩ | ⟨hh, hrun⟩
  · left
    refine ⟨by simp [holdsWithinList, hh], stk, j, lb, lg, ?_, hchain⟩
    intro fuel
    rw [← Nat.add_assoc, hstep (fuel + n)]
    exact hrun fuel
  · right
    refine ⟨by simp [holdsWithinList, hh, hc], ?_⟩
    intro fuel
    rw [← Nat.add_assoc, hstep (fuel + n)]
    simpa using hrun fuel

/-- The loop explores the children of a node depth first: within two iterations per node
below them it has found a leaf holding the object or has visited all of them. -/
theorem explore_list (obj : Nat) (ob : Bounds) :
    ∀ (rem pre : List TreeNode) (b : Bounds) (g : Bool) (below : List TreeStackElement),
      ∃ n, n ≤ 2 * (subNodesList rem).length ∧ Explored obj ob pre rem b g below n
  | [], pre, b, g, below => by
    refine ⟨0, Nat.zero_le _, Or.inr ⟨rfl, ?_⟩⟩
    intro fuel
    simp
  | leaf o lb lg :: rem, pre, b, g, below => by
    obtain ⟨n, hn, hex⟩ := explore_list obj ob rem (pre ++ [leaf o lb lg]) b g below
    have hchild : (node (pre ++ leaf o lb lg :: rem) b g).children[pre.length]?
        = some (leaf o lb lg) := by
      simp only [children]
      rw [List.getElem?_append_right (Nat.le_refl _)]
      simp
    have hlen : (subNodesList (leaf o lb lg :: rem)).length
        = 1 + (subNodesList rem).length := by
      simp only [subNodesList, subNodes, List.length_append, List.length_cons, List.length_nil]
      try omega
    by_cases hcont : lb.contains ob = true ∧ o = obj
    · obtain ⟨hcont, rfl⟩ := hcont
      refine ⟨1, by omega, Or.inl ⟨by simp [holdsWithinList, holdsWithin, hcont],
        [], pre.length, lb, lg, ?_, ?_⟩⟩
      · intro fuel
        exact findLoop_found o ob fuel _ below lb lg hchild hcont
      · show List.Chain' _ [_, _]
        rw [List.chain'_pair]
        exact hchild
    · refine ⟨n + 1, by omega, Explored.after ?_ ?_ hex⟩
      · intro fuel
        refine findLoop_skip obj ob fuel _ below _ hchild ?_
        by_cases h1 : lb.contains ob = true
        · exact Or.inr ⟨o, lb, lg, rfl, fun h => hcont ⟨h1, h⟩⟩
        · exact Or.inl (by simpa [TreeNode.bounds] using h1)
      · simp only [holdsWithin, Bool.and_eq_false_imp, decide_eq_false_iff_not]
        exact fun h1 h2 => hcont ⟨h1, h2⟩
  | node cs cb cg :: rem, pre, b, g, below => by
    obtain ⟨n, hn, hex⟩ := explore_list obj ob rem (pre ++ [node cs cb cg]) b g below
    have hchild : (node (pre ++ node cs cb cg :: rem) b g).children[pre.length]?
        = some (node cs cb cg) := by
      simp only [children]
      rw [List.getElem?_append_right (Nat.le_refl _)]
      simp
    have hlen : (subNodesList (node cs cb cg :: rem)).length
        = 1 + (subNodesList cs).length + (subNodesList rem).length := by
      simp only [subNodesList, subNodes, List.length_append, List.length_cons]
      omega
    by_cases hcont : cb.contains ob = true
    · obtain ⟨n1, hn1, hex1⟩ := explore_list obj ob cs [] cb cg
        (⟨node (pre ++ node cs cb cg :: rem) b g, pre.length⟩ :: below)
      unfold Explored at hex1
      simp only [List.nil_append, List.length_nil] at hex1
      rcases hex1 with ⟨hh, stk, j, lb, lg, hrun, hchain⟩ | ⟨hh, hrun⟩
      · refine ⟨n1 + 1, by omega, Or.inl ⟨by simp [holdsWithinList, holdsWithin, hcont, hh],
          stk ++ [⟨node cs cb cg, j⟩], pre.length, lb, lg, ?_, ?_⟩⟩
        · intro fuel
          rw [← Nat.add_assoc, findLoop_push obj ob (fuel + n1) _ below cs cb cg hchild hcont,
            hrun fuel]
          simp
        · have hcons : (⟨leaf obj lb lg, 0⟩ :: (stk ++ [⟨node cs cb cg, j⟩]) ++
              [⟨node (pre ++ node cs cb cg :: rem) b g, pre.length⟩] :
              List TreeStackElement)
              = (⟨leaf obj lb lg, 0⟩ :: stk ++ [⟨node cs cb cg, j⟩]) ++
                [⟨node (pre ++ node cs cb cg :: rem) b g, pre.length⟩] := by
            simp
          rw [hcons, List.chain'_append]
          refine ⟨hchain, List.chain'_singleton _, ?_⟩
          intro x hx y hy
          simp only [List.head?_cons, Option.mem_def, Option.some.injEq] at hy
          have hx' : x = ⟨node cs cb cg, j⟩ := by
            rw [Option.mem_def, List.getLast?_concat] at hx
            exact (Option.some.inj hx).symm
          rw [hx', ← hy]
          exact hchild
      · refine ⟨n + (n1 + 2), by omega, Explored.after ?_ ?_ hex⟩
        · intro fuel
          have e : fuel + (n1 + 2) = (fuel + 1 + n1) + 1 := by omega
          rw [e, findLoop_push obj ob (fuel + 1 + n1) _ below cs cb cg hchild hcont,
            hrun (fuel + 1), findLoop_pop obj ob fuel _ _ below (by simp [children])]
        · simp [holdsWithin, hh]
    · refine ⟨n + 1, by omega, Explored.after ?_ ?_ hex⟩
      · intro fuel
        exact findLoop_skip obj ob fuel _ below _ hchild
          (Or.inl (by simpa [TreeNode.bounds] using hcont))
      · simp only [holdsWithin, Bool.and_eq_false_imp]
        exact fun h => absurd h hcont

mutual
theorem mem_leafObjects_of_holdsWithin (obj : Nat) (ob : Bounds) (t : TreeNode)
    (h : holdsWithin obj ob t = true) : obj ∈ leafObjects t := by
  match t with
  | leaf o b g =>
    simp only [holdsWithin, Bool.and_eq_true, decide_eq_true_eq] at h
    simp [leafObjects, h.2]
  | node cs b g =>
    simp only [holdsWithin, Bool.and_eq_true] at h
    simp only [leafObjects]
    exact mem_leafObjectsList_of_holdsWithinList obj ob cs h.2
theorem mem_leafObjectsList_of_holdsWithinList (obj : Nat) (ob : Bounds) (cs : List TreeNode)
    (h : holdsWithinList obj ob cs = true) : obj ∈ leafObjectsList cs := by
  match cs with
  | [] => simp [holdsWithinList] at h
  | c :: cs =>
    simp only [holdsWithinList, Bool.or_eq_true] at h
    simp only [leafObjectsList, List.mem_append]
    rcases h with h | h
    · exact Or.inl (mem_leafObjects_of_holdsWithin obj ob c h)
    · exact Or.inr (mem_leafObjectsList_of_holdsWithinList obj ob cs h)
end

theorem holdsWithinList_of_mem (obj : Nat) (ob : Bounds) (cs : List TreeNode) (c : TreeNode)
    (hc : c ∈ cs) (h : holdsWithin obj ob c = true) : holdsWithinList obj ob cs = true := by
  induction cs with
  | nil => cases hc
  | cons x xs ih =>
    simp only [holdsWithinList, Bool.or_eq_true]
    rcases List.mem_cons.1 hc with hc | hc
    · left
      rw [← hc]
      exact h
    · exact Or.inr (ih hc)

/-- A leaf holding the object at the end of a path all of whose nodes, the first included,
have bounds that contain `objBounds` is held within the subtree. -/
theorem holdsWithin_of_path (obj : Nat) (ob : Bounds) (lb : Bounds) (lg : Bool)
    (path : List Nat) :
    ∀ t : TreeNode, t.nodeAt path = some (leaf obj lb lg) → t.bounds.contains ob = true →
      (∀ k, k < path.length →
        (t.nodeAt (path.take (k + 1))).map (fun n => n.bounds.contains ob) = some true) →
      holdsWithin obj ob t = true := by
  induction path with
  | nil =>
    intro t ht hself _
    simp only [nodeAt, Option.some.injEq] at ht
    subst ht
    simpa [holdsWithin, TreeNode.bounds] using hself
  | cons i is ih =>
    intro t ht hself hc
    cases t with
    | leaf o b g => simp [nodeAt] at ht
    | node cs b g =>
      simp only [nodeAt] at ht
      cases hch : cs[i]? with
      | none => simp [hch] at ht
      | some ch =>
        simp only [hch] at ht
        have h0 := hc 0 (by simp)
        simp only [List.take_succ_cons, List.take_zero, nodeAt, hch, Option.map_some',
          Option.some.injEq, Nat.zero_add] at h0
        have hih := ih ch ht h0 (by
          intro k hk
          have := hc (k + 1) (by simpa using hk)
          simpa only [List.take_succ_cons, nodeAt, hch] using this)
        simp only [holdsWithin, Bool.and_eq_true]
        exact ⟨by simpa [TreeNode.bounds] using hself,
          holdsWithinList_of_mem obj ob cs ch (List.getElem?_mem hch) hih⟩

/-- The two ways the find constructor ends on a root with children: with a cursor to a leaf
holding the object, when one is held within containing bounds below the root, and by
throwing otherwise; more fuel does not change the result. -/
theorem find_cases (obj : Nat) (ob : Bounds) (c : TreeNode) (cs : List TreeNode) (b : Bounds)
    (g : Bool) :
    ((holdsWithinList obj ob (c :: cs) = true ∧
        ∃ stack, NodeStack.find (node (c :: cs) b g) obj ob = some (FindResult.found stack) ∧
          IsCursorTo (node (c :: cs) b g) obj stack) ∨
      (holdsWithinList obj ob (c :: cs) = false ∧
        NodeStack.find (node (c :: cs) b g) obj ob = some FindResult.thrown)) ∧
    ∀ extra, findLoop obj ob (2 * (subNodesList (c :: cs)).length + 1 + extra)
        ⟨node (c :: cs) b g, 0⟩ [] = NodeStack.find (node (c :: cs) b g) obj ob := by
  obtain ⟨n, hn, hex⟩ := explore_list obj ob (c :: cs) [] b g []
  unfold Explored at hex
  simp only [List.nil_append, List.length_nil] at hex
  have hfuel : ∀ extra, 2 * (subNodesList (c :: cs)).length + 1 + extra
      = (2 * (subNodesList (c :: cs)).length - n + extra + 1) + n := by
    intro extra
    omega
  rcases hex with ⟨hh, stk, j, lb, lg, hrun, hchain⟩ | ⟨hh, hrun⟩
  · have hfind : NodeStack.find (node (c :: cs) b g) obj ob = some (FindResult.found
        (((⟨leaf obj lb lg, 0⟩ : TreeStackElement) :: stk ++
          [(⟨node (c :: cs) b g, j⟩ : TreeStackElement)]).reverse)) := by
      simp only [NodeStack.find]
      rw [hfuel 0, hrun]
    refine ⟨Or.inl ⟨hh, _, hfind, ?_, ?_, ?_⟩, ?_⟩
    · exact ⟨j, by simp⟩
    · rw [List.chain'_reverse]
      exact hchain
    · refine ⟨lb, lg, ?_⟩
      rw [List.getLast?_reverse]
      rfl
    · intro extra
      rw [hfind, hfuel extra, hrun]
  · have hfind : NodeStack.find (node (c :: cs) b g) obj ob = some FindResult.thrown := by
      simp only [NodeStack.find]
      rw [hfuel 0, hrun]
      exact findLoop_end obj ob _ _ (by simp [children])
    refine ⟨Or.inr ⟨hh, hfind⟩, ?_⟩
    intro extra
    rw [hfind, hfuel extra, hrun]
    exact findLoop_end obj ob _ _ (by simp [children])

/-- C21. The find constructor ends on every tree, every object and every query bounds: the
loop is given two iterations per node of the tree and one more, it returns or throws within
them, and more iterations do not change the result. It throws whenever no leaf of the tree
holds the object, in particular on a root without children. -/
theorem find_ends_and_throws_when_absent (rootNode : TreeNode) (objToFind : Nat)
    (objBounds : Bounds) :
    (∃ r, NodeStack.find rootNode objToFind objBounds = some r) ∧
    (rootNode.isLeafNode = false → ∀ extra,
      findLoop objToFind objBounds (2 * (subNodesList rootNode.children).length + 1 + extra)
        ⟨rootNode, 0⟩ [] = NodeStack.find rootNode objToFind objBounds) ∧
    (objToFind ∉ rootNode.leafObjects →
      NodeStack.find rootNode objToFind objBounds = some FindResult.thrown) ∧
    (rootNode.isLeafNode = false → rootNode.children = [] →
      NodeStack.find rootNode objToFind objBounds = some FindResult.thrown) := by
  cases rootNode with
  | leaf o b g =>
    refine ⟨?_, ?_, ?_, ?_⟩
    · simp only [NodeStack.find]
      split
      · exact ⟨_, rfl⟩
      · exact ⟨_, rfl⟩
    · intro h
      simp [isLeafNode] at h
    · intro hno
      have hne : o ≠ objToFind := by
        intro h
        exact hno (by simp [leafObjects, h])
      simp [NodeStack.find, hne]
    · intro h
      simp [isLeafNode] at h
  | node cs b g =>
    cases cs with
    | nil =>
      refine ⟨⟨_, rfl⟩, ?_, fun _ => rfl, fun _ _ => rfl⟩
      intro _ extra
      simp only [children, subNodesList, List.length_nil, Nat.mul_zero, Nat.zero_add,
        NodeStack.find]
      rw [Nat.add_comm]
      exact findLoop_end objToFind objBounds _ _ (by simp [children])
    | cons c cs =>
      obtain ⟨hcases, hmore⟩ := find_cases objToFind objBounds c cs b g
      refine ⟨?_, fun _ => hmore, ?_, ?_⟩
      · rcases hcases with ⟨_, stack, hf, _⟩ | ⟨_, hf⟩
        · exact ⟨_, hf⟩
        · exact ⟨_, hf⟩
      · intro hno
        rcases hcases with ⟨hh, _⟩ | ⟨_, hf⟩
        · exact absurd (mem_leafObjectsList_of_holdsWithinList objToFind objBounds _ hh)
            (by simpa [leafObjects] using hno)
        · exact hf
      · intro _ hnil
        simp [children] at hnil

/-- C22. When some leaf of the tree holds the object and every node on the path from a child
of the root down to that leaf has cached bounds that contain the query bounds, the find
constructor returns a cursor: a stack whose first element is the root, in which the node of
each later element is the child, at the index of the element before it, of that element's
node, and whose top element is a leaf holding the object. -/
theorem find_returns_cursor (rootNode : TreeNode) (objToFind : Nat) (objBounds : Bounds)
    (path : List Nat) (leafBounds : Bounds) (leafFlag : Bool)
    (hleaf : rootNode.nodeAt path = some (leaf objToFind leafBounds leafFlag))
    (hcontains : ∀ k, k < path.length →
      (rootNode.nodeAt (path.take (k + 1))).map (fun n => n.bounds.contains objBounds)
        = some true) :
    ∃ stack, NodeStack.find rootNode objToFind objBounds = some (FindResult.found stack) ∧
      IsCursorTo rootNode objToFind stack := by
  cases rootNode with
  | leaf o b g =>
    cases path with
    | cons i is => simp [nodeAt] at hleaf
    | nil =>
      simp only [nodeAt, Option.some.injEq, leaf.injEq] at hleaf
      obtain ⟨rfl, rfl, rfl⟩ := hleaf
      refine ⟨[⟨leaf o b g, 0⟩], by simp [NodeStack.find], ⟨0, rfl⟩, List.chain'_singleton _,
        b, g, rfl⟩
  | node cs b g =>
    cases path with
    | nil => simp [nodeAt] at hleaf
    | cons i is =>
      simp only [nodeAt] at hleaf
      cases hch : cs[i]? with
      | none => simp [hch] at hleaf
      | some ch =>
        simp only [hch] at hleaf
        have h0 := hcontains 0 (by simp)
        simp only [List.take_succ_cons, List.take_zero, nodeAt, hch, Option.map_some',
          Option.some.injEq, Nat.zero_add] at h0
        have hheld := holdsWithin_of_path objToFind objBounds leafBounds leafFlag is ch hleaf h0
          (by
            intro k hk
            have := hcontains (k + 1) (by simpa using hk)
            simpa only [List.take_succ_cons, nodeAt, hch] using this)
        have hlist := holdsWithinList_of_mem objToFind objBounds cs ch
          (List.getElem?_mem hch) hheld
        cases cs with
        | nil => simp at hch
        | cons c cs =>
          rcases (find_cases objToFind objBounds c cs b g).1 with ⟨_, stack, hf, hc⟩ | ⟨hh, _⟩
          · exact ⟨stack, hf, hc⟩
          · rw [hlist] at hh
            cases hh

/-- Witness for C22: object 2 in the tree `[[L1, L2], L3]`, found below the first child of
the root at index 1. -/
theorem find_returns_cursor_witness :
    threeLeafTree.nodeAt [0, 1] = some (leaf 2 (cube 2 3) false) ∧
    (∀ k, k < [0, 1].length →
      (threeLeafTree.nodeAt ([0, 1].take (k + 1))).map (fun n => n.bounds.contains (cube 2 3))
        = some true) ∧
    ∃ stack, NodeStack.find threeLeafTree 2 (cube 2 3) = some (FindResult.found stack) ∧
      IsCursorTo threeLeafTree 2 stack :=
  ⟨rfl, by decide, find_returns_cursor threeLeafTree 2 (cube 2 3) [0, 1] (cube 2 3) false rfl
    (by decide)⟩

end P3D

/-! ## The search for the best arrangement is exhaustive -/

namespace P3D

theorem Splits.symm {l A B : List TreeNode} (h : Splits l A B) : Splits l B A := by
  induction h with
  | nil => exact Splits.nil
  | inA c _ ih => exact Splits.inB c ih
  | inB c _ ih => exact Splits.inA c ih

theorem Splits.left_nil {l B : List TreeNode} (h : Splits l [] B) : B = l := by
  induction l generalizing B with
  | nil =>
    cases h
    rfl
  | cons c l ih =>
    cases h with
    | inB _ h' => rw [ih h']

theorem Splits.right_nil {l A : List TreeNode} (h : Splits l A []) : A = l :=
  h.symm.left_nil

theorem Splits.length {l A B : List TreeNode} (h : Splits l A B) :
    A.length + B.length = l.length := by
  induction h with
  | nil => rfl
  | inA c _ ih => simp only [List.length_cons]; omega
  | inB c _ ih => simp only [List.length_cons]; omega

/-- Every split of a list into two groups, given up to order, is an assignment of the
elements in their order. -/
theorem exists_splits_of_perm (l : List TreeNode) :
    ∀ A B : List TreeNode, (A ++ B).Perm l →
      ∃ A' B', Splits l A' B' ∧ A'.Perm A ∧ B'.Perm B := by
  induction l with
  | nil =>
    intro A B h
    have hnil := h.eq_nil
    rw [List.append_eq_nil] at hnil
    obtain ⟨rfl, rfl⟩ := hnil
    exact ⟨[], [], Splits.nil, List.Perm.refl _, List.Perm.refl _⟩
  | cons c l ih =>
    intro A B h
    have hc : c ∈ A ++ B := h.symm.subset (List.mem_cons_self c l)
    rcases List.mem_append.1 hc with hA | hB
    · obtain ⟨s, t, rfl⟩ := List.mem_iff_append.1 hA
      have h1 : (c :: (s ++ t ++ B)).Perm (c :: l) := by
        refine List.Perm.trans ?_ h
        simp only [List.append_assoc, List.cons_append]
        exact (List.perm_middle).symm
      obtain ⟨A', B', hs, hpa, hpb⟩ := ih (s ++ t) B ((List.perm_cons c).1 h1)
      exact ⟨c :: A', B', Splits.inA c hs,
        ((List.perm_cons c).2 hpa).trans List.perm_middle.symm, hpb⟩
    · obtain ⟨s, t, rfl⟩ := List.mem_iff_append.1 hB
      have h1 : (c :: (A ++ (s ++ t))).Perm (c :: l) := by
        refine List.Perm.trans ?_ h
        rw [← List.append_assoc, ← List.append_assoc]
        exact (List.perm_middle).symm
      obtain ⟨A', B', hs, hpa, hpb⟩ := ih A (s ++ t) ((List.perm_cons c).1 h1)
      exact ⟨A', c :: B', Splits.inB c hs, hpa,
        ((List.perm_cons c).2 hpb).trans List.perm_middle.symm⟩

theorem computeBoundsOfList_perm {a a' : TreeNode} {as as' : List TreeNode}
    (h : (a :: as).Perm (a' :: as')) :
    computeBoundsOfList a as = computeBoundsOfList a' as' := by
  have h1 := isUnionOf_computeBoundsOfList a as
  have h2 := isUnionOf_computeBoundsOfList a' as'
  exact (h1.congr (fun b => (h.map TreeNode.bounds).mem_iff)).unique h2

/-- The cost of an arrangement does not depend on the order within the groups. -/
theorem NodePermutation.cost_perm {A A' B B' : List TreeNode} (hA : A'.Perm A)
    (hB : B'.Perm B) : NodePermutation.cost ⟨A', B'⟩ = NodePermutation.cost ⟨A, B⟩ := by
  cases A with
  | nil =>
    rw [hA.eq_nil]
    simp [NodePermutation.cost]
  | cons a as =>
    cases A' with
    | nil => exact absurd hA.symm.eq_nil (List.cons_ne_nil _ _)
    | cons a' as' =>
      cases B with
      | nil =>
        rw [hB.eq_nil]
        simp [NodePermutation.cost]
      | cons b bs =>
        cases B' with
        | nil => exact absurd hB.symm.eq_nil (List.cons_ne_nil _ _)
        | cons b' bs' =>
          simp only [NodePermutation.cost]
          rw [computeBoundsOfList_perm hA, computeBoundsOfList_perm hB]

/-- A property of the search state that every update keeps is kept by the recursion. -/
theorem inv_recursiveFindBestCombination (P : BestSoFar → Prop)
    (hP : ∀ best current, P best → P (updateBestPermutationIfNeeded best current))
    (candidates : List TreeNode) :
    ∀ (best : BestSoFar) (current : NodePermutation), P best →
      P (recursiveFindBestCombination best current candidates) := by
  induction candidates with
  | nil =>
    intro best current hb
    simp only [recursiveFindBestCombination]
    exact hP _ _ hb
  | cons c cs ih =>
    intro best current hb
    simp only [recursiveFindBestCombination]
    have h1 : P (if NodePermutation.countA ⟨current.permutationA ++ [c], current.permutationB⟩ =
            MAX_BRANCHES then
          updateBestPermutationIfNeeded best
            ⟨current.permutationA ++ [c], current.permutationB ++ cs⟩
        else recursiveFindBestCombination best
            ⟨current.permutationA ++ [c], current.permutationB⟩ cs) := by
      split
      · exact hP _ _ hb
      · exact ih _ _ hb
    split
    · exact hP _ _ h1
    · exact ih _ _ h1

/-- A property of the search state that every update keeps is kept by the loop. -/
theorem inv_findBestLoop (P : BestSoFar → Prop)
    (hP : ∀ best current, P best → P (updateBestPermutationIfNeeded best current))
    (allNodes : List TreeNode) (fuel : Nat) :
    ∀ (i : Nat) (best : BestSoFar), P best → P (findBestLoop allNodes fuel i best) := by
  induction fuel with
  | zero =>
    intro i best hb
    exact hb
  | succ fuel ih =>
    intro i best hb
    simp only [findBestLoop]
    split
    · exact hb
    · split
      · exact hP _ _ hb
      · exact ih _ _ (inv_recursiveFindBestCombination P hP _ _ _ hb)

theorem bestCost_update_le (best : BestSoFar) (current : NodePermutation) :
    (updateBestPermutationIfNeeded best current).bestCost ≤ best.bestCost ∧
    ∀ c, current.cost = some c → (updateBestPermutationIfNeeded best current).bestCost ≤ c := by
  unfold updateBestPermutationIfNeeded
  cases hc : current.cost with
  | none => exact ⟨le_refl _, fun c h => by cases h⟩
  | some c0 =>
    simp only []
    split
    · rename_i hlt
      refine ⟨le_of_lt hlt, ?_⟩
      intro c h
      cases h
      exact le_refl _
    · rename_i hlt
      refine ⟨le_refl _, ?_⟩
      intro c h
      cases h
      exact not_lt.1 hlt

theorem bestCost_recursiveFindBestCombination_le (best : BestSoFar) (current : NodePermutation)
    (candidates : List TreeNode) :
    (recursiveFindBestCombination best current candidates).bestCost ≤ best.bestCost :=
  inv_recursiveFindBestCombination (fun b => b.bestCost ≤ best.bestCost)
    (fun b cur hb => le_trans (bestCost_update_le b cur).1 hb) candidates best current
    (le_refl _)

theorem bestCost_findBestLoop_le (allNodes : List TreeNode) (fuel i : Nat) (best : BestSoFar) :
    (findBestLoop allNodes fuel i best).bestCost ≤ best.bestCost :=
  inv_findBestLoop (fun b => b.bestCost ≤ best.bestCost)
    (fun b cur hb => le_trans (bestCost_update_le b cur).1 hb) allNodes fuel i best (le_refl _)

theorem recursiveFindBestCombination_cons (best : BestSoFar) (current : NodePermutation)
    (c : TreeNode) (cs : List TreeNode) :
    ∃ best1,
      best1 = (if current.permutationA.length + 1 = MAX_BRANCHES then
          updateBestPermutationIfNeeded best
            ⟨current.permutationA ++ [c], current.permutationB ++ cs⟩
        else recursiveFindBestCombination best
            ⟨current.permutationA ++ [c], current.permutationB⟩ cs) ∧
      recursiveFindBestCombination best current (c :: cs) =
        (if current.permutationB.length + 1 = MAX_BRANCHES then
          updateBestPermutationIfNeeded best1
            ⟨current.permutationA ++ cs, current.permutationB ++ [c]⟩
        else recursiveFindBestCombination best1
            ⟨current.permutationA, current.permutationB ++ [c]⟩ cs) := by
  refine ⟨_, rfl, ?_⟩
  simp only [recursiveFindBestCombination, NodePermutation.countA, NodePermutation.countB,
    List.length_append, List.length_singleton]

/-- The recursion tries every assignment of the remaining candidates that keeps both groups
within `MAX_BRANCHES`: the best cost it returns is at most the cost of each of them. -/
theorem complete_recursiveFindBestCombination (candidates : List TreeNode) :
    ∀ (best : BestSoFar) (current : NodePermutation) (A2 B2 : List TreeNode),
      Splits candidates A2 B2 →
      current.permutationA.length < MAX_BRANCHES →
      current.permutationB.length < MAX_BRANCHES →
      (current.permutationA ++ A2).length ≤ MAX_BRANCHES →
      (current.permutationB ++ B2).length ≤ MAX_BRANCHES →
      ∀ c, NodePermutation.cost ⟨current.permutationA ++ A2, current.permutationB ++ B2⟩
          = some c →
        (recursiveFindBestCombination best current candidates).bestCost ≤ c := by
  induction candidates with
  | nil =>
    intro best current A2 B2 hs _ _ _ _ c hc
    cases hs
    simp only [List.append_nil] at hc
    simp only [recursiveFindBestCombination]
    exact (bestCost_update_le best current).2 c hc
  | cons c0 cs ih =>
    intro best current A2 B2 hs hA hB hlA hlB c hc
    obtain ⟨best1, hb1, hr⟩ := recursiveFindBestCombination_cons best current c0 cs
    rw [hr]
    cases hs with
    | inA _ hs' =>
      rename_i A2'
      have h1 : best1.bestCost ≤ c := by
        rw [hb1]
        split
        · rename_i hfull
          have hnil : A2' = [] := by
            simp only [List.length_append, List.length_cons] at hlA
            exact List.length_eq_zero.1 (by omega)
          subst hnil
          rw [hs'.left_nil] at hc
          exact (bestCost_update_le _ _).2 c hc
        · rename_i hfull
          refine ih best ⟨current.permutationA ++ [c0], current.permutationB⟩ A2' B2 hs'
            ?_ hB ?_ hlB c ?_
          · simp only [List.length_append, List.length_singleton]
            omega
          · simpa using hlA
          · simpa using hc
      split
      · exact le_trans (bestCost_update_le _ _).1 h1
      · exact le_trans (bestCost_recursiveFindBestCombination_le _ _ _) h1
    | inB _ hs' =>
      rename_i B2'
      split
      · rename_i hfull
        have hnil : B2' = [] := by
          simp only [List.length_append, List.length_cons] at hlB
          exact List.length_eq_zero.1 (by omega)
        subst hnil
        rw [hs'.right_nil] at hc
        exact (bestCost_update_le _ _).2 c hc
      · rename_i hfull
        refine ih best1 ⟨current.permutationA, current.permutationB ++ [c0]⟩ A2 B2' hs'
          hA ?_ hlA ?_ c ?_
        · simp only [List.length_append, List.length_singleton]
          omega
        · simpa using hlB
        · simpa using hc

/-- The loop of `findBestPermutation` tries every assignment in which group A starts with the
candidates up to index `i` and keeps both groups within `MAX_BRANCHES`. -/
theorem complete_findBestLoop (allNodes : List TreeNode) (fuel : Nat) :
    ∀ (i : Nat) (best : BestSoFar) (A2 B2 : List TreeNode),
      allNodes.length ≤ i + 1 + fuel →
      Splits (allNodes.drop (i + 1)) A2 B2 → B2 ≠ [] →
      (allNodes.take (i + 1) ++ A2).length ≤ MAX_BRANCHES →
      B2.length ≤ MAX_BRANCHES →
      ∀ c, NodePermutation.cost ⟨allNodes.take (i + 1) ++ A2, B2⟩ = some c →
        (findBestLoop allNodes fuel i best).bestCost ≤ c := by
  induction fuel with
  | zero =>
    intro i best A2 B2 hlen hs hB _ _ c _
    rw [List.drop_eq_nil_of_le (by omega)] at hs
    cases hs
    exact absurd rfl hB
  | succ fuel ih =>
    intro i best A2 B2 hlen hs hB hlA hlB c hc
    simp only [findBestLoop]
    cases hd : allNodes.drop (i + 1) with
    | nil =>
      rw [hd] at hs
      cases hs
      exact absurd rfl hB
    | cons b candidates =>
      simp only []
      rw [hd] at hs
      have hlt : i + 1 < allNodes.length := by
        by_contra hcon
        rw [List.drop_eq_nil_of_le (by omega)] at hd
        cases hd
      have htake : (allNodes.take (i + 1)).length = i + 1 := by
        rw [List.length_take]
        omega
      cases hs with
      | inB _ hs' =>
        rename_i B2'
        split
        · rename_i hfull
          simp only [NodePermutation.countA, htake] at hfull
          have hnil : A2 = [] := by
            simp only [List.length_append, htake] at hlA
            exact List.length_eq_zero.1 (by omega)
          subst hnil
          have hrest : allNodes.drop (MAX_BRANCHES + 1) = candidates := by
            rw [← hfull, ← List.drop_drop 1 (i + 1), hd]
            rfl
          rw [hs'.left_nil] at hc
          refine (bestCost_update_le _ _).2 c ?_
          simpa [hrest] using hc
        · rename_i hfull
          simp only [NodePermutation.countA, htake] at hfull
          refine le_trans (bestCost_findBestLoop_le _ _ _ _) ?_
          refine complete_recursiveFindBestCombination candidates best
            ⟨allNodes.take (i + 1), [b]⟩ A2 B2' hs' ?_ ?_ hlA ?_ c ?_
          · simp only [List.length_append, htake] at hlA
            simp only [htake]
            omega
          · simp [MAX_BRANCHES]
          · simpa using hlB
          · simpa using hc
      | inA _ hs' =>
        rename_i A2'
        have hlA' : i + 1 + (A2'.length + 1) ≤ MAX_BRANCHES := by
          simpa only [List.length_append, htake, List.length_cons] using hlA
        have hb : allNodes[i + 1]? = some b := by
          have := congrArg (fun l => l[0]?) hd
          simpa using this
        have hnext : allNodes.drop (i + 1 + 1) = candidates := by
          rw [← List.drop_drop 1 (i + 1), hd]
          rfl
        have htk : allNodes.take (i + 1 + 1) = allNodes.take (i + 1) ++ [b] := by
          rw [List.take_succ, hb]
          rfl
        rw [if_neg (by simp only [NodePermutation.countA, htake]; omega)]
        refine ih (i + 1) _ A2' B2 (by omega) (by rw [hnext]; exact hs') hB ?_ hlB c ?_
        · rw [htk]
          simpa using hlA
        · rw [htk]
          simpa using hc

/-- The best cost found by `findBestPermutation` is at most the cost of every split of the
candidates into two non-empty groups of at most `MAX_BRANCHES` nodes. -/
theorem complete_findBestPermutation (allNodes : List TreeNode) (c0 : Int)
    (p : NodePermutation) (hp : p.IsSplitOf allNodes) (hfit : p.Fits) (c : Int)
    (hc : p.cost = some c) :
    (findBestLoop allNodes (allNodes.length - 1) 0 ⟨c0, ⟨[], []⟩⟩).bestCost ≤ c := by
  obtain ⟨hA, hB, hperm⟩ := hp
  obtain ⟨A', B', hs, hpa, hpb⟩ :=
    exists_splits_of_perm allNodes p.permutationA p.permutationB hperm
  have hcost : NodePermutation.cost ⟨A', B'⟩ = some c := by
    rw [NodePermutation.cost_perm hpa hpb]
    exact hc
  have hlA : A'.length ≤ MAX_BRANCHES := by
    rw [hpa.length_eq]
    exact hfit.1
  have hlB : B'.length ≤ MAX_BRANCHES := by
    rw [hpb.length_eq]
    exact hfit.2
  have hA' : A' ≠ [] := fun h => hA (by rw [h] at hpa; exact hpa.symm.eq_nil)
  have hB' : B' ≠ [] := fun h => hB (by rw [h] at hpb; exact hpb.symm.eq_nil)
  cases hs with
  | nil => exact absurd rfl hA'
  | inA n0 hs' =>
    rename_i rest A1
    refine complete_findBestLoop (n0 :: rest) _ 0 _ A1 B'
      (by simp only [List.length_cons]; omega) hs' hB' ?_ hlB c ?_
    · simpa using hlA
    · simpa using hcost
  | inB n0 hs' =>
    rename_i rest B1
    refine complete_findBestLoop (n0 :: rest) _ 0 _ B1 A'
      (by simp only [List.length_cons]; omega) hs'.symm hA' ?_ hlA c ?_
    · simpa using hlB
    · have := NodePermutation.cost_swap ⟨A', n0 :: B1⟩
      rw [hcost] at this
      simpa [NodePermutation.swap] using this

/-- As long as no arrangement has been recorded, the best cost is the initial cost. -/
theorem fresh_findBestLoop (allNodes : List TreeNode) (c0 : Int) (fuel i : Nat) :
    (findBestLoop allNodes fuel i ⟨c0, ⟨[], []⟩⟩).bestPermutation.permutationA = [] →
      (findBestLoop allNodes fuel i ⟨c0, ⟨[], []⟩⟩).bestCost = c0 := by
  refine inv_findBestLoop (fun b => b.bestPermutation.permutationA = [] → b.bestCost = c0)
    ?_ allNodes fuel i ⟨c0, ⟨[], []⟩⟩ (fun _ => rfl)
  intro best current hb
  unfold updateBestPermutationIfNeeded
  cases hc : current.cost with
  | none => exact hb
  | some c =>
    simp only []
    split
    · intro hnil
      obtain ⟨A, B⟩ := current
      simp only at hnil
      subst hnil
      simp [NodePermutation.cost] at hc
    · exact hb

theorem length_nodesToList_le_of_children (first second : TreeNode)
    (hfirst : first.children.length ≤ MAX_BRANCHES)
    (hsecond : second.children.length ≤ MAX_BRANCHES) :
    (nodesToList first second).length ≤ 2 * MAX_BRANCHES := by
  have h : ∀ t : TreeNode, t.children.length ≤ MAX_BRANCHES →
      (if t.isLeafNode then [t] else t.children).length ≤ MAX_BRANCHES := by
    intro t ht
    cases t with
    | leaf o b g => simp [TreeNode.isLeafNode, MAX_BRANCHES]
    | node cs b g => simpa [TreeNode.isLeafNode, TreeNode.children] using ht
  have h1 := h first hfirst
  have h2 := h second hsecond
  simp only [nodesToList, List.length_append]
  omega

/-- Two leaves can only be split into the two leaves themselves, at the current cost. -/
theorem cost_of_split_of_leaves (first second : TreeNode) (p : NodePermutation)
    (hp : p.IsSplitOf [first, second]) (c : Int) (hc : p.cost = some c) :
    c = addInt64 (computeCost first.bounds) (computeCost second.bounds) := by
  obtain ⟨A, B⟩ := p
  obtain ⟨hA, hB, hperm⟩ := hp
  simp only at hA hB hperm
  have hlen := hperm.length_eq
  simp only [List.length_append, List.length_cons, List.length_nil] at hlen
  match A, B, hA, hB, hlen, hperm, hc with
  | [a], [b], _, _, _, hperm, hc =>
    simp only [NodePermutation.cost, computeBoundsOfList, List.foldl_nil, Option.some.injEq]
      at hc
    have hsum := (hperm.map (fun t : TreeNode => computeCost t.bounds)).sum_eq
    simp only [List.singleton_append, List.map_cons, List.map_nil, List.sum_cons,
      List.sum_nil, add_zero] at hsum
    rw [← hc]
    simp only [addInt64, hsum]
  | [], _, hA, _, _, _, _ => exact absurd rfl hA
  | _ :: _, [], _, hB, _, _, _ => exact absurd rfl hB
  | _ :: _ :: _, _ :: _, _, _, hlen, _, _ =>
    simp only [List.length_cons] at hlen
    omega
  | [_], _ :: _ :: _, _, _, hlen, _, _ =>
    simp only [List.length_cons] at hlen
    omega

/-- C24. For two nodes with correct cached bounds (the bounds-cache invariant) and at most
`MAX_BRANCHES` children each, let the candidates be the children of each internal node of the
pair and the node itself for a leaf. If some split of the candidates into two non-empty
groups of at most `MAX_BRANCHES` nodes each costs strictly less than
`computeCost(first.bounds) + computeCost(second.bounds)`, then after
`optimizeNodePairHorizontal` that sum is the cost of such a split and at most the cost of
every such split, so it is the minimum; otherwise the pair is unchanged. The sums are the
64-bit sums the code computes. -/
theorem optimizeNodePairHorizontal_reaches_minimum (first second : TreeNode)
    (hfv : first.boundsValid = true) (hsv : second.boundsValid = true)
    (hfirst : first.children.length ≤ MAX_BRANCHES)
    (hsecond : second.children.length ≤ MAX_BRANCHES) :
    ((∃ p : NodePermutation, p.IsSplitOf (nodesToList first second) ∧ p.Fits ∧
        ∃ c, p.cost = some c ∧ c < addInt64 (computeCost first.bounds) (computeCost second.bounds)) →
      (∃ p : NodePermutation, p.IsSplitOf (nodesToList first second) ∧ p.Fits ∧
        p.cost = some (addInt64 (computeCost (optimizeNodePairHorizontal first second).1.bounds)
          (computeCost (optimizeNodePairHorizontal first second).2.bounds))) ∧
      ∀ (p : NodePermutation) (c : Int), p.IsSplitOf (nodesToList first second) → p.Fits →
        p.cost = some c →
        addInt64 (computeCost (optimizeNodePairHorizontal first second).1.bounds)
          (computeCost (optimizeNodePairHorizontal first second).2.bounds) ≤ c) ∧
    ((¬ ∃ p : NodePermutation, p.IsSplitOf (nodesToList first second) ∧ p.Fits ∧
        ∃ c, p.cost = some c ∧ c < addInt64 (computeCost first.bounds) (computeCost second.bounds)) →
      optimizeNodePairHorizontal first second = (first, second)) := by
  have hsound := sound_findBestLoop (nodesToList first second)
    (addInt64 (computeCost first.bounds) (computeCost second.bounds))
    ((nodesToList first second).length - 1) 0
    ⟨addInt64 (computeCost first.bounds) (computeCost second.bounds), ⟨[], []⟩⟩
    ⟨le_refl _, Or.inl rfl⟩
  have hfresh := fresh_findBestLoop (nodesToList first second)
    (addInt64 (computeCost first.bounds) (computeCost second.bounds))
    ((nodesToList first second).length - 1) 0
  have hfit := fits_findBestPermutation (nodesToList first second)
    (addInt64 (computeCost first.bounds) (computeCost second.bounds))
    (length_nodesToList_le_of_children first second hfirst hsecond)
  have hcomplete := complete_findBestPermutation (nodesToList first second)
    (addInt64 (computeCost first.bounds) (computeCost second.bounds))
  have hbp : findBestPermutation (nodesToList first second)
      (addInt64 (computeCost first.bounds) (computeCost second.bounds)) =
      (findBestLoop (nodesToList first second) ((nodesToList first second).length - 1) 0
        ⟨addInt64 (computeCost first.bounds) (computeCost second.bounds), ⟨[], []⟩⟩).bestPermutation := rfl
  rw [hbp] at hfit
  constructor
  · rintro ⟨p, hp, hpf, c, hc, hlt⟩
    have hle := hcomplete p hp hpf c hc
    have hne : (findBestLoop (nodesToList first second)
        ((nodesToList first second).length - 1) 0
        ⟨addInt64 (computeCost first.bounds) (computeCost second.bounds),
          ⟨[], []⟩⟩).bestPermutation.permutationA ≠ [] := by
      intro hnil
      have := hfresh hnil
      omega
    rcases hsound.2 with hnil | ⟨hsplit, hcost, _⟩
    · exact absurd hnil hne
    · have hboth : ¬ (first.isLeafNode && second.isLeafNode) = true := by
        intro hb
        simp only [Bool.and_eq_true] at hb
        have hlist : nodesToList first second = [first, second] := by
          simp [nodesToList, hb.1, hb.2]
        rw [hlist] at hp
        have := cost_of_split_of_leaves first second p hp c hc
        omega
      have hcount : (findBestPermutation (nodesToList first second)
          (addInt64 (computeCost first.bounds) (computeCost second.bounds))).countA ≠ 0 := by
        rw [hbp]
        simpa [NodePermutation.countA] using hne
      have hres : optimizeNodePairHorizontal first second =
          fillNodePairWithPermutation first second
            (findBestLoop (nodesToList first second) ((nodesToList first second).length - 1) 0
              ⟨addInt64 (computeCost first.bounds) (computeCost second.bounds),
                ⟨[], []⟩⟩).bestPermutation := by
        unfold optimizeNodePairHorizontal
        rw [if_neg hboth]
        simp only []
        rw [if_pos hcount, hbp]
      have hall : ∀ c ∈ nodesToList first second, c.boundsValid = true := by
        intro c hc
        rcases List.mem_append.1 hc with hc | hc
        · exact TreeNode.boundsValid_candidates first hfv c hc
        · exact TreeNode.boundsValid_candidates second hsv c hc
      have hnew :=
        (fillNodePairWithPermutation_spec first second _ _ hsplit).2.2.2.2.2 hall _ hcost
      rw [hres, hnew]
      exact ⟨⟨_, hsplit, hfit, hcost⟩, fun q c' hq hqf hqc => hcomplete q hq hqf c' hqc⟩
  · intro hnone
    unfold optimizeNodePairHorizontal
    split
    · rfl
    · simp only []
      rcases hsound.2 with hnil | ⟨hsplit, hcost, hlt⟩
      · rw [if_neg (by rw [hbp]; simp [NodePermutation.countA, hnil])]
      · exact absurd ⟨_, hsplit, hfit, _, hcost, hlt⟩ hnone

/-- Witness for C24: the tall leaf `L` and the flat group `S = [X, Z]`, whose cost 108 drops
to the minimum 103 by regrouping into `[L, X]` and `Z`. -/
theorem optimizeNodePairHorizontal_reaches_minimum_witness :
    tallLeaf.boundsValid = true ∧ flatGroup.boundsValid = true ∧
    tallLeaf.children.length ≤ MAX_BRANCHES ∧ flatGroup.children.length ≤ MAX_BRANCHES ∧
    addInt64 (computeCost tallLeaf.bounds) (computeCost flatGroup.bounds) = 108 ∧
    addInt64 (computeCost (optimizeNodePairHorizontal tallLeaf flatGroup).1.bounds)
      (computeCost (optimizeNodePairHorizontal tallLeaf flatGroup).2.bounds) = 103 ∧
    ∀ (p : NodePermutation) (c : Int), p.IsSplitOf (nodesToList tallLeaf flatGroup) → p.Fits →
      p.cost = some c →
      addInt64 (computeCost (optimizeNodePairHorizontal tallLeaf flatGroup).1.bounds)
        (computeCost (optimizeNodePairHorizontal tallLeaf flatGroup).2.bounds) ≤ c :=
  have hsplit : NodePermutation.IsSplitOf
      ⟨[tallLeaf, TreeNode.leaf 2 ⟨⟨0, 0, 0⟩, ⟨1, 1, 0⟩⟩ false],
        [TreeNode.leaf 3 ⟨⟨5, 0, 0⟩, ⟨6, 1, 0⟩⟩ false]⟩
      (nodesToList tallLeaf flatGroup) :=
    ⟨List.cons_ne_nil _ _, List.cons_ne_nil _ _, List.Perm.refl _⟩
  ⟨by decide, by decide, by decide, by decide, by decide, by decide,
    ((optimizeNodePairHorizontal_reaches_minimum tallLeaf flatGroup (by decide) (by decide)
        (by decide) (by decide)).1
      ⟨_, hsplit, ⟨by decide, by decide⟩, 103, by decide, by decide⟩).2⟩

end P3D

/-! ## Inertia: translations -/

namespace P3D

theorem skewSymmetricSquared_zero {K : Type} [CommRing K] :
    skewSymmetricSquared (0 : Vec3 K) = 0 := by
  rw [skewSymmetricSquared_apply]
  ext i j
  fin_cases i <;> fin_cases j <;> simp [Matrix.vecHead, Matrix.vecTail]

/-- C40. Translations of an inertia tensor compose additively, in exact arithmetic:
translating by `a` around the centre of mass `c` and then by `b` around `c + a` is translating
by `a + b` around `c`; and around the centre of mass `0` the translation by `a` is
`getTranslatedInertiaAroundCenterOfMass` with the offset `a`. -/
theorem getTranslatedInertia_compose {K : Type} [CommRing K] (I : Mat3 K) (m : K)
    (a b c : Vec3 K) :
    getTranslatedInertia (getTranslatedInertia I m a c) m b (c + a)
      = getTranslatedInertia I m (a + b) c ∧
    getTranslatedInertia I m a 0 = getTranslatedInertiaAroundCenterOfMass I m a := by
  constructor
  · simp only [getTranslatedInertia]
    have h1 : b + (c + a) = a + b + c := by abel
    rw [h1, smul_sub, smul_sub, smul_sub]
    abel_nf
  · simp only [getTranslatedInertia, getTranslatedInertiaAroundCenterOfMass, add_zero,
      skewSymmetricSquared_zero, sub_zero]

end P3D

/-! ## Soft links -/

namespace P3D

/-- C39, the claim fails. For every soft link `getRelativePositionOfAttach2` is the position
of `getRelativeOfAttach1`: it is computed from the first attached part and the first
attachment. On the example link, whose attachments are `(1, 0, 0)` and `(0, 2, 0)` on two
parts that are not rotated, it returns `(1, 0, 0)`, while the position of
`getRelativeOfAttach2` is `(0, 2, 0)`. -/
theorem getRelativePositionOfAttach2_reads_first_attachment :
    (∀ (G C V : Type) (localToRelative : G → C → C) (getPosition : C → V)
      (link : SoftLink G C),
      link.getRelativePositionOfAttach2 localToRelative getPosition
        = getPosition (link.getRelativeOfAttach1 localToRelative)) ∧
    exampleSoftLink.getRelativePositionOfAttach2 exampleLocalToRelative CFrame.position
      = ![1, 0, 0] ∧
    (exampleSoftLink.getRelativeOfAttach2 exampleLocalToRelative).position = ![0, 2, 0] ∧
    exampleSoftLink.getRelativePositionOfAttach2 exampleLocalToRelative CFrame.position
      ≠ (exampleSoftLink.getRelativeOfAttach2 exampleLocalToRelative).position := by
  refine ⟨fun _ _ _ _ _ _ => rfl, by decide, by decide, by decide⟩

end P3D

/-! ## Removing the only child -/

namespace P3D

open TreeNode in
/-- C37, the claim fails for a node with one child. `remove(0)` on a node with `nodeCount = 1`
moves the child out and decrements `nodeCount` to 0; the collapse branch needs
`nodeCount == 1`, so the other branch runs `recalculateBoundsFromSubBounds` on a node without
children, which reads `subTrees[0]`, the slot just destroyed: the result is undefined
(`none`). This is what removing the last object of a one-object tree through a cursor does. -/
theorem remove_only_child_recalculates_without_children :
    (∀ (c : TreeNode) (b : Bounds) (g : Bool),
      swapOut [c] 0 c = [] ∧
      (node [] b g).recalculateBoundsFromSubBounds = none ∧
      (node [c] b g).remove 0 = none) ∧
    (ofSubTrees (cubeLeaf 1 0 1) []).remove 0 = none ∧
    NodeStack.remove ⟨ofSubTrees (cubeLeaf 1 0 1) [], [0]⟩ = none := by
  refine ⟨fun c b g => ⟨rfl, rfl, ?_⟩, rfl, rfl⟩
  simp [remove, swapOut, recalculateBoundsFromSubBounds]

end P3D

/-! ## External forces -/

namespace P3D
namespace World

theorem filter_ne_of_not_mem (f : Nat) (l : List Nat) (h : f ∉ l) :
    l.filter (fun x => decide (x ≠ f)) = l := by
  rw [List.filter_eq_self]
  intro x hx
  simpa using fun hxf : x = f => h (hxf ▸ hx)

/-- Where the force occurs once, `std::remove` followed by the single-element `erase` leaves
the other forces in their order. -/
theorem removeExternalForce_of_once (world : WorldPrototype) (f : Nat) (pre post : List Nat)
    (hf : world.externalForces = pre ++ f :: post) (hpre : f ∉ pre) (hpost : f ∉ post) :
    world.removeExternalForce f = some { world with externalForces := pre ++ post } := by
  have hkept : (pre ++ f :: post).filter (fun x => decide (x ≠ f)) = pre ++ post := by
    rw [List.filter_append, List.filter_cons, filter_ne_of_not_mem f pre hpre,
      filter_ne_of_not_mem f post hpost]
    simp
  simp only [WorldPrototype.removeExternalForce, stdRemove, hf, hkept, vectorErase]
  have hlen : (pre ++ post).length < (pre ++ post ++ List.drop (pre ++ post).length
      (pre ++ f :: post)).length := by
    simp only [List.length_append, List.length_drop, List.length_cons]
    omega
  rw [if_pos hlen]
  simp only [Option.map_some', Option.some.injEq]
  congr 1
  rw [List.eraseIdx_append_of_length_le (Nat.le_refl _)]
  have hnil : (List.drop (pre ++ post).length (pre ++ f :: post)).eraseIdx
      ((pre ++ post).length - (pre ++ post).length) = [] := by
    apply List.eq_nil_of_length_eq_zero
    rw [Nat.sub_self, List.length_eraseIdx]
    simp only [List.length_append, List.length_drop, List.length_cons]
    split
    · omega
    · omega
  rw [hnil, List.append_nil]

/-- C38, the claim fails where the force occurs more than once. `addExternalForce` appends
the force. `removeExternalForce` erases exactly one element, the one at the iterator
`std::remove` returns: from the forces `[7, 7]` it leaves `[7]` and from `[7, 3, 7]` it
leaves `[3, 7]`, so the force still occurs. -/
theorem removeExternalForce_keeps_a_duplicate :
    (∀ (world : WorldPrototype) (f : Nat),
      (world.addExternalForce f).externalForces = world.externalForces ++ [f]) ∧
    ((exampleState.world.addExternalForce 7).addExternalForce 7).externalForces = [7, 7] ∧
    (((exampleState.world.addExternalForce 7).addExternalForce 7).removeExternalForce 7).map
      (fun w => w.externalForces) = some [7] ∧
    ((((exampleState.world.addExternalForce 7).addExternalForce 3).addExternalForce
      7).removeExternalForce 7).map (fun w => w.externalForces) = some [3, 7] := by
  refine ⟨fun _ _ => rfl, by decide, by decide, by decide⟩

/-- The part of C38 that holds. `addExternalForce` appends the force at the end. On a list in
which the force occurs exactly once `removeExternalForce` yields the list without it, the
other forces in their order; in particular it undoes `addExternalForce` on a list that did
not contain the force. -/
theorem externalForce_add_then_remove (world : WorldPrototype) (f : Nat) :
    (world.addExternalForce f).externalForces = world.externalForces ++ [f] ∧
    (∀ pre post : List Nat, world.externalForces = pre ++ f :: post → f ∉ pre → f ∉ post →
      world.removeExternalForce f = some { world with externalForces := pre ++ post } ∧
      f ∉ pre ++ post ∧ (pre ++ post).Sublist world.externalForces) ∧
    (f ∉ world.externalForces → (world.addExternalForce f).removeExternalForce f = some world) := by
  refine ⟨rfl, ?_, ?_⟩
  · intro pre post hf hpre hpost
    refine ⟨removeExternalForce_of_once world f pre post hf hpre hpost, ?_, ?_⟩
    · simp [hpre, hpost]
    · rw [hf]
      exact List.Sublist.append (List.Sublist.refl _) (List.sublist_cons_self _ _)
  · intro hnot
    have := removeExternalForce_of_once (world.addExternalForce f) f world.externalForces []
      rfl hnot (List.not_mem_nil _)
    simpa [WorldPrototype.addExternalForce] using this

end World
end P3D

/-! ## The leaves after an insertion -/

namespace P3D
namespace TreeNode

mutual
theorem getNumberOfObjectsInNode_eq (t : TreeNode) :
    getNumberOfObjectsInNode t = (leafBounds t).length := by
  match t with
  | leaf o b g => rfl
  | node cs b g =>
    simp only [getNumberOfObjectsInNode, leafBounds]
    exact getNumberOfObjectsInList_eq cs
theorem getNumberOfObjectsInList_eq (cs : List TreeNode) :
    getNumberOfObjectsInList cs = (leafBoundsList cs).length := by
  match cs with
  | [] => rfl
  | c :: cs =>
    simp only [getNumberOfObjectsInList, leafBoundsList, List.length_append]
    rw [getNumberOfObjectsInNode_eq c, getNumberOfObjectsInList_eq cs]
end

/-- The leaves after `addOutside` are the old leaves and the leaves of the new node. -/
theorem leafBounds_addOutside (t n : TreeNode) :
    (leafBounds (addOutside t n)).Perm (leafBounds t ++ leafBounds n) := by
  unfold addOutside
  split
  · rw [leafBounds_pushDown]
  · rw [leafBounds_setBounds_addInside]
    exact leafBounds_addInside t n

end TreeNode

open TreeNode in
/-- C35. For every tree and every new leaf, after `addInside` and after `addOutside` the
leaves of the tree, as (object, bounds) pairs, are the old leaves and the new leaf: the
multiset of leaf objects is the old one plus the new object, every object stored before is
still stored with the same leaf bounds, and `getNumberOfObjectsInNode` grows by exactly 1. -/
theorem insertion_adds_exactly_the_new_leaf (t : TreeNode) (object : Nat) (bounds : Bounds)
    (flag : Bool) :
    (leafBounds (t.addInside (leaf object bounds flag))).Perm
      (leafBounds t ++ [(object, bounds)]) ∧
    (leafBounds (t.addOutside (leaf object bounds flag))).Perm
      (leafBounds t ++ [(object, bounds)]) ∧
    (leafObjects (t.addInside (leaf object bounds flag))).Perm (leafObjects t ++ [object]) ∧
    (leafObjects (t.addOutside (leaf object bounds flag))).Perm (leafObjects t ++ [object]) ∧
    (t.addInside (leaf object bounds flag)).getNumberOfObjectsInNode
      = t.getNumberOfObjectsInNode + 1 ∧
    (t.addOutside (leaf object bounds flag)).getNumberOfObjectsInNode
      = t.getNumberOfObjectsInNode + 1 := by
  have hi := leafBounds_addInside t (leaf object bounds flag)
  have ho := leafBounds_addOutside t (leaf object bounds flag)
  simp only [leafBounds] at hi ho
  refine ⟨hi, ho, ?_, ?_, ?_, ?_⟩
  · rw [leafObjects_eq_map, leafObjects_eq_map]
    simpa using hi.map Prod.fst
  · rw [leafObjects_eq_map, leafObjects_eq_map]
    simpa using ho.map Prod.fst
  · rw [getNumberOfObjectsInNode_eq, getNumberOfObjectsInNode_eq, hi.length_eq]
    simp
  · rw [getNumberOfObjectsInNode_eq, getNumberOfObjectsInNode_eq, ho.length_eq]
    simp

end P3D

/-! ## The visibility filter -/

namespace P3D
namespace VisibilityFilter

theorem scaled_mul_le {K : Type} [LinearOrderedField K] (c p : Int) (n : K)
    (h : (0 ≤ n ∧ c ≤ p) ∨ (n < 0 ∧ p ≤ c)) (o : Int) :
    ((c - o : Int) : K) / 4294967296 * n ≤ ((p - o : Int) : K) / 4294967296 * n := by
  have hpos : (0 : K) < 4294967296 := by norm_num
  rcases h with ⟨hn, hcp⟩ | ⟨hn, hpc⟩
  · apply mul_le_mul_of_nonneg_right _ hn
    apply div_le_div_of_nonneg_right _ (le_of_lt hpos)
    exact_mod_cast Int.sub_le_sub_right hcp o
  · apply mul_le_mul_of_nonpos_right _ (le_of_lt hn)
    apply div_le_div_of_nonneg_right _ (le_of_lt hpos)
    exact_mod_cast Int.sub_le_sub_right hpc o

/-- The corner of interest of a box is, along the normal, not farther than any point of the
box. -/
theorem dot_cornerOfInterest_le {K : Type} [LinearOrderedField K] (normal : Vec3 K)
    (origin : Position) (b : Bounds) (p : Position)
    (hx : b.min.x ≤ p.x ∧ p.x ≤ b.max.x) (hy : b.min.y ≤ p.y ∧ p.y ≤ b.max.y)
    (hz : b.min.z ≤ p.z ∧ p.z ≤ b.max.z) :
    Vec3.dot (Position.minus (cornerOfInterest normal b) origin) normal
      ≤ Vec3.dot (Position.minus p origin) normal := by
  simp only [Vec3.dot, Position.minus, cornerOfInterest, Matrix.cons_val_zero,
    Matrix.cons_val_one, Matrix.head_cons, Matrix.cons_val_two, Matrix.tail_cons]
  refine add_le_add (add_le_add ?_ ?_) ?_
  · refine scaled_mul_le _ _ _ ?_ _
    by_cases h : normal 0 ≥ 0
    · exact Or.inl ⟨h, by rw [if_pos h]; exact hx.1⟩
    · exact Or.inr ⟨not_le.1 h, by rw [if_neg h]; exact hx.2⟩
  · refine scaled_mul_le _ _ _ ?_ _
    by_cases h : normal 1 ≥ 0
    · exact Or.inl ⟨h, by rw [if_pos h]; exact hy.1⟩
    · exact Or.inr ⟨not_le.1 h, by rw [if_neg h]; exact hy.2⟩
  · refine scaled_mul_le _ _ _ ?_ _
    by_cases h : normal 2 ≥ 0
    · exact Or.inl ⟨h, by rw [if_pos h]; exact hz.1⟩
    · exact Or.inr ⟨not_le.1 h, by rw [if_neg h]; exact hz.2⟩

end VisibilityFilter

/-- C32. In exact arithmetic the filter is conservative on boxes: for a point inside the box,
if the test on the point returns true then the test on the box returns true; so a box is
rejected only if every point of it is rejected. -/
theorem visibilityFilter_conservative {K : Type} [LinearOrderedField K]
    (filter : VisibilityFilter K) (b : Bounds) (p : Position)
    (hx : b.min.x ≤ p.x ∧ p.x ≤ b.max.x) (hy : b.min.y ≤ p.y ∧ p.y ≤ b.max.y)
    (hz : b.min.z ≤ p.z ∧ p.z ≤ b.max.z) :
    (filter.onPosition p = true → filter.onBounds b = true) ∧
    (filter.onBounds b = false → filter.onPosition p = false) := by
  have key : filter.onPosition p = true → filter.onBounds b = true := by
    intro h
    simp only [VisibilityFilter.onPosition, VisibilityFilter.onBounds, List.all_eq_true,
      Bool.not_eq_true', decide_eq_false_iff_not, not_lt] at h ⊢
    intro plane hplane
    exact le_trans
      (VisibilityFilter.dot_cornerOfInterest_le plane.1 filter.origin b p hx hy hz)
      (h plane hplane)
  refine ⟨key, ?_⟩
  intro hb
  cases hp : filter.onPosition p with
  | false => rfl
  | true =>
    rw [key hp] at hb
    cases hb

/-- Witness for C32: the box `[1, 2]³` ahead of the example filter and its corner
`(1, 1, 1)`. -/
theorem visibilityFilter_conservative_witness :
    ((cube 1 2).min.x ≤ (cube 1 2).min.x ∧ (cube 1 2).min.x ≤ (cube 1 2).max.x) ∧
    ((cube 1 2).min.y ≤ (cube 1 2).min.y ∧ (cube 1 2).min.y ≤ (cube 1 2).max.y) ∧
    ((cube 1 2).min.z ≤ (cube 1 2).min.z ∧ (cube 1 2).min.z ≤ (cube 1 2).max.z) ∧
    exampleFilter.onPosition (cube 1 2).min = true ∧
    exampleFilter.onBounds (cube 1 2) = true :=
  have hp : exampleFilter.onPosition (cube 1 2).min = true := by
    simp [VisibilityFilter.onPosition, VisibilityFilter.planes, exampleFilter, Vec3.dot,
      Position.minus, cube]
  ⟨by decide, by decide, by decide, hp,
    (visibilityFilter_conservative exampleFilter (cube 1 2) (cube 1 2).min
      (by decide) (by decide) (by decide)).1 hp⟩

end P3D

/-! ## The vertical pair optimisation picks the first best exchange -/

namespace P3D

open TreeNode

/-- The scan of `optimizeNodePairVertical` keeps the first index of least cost among those
below the original cost. -/
theorem bestExchangeFrom_first_minimum (node : TreeNode) (group : List TreeNode) (c0 : Int)
    (fuel : Nat) :
    ∀ (i : Nat) (bestCost : Int) (bestIndex : Option Nat),
      (bestIndex = none → bestCost = c0 ∧ ∀ j, j < i → c0 ≤ exchangeCost node group j) →
      (∀ k, bestIndex = some k → k < i ∧ exchangeCost node group k = bestCost ∧
        bestCost < c0 ∧ (∀ j, j < i → bestCost ≤ exchangeCost node group j) ∧
        ∀ j, j < k → bestCost < exchangeCost node group j) →
      (bestExchangeFrom node group fuel i bestCost bestIndex = none →
        ∀ j, j < i + fuel → c0 ≤ exchangeCost node group j) ∧
      (∀ k, bestExchangeFrom node group fuel i bestCost bestIndex = some k →
        k < i + fuel ∧ exchangeCost node group k < c0 ∧
        (∀ j, j < i + fuel → exchangeCost node group k ≤ exchangeCost node group j) ∧
        ∀ j, j < k → exchangeCost node group k < exchangeCost node group j) := by
  induction fuel with
  | zero =>
    intro i bestCost bestIndex hnone hsome
    simp only [bestExchangeFrom, Nat.add_zero]
    refine ⟨fun h => (hnone h).2, ?_⟩
    intro k hk
    obtain ⟨h1, h2, h3, h4, h5⟩ := hsome k hk
    rw [h2]
    exact ⟨h1, h3, h4, h5⟩
  | succ fuel ih =>
    intro i bestCost bestIndex hnone hsome
    have hstep : i + (fuel + 1) = i + 1 + fuel := by omega
    have hle : bestCost ≤ c0 := by
      cases hbi : bestIndex with
      | none => exact le_of_eq (hnone hbi).1
      | some k => exact le_of_lt (hsome k hbi).2.2.1
    have hall : ∀ j, j < i → bestCost ≤ exchangeCost node group j := by
      intro j hj
      cases hbi : bestIndex with
      | none =>
        rw [(hnone hbi).1]
        exact (hnone hbi).2 j hj
      | some k => exact (hsome k hbi).2.2.2.1 j hj
    simp only [bestExchangeFrom]
    rw [hstep]
    by_cases hlt : computeCost (foldBounds node.bounds (group.eraseIdx i)) < bestCost
    · rw [if_pos hlt]
      refine ih (i + 1) _ (some i) (fun h => by cases h) ?_
      intro k hk
      cases hk
      have hci : exchangeCost node group i
          = computeCost (foldBounds node.bounds (group.eraseIdx i)) := rfl
      refine ⟨by omega, rfl, by omega, ?_, ?_⟩
      · intro j hj
        rcases Nat.lt_succ_iff_lt_or_eq.1 hj with hj | hj
        · have := hall j hj
          omega
        · rw [hj]
          exact le_refl _
      · intro j hj
        have := hall j hj
        omega
    · rw [if_neg hlt]
      have hge : bestCost ≤ exchangeCost node group i := not_lt.1 hlt
      refine ih (i + 1) bestCost bestIndex ?_ ?_
      · intro hbi
        refine ⟨(hnone hbi).1, ?_⟩
        intro j hj
        rcases Nat.lt_succ_iff_lt_or_eq.1 hj with hj | hj
        · exact (hnone hbi).2 j hj
        · rw [hj, ← (hnone hbi).1]
          exact hge
      · intro k hk
        obtain ⟨h1, h2, h3, h4, h5⟩ := hsome k hk
        refine ⟨by omega, h2, h3, ?_, h5⟩
        intro j hj
        rcases Nat.lt_succ_iff_lt_or_eq.1 hj with hj | hj
        · exact h4 j hj
        · rw [hj]
          exact hge

/-- C31. For every node and every internal node `group`: if exchanging the node with some
child of the group gives the group a cost strictly below `computeCost(group.bounds)`, then
`optimizeNodePairVertical` exchanges the node with the child at the smallest index `k` of
least such cost; afterwards the bounds of the group are the union of its children's bounds and
their cost, the cost computed for `k`, is strictly smaller than before. Otherwise node and
group are unchanged. -/
theorem optimizeNodePairVertical_exchanges_first_best (n : TreeNode) (gcs : List TreeNode)
    (gb : Bounds) (gg : Bool) :
    ((∃ i, i < gcs.length ∧ exchangeCost n gcs i < computeCost gb) →
      ∃ (k : Nat) (out c : TreeNode) (cs : List TreeNode),
        k < gcs.length ∧
        (∀ j, j < gcs.length → exchangeCost n gcs k ≤ exchangeCost n gcs j) ∧
        (∀ j, j < k → exchangeCost n gcs k < exchangeCost n gcs j) ∧
        gcs[k]? = some out ∧ gcs.set k n = c :: cs ∧
        optimizeNodePairVertical n (node gcs gb gg)
          = (out, node (c :: cs) (computeBoundsOfList c cs) gg) ∧
        IsUnionOf (computeBoundsOfList c cs) ((c :: cs).map TreeNode.bounds) ∧
        computeCost (computeBoundsOfList c cs) = exchangeCost n gcs k ∧
        computeCost (computeBoundsOfList c cs) < computeCost gb) ∧
    ((∀ i, i < gcs.length → computeCost gb ≤ exchangeCost n gcs i) →
      optimizeNodePairVertical n (node gcs gb gg) = (n, node gcs gb gg)) := by
  obtain ⟨hnone, hsome⟩ := bestExchangeFrom_first_minimum n gcs (computeCost gb) gcs.length 0
    (computeCost gb) none (fun _ => ⟨rfl, fun j hj => absurd hj (Nat.not_lt_zero j)⟩)
    (fun k h => by cases h)
  simp only [Nat.zero_add] at hnone hsome
  constructor
  · rintro ⟨i, hi, hci⟩
    cases hbest : bestExchangeFrom n gcs gcs.length 0 (computeCost gb) none with
    | none =>
      have := hnone hbest i hi
      omega
    | some k =>
      obtain ⟨hk, hlt, hmin, hfirst⟩ := hsome k hbest
      have hget : gcs[k]? = some (gcs.get ⟨k, hk⟩) := by
        simp [List.getElem?_eq_getElem hk]
      cases hset : gcs.set k n with
      | nil =>
        have := congrArg List.length hset
        rw [List.length_set, List.length_nil] at this
        omega
      | cons c cs =>
        have hpe := perm_set_eraseIdx gcs k n hk
        rw [hset] at hpe
        have hb : computeBoundsOfList c cs = foldBounds n.bounds (gcs.eraseIdx k) := by
          refine (isUnionOf_computeBoundsOfList c cs).unique ?_
          exact (isUnionOf_foldBounds (gcs.eraseIdx k) n.bounds).congr
            (fun b => ((hpe.map TreeNode.bounds).mem_iff).symm)
        refine ⟨k, gcs.get ⟨k, hk⟩, c, cs, hk, hmin, hfirst, hget, hset, ?_,
          isUnionOf_computeBoundsOfList c cs, ?_, ?_⟩
        · simp only [optimizeNodePairVertical, hbest, hget, hset]
        · rw [hb]
          rfl
        · rw [hb]
          exact hlt
  · intro hall
    cases hbest : bestExchangeFrom n gcs gcs.length 0 (computeCost gb) none with
    | none => simp only [optimizeNodePairVertical, hbest]
    | some k =>
      obtain ⟨hk, hlt, _, _⟩ := hsome k hbest
      have := hall k hk
      omega

/-- Witness for C31: for the leaf `[0,1]³` and the group `[[0,1]³, [8,9]³]` with bounds
`[0,9]³`, exchanging the leaf with child 1 lowers the cost, so the exchange case applies. -/
theorem optimizeNodePairVertical_exchanges_first_best_witness :
    (∃ i, i < [cubeLeaf 1 0 1, cubeLeaf 2 8 9].length ∧
      exchangeCost (cubeLeaf 4 0 1) [cubeLeaf 1 0 1, cubeLeaf 2 8 9] i
        < computeCost (cube 0 9)) ∧
    ∃ (k : Nat) (out c : TreeNode) (cs : List TreeNode),
      k < [cubeLeaf 1 0 1, cubeLeaf 2 8 9].length ∧
      (∀ j, j < [cubeLeaf 1 0 1, cubeLeaf 2 8 9].length →
        exchangeCost (cubeLeaf 4 0 1) [cubeLeaf 1 0 1, cubeLeaf 2 8 9] k
          ≤ exchangeCost (cubeLeaf 4 0 1) [cubeLeaf 1 0 1, cubeLeaf 2 8 9] j) ∧
      (∀ j, j < k →
        exchangeCost (cubeLeaf 4 0 1) [cubeLeaf 1 0 1, cubeLeaf 2 8 9] k
          < exchangeCost (cubeLeaf 4 0 1) [cubeLeaf 1 0 1, cubeLeaf 2 8 9] j) ∧
      [cubeLeaf 1 0 1, cubeLeaf 2 8 9][k]? = some out ∧
      [cubeLeaf 1 0 1, cubeLeaf 2 8 9].set k (cubeLeaf 4 0 1) = c :: cs ∧
      optimizeNodePairVertical (cubeLeaf 4 0 1)
          (node [cubeLeaf 1 0 1, cubeLeaf 2 8 9] (cube 0 9) false)
        = (out, node (c :: cs) (computeBoundsOfList c cs) false) ∧
      IsUnionOf (computeBoundsOfList c cs) ((c :: cs).map TreeNode.bounds) ∧
      computeCost (computeBoundsOfList c cs)
        = exchangeCost (cubeLeaf 4 0 1) [cubeLeaf 1 0 1, cubeLeaf 2 8 9] k ∧
      computeCost (computeBoundsOfList c cs) < computeCost (cube 0 9) :=
  ⟨⟨1, by decide, by decide⟩,
   (optimizeNodePairVertical_exchanges_first_best (cubeLeaf 4 0 1)
      [cubeLeaf 1 0 1, cubeLeaf 2 8 9] (cube 0 9) false).1 ⟨1, by decide, by decide⟩⟩

end P3D

/-! ## The least number of children -/

namespace P3D
namespace TreeNode

theorem wellBranchedList_iff (cs : List TreeNode) :
    wellBranchedList cs = true ↔ ∀ c ∈ cs, wellBranched c = true := by
  induction cs with
  | nil => simp [wellBranchedList]
  | cons c cs ih => simp [wellBranchedList, ih]

theorem wellBranched_node_iff (cs : List TreeNode) (b : Bounds) (g : Bool) :
    wellBranched (node cs b g) = true ↔
      2 ≤ cs.length ∧ ∀ c ∈ cs, wellBranched c = true := by
  simp [wellBranched, wellBranchedList_iff]

theorem wellBranched_setGroupHead (t : TreeNode) (g : Bool) :
    wellBranched (t.setGroupHead g) = wellBranched t := by
  cases t <;> simp [setGroupHead, wellBranched]

theorem wellBranched_setBounds (t : TreeNode) (b : Bounds) :
    wellBranched (t.setBounds b) = wellBranched t := by
  cases t <;> simp [setBounds, wellBranched]

theorem wellBranched_pushDown (t n : TreeNode) (ht : wellBranched t = true)
    (hn : wellBranched n = true) : wellBranched (pushDown t n) = true := by
  simp [pushDown, ofSubTrees, setBounds, wellBranched, wellBranchedList, ht, hn]

mutual
theorem wellBranched_addInside (t n : TreeNode) (ht : wellBranched t = true)
    (hn : wellBranched n = true) : wellBranched (addInside t n) = true := by
  match t with
  | leaf o b g =>
    simp [addInside, wellBranched, wellBranchedList, wellBranched_setGroupHead, hn]
  | node cs b g =>
    rw [addInside_node]
    rw [wellBranched_node_iff] at ht ⊢
    by_cases hfull : cs.length ≠ MAX_BRANCHES
    · rw [addToSubTrees, if_pos hfull]
      refine ⟨by simp; omega, ?_⟩
      intro c hc
      rcases List.mem_append.1 hc with h | h
      · exact ht.2 c h
      · simp at h
        rw [h]
        exact hn
    · rw [addToSubTrees, if_neg hfull]
      refine ⟨by rw [length_addOutsideAt]; exact ht.1, ?_⟩
      exact (wellBranchedList_iff _).1
        (wellBranchedList_addOutsideAt cs _ n ((wellBranchedList_iff cs).2 ht.2) hn)
theorem wellBranchedList_addOutsideAt (cs : List TreeNode) (i : Nat) (n : TreeNode)
    (hcs : wellBranchedList cs = true) (hn : wellBranched n = true) :
    wellBranchedList (addOutsideAt cs i n) = true := by
  match cs, i with
  | [], _ => simp [addOutsideAt, wellBranchedList]
  | c :: cs, 0 =>
    rw [addOutsideAt_zero]
    simp only [wellBranchedList, Bool.and_eq_true] at hcs ⊢
    refine ⟨?_, hcs.2⟩
    unfold addOutside
    split
    · exact wellBranched_pushDown c n hcs.1 hn
    · rw [wellBranched_setBounds]
      exact wellBranched_addInside c n hcs.1 hn
  | c :: cs, i + 1 =>
    rw [addOutsideAt_succ]
    simp only [wellBranchedList, Bool.and_eq_true] at hcs ⊢
    exact ⟨hcs.1, wellBranchedList_addOutsideAt cs i n hcs.2 hn⟩
end

end TreeNode
end P3D

namespace P3D

/-- Two nodes with at least 2 children each, if internal, of which one is internal, have at
least 3 candidates. -/
theorem three_le_length_nodesToList (A B : TreeNode) (hA : A.wellBranched = true)
    (hB : B.wellBranched = true) (hnot : ¬ (A.isLeafNode && B.isLeafNode) = true) :
    3 ≤ (nodesToList A B).length := by
  simp only [nodesToList, List.length_append]
  cases A with
  | leaf o b g =>
    cases B with
    | leaf o2 b2 g2 => simp [TreeNode.isLeafNode] at hnot
    | node cs2 b2 g2 =>
      rw [TreeNode.wellBranched_node_iff] at hB
      simp only [TreeNode.isLeafNode, TreeNode.children, if_true, List.length_singleton]
      have := hB.1
      simp only [Bool.false_eq_true, if_false]
      omega
  | node cs b g =>
    rw [TreeNode.wellBranched_node_iff] at hA
    have h1 := hA.1
    cases B with
    | leaf o2 b2 g2 =>
      simp only [TreeNode.isLeafNode, TreeNode.children, if_true, List.length_singleton,
        Bool.false_eq_true, if_false]
      omega
    | node cs2 b2 g2 =>
      rw [TreeNode.wellBranched_node_iff] at hB
      have h2 := hB.1
      simp only [TreeNode.isLeafNode, TreeNode.children, Bool.false_eq_true, if_false]
      omega

theorem wellBranched_candidates (A B : TreeNode) (hA : A.wellBranched = true)
    (hB : B.wellBranched = true) : ∀ c ∈ nodesToList A B, c.wellBranched = true := by
  have h : ∀ t : TreeNode, t.wellBranched = true →
      ∀ c ∈ (if t.isLeafNode then [t] else t.children), c.wellBranched = true := by
    intro t ht c hc
    cases t with
    | leaf o b g =>
      simp only [TreeNode.isLeafNode, if_true, List.mem_singleton] at hc
      rw [hc]
      exact ht
    | node cs b g =>
      rw [TreeNode.wellBranched_node_iff] at ht
      exact ht.2 c (by simpa [TreeNode.isLeafNode, TreeNode.children] using hc)
  intro c hc
  rcases List.mem_append.1 hc with hc | hc
  · exact h A hA c hc
  · exact h B hB c hc

theorem wellBranched_recalculateUnlessLeaf (t : TreeNode) :
    t.recalculateUnlessLeaf.wellBranched = t.wellBranched := by
  cases t with
  | leaf o b g => rfl
  | node cs b g =>
    cases cs with
    | nil => rfl
    | cons c cs => simp [TreeNode.recalculateUnlessLeaf, TreeNode.wellBranched]

theorem wellBranched_fillGroups (first second : TreeNode) (A B : List TreeNode)
    (hf : first.wellBranched = true) (hs : second.wellBranched = true)
    (hA : 2 ≤ A.length) (hall : ∀ c ∈ A ++ B, c.wellBranched = true) :
    (fillGroups first second A B).1.wellBranched = true ∧
      (fillGroups first second A B).2.wellBranched = true := by
  have hmA : ∀ c ∈ A, c.wellBranched = true := fun c hc => hall c (List.mem_append_left _ hc)
  have hmB : ∀ c ∈ B, c.wellBranched = true := fun c hc => hall c (List.mem_append_right _ hc)
  match A, B, hA, hmA, hmB with
  | [], _, _, _, _ => exact ⟨hf, hs⟩
  | _ :: _, [], _, _, _ => exact ⟨hf, hs⟩
  | a :: as, [b], hA, hmA, hmB =>
    simp only [fillGroups]
    rw [wellBranched_recalculateUnlessLeaf]
    exact ⟨(TreeNode.wellBranched_node_iff _ _ _).2 ⟨hA, hmA⟩, hmB b (by simp)⟩
  | a :: as, b :: b2 :: bs, hA, hmA, hmB =>
    simp only [fillGroups]
    exact ⟨(TreeNode.wellBranched_node_iff _ _ _).2 ⟨hA, hmA⟩,
      (TreeNode.wellBranched_node_iff _ _ _).2 ⟨by simp, hmB⟩⟩

/-- The horizontal pair optimisation keeps the least number of children: a side of one
element becomes that element, every other side has at least 2. -/
theorem wellBranched_optimizeNodePairHorizontal (A B : TreeNode)
    (hA : A.wellBranched = true) (hB : B.wellBranched = true) :
    (optimizeNodePairHorizontal A B).1.wellBranched = true ∧
      (optimizeNodePairHorizontal A B).2.wellBranched = true := by
  unfold optimizeNodePairHorizontal
  split
  · exact ⟨hA, hB⟩
  · rename_i hnot
    simp only []
    split
    · rename_i hcount
      rcases findBestPermutation_spec (nodesToList A B)
          (addInt64 (computeCost A.bounds) (computeCost B.bounds)) with h | ⟨hsplit, _⟩
      · exact absurd (by simp [NodePermutation.countA, h]) hcount
      · have hthree := three_le_length_nodesToList A B hA hB hnot
        have hcand := wellBranched_candidates A B hA hB
        have hlen := hsplit.2.2.length_eq
        rw [List.length_append] at hlen
        have hmem : ∀ c ∈ (findBestPermutation (nodesToList A B)
            (addInt64 (computeCost A.bounds) (computeCost B.bounds))).permutationA ++
            (findBestPermutation (nodesToList A B)
            (addInt64 (computeCost A.bounds) (computeCost B.bounds))).permutationB,
            c.wellBranched = true := fun c hc => hcand c (hsplit.2.2.subset hc)
        have hposA : 0 < (findBestPermutation (nodesToList A B)
            (addInt64 (computeCost A.bounds) (computeCost B.bounds))).permutationA.length :=
          List.length_pos.2 hsplit.1
        unfold fillNodePairWithPermutation
        simp only []
        split
        · rename_i hone
          simp only [NodePermutation.countA] at hone
          refine wellBranched_fillGroups A B _ _ hA hB ?_ ?_
          · simp only [NodePermutation.swap]
            omega
          · intro c hc
            simp only [NodePermutation.swap] at hc
            exact hmem c (by
              rcases List.mem_append.1 hc with h | h
              · exact List.mem_append_right _ h
              · exact List.mem_append_left _ h)
        · rename_i hone
          simp only [NodePermutation.countA] at hone
          exact wellBranched_fillGroups A B _ _ hA hB (by omega) hmem
    · exact ⟨hA, hB⟩

/-- The vertical pair optimisation keeps the least number of children: it exchanges a node
with one child of the group. -/
theorem wellBranched_optimizeNodePairVertical (n G : TreeNode)
    (hn : n.wellBranched = true) (hG : G.wellBranched = true) :
    (optimizeNodePairVertical n G).1.wellBranched = true ∧
      (optimizeNodePairVertical n G).2.wellBranched = true := by
  unfold optimizeNodePairVertical
  cases G with
  | leaf o b g => exact ⟨hn, hG⟩
  | node gcs gb gg =>
    simp only []
    cases hbest : bestExchangeFrom n gcs gcs.length 0 (computeCost gb) none with
    | none => exact ⟨hn, hG⟩
    | some k =>
      simp only []
      have hG2 := (TreeNode.wellBranched_node_iff _ _ _).1 hG
      cases hout : gcs[k]? with
      | none => exact ⟨hn, hG⟩
      | some out =>
        cases hset : gcs.set k n with
        | nil => exact ⟨hn, hG⟩
        | cons c cs =>
          simp only []
          refine ⟨hG2.2 out (List.getElem?_mem hout), ?_⟩
          rw [TreeNode.wellBranched_node_iff, ← hset]
          refine ⟨by rw [List.length_set]; exact hG2.1, ?_⟩
          intro x hx
          rcases List.mem_or_eq_of_mem_set hx with h | h
          · exact hG2.2 x h
          · rw [h]
            exact hn

namespace TreeNode

mutual
theorem wellBranched_improveStructure (t : TreeNode) (ht : wellBranched t = true) :
    wellBranched (improveStructure t) = true := by
  match t with
  | leaf o b g => simpa [improveStructure] using ht
  | node cs b g =>
    rw [wellBranched_node_iff] at ht
    simp only [improveStructure]
    rw [wellBranched_node_iff]
    have hlen := (passInv_verticalOuter cs cs.length 0 _
      (passInv_horizontalOuter cs (cs.length - 1) 0 _ (improveStructureList_spec cs))).length
    refine ⟨?_, ?_⟩
    · rw [hlen]
      exact ht.1
    · refine forall_verticalOuter _ (fun n G => wellBranched_optimizeNodePairVertical n G) _ _ _
        (forall_horizontalOuter _ (fun A B => wellBranched_optimizeNodePairHorizontal A B) _ _ _
          ((wellBranchedList_iff _).1 (wellBranchedList_improveStructureList cs
            ((wellBranchedList_iff cs).2 ht.2))))
theorem wellBranchedList_improveStructureList (cs : List TreeNode)
    (h : wellBranchedList cs = true) : wellBranchedList (improveStructureList cs) = true := by
  match cs with
  | [] => simp [improveStructureList, wellBranchedList]
  | c :: cs =>
    simp only [wellBranchedList, Bool.and_eq_true, improveStructureList] at h ⊢
    exact ⟨wellBranched_improveStructure c h.1, wellBranchedList_improveStructureList cs h.2⟩
end

end TreeNode

namespace TreeNode

end TreeNode

namespace TreeNode

theorem wellBranched_of_belowRoot_child (cs : List TreeNode) (b : Bounds) (g : Bool)
    (i : Nat) (c : TreeNode) (h : wellBranchedBelowRoot (node cs b g) = true)
    (hc : cs[i]? = some c) : wellBranched c = true :=
  (wellBranchedList_iff cs).1 h c (List.getElem?_mem hc)

end TreeNode

end P3D

/-! ## The object count after `addPart` -/

namespace P3D
namespace World

open TreeNode

/-- The node `createNodeFor` builds has one leaf for every part of the physical tree. -/
theorem getNumberOfObjectsInNode_createNodeFor (getStrictBounds : Nat → Bounds)
    (phys : Physical) :
    (createNodeFor getStrictBounds phys).getNumberOfObjectsInNode = phys.allParts.length := by
  have hall : phys.allParts = phys.mainPart :: phys.allParts.tail := by
    cases phys with
    | mk h m ps cs => rfl
  obtain ⟨_, h2, _⟩ := insertParts_spec getStrictBounds phys.allParts.tail
    (leaf phys.mainPart (getStrictBounds phys.mainPart) true)
  rw [getNumberOfObjectsInNode_eq, createNodeFor_eq, h2.length_eq]
  conv_rhs => rw [hall]
  simp [leafBounds]

/-- When `addPart` adds the main physical of a part to the world, the node it hands to the
object tree has one leaf for every part of the whole main-physical tree, and `objectCount`
grows by what `getPartCount` returns for the parent of the part that was passed in. -/
theorem addPart_counts_parent_getPartCount (ops : WorldOps) (debug : Bool) (this : Nat)
    (s : WorldState) (part : Nat) (anchored : Bool) (parent : Nat)
    (hvalid : WorldPrototype.assertValid debug this s = some CheckResult.returned)
    (hparent : (ops.ensureHasParent s.memory part).parent part = some parent)
    (hnew : (ops.ensureHasParent s.memory part).world
      ((ops.ensureHasParent s.memory part).mainPhysical parent) ≠ some this) :
    (WorldPrototype.addPart ops debug this s part anchored).1.world.objectCount
      = s.world.objectCount + ops.getPartCount (ops.ensureHasParent s.memory part) parent ∧
    (WorldPrototype.addPart ops debug this s part anchored).1.world.objectTree
      = ops.add s.world.objectTree
          (createNodeFor (ops.ensureHasParent s.memory part).strictBounds
            ((ops.ensureHasParent s.memory part).physical
              ((ops.ensureHasParent s.memory part).mainPhysical parent))) ∧
    (createNodeFor (ops.ensureHasParent s.memory part).strictBounds
        ((ops.ensureHasParent s.memory part).physical
          ((ops.ensureHasParent s.memory part).mainPhysical parent))).getNumberOfObjectsInNode
      = ((ops.ensureHasParent s.memory part).physical
          ((ops.ensureHasParent s.memory part).mainPhysical parent)).allParts.length := by
  refine ⟨?_, ?_, ?_⟩
  · simp only [WorldPrototype.addPart, hvalid, hparent, if_neg hnew]
  · simp only [WorldPrototype.addPart, hvalid, hparent, if_neg hnew]
  · exact getNumberOfObjectsInNode_createNodeFor _ _

/-- Witness: part 3 of the example physical is added to a world that does not hold the
physical yet. -/
theorem addPart_counts_parent_getPartCount_witness :
    WorldPrototype.assertValid false 0 exampleFreshState = some CheckResult.returned ∧
    (exampleOps.ensureHasParent exampleFreshState.memory 3).parent 3 = some 11 ∧
    (WorldPrototype.addPart exampleOps false 0 exampleFreshState 3 false).1.world.objectCount
      = 0 + 3 :=
  ⟨rfl, rfl,
   (addPart_counts_parent_getPartCount exampleOps false 0 exampleFreshState 3 false 11
      rfl rfl (by decide)).1⟩

end World
end P3D

/-! ## The collection phase registers every shape class that is written -/

namespace P3D

theorem shapeClasses_eq_map_allParts (rigidBody : RigidBody) :
    rigidBody.shapeClasses = rigidBody.allParts.map (fun part => part.hitbox.baseShape) := by
  simp [RigidBody.shapeClasses, RigidBody.allParts]

mutual
theorem connectedShapeClasses_eq_map (p : ConnectedPhysical) :
    p.shapeClasses = p.allParts.map (fun part => part.hitbox.baseShape) := by
  cases p with
  | mk conn rb cs =>
    simp only [ConnectedPhysical.shapeClasses, ConnectedPhysical.allParts, List.map_append,
      shapeClasses_eq_map_allParts, childrenShapeClasses_eq_map cs]
theorem childrenShapeClasses_eq_map (ps : List ConnectedPhysical) :
    childrenShapeClasses ps = (childrenParts ps).map (fun part => part.hitbox.baseShape) := by
  cases ps with
  | nil => rfl
  | cons p ps =>
    simp only [childrenShapeClasses, childrenParts, List.map_append,
      connectedShapeClasses_eq_map p, childrenShapeClasses_eq_map ps]
end

end P3D

/-! ## Removal through a cursor, in a tree the operations build -/

namespace P3D

open TreeNode

theorem nodeAt_append (path : List Nat) :
    ∀ (t : TreeNode) (rest : List Nat),
      t.nodeAt (path ++ rest) = (t.nodeAt path).bind (fun p => p.nodeAt rest) := by
  induction path with
  | nil =>
    intro t rest
    simp [nodeAt]
  | cons i path ih =>
    intro t rest
    cases t with
    | leaf o b g => simp [nodeAt]
    | node cs b g =>
      simp only [List.cons_append, nodeAt]
      cases hc : cs[i]? with
      | none => simp
      | some c => exact ih c rest

theorem wellBranched_nodeAt (path : List Nat) :
    ∀ (t x : TreeNode), t.wellBranched = true → t.nodeAt path = some x →
      x.wellBranched = true := by
  induction path with
  | nil =>
    intro t x ht h
    simp only [nodeAt, Option.some.injEq] at h
    rw [← h]
    exact ht
  | cons i path ih =>
    intro t x ht h
    cases t with
    | leaf o b g => simp [nodeAt] at h
    | node cs b g =>
      simp only [nodeAt] at h
      cases hc : cs[i]? with
      | none => simp [hc] at h
      | some c =>
        simp only [hc] at h
        exact ih c x (((wellBranched_node_iff cs b g).1 ht).2 c (List.getElem?_mem hc)) h

/-- In a tree whose internal nodes other than the root have at least 2 children, every node
reached by a path that is not empty is a leaf or has at least 2 children. -/
theorem wellBranched_nodeAt_below (t x : TreeNode) (path : List Nat) (hpath : path ≠ [])
    (ht : t.wellBranchedBelowRoot = true) (h : t.nodeAt path = some x) :
    x.wellBranched = true := by
  cases path with
  | nil => exact absurd rfl hpath
  | cons i path =>
    cases t with
    | leaf o b g => simp [nodeAt] at h
    | node cs b g =>
      simp only [nodeAt] at h
      cases hc : cs[i]? with
      | none => simp [hc] at h
      | some c =>
        simp only [hc] at h
        exact wellBranched_nodeAt path c x
          ((wellBranchedList_iff cs).1 ht c (List.getElem?_mem hc)) h

/-- C2. For every tree with at least two leaves that satisfies the bounds-cache invariant
and in which every internal node other than the root has at least 2 children, as in every
tree the operations build, and for every cursor that is a valid root-to-leaf path,
`NodeStack::remove` yields a tree that satisfies the bounds-cache invariant at every internal
node and whose leaves are the old leaves without the leaf the cursor pointed to. -/
theorem cursor_remove_keeps_bounds_cache (t : TreeNode) (indices : List Nat)
    (hv : t.boundsValid = true) (hw : t.wellBranchedBelowRoot = true)
    (h2 : 2 ≤ t.leafObjects.length) (hp : NodeStack.pointsToLeaf ⟨t, indices⟩ = true) :
    ∃ (t' : TreeNode) (o : Nat) (lb : Bounds) (lg : Bool),
      t.nodeAt indices = some (leaf o lb lg) ∧
      NodeStack.remove ⟨t, indices⟩ = some t' ∧ t'.boundsValid = true ∧
      t.leafBounds.Perm ((o, lb) :: t'.leafBounds) := by
  -- the cursor ends at a leaf
  obtain ⟨o, lb, lg, hleaf⟩ : ∃ o lb lg, t.nodeAt indices = some (leaf o lb lg) := by
    simp only [NodeStack.pointsToLeaf, NodeStack.topNode] at hp
    cases hn : t.nodeAt indices with
    | none => simp [hn] at hp
    | some x =>
      cases x with
      | leaf o lb lg => exact ⟨o, lb, lg, rfl⟩
      | node cs b g => simp [hn, isLeafNode] at hp
  -- which is not the root
  have hne : indices ≠ [] := by
    intro h
    rw [h] at hleaf
    simp only [nodeAt, Option.some.injEq] at hleaf
    rw [hleaf] at h2
    simp [leafObjects] at h2
  obtain ⟨path, index, rfl⟩ : ∃ path index, indices = path ++ [index] :=
    ⟨indices.dropLast, indices.getLast hne, (List.dropLast_append_getLast hne).symm⟩
  -- the parent of the leaf
  rw [nodeAt_append] at hleaf
  cases hparent : t.nodeAt path with
  | none => simp [hparent] at hleaf
  | some parent =>
    simp only [hparent, Option.some_bind] at hleaf
    cases parent with
    | leaf po pb pg => simp [nodeAt] at hleaf
    | node pcs pb pg =>
      have hchild : pcs[index]? = some (leaf o lb lg) := by
        simp only [nodeAt] at hleaf
        cases hc : pcs[index]? with
        | none => simp [hc] at hleaf
        | some c =>
          simp only [hc, Option.some.injEq] at hleaf
          rw [hleaf]
      have hlen : 2 ≤ pcs.length := by
        by_cases hpath : path = []
        · subst hpath
          simp only [nodeAt, Option.some.injEq] at hparent
          subst hparent
          obtain ⟨hi, _⟩ := List.getElem?_eq_some_iff.1 hchild
          by_contra hlt
          have hone : pcs.length = 1 := by omega
          match pcs, hone, hchild with
          | [c], _, hchild =>
            have hidx : index = 0 := by
              simp only [List.length_singleton] at hi
              omega
            subst hidx
            simp only [List.getElem?_cons_zero, Option.some.injEq] at hchild
            subst hchild
            simp [leafObjects, leafObjectsList] at h2
        · have := wellBranched_nodeAt_below t _ path hpath hw hparent
          exact ((wellBranched_node_iff pcs pb pg).1 this).1
      obtain ⟨t', h1, h2', h3, _⟩ :=
        NodeStack.remove_cursor_spec path t index pcs pb pg o lb lg hv hparent hchild hlen
      refine ⟨t', o, lb, lg, ?_, h1, h2', ?_⟩
      · rw [nodeAt_append, hparent]
        simp only [Option.some_bind, nodeAt, hchild]
      · rw [Multiset.cons_coe] at h3
        exact Multiset.coe_eq_coe.1 h3

/-- Witness for C2: removing the leaf `[2,3]³` from `[[L1, L2], L3]` through the cursor
`[0, 1]`; the inner node is left with one child and replaced by it. -/
theorem cursor_remove_keeps_bounds_cache_witness :
    threeLeafTree.boundsValid = true ∧ threeLeafTree.wellBranchedBelowRoot = true ∧
    2 ≤ threeLeafTree.leafObjects.length ∧
    NodeStack.pointsToLeaf ⟨threeLeafTree, [0, 1]⟩ = true ∧
    ∃ (t' : TreeNode) (o : Nat) (lb : Bounds) (lg : Bool),
      threeLeafTree.nodeAt [0, 1] = some (leaf o lb lg) ∧
      NodeStack.remove ⟨threeLeafTree, [0, 1]⟩ = some t' ∧ t'.boundsValid = true ∧
      threeLeafTree.leafBounds.Perm ((o, lb) :: t'.leafBounds) :=
  ⟨by decide, by decide, by decide, by decide,
    cursor_remove_keeps_bounds_cache threeLeafTree [0, 1] (by decide) (by decide) (by decide)
      (by decide)⟩

end P3D

/-! ## The bounds of a root filled from empty -/

namespace P3D

open TreeNode in
/-- After inserting leaves one at a time into an empty root, the cached bounds of the root are
the union of the bounds the empty root was created with and the bounds of the leaves; they are
the union of the bounds of the leaves exactly when the bounds the empty root was created with
lie within that union. -/
theorem empty_root_insert_bounds_iff (slot0 : Bounds) (l : TreeNode) (ls : List TreeNode) :
    (insertAll (withEmptySubNodes slot0) (l :: ls)).bounds = foldBounds slot0 (l :: ls) ∧
    IsUnionOf (insertAll (withEmptySubNodes slot0) (l :: ls)).bounds
      (slot0 :: (l :: ls).map TreeNode.bounds) ∧
    ((insertAll (withEmptySubNodes slot0) (l :: ls)).bounds = computeBoundsOfList l ls ↔
      slot0.le (computeBoundsOfList l ls)) := by
  have hb : (insertAll (withEmptySubNodes slot0) (l :: ls)).bounds
      = foldBounds slot0 (l :: ls) := bounds_insertAll _ _
  have hF := isUnionOf_foldBounds (l :: ls) slot0
  have hU := isUnionOf_computeBoundsOfList l ls
  rw [hb]
  refine ⟨rfl, hF, ?_, ?_⟩
  · intro h
    rw [← h]
    exact hF.1 slot0 (List.mem_cons_self _ _)
  · intro hle
    refine hF.unique ⟨?_, ?_⟩
    · intro b hb'
      rcases List.mem_cons.1 hb' with rfl | hb'
      · exact hle
      · exact hU.1 b hb'
    · intro u' hu'
      exact hU.2 u' (fun b hb' => hu' b (List.mem_cons_of_mem _ hb'))

end P3D
